import Mathlib

/-!
# oras-go: the graph copier (`copy.go`) and its task fan-out (`internal/syncutil/limit.go`)

A shallow embedding of `copy.go`.  The straight-line helpers (`removeForeignLayers`,
`doCopyNode`, `copyNode`, `mountOrCopyNode`, the hooks installed by `prepareCopy`) are
state-passing functions.  The concurrent walk of `copyGraph` is a step function over a
state that holds every goroutine spawned by `syncutil.Go`, every `Go` call, the commit
tracker, the permit pool and the cancellation causes; a run is a list of actions and the
theorems about the walk quantify over every list of actions.
-/

namespace Oras

/-! ## Data model -/

/-- A content digest, for instance "sha256:...". -/
abbrev Digest := String

/-- An `ocispec.Descriptor`: media type, digest and size. -/
structure Descriptor where
  mediaType : String
  digest : Digest
  size : Int
deriving DecidableEq, Repr

/-- The error values the copier tells apart.  `errSkipDesc` is the package-private
sentinel of `copy.go`, `alreadyExists` is `errdef.ErrAlreadyExists`, `canceled` is
`context.Canceled`, `wrapped` is an error built by `fmt.Errorf("...%w", err)`, and
`other` is any other error of a store or of a user hook. -/
inductive Error where
  | errSkipDesc
  | alreadyExists
  | notFound
  | canceled
  | nilSource
  | nilDestination
  | successorNotCommitted (parent node : Digest)
  | wrapped (msg : String) (err : Error)
  | other (msg : String)
deriving DecidableEq, Repr

/-- The test `errors.Is(err, target)` of the Go standard library: `err` or an error it wraps
equals `target`. -/
def Error.Is : Error → Error → Bool
  | .wrapped msg err, target => decide (Error.wrapped msg err = target) || Error.Is err target
  | err, target => decide (err = target)

/-- The two stores `copyGraph` hands to `copyNode` as source: the proxy cache
(`proxy.Cache`) or the source store itself (`src`). -/
inductive Source where
  | cache
  | base
deriving DecidableEq, Repr

/-- The operations of the external collaborators that can fail on their own. -/
inductive Op where
  | srcFetch
  | srcResolve
  | cacheExists
  | dstExists
  | dstPush
  | dstTag
  | dstPushReference
deriving DecidableEq, Repr

/-- What user hooks and the hooks installed by `prepareCopy` record about themselves. -/
inductive HookEvent where
  | userPreCopy (desc : Descriptor)
  | userPostCopy (desc : Descriptor)
  | userOnCopySkipped (desc : Descriptor)
  | tag (desc : Descriptor) (ref : String)
  | pushReference (desc : Descriptor) (ref : String)
deriving DecidableEq, Repr

/-- Modelled from the spec: the destination CAS and the caching proxy (`internal/cas`,
`content/memory` are not part of the sources at hand).  The destination is a map keyed by
digest (`blobs`) with a reference table (`tags`, most recent first); the proxy cache is
the list of digests it holds.  `hookLog` is what the hooks record. -/
structure Env where
  blobs : List Digest
  tags : List (String × Descriptor)
  cache : List Digest
  hookLog : List HookEvent
deriving DecidableEq, Repr

/-- A hook of `CopyGraphOptions` (`PreCopy`, `PostCopy`, `OnCopySkipped`, `OnMounted`):
it sees the descriptor, may act on the stores and returns `nil` (`none`) or an error. -/
abbrev Hook := Descriptor → Env → Option Error × Env

/-- The hook `AttemptMount`: returns whether the descriptor was mounted, and an error. -/
abbrev MountHook := Descriptor → Env → (Bool × Option Error) × Env

/-- The hook `FindSuccessors`: reads through the proxy (and so may fill its cache) and
returns the successors or an error. -/
abbrev SuccessorsHook := Descriptor → Env → Except Error (List Descriptor) × Env

/-- The collaborators of the copier that are not part of the sources at hand, taken as
parameters: the classifiers of `internal/descriptor`, the default successor finder
`content.Successors`, reference resolution of the source, and the failures the stores
produce on their own (`fault op desc = some msg` makes the operation fail with
`Error.other msg`).  `existsWording` is how the destination words the already-exists
signal for a descriptor it holds: the messages it wraps `errdef.ErrAlreadyExists` in,
outermost first (none: the bare sentinel; the stores of the library wrap it once, with
`fmt.Errorf("%s: %s: %w", ...)`).  `dstIsRefPusher` and `srcIsRefFetcher` are the results of
the interface tests `dst.(registry.ReferencePusher)` and `src.(registry.ReferenceFetcher)`. -/
structure Stores where
  IsForeignLayer : Descriptor → Bool
  IsManifest : Descriptor → Bool
  Successors : SuccessorsHook
  resolve : String → Except Error Descriptor
  fault : Op → Descriptor → Option String
  existsWording : Descriptor → List String
  dstIsRefPusher : Bool
  srcIsRefFetcher : Bool

/-- The error with which the destination reports that it holds the descriptor:
`errdef.ErrAlreadyExists`, wrapped the way the store words it. -/
def Stores.alreadyExists (st : Stores) (desc : Descriptor) : Error :=
  (st.existsWording desc).foldr Error.wrapped .alreadyExists

/-- `CopyGraphOptions` of `copy.go`.  A hook that is `nil` in Go is `none`. -/
structure CopyGraphOptions where
  Concurrency : Int
  MaxMetadataBytes : Int
  PreCopy : Option Hook
  PostCopy : Option Hook
  AttemptMount : Option MountHook
  OnMounted : Option Hook
  OnCopySkipped : Option Hook
  FindSuccessors : Option SuccessorsHook

/-- What the code of the walk itself does, in the order it does it. -/
inductive Event where
  | tryCommit (desc : Descriptor) (committed : Bool)
  | exists (desc : Descriptor) (found : Bool)
  | onCopySkipped (desc : Descriptor)
  | successors (desc : Descriptor) (succs : List Descriptor)
  | preCopy (desc : Descriptor)
  | fetch (src : Source) (desc : Descriptor)
  | push (desc : Descriptor)
  | postCopy (desc : Descriptor)
  | attemptMount (desc : Descriptor)
  | onMounted (desc : Descriptor)
  | close (digest : Digest)
deriving DecidableEq, Repr

/-- The stores together with the trace of the operations of the copier. -/
structure World where
  env : Env
  trace : List Event
deriving DecidableEq, Repr

/-- Appends an event to the trace. -/
def World.emit (w : World) (ev : Event) : World :=
  { w with trace := w.trace ++ [ev] }

/-- Runs a hook on the stores of the world. -/
def World.call (w : World) (h : Hook) (desc : Descriptor) : Option Error × World :=
  ((h desc w.env).1, { w with env := (h desc w.env).2 })

/-! ## The stores -/

/-- `Exists` of the destination: a lookup by digest, unless the store fails. -/
def dstExists (st : Stores) (desc : Descriptor) (env : Env) : Except Error Bool :=
  match st.fault Op.dstExists desc with
  | some msg => .error (.other msg)
  | none => .ok (decide (desc.digest ∈ env.blobs))

/-- `Push` of the destination: fails with the store's own failure, reports the
already-exists signal, in the wording of the store, for a digest it holds, and stores the
digest otherwise. -/
def dstPush (st : Stores) (desc : Descriptor) (env : Env) : Option Error × Env :=
  match st.fault Op.dstPush desc with
  | some msg => (some (.other msg), env)
  | none =>
    if desc.digest ∈ env.blobs then (some (st.alreadyExists desc), env)
    else (none, { env with blobs := desc.digest :: env.blobs })

/-- `Tag` of the destination: points the reference at the descriptor. -/
def dstTag (st : Stores) (desc : Descriptor) (ref : String) (env : Env) : Option Error × Env :=
  match st.fault Op.dstTag desc with
  | some msg => (some (.other msg), env)
  | none => (none, { env with tags := (ref, desc) :: env.tags,
                               hookLog := env.hookLog ++ [.tag desc ref] })

/-- `PushReference` of a reference-pusher destination: pushes the content and tags it in
one call; a digest it already holds is tagged and reported with the already-exists signal,
in the wording of the store. -/
def dstPushReference (st : Stores) (desc : Descriptor) (ref : String) (env : Env) :
    Option Error × Env :=
  match st.fault Op.dstPushReference desc with
  | some msg => (some (.other msg), env)
  | none =>
    let env1 := { env with tags := (ref, desc) :: env.tags,
                           hookLog := env.hookLog ++ [.pushReference desc ref] }
    if desc.digest ∈ env.blobs then (some (st.alreadyExists desc), env1)
    else (none, { env1 with blobs := desc.digest :: env1.blobs })

/-- `Exists` of the proxy cache. -/
def cacheExists (st : Stores) (desc : Descriptor) (env : Env) : Except Error Bool :=
  match st.fault Op.cacheExists desc with
  | some msg => .error (.other msg)
  | none => .ok (decide (desc.digest ∈ env.cache))

/-- `Fetch` of a source: the cache holds the content or reports `notFound`; the source
store returns the content unless it fails.  The byte stream itself is not modelled: the
digest names it. -/
def srcFetch (st : Stores) (src : Source) (desc : Descriptor) (env : Env) : Option Error :=
  match src with
  | .cache => if desc.digest ∈ env.cache then none else some .notFound
  | .base => (st.fault Op.srcFetch desc).map Error.other

/-! ## `removeForeignLayers` (copy.go 494-506) -/

/-- The loop of `removeForeignLayers`: `n` iterations are left, `i` is the loop index and
`j` the write index; `descs[j] = desc` is `List.set`. -/
def removeForeignLayers.loop (st : Stores) :
    Nat → Nat → Nat → List Descriptor → List Descriptor × Nat
  | 0, _, j, descs => (descs, j)
  | n + 1, i, j, descs =>
    match descs[i]? with
    | none => (descs, j)
    | some desc =>
      if !st.IsForeignLayer desc then
        removeForeignLayers.loop st n (i + 1) (j + 1) (if i != j then descs.set j desc else descs)
      else
        removeForeignLayers.loop st n (i + 1) j descs

/-- `removeForeignLayers` removes in place all foreign layers of the slice and returns
`descs[:j]`. -/
def removeForeignLayers (st : Stores) (descs : List Descriptor) : List Descriptor :=
  ((removeForeignLayers.loop st descs.length 0 0 descs).1).take
    (removeForeignLayers.loop st descs.length 0 0 descs).2

/-! ## `doCopyNode`, `copyNode`, `mountOrCopyNode` (copy.go 293-371) -/

/-- `doCopyNode` copies a single content from the source CAS to the destination CAS. -/
def doCopyNode (st : Stores) (src : Source) (desc : Descriptor) (w : World) :
    Option Error × World :=
  let w1 := w.emit (.fetch src desc)
  match srcFetch st src desc w1.env with
  | some err => (some err, w1)
  | none =>
    let w2 := w1.emit (.push desc)
    let r := dstPush st desc w2.env
    let w3 := { w2 with env := r.2 }
    match r.1 with
    | some err => if !Error.Is err .alreadyExists then (some err, w3) else (none, w3)
    | none => (none, w3)

/-- `copyNode` copies a single content from the source CAS to the destination CAS and
applies the hooks `PreCopy` and `PostCopy`. -/
def copyNode (st : Stores) (src : Source) (desc : Descriptor) (opts : CopyGraphOptions)
    (w : World) : Option Error × World :=
  let pre : Option Error × World :=
    match opts.PreCopy with
    | some h => (w.emit (.preCopy desc)).call h desc
    | none => (none, w)
  match pre.1 with
  | some err => if err = .errSkipDesc then (none, pre.2) else (some err, pre.2)
  | none =>
    let r := doCopyNode st src desc pre.2
    match r.1 with
    | some err => (some err, r.2)
    | none =>
      match opts.PostCopy with
      | some h => (r.2.emit (.postCopy desc)).call h desc
      | none => (none, r.2)

/-- `mountOrCopyNode`: asks `AttemptMount`, ignores its error, falls back to `copyNode`
when the descriptor is not mounted and calls `OnMounted` when it is. -/
def mountOrCopyNode (st : Stores) (src : Source) (desc : Descriptor) (opts : CopyGraphOptions)
    (w : World) : Option Error × World :=
  let m : Bool × World :=
    match opts.AttemptMount with
    | some h =>
      let w1 := w.emit (.attemptMount desc)
      ((h desc w1.env).1.1, { w1 with env := (h desc w1.env).2 })
    | none => (false, w)
  if !m.1 then
    copyNode st src desc opts m.2
  else
    match opts.OnMounted with
    | some h => (m.2.emit (.onMounted desc)).call h desc
    | none => (none, m.2)

/-! ## The walk of `copyGraph` (copy.go 197-291) over `syncutil.Go` (limit.go 25-107) -/

/-- `defaultConcurrency` is the default value of `CopyGraphOptions.Concurrency`. -/
def defaultConcurrency : Int := 3

/-- `defaultCopyMaxMetadataBytes` is the default value of
`CopyGraphOptions.MaxMetadataBytes`. -/
def defaultCopyMaxMetadataBytes : Int := 4 * 1024 * 1024

/-- The program points of a goroutine that `syncutil.Go` spawned for one item and that
runs the walk function `fn` of `copyGraph` on it. -/
inductive Pc where
  /-- limit.go 85-92: spawned with a permit, about to test `egCtx.Done()`. -/
  | start
  /-- copy.go 226: `tracker.TryCommit(desc)`. -/
  | tryCommit
  /-- copy.go 238: `dst.Exists(ctx, desc)`. -/
  | exists
  /-- copy.go 243-248: the sub-DAG exists, `opts.OnCopySkipped`. -/
  | onCopySkipped
  /-- copy.go 252-256: `opts.FindSuccessors` and `removeForeignLayers`. -/
  | findSuccessors
  /-- copy.go 260-261: `region.End()` and the call of `syncutil.Go` on the successors. -/
  | go
  /-- copy.go 261: blocked in the `syncutil.Go` call number `g`. -/
  | inGo (g : Nat)
  /-- copy.go 264-268: the loop over the successors, at `tracker.TryCommit(node)`. -/
  | await (rest : List Descriptor)
  /-- copy.go 269-273: the `select` on the token of `node` and on `ctx.Done()`. -/
  | waitDone (node : Descriptor) (rest : List Descriptor)
  /-- copy.go 275: `region.Start()`. -/
  | regionStart
  /-- copy.go 280: `proxy.Cache.Exists(ctx, desc)`. -/
  | cacheExists
  /-- copy.go 285, 287: `copyNode` from the cache or from the source. -/
  | copy (src : Source)
  /-- copy.go 230-235: the committed call returns `err`; the deferred `close(done)`. -/
  | ret (err : Option Error)
  /-- limit.go 94-98 and 85: `fn` has returned `err`; `cancel(err)`, `lr.End()`. -/
  | leave (err : Option Error)
  /-- The goroutine has ended. -/
  | finished (err : Option Error)
deriving DecidableEq, Repr

/-- A goroutine of the walk: its item, the `Go` call that spawned it, the field `ended` of
its `LimitedRegion`, its local variable `successors` and its program point. -/
structure Task where
  desc : Descriptor
  group : Nat
  ended : Bool
  succs : List Descriptor
  pc : Pc
deriving DecidableEq, Repr

/-- A call of `syncutil.Go`: `parent` is the `Go` call whose `egCtx` is the `ctx` of this
call (`none`: the context handed to `copyGraph`), `caller` the goroutine blocked in the
call (`none`: `copyGraph` itself), `pending` the items the `for` loop has not reached,
`live` the number of spawned goroutines that have not ended, `cause` the cause given to
`cancel` when it cancelled the context of the call, `egErr` the first error recorded by the
`errgroup`, `result` the value the call returned. -/
structure Call where
  parent : Option Nat
  caller : Option Nat
  pending : List Descriptor
  live : Nat
  cause : Option Error
  egErr : Option Error
  result : Option (Option Error)
deriving DecidableEq, Repr

/-- Modelled from the spec: the commit tracker (`internal/status` is not part of the sources
at hand) is an insert-if-absent map keyed by digest with no release and no negative close:
`tracker` holds the digests claimed by `TryCommit` and `closed` the digests whose token is
closed.  The other fields are the rest of the state of a run of `copyGraph`: the stores and
the trace, the free permits of the limiter, the cancellation cause of the context handed to
`copyGraph`, the goroutines and the `Go` calls. -/
structure State where
  world : World
  tracker : List Digest
  closed : List Digest
  free : Nat
  ctxCause : Option Error
  tasks : List Task
  calls : List Call
deriving DecidableEq, Repr

/-- The value of `context.Cause` for the context of a `Go` call (`none`: not cancelled):
the cause the call was cancelled with, else the cause of the context it derives from. -/
def State.causeOf (s : State) : Nat → Option Nat → Option Error
  | _, none => s.ctxCause
  | 0, some _ => none
  | n + 1, some g =>
    match s.calls[g]? with
    | none => none
    | some c =>
      match c.cause with
      | some err => some err
      | none => s.causeOf n c.parent

/-- The value of `context.Cause(ctx)` in the `Go` call `g`; `egCtx.Done()` is ready exactly
when it is not `none`. -/
def State.cause (s : State) (g : Nat) : Option Error :=
  s.causeOf s.calls.length (some g)

/-- The call `cancel(err)` in the `Go` call `g`: records the cause unless the context is
cancelled already. -/
def State.cancel (s : State) (g : Nat) (err : Error) : State :=
  match s.cause g, s.calls[g]? with
  | none, some c => { s with calls := s.calls.set g { c with cause := some err } }
  | _, _ => s

/-- `LimitedRegion.End` of the goroutine `t`: releases the permit it holds. -/
def regionEnd (s : State) (t : Task) : State × Task :=
  if t.ended then (s, t) else ({ s with free := s.free + 1 }, { t with ended := true })

/-- The `FindSuccessors` in force: `content.Successors` when the option is `nil`. -/
def CopyGraphOptions.findSuccessors (st : Stores) (opts : CopyGraphOptions) : SuccessorsHook :=
  match opts.FindSuccessors with
  | some f => f
  | none => st.Successors

/-- What the run can do next. `cancel err`: the caller of `copyGraph` cancels its context
with cause `err`.  `loop g acquired`: the `for` loop of the `Go` call `g` runs one
iteration, in which `region.Start()` acquired a permit or failed.  `wait g`: `eg.Wait()`
returns and the `Go` call `g` returns.  `run i alt`: the goroutine `i` takes its next step;
where a `select` or an `Acquire` has two ready outcomes, `alt` selects the one on
`ctx.Done()`. -/
inductive Action where
  | cancel (err : Error)
  | loop (g : Nat) (acquired : Bool)
  | wait (g : Nat)
  | run (i : Nat) (alt : Bool)
deriving DecidableEq, Repr

/-- One iteration of the `for` loop of `syncutil.Go` (limit.go 74-101). -/
def Go.loop (s : State) (g : Nat) (acquired : Bool) : Option State :=
  match s.calls[g]? with
  | none => none
  | some c =>
    match c.result, c.pending with
    | none, item :: rest =>
      if acquired then
        if 0 < s.free then
          some { s with
            free := s.free - 1
            tasks := s.tasks ++ [{ desc := item, group := g, ended := false, succs := [],
                                   pc := .start }]
            calls := s.calls.set g { c with pending := rest, live := c.live + 1 } }
        else none
      else if (s.cause g).isSome then
        let s1 := s.cancel g .canceled
        match s1.calls[g]? with
        | some c1 => some { s1 with calls := s1.calls.set g { c1 with pending := [] } }
        | none => none
      else none
    | _, _ => none

/-- The end of `syncutil.Go` (limit.go 103-106): `eg.Wait()` returns once every spawned
goroutine has ended, and the call returns `context.Cause(ctx)`; the caller goes on. -/
def Go.wait (s : State) (g : Nat) : Option State :=
  match s.calls[g]? with
  | none => none
  | some c =>
    match c.result, c.pending, c.live with
    | none, [], 0 =>
      let s1 := match c.egErr with
        | some err => s.cancel g err
        | none => s
      let res := s1.cause g
      match s1.calls[g]? with
      | none => none
      | some c1 =>
        let s2 := { s1 with calls := s1.calls.set g { c1 with result := some res } }
        match c.caller with
        | none => some s2
        | some i =>
          match s2.tasks[i]? with
          | none => none
          | some t =>
            match t.pc, res with
            | .inGo _, some err =>
              some { s2 with tasks := s2.tasks.set i { t with pc := .ret (some err) } }
            | .inGo _, none =>
              some { s2 with tasks := s2.tasks.set i { t with pc := .await t.succs } }
            | _, _ => none
    | _, _, _ => none

/-- The return of the function handed to `eg.Go` (limit.go 85, 96-98): the `errgroup`
records the first error, the deferred `lr.End()` runs and the goroutine ends. -/
def Go.done (s : State) (i : Nat) (t : Task) (err : Option Error) : Option State :=
  match s.calls[t.group]? with
  | none => none
  | some c =>
    let c1 := { c with live := c.live - 1,
                       egErr := match c.egErr with
                         | some e => some e
                         | none => err }
    let s2 := { s with calls := s.calls.set t.group c1 }
    let r := regionEnd s2 t
    some { r.1 with tasks := r.1.tasks.set i { r.2 with pc := .finished err } }

/-- The end of a goroutine of `syncutil.Go` once `fn` has returned `err` (limit.go 94-98,
85): `cancel(err)` for an error, then the return. -/
def Go.leave (s : State) (i : Nat) (t : Task) (err : Option Error) : Option State :=
  match err with
  | some e => Go.done (s.cancel t.group e) i t err
  | none => Go.done s i t err

/-- One step of the goroutine `i`, whose record is `t`: the walk function `fn` of
`copyGraph` (copy.go 224-288) inside the goroutine of `syncutil.Go` (limit.go 84-99). -/
def fn (st : Stores) (opts : CopyGraphOptions) (s : State) (i : Nat) (t : Task) (alt : Bool) :
    Option State :=
  let goto (s : State) (t : Task) (pc : Pc) : Option State :=
    some { s with tasks := s.tasks.set i { t with pc := pc } }
  match t.pc with
  | .start =>
    if (s.cause t.group).isSome then goto s t (.leave none) else goto s t .tryCommit
  | .tryCommit =>
    if t.desc.digest ∈ s.tracker then
      goto { s with world := s.world.emit (.tryCommit t.desc false) } t (.leave none)
    else
      goto { s with world := s.world.emit (.tryCommit t.desc true),
                    tracker := t.desc.digest :: s.tracker } t .exists
  | .exists =>
    match dstExists st t.desc s.world.env with
    | .error err => goto s t (.ret (some err))
    | .ok found =>
      let s1 := { s with world := s.world.emit (.exists t.desc found) }
      if found then goto s1 t .onCopySkipped else goto s1 t .findSuccessors
  | .onCopySkipped =>
    match opts.OnCopySkipped with
    | some h =>
      let r := (s.world.emit (.onCopySkipped t.desc)).call h t.desc
      goto { s with world := r.2 } t (.ret r.1)
    | none => goto s t (.ret none)
  | .findSuccessors =>
    let r := opts.findSuccessors st t.desc s.world.env
    let s1 := { s with world := { s.world with env := r.2 } }
    match r.1 with
    | .error err => goto s1 t (.ret (some err))
    | .ok successors =>
      let successors := removeForeignLayers st successors
      let s2 := { s1 with world := s1.world.emit (.successors t.desc successors) }
      let t1 := { t with succs := successors }
      if successors.length != 0 then goto s2 t1 .go else goto s2 t1 .cacheExists
  | .go =>
    let r := regionEnd s t
    let call : Call := { parent := some t.group, caller := some i, pending := t.succs,
                         live := 0, cause := none, egErr := none, result := none }
    goto { r.1 with calls := r.1.calls ++ [call] } r.2 (.inGo r.1.calls.length)
  | .inGo _ => none
  | .await [] => goto s t .regionStart
  | .await (node :: rest) =>
    if node.digest ∈ s.tracker then
      goto { s with world := s.world.emit (.tryCommit node false) } t (.waitDone node rest)
    else
      goto { s with world := s.world.emit (.tryCommit node true),
                    tracker := node.digest :: s.tracker } t
        (.ret (some (.successorNotCommitted t.desc.digest node.digest)))
  | .waitDone node rest =>
    if alt then
      if (s.cause t.group).isSome then goto s t (.ret (some .canceled)) else none
    else
      if node.digest ∈ s.closed then goto s t (.await rest) else none
  | .regionStart =>
    if !t.ended then goto s t .cacheExists
    else if alt then
      if (s.cause t.group).isSome then goto s t (.ret (some .canceled)) else none
    else
      if 0 < s.free then goto { s with free := s.free - 1 } { t with ended := false } .cacheExists
      else none
  | .cacheExists =>
    match cacheExists st t.desc s.world.env with
    | .error err => goto s t (.ret (some err))
    | .ok found => goto s t (.copy (if found then .cache else .base))
  | .copy src =>
    let r := copyNode st src t.desc opts s.world
    goto { s with world := r.2 } t (.ret r.1)
  | .ret err =>
    match err with
    | none =>
      goto { s with closed := t.desc.digest :: s.closed,
                    world := s.world.emit (.close t.desc.digest) } t (.leave none)
    | some e => goto s t (.leave (some e))
  | .leave err => Go.leave s i t err
  | .finished _ => none

/-- One step of a run of `copyGraph`; `none` when the action is not enabled. -/
def step (st : Stores) (opts : CopyGraphOptions) (s : State) : Action → Option State
  | .cancel err =>
    match s.ctxCause with
    | none => some { s with ctxCause := some err }
    | some _ => none
  | .loop g acquired => Go.loop s g acquired
  | .wait g => Go.wait s g
  | .run i alt =>
    match s.tasks[i]? with
    | none => none
    | some t => fn st opts s i t alt

/-- A run: the actions taken one after the other; `none` when one of them is not
enabled. -/
def run (st : Stores) (opts : CopyGraphOptions) : State → List Action → Option State
  | s, [] => some s
  | s, a :: as =>
    match step st opts s a with
    | none => none
    | some s1 => run st opts s1 as

/-- The capacity of the limiter `copyGraph` creates (copy.go 206-212). -/
def limiterCapacity (opts : CopyGraphOptions) : Nat :=
  if opts.Concurrency ≤ 0 then defaultConcurrency.toNat else opts.Concurrency.toNat

/-- The budget of the proxy `copyGraph` and `Copy` create (copy.go 160-163, 199-205). -/
def proxyBudget (opts : CopyGraphOptions) : Int :=
  if opts.MaxMetadataBytes ≤ 0 then defaultCopyMaxMetadataBytes else opts.MaxMetadataBytes

/-- The state in which `copyGraph` calls `syncutil.Go(ctx, limiter, fn, root)` (copy.go
199-220, 290) with a limiter and a tracker of its own: the `Go` call number 0 has the one
item `root`. -/
def copyGraph.init (opts : CopyGraphOptions) (root : Descriptor) (env : Env) : State :=
  { world := { env := env, trace := [] }
    tracker := []
    closed := []
    free := limiterCapacity opts
    ctxCause := none
    tasks := []
    calls := [{ parent := none, caller := none, pending := [root], live := 0,
                cause := none, egErr := none, result := none }] }

/-- The value `copyGraph` returns in a state, `none` while `syncutil.Go` has not
returned. -/
def State.result (s : State) : Option (Option Error) :=
  match s.calls[0]? with
  | some c => c.result
  | none => none

/-- `copyGraph`, along the run that takes the given actions: the value returned and the
final state, `none` when the actions are no run or `copyGraph` has not returned at their
end. -/
def copyGraph (st : Stores) (opts : CopyGraphOptions) (root : Descriptor) (env : Env)
    (acts : List Action) : Option (Option Error × State) :=
  match run st opts (copyGraph.init opts root env) acts with
  | none => none
  | some s =>
    match s.result with
    | none => none
    | some r => some (r, s)

/-! ## Cross-repository mount (copy.go 121-140, 323-349) -/

/-- The reference of a repository, as `registry.Namer` reports it. -/
structure Reference where
  Registry : String
  Repository : String
deriving DecidableEq, Repr

/-- The method `Mount` of a destination: the descriptor and the name of the repository to
mount it from. -/
abbrev MountFn := Descriptor → String → Env → Option Error × Env

/-- `WithCrossMount` sets `opts.AttemptMount` for the source repository with reference
`src` and the destination repository with reference `dst` and method `mount`. -/
def CopyGraphOptions.WithCrossMount (st : Stores) (opts : CopyGraphOptions)
    (src dst : Reference) (mount : MountFn) : CopyGraphOptions :=
  { opts with AttemptMount := some (fun desc env =>
      if src.Registry != dst.Registry then ((false, none), env)
      else if st.IsManifest desc then ((false, none), env)
      else
        let r := mount desc src.Repository env
        match r.1 with
        | some err => ((false, some err), r.2)
        | none => ((true, none), r.2)) }

/-- `tryMount`: `srcNamer` and `dstNamer` are the names of the stores that are a
`registry.Namer`, `dstMounter` the method `Mount` of a destination that is a
`registry.Mounter`. -/
def tryMount (st : Stores) (srcNamer dstNamer : Option Reference) (dstMounter : Option MountFn)
    (desc : Descriptor) (env : Env) : Bool × Env :=
  if st.IsManifest desc then (false, env)
  else
    match srcNamer with
    | none => (false, env)
    | some srcName =>
      if srcName.Repository == "" then (false, env)
      else
        match dstNamer with
        | none => (false, env)
        | some dstName =>
          if dstName.Repository == "" then (false, env)
          else if srcName.Registry != dstName.Registry then (false, env)
          else
            match dstMounter with
            | none => (false, env)
            | some mount =>
              match (mount desc srcName.Repository env).1 with
              | some _ => (false, (mount desc srcName.Repository env).2)
              | none => (true, (mount desc srcName.Repository env).2)

/-! ## `Copy` (copy.go 142-187, 373-492) -/

/-- `CopyOptions` of `copy.go`: the options of `CopyGraph` and `MapRoot`.  `MapRoot` reads
the source through the proxy while `StopCaching` is set, so it leaves the cache as it
is. -/
structure CopyOptions extends CopyGraphOptions where
  MapRoot : Option (Descriptor → Except Error Descriptor)

/-- Modelled from the spec: `content.Equal`, which is not part of the sources at hand: two
descriptors are equal iff their size and digest are equal. -/
def contentEqual (a b : Descriptor) : Bool :=
  a.size == b.size && a.digest == b.digest

/-- Records in the hook log that a hook of the user is about to be called. -/
def Env.record (env : Env) (ev : HookEvent) : Env :=
  { env with hookLog := env.hookLog ++ [ev] }

/-- `copyCachedNodeWithReference` copies a single content with a reference from the source
cache to the destination `ReferencePusher`.  Modelled from the spec: `FetchCached` of the
proxy is a cache-only fetch that fails with `notFound`. -/
def copyCachedNodeWithReference (st : Stores) (desc : Descriptor) (dstRef : String) (env : Env) :
    Option Error × Env :=
  if desc.digest ∈ env.cache then
    let r := dstPushReference st desc dstRef env
    match r.1 with
    | some err => if !Error.Is err .alreadyExists then (some err, r.2) else (none, r.2)
    | none => (none, r.2)
  else (some .notFound, env)

/-- Calls a hook of the user, if there is one, and records the call. -/
def callUser (h : Option Hook) (ev : HookEvent) (desc : Descriptor) (env : Env) :
    Option Error × Env :=
  match h with
  | some f => f desc (env.record ev)
  | none => (none, env)

/-- The `PreCopy` that `prepareCopy` installs for a `ReferencePusher` destination
(copy.go 427-449). -/
def prepareCopy.preCopy (st : Stores) (dstRef : String) (root : Descriptor)
    (opts : CopyOptions) : Hook := fun desc env =>
  let r := callUser opts.PreCopy (.userPreCopy desc) desc env
  match r.1 with
  | some err => (some err, r.2)
  | none =>
    if !contentEqual desc root then (none, r.2)
    else
      let r1 := copyCachedNodeWithReference st desc dstRef r.2
      match r1.1 with
      | some err => (some err, r1.2)
      | none =>
        let r2 := callUser opts.PostCopy (.userPostCopy desc) desc r1.2
        match r2.1 with
        | some err => (some err, r2.2)
        | none => (some .errSkipDesc, r2.2)

/-- The `PostCopy` that `prepareCopy` installs for a destination that is no
`ReferencePusher` (copy.go 452-463). -/
def prepareCopy.postCopy (st : Stores) (dstRef : String) (root : Descriptor)
    (opts : CopyOptions) : Hook := fun desc env =>
  let r := if contentEqual desc root then dstTag st root dstRef env else (none, env)
  match r.1 with
  | some err => (some err, r.2)
  | none => callUser opts.PostCopy (.userPostCopy desc) desc r.2

/-- The `OnCopySkipped` that `prepareCopy` installs (copy.go 467-489). -/
def prepareCopy.onCopySkipped (st : Stores) (dstRef : String) (root : Descriptor)
    (opts : CopyOptions) : Hook := fun desc env =>
  if !contentEqual desc root then
    callUser opts.OnCopySkipped (.userOnCopySkipped desc) desc env
  else if st.dstIsRefPusher then
    copyCachedNodeWithReference st desc dstRef env
  else
    let r := callUser opts.OnCopySkipped (.userOnCopySkipped desc) desc env
    match r.1 with
    | some err => (some err, r.2)
    | none => dstTag st root dstRef r.2

/-- `prepareCopy` prepares the hooks for copy. -/
def prepareCopy (st : Stores) (dstRef : String) (root : Descriptor) (opts : CopyOptions) :
    CopyOptions :=
  let opts1 : CopyOptions :=
    if st.dstIsRefPusher then
      { opts with PreCopy := some (prepareCopy.preCopy st dstRef root opts) }
    else
      { opts with PostCopy := some (prepareCopy.postCopy st dstRef root opts) }
  { opts1 with OnCopySkipped := some (prepareCopy.onCopySkipped st dstRef root opts) }

/-- `resolveRoot` resolves the source reference to the root node; for a source that is a
`ReferenceFetcher` the body of the root is run through `content.Successors`, which caches
it if the root is a non-leaf node. -/
def resolveRoot (st : Stores) (srcRef : String) (env : Env) : Except Error Descriptor × Env :=
  if !st.srcIsRefFetcher then (st.resolve srcRef, env)
  else
    match st.resolve srcRef with
    | .error err => (.error err, env)
    | .ok root =>
      match (st.Successors root env).1 with
      | .error err => (.error err, (st.Successors root env).2)
      | .ok _ => (.ok root, (st.Successors root env).2)

/-- The part of `Copy` before the walk (copy.go 149-180): the checks of the targets, the
default of the destination reference, `resolveRoot`, `MapRoot` and `prepareCopy`.  It
returns the root to copy and the options handed to `copyGraph`. `srcNil` and `dstNil`
tell whether the targets are `nil`. -/
def Copy.setup (st : Stores) (srcNil dstNil : Bool) (srcRef dstRef : String)
    (opts : CopyOptions) (env : Env) : Except Error (Descriptor × CopyGraphOptions) × Env :=
  if srcNil then (.error .nilSource, env)
  else if dstNil then (.error .nilDestination, env)
  else
    let dstRef := if dstRef == "" then srcRef else dstRef
    let r := resolveRoot st srcRef env
    match r.1 with
    | .error err => (.error (.wrapped ("failed to resolve " ++ srcRef) err), r.2)
    | .ok root =>
      let mapped : Except Error Descriptor :=
        match opts.MapRoot with
        | some f => f root
        | none => .ok root
      match mapped with
      | .error err => (.error err, r.2)
      | .ok root =>
        (.ok (root, (prepareCopy st dstRef root opts).toCopyGraphOptions), r.2)

deriving instance DecidableEq for Except

/-- `Copy`, along the run of the walk that takes the given actions: what it returns, with
the stores and the trace at the end; `none` when the actions are no run of the walk or
leave it unfinished. -/
def Copy (st : Stores) (srcNil dstNil : Bool) (srcRef dstRef : String) (opts : CopyOptions)
    (env : Env) (acts : List Action) : Option (Except Error Descriptor × World) :=
  match Copy.setup st srcNil dstNil srcRef dstRef opts env with
  | (.error err, env1) => some (.error err, { env := env1, trace := [] })
  | (.ok (root, gopts), env1) =>
    match copyGraph st gopts root env1 acts with
    | none => none
    | some (some err, s) => some (.error err, s.world)
    | some (none, s) => some (.ok root, s.world)

/-! ## Concrete stores and graphs, for the examples -/

namespace Example

/-- An image manifest. -/
def manifest : Descriptor := { mediaType := "manifest", digest := "M", size := 2 }

/-- A layer blob. -/
def blob : Descriptor := { mediaType := "blob", digest := "B", size := 1 }

/-- A second layer blob. -/
def blob2 : Descriptor := { mediaType := "blob", digest := "C", size := 1 }

/-- A foreign layer. -/
def foreign : Descriptor := { mediaType := "foreign", digest := "F", size := 1 }

/-- The successors in the example graph: the manifest refers to the blob, the foreign
layer and the second blob. -/
def successors (desc : Descriptor) : List Descriptor :=
  if desc.digest = "M" then [blob, foreign, blob2] else []

/-- Stores that never fail on their own; `content.Successors` reads the example graph and
caches the body of a manifest; the destination wraps the already-exists signal once, with
the digest and the media type. -/
def stores : Stores :=
  { IsForeignLayer := fun d => d.mediaType == "foreign"
    IsManifest := fun d => d.mediaType == "manifest"
    Successors := fun d env =>
      (.ok (successors d),
       if d.mediaType == "manifest" then { env with cache := d.digest :: env.cache } else env)
    resolve := fun ref => if ref == "v1" then .ok manifest else .error .notFound
    fault := fun _ _ => none
    existsWording := fun d => [d.digest ++ ": " ++ d.mediaType]
    dstIsRefPusher := false
    srcIsRefFetcher := false }

/-- Options with no hook at all. -/
def noHooks : CopyGraphOptions :=
  { Concurrency := 0, MaxMetadataBytes := 0, PreCopy := none, PostCopy := none,
    AttemptMount := none, OnMounted := none, OnCopySkipped := none, FindSuccessors := none }

/-- Options of `Copy` with no hook and no `MapRoot`. -/
def copyOptions : CopyOptions := { toCopyGraphOptions := noHooks, MapRoot := none }

/-- A hook that does nothing and succeeds. -/
def okHook : Hook := fun _ env => (none, env)

/-- A hook that returns the sentinel `errSkipDesc`. -/
def skipHook : Hook := fun _ env => (some .errSkipDesc, env)

/-- An `AttemptMount` of the user that reports every descriptor as mounted. -/
def alwaysMounted : MountHook := fun _ env => ((true, none), env)

/-- Empty stores. -/
def emptyEnv : Env := { blobs := [], tags := [], cache := [], hookLog := [] }

/-- A destination that holds the manifest and none of its blobs. -/
def rootOnlyEnv : Env := { blobs := ["M"], tags := [], cache := [], hookLog := [] }

/-- The empty stores with an empty trace. -/
def emptyWorld : World := { env := emptyEnv, trace := [] }

/-- The goroutine `i` takes `n` steps in a row. -/
def runs (i n : Nat) : List Action := List.replicate n (.run i false)

/-- A run of the walk from the manifest to an empty destination: the root goroutine gets as
far as its `syncutil.Go` call, the goroutines of the two blobs run one after the other,
then the root goroutine copies the manifest. -/
def schedule : List Action :=
  [.loop 0 true] ++ runs 0 5 ++ [.loop 1 true, .loop 1 true] ++ runs 1 8 ++ runs 2 8 ++
    [.wait 1] ++ runs 0 10 ++ [.wait 0]

/-- The start of the run `schedule`, up to the return of the `syncutil.Go` call of the root
goroutine on the two blobs. -/
def awaitSchedule : List Action :=
  [.loop 0 true] ++ runs 0 5 ++ [.loop 1 true, .loop 1 true] ++ runs 1 8 ++ runs 2 8 ++
    [.wait 1]

/-- The run of the walk from a root without successors that is not at the destination. -/
def leafSchedule : List Action := [.loop 0 true] ++ runs 0 8 ++ [.wait 0]

/-- The run of the walk from a root that is at the destination already. -/
def skipSchedule : List Action := [.loop 0 true] ++ runs 0 6 ++ [.wait 0]

/-- The state a run of the walk ends in, the initial state when the actions are no run. -/
def final (st : Stores) (opts : CopyGraphOptions) (root : Descriptor) (env : Env)
    (acts : List Action) : State :=
  (run st opts (copyGraph.init opts root env) acts).getD (copyGraph.init opts root env)

/-- The state the run `awaitSchedule` ends in. -/
def awaitState : State := final stores noHooks manifest emptyEnv awaitSchedule

/-- The root goroutine at the end of `awaitSchedule`: its `syncutil.Go` call on the two
blobs has returned `nil` and it is about to call `tracker.TryCommit` on the first. -/
def awaitTask : Task :=
  { desc := manifest, group := 0, ended := true, succs := [blob, blob2],
    pc := .await [blob, blob2] }

end Example

/-! ## The steps of the walk, by what they change -/

/-- The moves of a goroutine that change nothing but its own program point. -/
inductive LocalMove (s : State) (t : Task) : Pc → Prop where
  | skip : t.pc = .start → (s.cause t.group).isSome = true → LocalMove s t (.leave none)
  | enter : t.pc = .start → LocalMove s t .tryCommit
  | fail (err : Error) :
      (t.pc = .exists ∨ (∃ g, t.pc = .inGo g) ∨ (∃ node rest, t.pc = .waitDone node rest) ∨
        t.pc = .regionStart ∨ t.pc = .cacheExists) →
      LocalMove s t (.ret (some err))
  | call (g : Nat) : t.pc = .go → LocalMove s t (.inGo g)
  | resume (g : Nat) : t.pc = .inGo g → LocalMove s t (.await t.succs)
  | awaited : t.pc = .await [] → LocalMove s t .regionStart
  | token (node : Descriptor) (rest : List Descriptor) :
      t.pc = .waitDone node rest → node.digest ∈ s.closed → LocalMove s t (.await rest)
  | acquired : t.pc = .regionStart → LocalMove s t .cacheExists
  | cached (src : Source) : t.pc = .cacheExists → LocalMove s t (.copy src)
  | failed (err : Error) : t.pc = .ret (some err) → LocalMove s t (.leave (some err))
  | ended (err : Option Error) : t.pc = .leave err → LocalMove s t (.finished err)

/-- The moves of a goroutine: its new record and the new tracker, closed tokens and
world. -/
inductive TaskMove (st : Stores) (opts : CopyGraphOptions) (s : State) (t : Task) :
    Task → List Digest → List Digest → World → Prop where
  | localMove (pc : Pc) (ended : Bool) : LocalMove s t pc →
      TaskMove st opts s t { t with pc := pc, ended := ended } s.tracker s.closed s.world
  | commit : t.pc = .tryCommit → t.desc.digest ∉ s.tracker →
      TaskMove st opts s t { t with pc := .exists } (t.desc.digest :: s.tracker) s.closed
        (s.world.emit (.tryCommit t.desc true))
  | duplicate : t.pc = .tryCommit → t.desc.digest ∈ s.tracker →
      TaskMove st opts s t { t with pc := .leave none } s.tracker s.closed
        (s.world.emit (.tryCommit t.desc false))
  | existsOk : t.pc = .exists →
      TaskMove st opts s t
        { t with pc := if t.desc.digest ∈ s.world.env.blobs then .onCopySkipped
                       else .findSuccessors }
        s.tracker s.closed
        (s.world.emit (.exists t.desc (decide (t.desc.digest ∈ s.world.env.blobs))))
  | skipped (h : Hook) : t.pc = .onCopySkipped → opts.OnCopySkipped = some h →
      TaskMove st opts s t { t with pc := .ret (h t.desc s.world.env).1 } s.tracker s.closed
        { env := (h t.desc s.world.env).2, trace := s.world.trace ++ [.onCopySkipped t.desc] }
  | skippedNone : t.pc = .onCopySkipped → opts.OnCopySkipped = none →
      TaskMove st opts s t { t with pc := .ret none } s.tracker s.closed s.world
  | findErr (err : Error) : t.pc = .findSuccessors →
      (opts.findSuccessors st t.desc s.world.env).1 = .error err →
      TaskMove st opts s t { t with pc := .ret (some err) } s.tracker s.closed
        { s.world with env := (opts.findSuccessors st t.desc s.world.env).2 }
  | findOk (l : List Descriptor) (pc : Pc) : t.pc = .findSuccessors →
      (opts.findSuccessors st t.desc s.world.env).1 = .ok l →
      (pc = .go ∧ removeForeignLayers st l ≠ [] ∨
        pc = .cacheExists ∧ removeForeignLayers st l = []) →
      TaskMove st opts s t { t with succs := removeForeignLayers st l, pc := pc }
        s.tracker s.closed
        { env := (opts.findSuccessors st t.desc s.world.env).2,
          trace := s.world.trace ++ [.successors t.desc (removeForeignLayers st l)] }
  | awaitToken (node : Descriptor) (rest : List Descriptor) :
      t.pc = .await (node :: rest) → node.digest ∈ s.tracker →
      TaskMove st opts s t { t with pc := .waitDone node rest } s.tracker s.closed
        (s.world.emit (.tryCommit node false))
  | awaitCommitted (node : Descriptor) (rest : List Descriptor) :
      t.pc = .await (node :: rest) → node.digest ∉ s.tracker →
      TaskMove st opts s t
        { t with pc := .ret (some (.successorNotCommitted t.desc.digest node.digest)) }
        (node.digest :: s.tracker) s.closed (s.world.emit (.tryCommit node true))
  | copy (src : Source) : t.pc = .copy src →
      TaskMove st opts s t { t with pc := .ret (copyNode st src t.desc opts s.world).1 }
        s.tracker s.closed (copyNode st src t.desc opts s.world).2
  | close : t.pc = .ret none →
      TaskMove st opts s t { t with pc := .leave none } s.tracker (t.desc.digest :: s.closed)
        (s.world.emit (.close t.desc.digest))

/-- A step of the walk, as far as the goroutines, the tracker and the world go: nothing
changes, a goroutine is spawned, or a goroutine moves. -/
inductive CoreStep (st : Stores) (opts : CopyGraphOptions) (s s1 : State) : Prop where
  | idle : s1.tasks = s.tasks → s1.tracker = s.tracker → s1.closed = s.closed →
      s1.world = s.world → CoreStep st opts s s1
  | spawn (item : Descriptor) (g : Nat) : (∃ c ∈ s.calls, item ∈ c.pending) →
      s1.tasks = s.tasks ++ [{ desc := item, group := g, ended := false, succs := [],
                               pc := .start }] →
      s1.tracker = s.tracker → s1.closed = s.closed → s1.world = s.world →
      CoreStep st opts s s1
  | task (i : Nat) (t t1 : Task) : s.tasks[i]? = some t → s1.tasks = s.tasks.set i t1 →
      TaskMove st opts s t t1 s1.tracker s1.closed s1.world → CoreStep st opts s s1

/-! ## The invariant of the walk -/

/-- The goroutine has committed its descriptor and its call of `fn` has not run the
deferred `close(done)` yet: it holds the token. -/
def Pc.holds : Pc → Bool
  | .exists | .onCopySkipped | .findSuccessors | .go | .inGo _ | .await _ | .waitDone _ _
  | .regionStart | .cacheExists | .copy _ | .ret _ => true
  | _ => false

/-- The goroutine holds the token and has not reached the end of `copyNode`. -/
def Pc.owner : Pc → Bool
  | .exists | .onCopySkipped | .findSuccessors | .go | .inGo _ | .await _ | .waitDone _ _
  | .regionStart | .cacheExists | .copy _ => true
  | _ => false

/-- The goroutine is past `removeForeignLayers` on the way to `copyNode`. -/
def Pc.found : Pc → Bool
  | .go | .inGo _ | .await _ | .waitDone _ _ | .regionStart | .cacheExists | .copy _ => true
  | _ => false

/-- The successors whose token the goroutine has still to see closed. -/
def Pc.awaiting (succs : List Descriptor) : Pc → List Descriptor
  | .go | .inGo _ => succs
  | .await rest => rest
  | .waitDone node rest => node :: rest
  | _ => []

/-- The events that neither commit, nor list successors, nor push, nor close. -/
def Event.neutral : Event → Bool
  | .tryCommit _ true | .successors _ _ | .push _ | .close _ => false
  | _ => true

/-- What holds of the tracker, the closed tokens and the trace in every state of a run. -/
structure GInv (tracker closed : List Digest) (trace : List Event) : Prop where
  push_once : ∀ d, trace.count (.push d) ≤ 1
  pushed_committed : ∀ d, Event.push d ∈ trace → Event.tryCommit d true ∈ trace
  commit_once : ∀ d, trace.count (.tryCommit d true) ≤ 1
  commit_tracked : ∀ d, Event.tryCommit d true ∈ trace → d.digest ∈ tracker
  succ_tracked : ∀ d l, Event.successors d l ∈ trace → d.digest ∈ tracker
  succ_unique : ∀ d l d1 l1, Event.successors d l ∈ trace → Event.successors d1 l1 ∈ trace →
    d.digest = d1.digest → d = d1 ∧ l = l1
  closed_tracked : ∀ k, k ∈ closed → k ∈ tracker
  closed_iff : ∀ k, k ∈ closed ↔ Event.close k ∈ trace
  push_order : ∀ pre d, pre ++ [Event.push d] <+: trace →
    ∃ l, Event.successors d l ∈ pre ∧ ∀ n ∈ l, Event.close n.digest ∈ pre
  push_open : ∀ pre d, pre ++ [Event.push d] <+: trace → Event.close d.digest ∉ pre

/-- What holds of every goroutine in every state of a run. -/
structure TInv (tracker closed : List Digest) (trace : List Event) (t : Task) : Prop where
  tracked : t.pc.holds = true → t.desc.digest ∈ tracker
  isOpen : t.pc.holds = true → t.desc.digest ∉ closed
  committed : t.pc.holds = true → Event.tryCommit t.desc true ∈ trace
  unpushed : t.pc.owner = true → ∀ d, Event.push d ∈ trace → d.digest ≠ t.desc.digest
  early : t.pc.owner = true → t.pc.found = false →
    ∀ d l, Event.successors d l ∈ trace → d.digest ≠ t.desc.digest
  listed : t.pc.found = true → Event.successors t.desc t.succs ∈ trace
  awaiting : t.pc.found = true →
    ∀ n ∈ t.succs, n ∈ t.pc.awaiting t.succs ∨ n.digest ∈ closed

/-- The invariant of the walk. -/
structure Inv (s : State) : Prop where
  shared : GInv s.tracker s.closed s.world.trace
  task : ∀ (i : Nat) (t : Task), s.tasks[i]? = some t → TInv s.tracker s.closed s.world.trace t
  unique : ∀ (i j : Nat) (ti tj : Task), s.tasks[i]? = some ti → s.tasks[j]? = some tj →
    ti.pc.holds = true → tj.pc.holds = true → ti.desc.digest = tj.desc.digest → i = j

/-- What a move of the goroutine `t` does to the tracker, the closed tokens and the
trace. -/
inductive Effect (s : State) (t : Task) : List Digest → List Digest → List Event → Prop where
  | quiet (evs : List Event) : (∀ e ∈ evs, e.neutral = true) →
      Effect s t s.tracker s.closed (s.world.trace ++ evs)
  | commit (d : Descriptor) : d.digest ∉ s.tracker →
      Effect s t (d.digest :: s.tracker) s.closed (s.world.trace ++ [.tryCommit d true])
  | list (l : List Descriptor) : t.pc = .findSuccessors →
      Effect s t s.tracker s.closed (s.world.trace ++ [.successors t.desc l])
  | push (src : Source) (e1 e2 : List Event) : t.pc = .copy src →
      (∀ e ∈ e1, e.neutral = true) → (∀ e ∈ e2, e.neutral = true) →
      Effect s t s.tracker s.closed (s.world.trace ++ e1 ++ [.push t.desc] ++ e2)
  | close : t.pc = .ret none →
      Effect s t s.tracker (t.desc.digest :: s.closed)
        (s.world.trace ++ [.close t.desc.digest])

/-- The descriptors an event is about. -/
def Event.descs : Event → List Descriptor
  | .tryCommit d _ | .exists d _ | .onCopySkipped d | .preCopy d | .fetch _ d | .push d
  | .postCopy d | .attemptMount d | .onMounted d => [d]
  | .successors d l => d :: l
  | .close _ => []

/-- Where the items of a `Go` call come from: every item a call has still to reach after a
step was an item of a call before the step or is a successor held by a goroutine. -/
def CallsStep (s s1 : State) : Prop :=
  ∀ c1 ∈ s1.calls, ∀ n ∈ c1.pending,
    (∃ c ∈ s.calls, n ∈ c.pending) ∨ (∃ t ∈ s.tasks, n ∈ t.succs)

/-- No foreign layer but the root: the descriptors of the goroutines, of the items of the
`Go` calls and of the events of the trace are the root or no foreign layer, and the
successors held by the goroutines are no foreign layers. -/
structure FInv (st : Stores) (root : Descriptor) (s : State) : Prop where
  tasks : ∀ t ∈ s.tasks, (t.desc = root ∨ st.IsForeignLayer t.desc = false) ∧
    (∀ n ∈ t.succs, st.IsForeignLayer n = false) ∧
    (∀ n ∈ t.pc.awaiting t.succs, st.IsForeignLayer n = false)
  calls : ∀ c ∈ s.calls, ∀ n ∈ c.pending, n = root ∨ st.IsForeignLayer n = false
  trace : ∀ e ∈ s.world.trace, ∀ d ∈ e.descs, d = root ∨ st.IsForeignLayer d = false

/-- The `Go` call of `copyGraph` will return an error: its `errgroup` has recorded one, or
its context or the context handed to `copyGraph` is cancelled. -/
def Bad (s : State) (c0 : Call) : Prop :=
  c0.egErr ≠ none ∨ c0.cause ≠ none ∨ s.ctxCause ≠ none

/-- What holds of the `Go` call of `copyGraph` at each program point of the goroutine of
the root: the goroutine counts as live until it has ended; before it commits there is no
other goroutine, no other call and nothing in the tracker; once it leaves with `nil` the
work on the root is done (`Q`) or the call will return an error. -/
def Late (Q : State → Prop) (s : State) (c0 : Call) : Pc → Prop
  | .start | .tryCommit =>
    c0.live = 1 ∧ s.tasks.length = 1 ∧ s.calls.length = 1 ∧ s.tracker = []
  | .leave none => c0.live = 1 ∧ (Q s ∨ Bad s c0)
  | .finished _ => c0.live = 0 ∧ (Q s ∨ Bad s c0)
  | _ => c0.live = 1

/-- The three phases of the `Go` call of `copyGraph`: the loop has not reached the root,
the loop broke off before it spawned the goroutine of the root, or the goroutine number 0
is the goroutine of the root. -/
inductive Phase (root : Descriptor) (Q : State → Prop) (s : State) (c0 : Call) : Prop where
  | fresh : c0.pending = [root] → c0.live = 0 → c0.result = none → s.tasks = [] →
      s.calls.length = 1 → s.tracker = [] → Phase root Q s c0
  | broken : c0.pending = [] → c0.live = 0 → s.tasks = [] → s.calls.length = 1 →
      Bad s c0 → Phase root Q s c0
  | running (t0 : Task) : c0.pending = [] → s.tasks[0]? = some t0 → t0.desc = root →
      t0.group = 0 → (∀ (i : Nat) (t : Task), s.tasks[i]? = some t → t.group = 0 → i = 0) →
      Late Q s c0 t0.pc → Phase root Q s c0

/-- The invariant of the `Go` call of `copyGraph`: when it has returned `nil`, the work on
the root is done. -/
def RInv (root : Descriptor) (Q : State → Prop) (s : State) : Prop :=
  ∃ c0, s.calls[0]? = some c0 ∧ c0.parent = none ∧ c0.caller = none ∧
    (c0.result = some none → Q s) ∧ Phase root Q s c0

/-- The descriptors the walk reaches from the root: the root, and the successors of a
reached descriptor that `removeForeignLayers` keeps. -/
inductive Reach (st : Stores) (g : Descriptor → List Descriptor) (root : Descriptor) :
    Descriptor → Prop where
  | root : Reach st g root root
  | step (d n : Descriptor) : Reach st g root d → n ∈ removeForeignLayers st (g d) →
      Reach st g root n

/-- A hook that leaves the blobs of the destination as they are. -/
def Hook.KeepsBlobs (h : Hook) : Prop :=
  ∀ d env, (h d env).2.blobs = env.blobs

/-- The conditions on the options under which a successful walk copies the graph `g`:
`FindSuccessors` returns the successors of `g`, which depend on the digest only, the
hooks do not change the blobs of the destination, and `PreCopy` never returns the
sentinel `errSkipDesc`. -/
structure GraphOptions (st : Stores) (opts : CopyGraphOptions)
    (g : Descriptor → List Descriptor) : Prop where
  find : ∀ d env l, (opts.findSuccessors st d env).1 = .ok l → l = g d
  findKeeps : ∀ d env, (opts.findSuccessors st d env).2.blobs = env.blobs
  digest : ∀ d d1 : Descriptor, d.digest = d1.digest → g d = g d1
  preCopy : ∀ h, opts.PreCopy = some h →
    h.KeepsBlobs ∧ ∀ d env, (h d env).1 ≠ some .errSkipDesc
  postCopy : ∀ h, opts.PostCopy = some h → h.KeepsBlobs
  onCopySkipped : ∀ h, opts.OnCopySkipped = some h → h.KeepsBlobs

/-- The destination holds, with every descriptor, the successors of it that are no
foreign layers. -/
def Env.Closed (st : Stores) (g : Descriptor → List Descriptor) (env : Env) : Prop :=
  ∀ d : Descriptor, d.digest ∈ env.blobs →
    ∀ n ∈ removeForeignLayers st (g d), n.digest ∈ env.blobs

/-- What holds of the blobs of the destination in every state of a run. -/
structure BInv (st : Stores) (g : Descriptor → List Descriptor) (s : State) : Prop where
  closure : s.world.env.Closed st g
  closed : ∀ k ∈ s.closed, k ∈ s.world.env.blobs
  present : ∀ t ∈ s.tasks, (t.pc = .onCopySkipped ∨ t.pc = .ret none) →
    t.desc.digest ∈ s.world.env.blobs
  succs : ∀ t ∈ s.tasks, t.pc.found = true → t.succs = removeForeignLayers st (g t.desc)

/-- What a move of a goroutine does to the blobs of the destination. -/
structure BlobsMove (st : Stores) (g : Descriptor → List Descriptor) (s : State) (t1 : Task)
    (cl1 : List Digest) (w1 : World) : Prop where
  closure : w1.env.Closed st g
  mono : ∀ k ∈ s.world.env.blobs, k ∈ w1.env.blobs
  closed : ∀ k ∈ cl1, k ∈ w1.env.blobs
  present : (t1.pc = .onCopySkipped ∨ t1.pc = .ret none) → t1.desc.digest ∈ w1.env.blobs
  succs : t1.pc.found = true → t1.succs = removeForeignLayers st (g t1.desc)

/-- The events of a mount: a call of `AttemptMount` or of `OnMounted`. -/
def Event.isMount : Event → Bool
  | .attemptMount _ | .onMounted _ => true
  | _ => false

/-- The events `close(done)`. -/
def Event.isClose : Event → Bool
  | .close _ => true
  | _ => false

/-- The committed call of the goroutine has returned an error to `syncutil.Go`. -/
def Pc.failed : Pc → Bool
  | .leave (some _) | .finished (some _) => true
  | _ => false

/-- The tokens are closed at most once: no `close` occurs twice in the trace, a `close`
comes after the call of `TryCommit` that committed a descriptor with the digest, and the
digest of a goroutine whose committed call has returned an error is claimed, not closed,
and held by no goroutine. -/
structure CloseInv (s : State) : Prop where
  once : ∀ k, s.world.trace.count (.close k) ≤ 1
  ordered : ∀ pre k, pre ++ [Event.close k] <+: s.world.trace →
    ∃ d : Descriptor, d.digest = k ∧ Event.tryCommit d true ∈ pre
  failed : ∀ (i : Nat) (t : Task), s.tasks[i]? = some t → t.pc.failed = true →
    t.desc.digest ∈ s.tracker ∧ t.desc.digest ∉ s.closed ∧
      ∀ (j : Nat) (u : Task), s.tasks[j]? = some u → u.pc.holds = true →
        u.desc.digest ≠ t.desc.digest

/-! ## `LimitedRegion` (limit.go 25-63) -/

/-- The semaphore `semaphore.Weighted` of `golang.org/x/sync`, as far as a region sees it:
the number of calls `Acquire(ctx, 1)` that returned `nil` and the number of calls
`Release(1)`. -/
structure Limiter where
  acquired : Nat
  released : Nat
deriving DecidableEq, Repr

/-- `LimitedRegion` provides a way to bound concurrent access to a code block: the field
`ended`; the fields `ctx` and `limiter` never change. -/
structure LimitedRegion where
  ended : Bool
deriving DecidableEq, Repr

/-- `LimitRegion` creates a new `LimitedRegion`; `limited` tells whether the limiter is not
`nil`, and the region is `nil` (`none`) when it is. -/
def LimitRegion (limited : Bool) : Option LimitedRegion :=
  if !limited then none else some { ended := true }

/-- `Start` starts the region with concurrency limit; `acquire` is what
`lr.limiter.Acquire(lr.ctx, 1)` returns when it is called. -/
def LimitedRegion.Start (lr : Option LimitedRegion) (lim : Limiter) (acquire : Option Error) :
    Option Error × Option LimitedRegion × Limiter :=
  match lr with
  | none => (none, none, lim)
  | some r =>
    if !r.ended then (none, some r, lim)
    else
      match acquire with
      | some err => (some err, some r, lim)
      | none => (none, some { r with ended := false },
                 { lim with acquired := lim.acquired + 1 })

/-- `End` ends the region with concurrency limit. -/
def LimitedRegion.End (lr : Option LimitedRegion) (lim : Limiter) :
    Option LimitedRegion × Limiter :=
  match lr with
  | none => (none, lim)
  | some r =>
    if r.ended then (some r, lim)
    else (some { r with ended := true }, { lim with released := lim.released + 1 })

/-- A call of a method of a region: `Start`, with what `Acquire` returns if it is called,
or `End`. -/
inductive RegionCall where
  | Start (acquire : Option Error)
  | End
deriving DecidableEq, Repr

/-- One call on a region. -/
def LimitedRegion.call (s : Option LimitedRegion × Limiter) :
    RegionCall → Option LimitedRegion × Limiter
  | .Start acquire => (LimitedRegion.Start s.1 s.2 acquire).2
  | .End => LimitedRegion.End s.1 s.2

/-- A sequence of calls on a region, one after the other. -/
def LimitedRegion.calls (s : Option LimitedRegion × Limiter) (cs : List RegionCall) :
    Option LimitedRegion × Limiter :=
  cs.foldl LimitedRegion.call s

/-- The number of permits a region holds. -/
def LimitedRegion.holding : Option LimitedRegion → Nat
  | some r => if r.ended then 0 else 1
  | none => 0

/-! ## The values `Copy` returns and its default (copy.go 148-183) -/

/-- The zero value `ocispec.Descriptor{}`. -/
def Descriptor.empty : Descriptor := { mediaType := "", digest := "", size := 0 }

/-- The two values a call of `Copy` returns: every `return` of `Copy` with an error
returns `ocispec.Descriptor{}` with it (copy.go 150, 153, 166, 172, 177, 181), the last
`return` the root and `nil`. -/
def Copy.returned : Except Error Descriptor → Descriptor × Option Error
  | .error err => (Descriptor.empty, some err)
  | .ok root => (root, none)

/-- The budget of the proxy `Copy` creates (copy.go 160-163). -/
def Copy.proxyBudget (opts : CopyOptions) : Int :=
  if opts.MaxMetadataBytes ≤ 0 then defaultCopyMaxMetadataBytes else opts.MaxMetadataBytes

/-! ## `syncutil.Go` for an arbitrary `fn` (limit.go 65-107)

`fn` is any function that uses its region through `Start` and `End` and returns a value:
in the model it is what a goroutine does between the invocation of `fn` and its return.
The limiter is not `nil`, as in every call of `copy.go`. -/

/-- The program points of a goroutine that `syncutil.Go` spawned for one item. -/
inductive Syncutil.Pc where
  /-- limit.go 85-92: spawned with a permit, about to test `egCtx.Done()`. -/
  | start
  /-- limit.go 94: `fn(egCtx, lr, t)` is running. -/
  | inFn
  /-- limit.go 85, 90, 94-98: the function handed to `eg.Go` is about to return `err`:
  `cancel(err)` for an error of `fn`, the deferred `lr.End()`. -/
  | leave (err : Option Error)
  /-- The goroutine has ended. -/
  | finished (err : Option Error)
deriving DecidableEq, Repr

/-- The goroutine has ended. -/
def Syncutil.Pc.isFinished : Syncutil.Pc → Bool
  | .finished _ => true
  | _ => false

/-- A goroutine of `syncutil.Go`: its item, its region and its program point. -/
structure Syncutil.Task (α : Type) where
  item : α
  lr : Option LimitedRegion
  pc : Syncutil.Pc
deriving DecidableEq, Repr

/-- What a call of `syncutil.Go` does, in the order it does it: the incoming context is
cancelled with a cause, `region.Start()` of the loop acquired a permit or failed, the
goroutine `i` skipped its task, invoked `fn`, `fn` returned, the goroutine called
`cancel(err)`. -/
inductive Syncutil.Event where
  | ctxCancel (err : Error)
  | acquire (ok : Bool)
  | skip (i : Nat)
  | invoke (i : Nat)
  | fnReturn (i : Nat) (err : Option Error)
  | cancel (i : Nat) (err : Error)
deriving DecidableEq, Repr

/-- The state of a call of `syncutil.Go`: the capacity of the limiter and its counters, the
cause of the incoming context, the cause recorded by `cancel`, the first error recorded by
the `errgroup`, the items the loop has not reached, the goroutines, the value returned and
the trace. -/
structure Syncutil.State (α : Type) where
  size : Nat
  limiter : Limiter
  ctxCause : Option Error
  cause : Option Error
  egErr : Option Error
  pending : List α
  tasks : List (Syncutil.Task α)
  result : Option (Option Error)
  trace : List Syncutil.Event
deriving DecidableEq, Repr

/-- The value of `context.Cause(ctx)` for the context made by `context.WithCancelCause`:
the cause given to the first `cancel`, which is recorded only while the incoming context
is not cancelled, else the cause of the incoming context. -/
def Syncutil.State.Cause {α : Type} (s : Syncutil.State α) : Option Error :=
  match s.cause with
  | some err => some err
  | none => s.ctxCause

/-- The call `cancel(err)`: records the cause unless the context is cancelled already. -/
def Syncutil.State.cancel {α : Type} (s : Syncutil.State α) (err : Error) : Syncutil.State α :=
  match s.Cause with
  | none => { s with cause := some err }
  | some _ => s

/-- Whether `egCtx.Done()` is ready: `egCtx` derives from `ctx`, and the `errgroup` cancels
it with the first error it records. -/
def Syncutil.State.egDone {α : Type} (s : Syncutil.State α) : Bool :=
  s.Cause.isSome || s.egErr.isSome

/-- What a call `limiter.Acquire(egCtx, 1)` can return now: `nil` when a permit is free
(`acquired`), the error of the context when `egCtx` is done; `none` when the outcome is not
possible. -/
def Syncutil.State.acquire {α : Type} (s : Syncutil.State α) (acquired : Bool) :
    Option (Option Error) :=
  if acquired then
    if s.limiter.acquired < s.size + s.limiter.released then some none else none
  else
    if s.egDone then some (some .canceled) else none

/-- What a call of `syncutil.Go` can do next.  `cancel err`: the caller cancels the incoming
context with cause `err`.  `loop acquired`: one iteration of the `for` loop, in which
`region.Start()` acquired a permit or failed.  `begin i`: the goroutine `i` runs its
`select`.  `regionEnd i`, `regionStart i acquired`: `fn` calls `region.End()` or
`region.Start()` in the goroutine `i`.  `fnReturn i err`: `fn` returns `err` in the goroutine
`i`.  `leave i`: the goroutine `i` ends.  `wait`: `eg.Wait()` returns and `Go` returns. -/
inductive Syncutil.Action where
  | cancel (err : Error)
  | loop (acquired : Bool)
  | begin (i : Nat)
  | regionEnd (i : Nat)
  | regionStart (i : Nat) (acquired : Bool)
  | fnReturn (i : Nat) (err : Option Error)
  | leave (i : Nat)
  | wait
deriving DecidableEq, Repr

/-- One iteration of the `for` loop (limit.go 74-101). -/
def Syncutil.loop {α : Type} (s : Syncutil.State α) (acquired : Bool) :
    Option (Syncutil.State α) :=
  match s.result, s.pending with
  | none, item :: rest =>
    match s.acquire acquired with
    | none => none
    | some outcome =>
      match (LimitedRegion.Start (LimitRegion true) s.limiter outcome).1 with
      | some err =>
        some { s.cancel err with pending := [], trace := s.trace ++ [.acquire false] }
      | none =>
        some { s with
          limiter := (LimitedRegion.Start (LimitRegion true) s.limiter outcome).2.2
          pending := rest
          tasks := s.tasks ++
            [{ item := item, lr := (LimitedRegion.Start (LimitRegion true) s.limiter outcome).2.1,
               pc := .start }]
          trace := s.trace ++ [.acquire true] }
  | _, _ => none

/-- The `select` of a goroutine (limit.go 87-94): it skips the task when `egCtx` is done
and invokes `fn` otherwise. -/
def Syncutil.begin {α : Type} (s : Syncutil.State α) (i : Nat) : Option (Syncutil.State α) :=
  match s.tasks[i]? with
  | none => none
  | some t =>
    match t.pc with
    | .start =>
      if s.egDone then
        some { s with tasks := s.tasks.set i { t with pc := .leave none },
                      trace := s.trace ++ [.skip i] }
      else
        some { s with tasks := s.tasks.set i { t with pc := .inFn },
                      trace := s.trace ++ [.invoke i] }
    | _ => none

/-- A call of `region.End()` by `fn`. -/
def Syncutil.regionEnd {α : Type} (s : Syncutil.State α) (i : Nat) :
    Option (Syncutil.State α) :=
  match s.tasks[i]? with
  | none => none
  | some t =>
    match t.pc with
    | .inFn =>
      some { s with limiter := (LimitedRegion.End t.lr s.limiter).2,
                    tasks := s.tasks.set i { t with lr := (LimitedRegion.End t.lr s.limiter).1 } }
    | _ => none

/-- A call of `region.Start()` by `fn`; a region that holds a permit does not call
`Acquire`. -/
def Syncutil.regionStart {α : Type} (s : Syncutil.State α) (i : Nat) (acquired : Bool) :
    Option (Syncutil.State α) :=
  match s.tasks[i]? with
  | none => none
  | some t =>
    match t.pc with
    | .inFn =>
      match (if LimitedRegion.holding t.lr = 1 then some none else s.acquire acquired) with
      | none => none
      | some outcome =>
        some { s with
          limiter := (LimitedRegion.Start t.lr s.limiter outcome).2.2
          tasks := s.tasks.set i { t with lr := (LimitedRegion.Start t.lr s.limiter outcome).2.1 } }
    | _ => none

/-- The return of `fn` with `err` (limit.go 94). -/
def Syncutil.fnReturn {α : Type} (s : Syncutil.State α) (i : Nat) (err : Option Error) :
    Option (Syncutil.State α) :=
  match s.tasks[i]? with
  | none => none
  | some t =>
    match t.pc with
    | .inFn =>
      some { s with tasks := s.tasks.set i { t with pc := .leave err },
                    trace := s.trace ++ [.fnReturn i err] }
    | _ => none

/-- The end of a goroutine (limit.go 85, 95-98): `cancel(err)` for an error of `fn`, the
deferred `lr.End()`, and the `errgroup` records the first error. -/
def Syncutil.leave {α : Type} (s : Syncutil.State α) (i : Nat) : Option (Syncutil.State α) :=
  match s.tasks[i]? with
  | none => none
  | some t =>
    match t.pc with
    | .leave none =>
      some { s with limiter := (LimitedRegion.End t.lr s.limiter).2,
                    tasks := s.tasks.set i
                      { t with lr := (LimitedRegion.End t.lr s.limiter).1, pc := .finished none } }
    | .leave (some err) =>
      some { s.cancel err with
        limiter := (LimitedRegion.End t.lr s.limiter).2
        egErr := (match s.egErr with
          | some e => some e
          | none => some err)
        tasks := s.tasks.set i
          { t with lr := (LimitedRegion.End t.lr s.limiter).1, pc := .finished (some err) }
        trace := s.trace ++ [.cancel i err] }
    | _ => none

/-- The end of `syncutil.Go` (limit.go 103-106): `eg.Wait()` returns once the loop is over
and every goroutine has ended, and `Go` returns `context.Cause(ctx)`. -/
def Syncutil.wait {α : Type} (s : Syncutil.State α) : Option (Syncutil.State α) :=
  match s.result, s.pending with
  | none, [] =>
    if s.tasks.all (fun t => t.pc.isFinished) then
      match s.egErr with
      | some err => some { s.cancel err with result := some (s.cancel err).Cause }
      | none => some { s with result := some s.Cause }
    else none
  | _, _ => none

/-- One step of a call of `syncutil.Go`; `none` when the action is not enabled. -/
def Syncutil.step {α : Type} (s : Syncutil.State α) : Syncutil.Action → Option (Syncutil.State α)
  | .cancel err =>
    match s.result, s.ctxCause with
    | none, none => some { s with ctxCause := some err, trace := s.trace ++ [.ctxCancel err] }
    | _, _ => none
  | .loop acquired => Syncutil.loop s acquired
  | .begin i => Syncutil.begin s i
  | .regionEnd i => Syncutil.regionEnd s i
  | .regionStart i acquired => Syncutil.regionStart s i acquired
  | .fnReturn i err => Syncutil.fnReturn s i err
  | .leave i => Syncutil.leave s i
  | .wait => Syncutil.wait s

/-- A run of a call of `syncutil.Go`: the actions taken one after the other. -/
def Syncutil.run {α : Type} : Syncutil.State α → List Syncutil.Action → Option (Syncutil.State α)
  | s, [] => some s
  | s, a :: as =>
    match Syncutil.step s a with
    | none => none
    | some s1 => Syncutil.run s1 as

/-- The state in which `Go(ctx, limiter, fn, items...)` starts, with a limiter of capacity
`size`. -/
def Syncutil.init {α : Type} (size : Nat) (limiter : Limiter) (items : List α) :
    Syncutil.State α :=
  { size := size, limiter := limiter, ctxCause := none, cause := none, egErr := none,
    pending := items, tasks := [], result := none, trace := [] }

/-- `Go` concurrently invokes `fn` on items: along the run that takes the given actions,
the value returned and the final state; `none` when the actions are no run or `Go` has not
returned at their end. -/
def Syncutil.Go {α : Type} (size : Nat) (limiter : Limiter) (items : List α)
    (acts : List Syncutil.Action) : Option (Option Error × Syncutil.State α) :=
  match Syncutil.run (Syncutil.init size limiter items) acts with
  | none => none
  | some s =>
    match s.result with
    | none => none
    | some r => some (r, s)

/-- The cause of the first cancellation in a trace: of the incoming context or by a
goroutine. -/
def Syncutil.firstCancel : List Syncutil.Event → Option Error
  | [] => none
  | .ctxCancel err :: _ => some err
  | .cancel _ err :: _ => some err
  | _ :: rest => Syncutil.firstCancel rest

/-- The number of permits the goroutines hold. -/
def Syncutil.held {α : Type} (tasks : List (Syncutil.Task α)) : Nat :=
  (tasks.map (fun t => LimitedRegion.holding t.lr)).sum

/-- What holds of the cancellation in every state of a call of `syncutil.Go`: the cause of
the context is the cause of the first cancellation in the trace, an error recorded by the
`errgroup` or an acquisition that failed means the context is cancelled, and once `Go` has
returned, it has returned the cause, the loop is over and every goroutine has ended. -/
structure Syncutil.CauseInv {α : Type} (s : Syncutil.State α) : Prop where
  cause : s.Cause = Syncutil.firstCancel s.trace
  egErr : s.egErr.isSome = true → s.Cause.isSome = true
  acquireFailed : Syncutil.Event.acquire false ∈ s.trace → s.Cause.isSome = true
  returned : ∀ r, s.result = some r →
    r = s.Cause ∧ s.pending = [] ∧ ∀ t ∈ s.tasks, t.pc.isFinished = true

/-- The events of an invocation of `fn`: the invocation, the return, and the `cancel` of
its error. -/
def Syncutil.Event.isFn : Syncutil.Event → Bool
  | .invoke _ | .fnReturn _ _ | .cancel _ _ => true
  | _ => false

/-- The steps of a call of `syncutil.Go`, by what they change. -/
inductive Syncutil.Move {α : Type} (s : Syncutil.State α) : Syncutil.State α → Prop where
  | cancel (err : Error) : s.result = none → s.ctxCause = none →
      Syncutil.Move s { s with ctxCause := some err, trace := s.trace ++ [.ctxCancel err] }
  | spawn (item : α) (rest : List α) : s.result = none → s.pending = item :: rest →
      s.limiter.acquired < s.size + s.limiter.released →
      Syncutil.Move s { s with
        limiter := { s.limiter with acquired := s.limiter.acquired + 1 }
        pending := rest
        tasks := s.tasks ++ [{ item := item, lr := some { ended := false }, pc := .start }]
        trace := s.trace ++ [.acquire true] }
  | broke (item : α) (rest : List α) (err : Error) : s.result = none →
      s.pending = item :: rest → s.egDone = true →
      Syncutil.Move s { s.cancel err with pending := [], trace := s.trace ++ [.acquire false] }
  | skip (i : Nat) (t : Syncutil.Task α) : s.tasks[i]? = some t → t.pc = .start →
      s.egDone = true →
      Syncutil.Move s { s with tasks := s.tasks.set i { t with pc := .leave none },
                               trace := s.trace ++ [.skip i] }
  | invoke (i : Nat) (t : Syncutil.Task α) : s.tasks[i]? = some t → t.pc = .start →
      s.egDone = false →
      Syncutil.Move s { s with tasks := s.tasks.set i { t with pc := .inFn },
                               trace := s.trace ++ [.invoke i] }
  | region (i : Nat) (t : Syncutil.Task α) (c : RegionCall) : s.tasks[i]? = some t →
      t.pc = .inFn →
      (LimitedRegion.holding t.lr < LimitedRegion.holding (LimitedRegion.call (t.lr, s.limiter) c).1 →
        s.limiter.acquired < s.size + s.limiter.released) →
      Syncutil.Move s { s with
        limiter := (LimitedRegion.call (t.lr, s.limiter) c).2
        tasks := s.tasks.set i { t with lr := (LimitedRegion.call (t.lr, s.limiter) c).1 } }
  | fnReturn (i : Nat) (t : Syncutil.Task α) (err : Option Error) : s.tasks[i]? = some t →
      t.pc = .inFn →
      Syncutil.Move s { s with tasks := s.tasks.set i { t with pc := .leave err },
                               trace := s.trace ++ [.fnReturn i err] }
  | leaveOk (i : Nat) (t : Syncutil.Task α) : s.tasks[i]? = some t → t.pc = .leave none →
      Syncutil.Move s { s with
        limiter := (LimitedRegion.End t.lr s.limiter).2
        tasks := s.tasks.set i
          { t with lr := (LimitedRegion.End t.lr s.limiter).1, pc := .finished none } }
  | leaveErr (i : Nat) (t : Syncutil.Task α) (err : Error) : s.tasks[i]? = some t →
      t.pc = .leave (some err) →
      Syncutil.Move s { s.cancel err with
        limiter := (LimitedRegion.End t.lr s.limiter).2
        egErr := (match s.egErr with
          | some e => some e
          | none => some err)
        tasks := s.tasks.set i
          { t with lr := (LimitedRegion.End t.lr s.limiter).1, pc := .finished (some err) }
        trace := s.trace ++ [.cancel i err] }
  | wait (s0 : Syncutil.State α) : s.result = none → s.pending = [] →
      (∀ t ∈ s.tasks, t.pc.isFinished = true) →
      (s0 = s ∨ ∃ err, s.egErr = some err ∧ s0 = s.cancel err) →
      Syncutil.Move s { s0 with result := some s0.Cause }

/-- What holds of the invocations of `fn` in every state of a call of `syncutil.Go` on
`items`: the goroutines and the rest of the loop make up the items unless an acquisition
failed; a return of `fn` with an error is followed by its `cancel`; `fn` is invoked at most
once by a goroutine, and exactly once by a goroutine past its `select` unless the context
is cancelled; and `fn` is invoked only while the context is not cancelled. -/
structure Syncutil.FnInv {α : Type} (items : List α) (s : Syncutil.State α) : Prop where
  items : s.tasks.map (fun t => t.item) ++ s.pending = items ∨
    Syncutil.Event.acquire false ∈ s.trace
  failing : ∀ i e, Syncutil.Event.fnReturn i (some e) ∈ s.trace →
    (∃ t, s.tasks[i]? = some t ∧ t.pc = .leave (some e)) ∨ s.Cause.isSome = true
  cancelled : ∀ i e, Syncutil.Event.cancel i e ∈ s.trace →
    Syncutil.Event.fnReturn i (some e) ∈ s.trace
  leaving : ∀ (i : Nat) (t : Syncutil.Task α) (e : Error), s.tasks[i]? = some t →
    t.pc = .leave (some e) → Syncutil.Event.fnReturn i (some e) ∈ s.trace
  invoked : ∀ i : Nat, s.trace.count (.invoke i) ≤ 1 ∧
    (s.tasks.length ≤ i → s.trace.count (.invoke i) = 0) ∧
    ∀ t : Syncutil.Task α, s.tasks[i]? = some t →
      (t.pc = .start → s.trace.count (.invoke i) = 0) ∧
      (t.pc ≠ .start → s.trace.count (.invoke i) = 1 ∨ s.Cause.isSome = true)
  early : ∀ pre i, pre ++ [Syncutil.Event.invoke i] <+: s.trace →
    Syncutil.firstCancel pre = none

/-- What holds of the permits in every state of a call of `syncutil.Go` that started with
the counters `acq0` and `rel0`: the permits acquired since are the permits released since
and the permits the goroutines hold, a goroutine that has ended holds none, and no more
permits are out than the limiter has. -/
structure Syncutil.PermitInv {α : Type} (acq0 rel0 : Nat) (s : Syncutil.State α) : Prop where
  permits : s.limiter.acquired + rel0 = s.limiter.released + acq0 + Syncutil.held s.tasks
  ended : ∀ t ∈ s.tasks, t.pc.isFinished = true → LimitedRegion.holding t.lr = 0
  capacity : s.limiter.acquired ≤ s.size + s.limiter.released

/-! ## The steps of the walk, with the `Go` calls and the permits -/

/-- The goroutine has ended. -/
def Pc.hasEnded : Pc → Bool
  | .finished _ => true
  | _ => false

/-- The successors on which the goroutine has still to call `tracker.TryCommit` or to see
the token closed, in the loop that follows the `Go` call (copy.go 264-274). -/
def Pc.waits : Pc → List Descriptor
  | .await rest => rest
  | .waitDone node rest => node :: rest
  | _ => []

/-- The goroutine belongs to the `Go` call `g` and has not ended. -/
def Task.liveIn (g : Nat) (t : Task) : Bool :=
  t.group == g && !t.pc.hasEnded

/-- The number of goroutines of the `Go` call `g` that have not ended. -/
def State.liveCount (s : State) (g : Nat) : Nat :=
  s.tasks.countP (Task.liveIn g)

/-- The goroutine holds a permit: its region is started. -/
def Task.holding (t : Task) : Bool :=
  !t.ended

/-- The number of permits held by the goroutines. -/
def State.held (s : State) : Nat :=
  s.tasks.countP Task.holding

/-- A step of the walk, with what it does to the `Go` calls and to the permits: the caller
of `copyGraph` cancels, the loop of a `Go` call spawns a goroutine or breaks, a `Go` call
returns, a goroutine moves inside `fn` without a call of `Go` and without acquiring,
a goroutine calls `Go`, a goroutine acquires in `region.Start`, a goroutine ends. -/
inductive WalkStep (st : Stores) (opts : CopyGraphOptions) (s s1 : State) : Prop where
  | ctx (err : Error) : s.ctxCause = none → s1 = { s with ctxCause := some err } →
      WalkStep st opts s s1
  | spawn (g : Nat) (c : Call) (item : Descriptor) (rest : List Descriptor) :
      s.calls[g]? = some c → c.result = none → c.pending = item :: rest → 0 < s.free →
      s1 = { s with
        free := s.free - 1
        tasks := s.tasks ++ [{ desc := item, group := g, ended := false, succs := [],
                               pc := .start }]
        calls := s.calls.set g { c with pending := rest, live := c.live + 1 } } →
      WalkStep st opts s s1
  | broke (g : Nat) (c : Call) (item : Descriptor) (rest : List Descriptor) :
      s.calls[g]? = some c → c.result = none → c.pending = item :: rest →
      (s.cause g).isSome = true →
      s1 = { s with calls := s.calls.set g { c with pending := [] } } →
      WalkStep st opts s s1
  | wait (g : Nat) (c c1 : Call) (res : Option Error) :
      s.calls[g]? = some c → c.result = none → c.pending = [] → c.live = 0 →
      (res = none → s.cause g = none) →
      c1.parent = c.parent → c1.caller = c.caller → c1.pending = c.pending →
      c1.live = c.live → (c.cause.isSome = true → c1.cause.isSome = true) →
      c1.result = some res →
      s1.calls = s.calls.set g c1 →
      (c.caller = none ∧ s1.tasks = s.tasks ∨
        ∃ i t g0, c.caller = some i ∧ s.tasks[i]? = some t ∧ t.pc = .inGo g0 ∧
          s1.tasks = s.tasks.set i { t with pc := match res with
            | none => .await t.succs
            | some err => .ret (some err) }) →
      s1.free = s.free → s1.ctxCause = s.ctxCause → s1.tracker = s.tracker →
      s1.closed = s.closed → s1.world = s.world →
      c1.egErr = c.egErr → (res = none → c.egErr = none) →
      WalkStep st opts s s1
  | inner (i : Nat) (t t1 : Task) :
      s.tasks[i]? = some t → TaskMove st opts s t t1 s1.tracker s1.closed s1.world →
      s1.tasks = s.tasks.set i t1 → s1.calls = s.calls → s1.free = s.free →
      s1.ctxCause = s.ctxCause → t1.ended = t.ended →
      t.pc ≠ .go → (∀ e, t.pc ≠ .leave e) → (∀ g, t.pc ≠ .inGo g) →
      (∀ e, t.pc ≠ .finished e) → (∀ g, t1.pc ≠ .inGo g) → (∀ e, t1.pc ≠ .finished e) →
      WalkStep st opts s s1
  | call (i : Nat) (t : Task) :
      s.tasks[i]? = some t → t.pc = .go →
      s1.calls = s.calls ++ [{ parent := some t.group, caller := some i, pending := t.succs,
                               live := 0, cause := none, egErr := none, result := none }] →
      s1.tasks = s.tasks.set i { t with ended := true, pc := .inGo s.calls.length } →
      s1.free = (if t.ended then s.free else s.free + 1) →
      s1.ctxCause = s.ctxCause → s1.tracker = s.tracker → s1.closed = s.closed →
      s1.world = s.world →
      WalkStep st opts s s1
  | acquire (i : Nat) (t : Task) :
      s.tasks[i]? = some t → t.pc = .regionStart → t.ended = true → 0 < s.free →
      s1 = { s with free := s.free - 1,
                    tasks := s.tasks.set i { t with ended := false, pc := .cacheExists } } →
      WalkStep st opts s s1
  | leave (i : Nat) (t : Task) (err : Option Error) (c c1 : Call) :
      s.tasks[i]? = some t → t.pc = .leave err → s.calls[t.group]? = some c →
      c1.parent = c.parent → c1.caller = c.caller → c1.pending = c.pending →
      c1.live = c.live - 1 → (c.cause.isSome = true → c1.cause.isSome = true) →
      c1.result = c.result →
      s1.calls = s.calls.set t.group c1 →
      s1.tasks = s.tasks.set i { t with ended := true, pc := .finished err } →
      s1.free = (if t.ended then s.free else s.free + 1) →
      s1.ctxCause = s.ctxCause → s1.tracker = s.tracker → s1.closed = s.closed →
      s1.world = s.world →
      c1.egErr = (match c.egErr with
        | some e => some e
        | none => err) →
      WalkStep st opts s s1

/-- What holds of the `Go` calls and their goroutines in every state of a run: a goroutine
belongs to a call, `live` counts the goroutines of the call that have not ended, a call
that has returned has none, and the caller of a call other than the first is a goroutine of
an earlier call that is blocked in the call until it returns. -/
structure CallInv (s : State) : Prop where
  group : ∀ t ∈ s.tasks, t.group < s.calls.length
  live : ∀ (g : Nat) (c : Call), s.calls[g]? = some c → c.live = s.liveCount g
  returned : ∀ (g : Nat) (c : Call), s.calls[g]? = some c → c.result ≠ none → c.live = 0
  caller : ∀ (g : Nat) (c : Call), s.calls[g]? = some c →
    (c.caller = none ∧ g = 0) ∨
      ∃ (i : Nat) (t : Task), c.caller = some i ∧ s.tasks[i]? = some t ∧ t.group < g ∧
        (c.result = none → t.pc = .inGo g)

/-- What holds of the permits in every state of a run of `copyGraph` whose limiter has the
capacity `cap`: the free permits and the permits held add up to the capacity, and a
goroutine that has ended holds none. -/
structure RegionInv (cap : Nat) (s : State) : Prop where
  permits : s.free + s.held = cap
  ended : ∀ t ∈ s.tasks, t.pc.hasEnded = true → t.ended = true

/-- What holds of the tracker and the successors in every state of a run: a goroutine past
`tracker.TryCommit` has its descriptor in the tracker unless the context of its call is
cancelled; every item of a `Go` call that has not returned is still to come in the loop or
has a goroutine, unless the context of the call is cancelled; and the successors a
goroutine goes through after its `Go` call are in the tracker. -/
structure AwaitInv (s : State) : Prop where
  committed : ∀ t ∈ s.tasks, t.pc ≠ .start → t.pc ≠ .tryCommit →
    t.desc.digest ∈ s.tracker ∨ (s.cause t.group).isSome = true
  items : ∀ (g : Nat) (c : Call) (i : Nat) (t : Task), s.calls[g]? = some c →
    c.caller = some i → s.tasks[i]? = some t → c.result = none →
    ∀ n ∈ t.succs, n ∈ c.pending ∨ (∃ u ∈ s.tasks, u.group = g ∧ u.desc = n) ∨
      (s.cause g).isSome = true
  awaiting : ∀ t ∈ s.tasks, ∀ n ∈ t.pc.waits, n.digest ∈ s.tracker

/-- The number of permits of the limiter that are out: acquired and not released. -/
def Limiter.out (lim : Limiter) : Nat :=
  lim.acquired - lim.released

/-- The number of free permits of a limiter of capacity `size`. -/
def Limiter.free (size : Nat) (lim : Limiter) : Nat :=
  size - lim.out

/-- The `Go` call `h` is the call `g` or was made, directly or through further calls, by a
goroutine of the call `g`; `n` bounds the number of calls in between. -/
def State.under (s : State) : Nat → Nat → Nat → Bool
  | 0, g, h => decide (h = g)
  | n + 1, g, h =>
    decide (h = g) ||
      match s.calls[h]? with
      | none => false
      | some c =>
        match c.caller with
        | none => false
        | some i =>
          match s.tasks[i]? with
          | none => false
          | some u => s.under n g u.group

/-- The goroutine `t` was spawned by the `Go` call `g` or by a call made, directly or
through further calls, by a goroutine of the call `g`. -/
def State.spawnedUnder (s : State) (g : Nat) (t : Task) : Bool :=
  s.under s.calls.length g t.group

namespace Example

/-- An image index. -/
def index : Descriptor := { mediaType := "index", digest := "I", size := 3 }

/-- A second image manifest. -/
def manifest2 : Descriptor := { mediaType := "manifest", digest := "N", size := 2 }

/-- The successors in a graph with two levels: the index refers to the two manifests and
each manifest to one blob. -/
def deepSuccessors (desc : Descriptor) : List Descriptor :=
  if desc.digest = "I" then [manifest, manifest2]
  else if desc.digest = "M" then [blob]
  else if desc.digest = "N" then [blob2]
  else []

/-- The example stores over the graph with two levels. -/
def deepStores : Stores :=
  { stores with
    Successors := fun d env =>
      (.ok (deepSuccessors d),
       if d.mediaType == "blob" then env else { env with cache := d.digest :: env.cache }) }

/-- A run of the walk from the index, up to the call of `syncutil.Go` by the goroutine of
the first manifest: the goroutine of the second manifest is spawned and holds a permit. -/
def nestedCall : List Action :=
  [.loop 0 true] ++ runs 0 5 ++ [.loop 1 true, .loop 1 true] ++ runs 1 5

/-- The run `nestedCall` goes on: the goroutine of the second manifest ends its region and
calls `syncutil.Go`, the blob of the first manifest is copied, and the `Go` call of the
goroutine of the first manifest returns. -/
def nestedReturn : List Action :=
  nestedCall ++ runs 2 5 ++ [.loop 2 true] ++ runs 3 8 ++ [.wait 2]

/-- A run of `syncutil.Go` on three items with a limiter of one permit: the `fn` of the
first item ends its region, the `fn` of the second fails, the loop then fails to acquire
and breaks, and the `fn` of the first item fails to start its region again. -/
def goSchedule : List Syncutil.Action :=
  [.loop true, .begin 0, .regionEnd 0, .loop true, .begin 1,
   .fnReturn 1 (some (.other "boom")), .leave 1, .loop false, .regionStart 0 false,
   .fnReturn 0 (some .canceled), .leave 0, .wait]

/-- The state the run `goSchedule` ends in, the initial state if it is no run. -/
def goFinal : Syncutil.State Nat :=
  (Syncutil.run (Syncutil.init 1 { acquired := 0, released := 0 } [7, 8, 9]) goSchedule).getD
    (Syncutil.init 1 { acquired := 0, released := 0 } [7, 8, 9])

end Example

/-- The call of `fn` of the goroutine has returned `nil` to `syncutil.Go`. -/
def Pc.returned : Pc → Bool
  | .leave none | .finished none => true
  | _ => false

/-- The call of `fn` of the goroutine returns or has returned an error. -/
def Pc.failing : Pc → Bool
  | .ret (some _) | .leave (some _) | .finished (some _) => true
  | _ => false

/-- What holds of the tokens in every state of a run: a descriptor that a call of
`TryCommit` committed has a goroutine that holds its token, or whose call of `fn` has
returned `nil` with the token closed, or whose call of `fn` has returned an error. -/
structure TokenInv (s : State) : Prop where
  token : ∀ d, Event.tryCommit d true ∈ s.world.trace →
    ∃ (i : Nat) (t : Task), s.tasks[i]? = some t ∧ t.desc = d ∧
      (t.pc.holds = true ∨ (t.pc.returned = true ∧ d.digest ∈ s.closed) ∨
        t.pc.failed = true)

/-- What holds of the errors in every state of a run: a goroutine that has ended with an
error has it recorded by the `errgroup` of its `Go` call, a `Go` call that returned `nil`
has no error recorded, and the caller of a `Go` call that returned an error returns an
error. -/
structure ErrInv (s : State) : Prop where
  recorded : ∀ t ∈ s.tasks, ∀ e, t.pc = .finished (some e) →
    ∃ c, s.calls[t.group]? = some c ∧ c.egErr.isSome = true
  clean : ∀ (g : Nat) (c : Call), s.calls[g]? = some c → c.result = some none →
    c.egErr = none
  passed : ∀ (g : Nat) (c : Call) (i : Nat) (t : Task) (e : Error), s.calls[g]? = some c →
    c.caller = some i → s.tasks[i]? = some t → c.result = some (some e) →
    t.pc.failing = true

/-! # Theorems -/

/-! ## `removeForeignLayers` is a filter -/

theorem removeForeignLayers.loop_spec (st : Stores) (orig : List Descriptor) :
    ∀ (n i j : Nat) (descs : List Descriptor),
      j ≤ i → i + n = orig.length → descs.length = orig.length →
      descs.drop i = orig.drop i →
      descs.take j = (orig.take i).filter (fun d => !st.IsForeignLayer d) →
      ((removeForeignLayers.loop st n i j descs).1).take (removeForeignLayers.loop st n i j descs).2
        = orig.filter (fun d => !st.IsForeignLayer d) := by
  intro n
  induction n with
  | zero =>
    intro i j descs _ hn _ _ htake
    simp only [removeForeignLayers.loop]
    have hi : i = orig.length := by omega
    rw [htake, hi, List.take_length]
  | succ n ih =>
    intro i j descs hji hn hlen hdrop htake
    have hi : i < orig.length := by omega
    have hget : descs[i]? = orig[i]? := by
      have h1 := List.getElem?_drop descs i 0
      have h2 := List.getElem?_drop orig i 0
      rw [hdrop] at h1
      simpa using h1.symm.trans h2
    have hsome : orig[i]? = some orig[i] := List.getElem?_eq_getElem hi
    have htk : orig.take (i + 1) = orig.take i ++ [orig[i]] := by
      rw [List.take_succ, hsome]; rfl
    simp only [removeForeignLayers.loop, hget, hsome]
    by_cases hf : st.IsForeignLayer orig[i] = true
    · simp only [hf, Bool.not_true, Bool.false_eq_true, if_false]
      apply ih (i + 1) j descs (by omega) (by omega) hlen
      · have := congrArg (List.drop 1) hdrop
        simpa [List.drop_drop, Nat.add_comm] using this
      · rw [htk, List.filter_append, htake]
        simp [hf]
    · have hf2 : st.IsForeignLayer orig[i] = false := by simpa using hf
      simp only [hf2, Bool.not_false, if_true]
      have hdrop1 : descs.drop (i + 1) = orig.drop (i + 1) := by
        have := congrArg (List.drop 1) hdrop
        simpa [List.drop_drop, Nat.add_comm] using this
      have hjl : j < descs.length := by omega
      apply ih (i + 1) (j + 1) _ (by omega) (by omega)
      · split <;> simp [hlen]
      · split
        · rw [List.drop_set_of_lt _ _ (show j < i + 1 by omega)]; exact hdrop1
        · exact hdrop1
      · rw [htk, List.filter_append, ← htake]
        have hfl : List.filter (fun d => !st.IsForeignLayer d) [orig[i]] = [orig[i]] := by
          simp [hf2]
        rw [hfl]
        split
        · have hts : (descs.set j orig[i]).take j = descs.take j := by
            rw [List.set_eq_take_append_cons_drop, if_pos hjl]
            rw [List.take_append_of_le_length (by simp; omega)]
            simp
          rw [List.take_succ, hts, List.getElem?_set_self hjl]
          rfl
        · rename_i hij
          have hij2 : i = j := by simpa using hij
          rw [List.take_succ]
          subst hij2
          rw [hget, hsome]; rfl

theorem removeForeignLayers_eq_filter (st : Stores) (descs : List Descriptor) :
    removeForeignLayers st descs = descs.filter (fun d => !st.IsForeignLayer d) := by
  unfold removeForeignLayers
  exact removeForeignLayers.loop_spec st descs descs.length 0 0 descs (by omega) (by omega) rfl rfl
    (by simp)

/-! ## What `copyNode` adds to the trace -/

theorem doCopyNode_trace (st : Stores) (src : Source) (desc : Descriptor) (w : World) :
    ∃ evs, (doCopyNode st src desc w).2.trace = w.trace ++ evs ∧
      List.Sublist evs [Event.fetch src desc, Event.push desc] := by
  unfold doCopyNode
  simp only [World.emit]
  split
  · exact ⟨[.fetch src desc], by simp, by simp⟩
  · split
    · split
      · exact ⟨[.fetch src desc, .push desc], by simp, by simp⟩
      · exact ⟨[.fetch src desc, .push desc], by simp, by simp⟩
    · exact ⟨[.fetch src desc, .push desc], by simp, by simp⟩

theorem copyNode_trace (st : Stores) (src : Source) (desc : Descriptor)
    (opts : CopyGraphOptions) (w : World) :
    ∃ evs, (copyNode st src desc opts w).2.trace = w.trace ++ evs ∧
      List.Sublist evs [Event.preCopy desc, Event.fetch src desc, Event.push desc,
              Event.postCopy desc] := by
  obtain ⟨evs, h1, h2⟩ := doCopyNode_trace st src desc
    (match opts.PreCopy with
      | some h => (w.emit (.preCopy desc)).call h desc
      | none => (none, w)).2
  unfold copyNode
  cases hpre : opts.PreCopy with
  | none =>
    simp only [hpre] at h1 ⊢
    split
    · exact ⟨evs, h1, (h2.trans (by simp)).trans (List.sublist_cons_self _ _)⟩
    · cases hpost : opts.PostCopy with
      | none => exact ⟨evs, h1, (h2.trans (by simp)).trans (List.sublist_cons_self _ _)⟩
      | some hk =>
        refine ⟨evs ++ [.postCopy desc], by simp [World.call, World.emit, h1], ?_⟩
        have : List.Sublist (evs ++ [Event.postCopy desc])
            ([Event.fetch src desc, Event.push desc] ++ [Event.postCopy desc]) :=
          List.Sublist.append h2 (List.Sublist.refl _)
        exact this.trans (List.sublist_cons_self _ _)
  | some hk =>
    simp only [hpre, World.call, World.emit] at h1 ⊢
    split
    · split
      · exact ⟨[.preCopy desc], rfl, by simp⟩
      · exact ⟨[.preCopy desc], rfl, by simp⟩
    · split
      · refine ⟨.preCopy desc :: evs, by simp [h1], ?_⟩
        exact List.Sublist.cons₂ _ (h2.trans (by simp))
      · cases hpost : opts.PostCopy with
        | none =>
          refine ⟨.preCopy desc :: evs, by simp [h1], ?_⟩
          exact List.Sublist.cons₂ _ (h2.trans (by simp))
        | some hk2 =>
          refine ⟨.preCopy desc :: (evs ++ [.postCopy desc]), by simp [h1], ?_⟩
          exact List.Sublist.cons₂ _ (List.Sublist.append h2 (List.Sublist.refl _))

/-! ## `copyNode`, `doCopyNode`, `mountOrCopyNode` -/

/-- C7: when `PreCopy` returns an error, `copyNode` stops there: it returns success for
the sentinel `errSkipDesc` and the same error for any other error, and in both cases the
trace gains the call of `PreCopy` only (no fetch, no push, no `PostCopy`) and the stores
are as the hook left them. -/
theorem copyNode_preCopy_error (st : Stores) (src : Source) (desc : Descriptor)
    (opts : CopyGraphOptions) (w : World) (h : Hook) (err : Error)
    (hpre : opts.PreCopy = some h) (herr : (h desc w.env).1 = some err) :
    copyNode st src desc opts w =
      (if err = .errSkipDesc then none else some err,
       { env := (h desc w.env).2, trace := w.trace ++ [.preCopy desc] }) := by
  unfold copyNode
  simp only [hpre, World.call, World.emit, herr]
  split <;> rfl

theorem copyNode_preCopy_error_witness :
    copyNode Example.stores .base Example.blob
        { Example.noHooks with PreCopy := some Example.skipHook } Example.emptyWorld =
      (if Error.errSkipDesc = .errSkipDesc then none else some .errSkipDesc,
       { env := (Example.skipHook Example.blob Example.emptyWorld.env).2,
         trace := Example.emptyWorld.trace ++ [.preCopy Example.blob] }) :=
  copyNode_preCopy_error Example.stores .base Example.blob
    { Example.noHooks with PreCopy := some Example.skipHook } Example.emptyWorld
    Example.skipHook .errSkipDesc rfl rfl

/-- C10, as the code has it: `mountOrCopyNode` has no guard of its own, a hook of the user
that reports a manifest as mounted is believed: `OnMounted` is called and the manifest is
neither fetched nor pushed. -/
theorem mountOrCopyNode_mounts_manifest :
    Example.stores.IsManifest Example.manifest = true ∧
    mountOrCopyNode Example.stores .base Example.manifest
        { Example.noHooks with AttemptMount := some Example.alwaysMounted,
                               OnMounted := some Example.okHook } Example.emptyWorld =
      (none, { env := Example.emptyEnv,
               trace := [.attemptMount Example.manifest, .onMounted Example.manifest] }) := by
  decide

/-- C10, amended: for a manifest the hook installed by `WithCrossMount` answers "not
mounted" without calling `Mount`, and so does `tryMount`; with that hook
`mountOrCopyNode` is `copyNode` after the call of `AttemptMount`, and it does not call
`OnMounted`. -/
theorem mountOrCopyNode_withCrossMount_manifest (st : Stores) (src : Source)
    (desc : Descriptor) (opts : CopyGraphOptions) (a b : Reference) (mount : MountFn)
    (srcNamer dstNamer : Option Reference) (dstMounter : Option MountFn) (w : World)
    (hm : st.IsManifest desc = true) :
    mountOrCopyNode st src desc (opts.WithCrossMount st a b mount) w =
        copyNode st src desc (opts.WithCrossMount st a b mount) (w.emit (.attemptMount desc)) ∧
      (Event.onMounted desc ∉ w.trace →
        Event.onMounted desc ∉
          (mountOrCopyNode st src desc (opts.WithCrossMount st a b mount) w).2.trace) ∧
      tryMount st srcNamer dstNamer dstMounter desc w.env = (false, w.env) := by
  have hmc : mountOrCopyNode st src desc (opts.WithCrossMount st a b mount) w =
      copyNode st src desc (opts.WithCrossMount st a b mount) (w.emit (.attemptMount desc)) := by
    unfold mountOrCopyNode
    simp only [CopyGraphOptions.WithCrossMount, hm, World.emit]
    split <;> simp
  refine ⟨hmc, ?_, ?_⟩
  · intro hw
    rw [hmc]
    obtain ⟨evs, h1, h2⟩ := copyNode_trace st src desc (opts.WithCrossMount st a b mount)
      (w.emit (.attemptMount desc))
    rw [h1]
    simp only [World.emit, List.mem_append, List.mem_singleton, not_or]
    refine ⟨⟨hw, by simp⟩, ?_⟩
    intro hmem
    have := h2.subset hmem
    simp at this
  · simp [tryMount, hm]

theorem mountOrCopyNode_withCrossMount_manifest_witness :
    mountOrCopyNode Example.stores .base Example.manifest
        (Example.noHooks.WithCrossMount Example.stores ⟨"r", "a"⟩ ⟨"r", "b"⟩
          (fun _ _ env => (none, env))) Example.emptyWorld =
      copyNode Example.stores .base Example.manifest
        (Example.noHooks.WithCrossMount Example.stores ⟨"r", "a"⟩ ⟨"r", "b"⟩
          (fun _ _ env => (none, env)))
        (Example.emptyWorld.emit (.attemptMount Example.manifest)) :=
  (mountOrCopyNode_withCrossMount_manifest Example.stores .base Example.manifest
    Example.noHooks ⟨"r", "a"⟩ ⟨"r", "b"⟩ (fun _ _ env => (none, env)) none none none
    Example.emptyWorld rfl).1

/-! ## Every step is a core step -/

theorem State.cancel_tasks (s : State) (g : Nat) (err : Error) :
    (s.cancel g err).tasks = s.tasks ∧ (s.cancel g err).tracker = s.tracker ∧
    (s.cancel g err).closed = s.closed ∧ (s.cancel g err).world = s.world ∧
    (s.cancel g err).free = s.free ∧ (s.cancel g err).ctxCause = s.ctxCause := by
  unfold State.cancel
  split <;> simp

theorem regionEnd_fst (s : State) (t : Task) :
    (regionEnd s t).1.tasks = s.tasks ∧ (regionEnd s t).1.tracker = s.tracker ∧
    (regionEnd s t).1.closed = s.closed ∧ (regionEnd s t).1.world = s.world ∧
    (regionEnd s t).1.calls = s.calls ∧ (regionEnd s t).1.ctxCause = s.ctxCause := by
  unfold regionEnd
  split <;> simp

theorem regionEnd_snd (s : State) (t : Task) :
    ∃ ended, (regionEnd s t).2 = { t with ended := ended } := by
  unfold regionEnd
  split
  · exact ⟨t.ended, rfl⟩
  · exact ⟨true, rfl⟩

theorem Go.loop_core (st : Stores) (opts : CopyGraphOptions) (s s1 : State) (g : Nat)
    (acquired : Bool) (h : Go.loop s g acquired = some s1) : CoreStep st opts s s1 := by
  unfold Go.loop at h
  split at h
  · exact absurd h (by simp)
  · rename_i c hc
    split at h
    · rename_i item rest hres hpend
      split at h
      · split at h
        · cases h
          exact .spawn item g ⟨c, List.getElem?_mem hc, by rw [hpend]; simp⟩ rfl rfl rfl rfl
        · exact absurd h (by simp)
      · split at h
        · dsimp only at h
          split at h
          · cases h
            have hk := State.cancel_tasks s g .canceled
            exact .idle hk.1 hk.2.1 hk.2.2.1 hk.2.2.2.1
          · exact absurd h (by simp)
        · exact absurd h (by simp)
    · exact absurd h (by simp)

theorem Go.wait_core (st : Stores) (opts : CopyGraphOptions) (s s1 : State) (g : Nat)
    (h : Go.wait s g = some s1) : CoreStep st opts s s1 := by
  unfold Go.wait at h
  split at h
  · exact absurd h (by simp)
  · rename_i c hc
    split at h
    · rename_i hres hpend hlive
      have hs1 : ∀ s0 : State, (s0 = s ∨ ∃ err, s0 = s.cancel g err) →
          s0.tasks = s.tasks ∧ s0.tracker = s.tracker ∧ s0.closed = s.closed ∧
          s0.world = s.world := by
        intro s0 h0
        rcases h0 with rfl | ⟨err, rfl⟩
        · exact ⟨rfl, rfl, rfl, rfl⟩
        · have hk := State.cancel_tasks s g err
          exact ⟨hk.1, hk.2.1, hk.2.2.1, hk.2.2.2.1⟩
      have hs0 : (match c.egErr with
            | some err => s.cancel g err
            | none => s) = s ∨ ∃ err, (match c.egErr with
            | some err => s.cancel g err
            | none => s) = s.cancel g err := by
        cases c.egErr with
        | none => exact .inl rfl
        | some err => exact .inr ⟨err, rfl⟩
      have hk := hs1 _ hs0
      generalize (match c.egErr with
            | some err => s.cancel g err
            | none => s) = s0 at h hk
      dsimp only at h
      split at h
      · exact absurd h (by simp)
      · split at h
        · cases h
          exact .idle hk.1 hk.2.1 hk.2.2.1 hk.2.2.2
        · rename_i i hcaller
          simp only [hk.1] at h
          split at h
          · exact absurd h (by simp)
          · rename_i t ht
            split at h
            · rename_i g1 err hpc hres1
              cases h
              refine .task i t { t with pc := .ret (some err), ended := t.ended } ht
                (by simp [hk.1]) ?_
              simp only [hk.2.1, hk.2.2.1, hk.2.2.2]
              exact .localMove (.ret (some err)) t.ended (.fail err (.inr (.inl ⟨g1, hpc⟩)))
            · rename_i g1 hpc hres1
              cases h
              refine .task i t { t with pc := .await t.succs, ended := t.ended } ht
                (by simp [hk.1]) ?_
              simp only [hk.2.1, hk.2.2.1, hk.2.2.2]
              exact .localMove (.await t.succs) t.ended (.resume g1 hpc)
            · exact absurd h (by simp)
    · exact absurd h (by simp)

theorem Go.done_move (st : Stores) (opts : CopyGraphOptions) (s s0 s1 : State) (i : Nat)
    (t : Task) (err : Option Error) (hpc : t.pc = .leave err)
    (hk : s0.tasks = s.tasks ∧ s0.tracker = s.tracker ∧ s0.closed = s.closed ∧
      s0.world = s.world)
    (h : Go.done s0 i t err = some s1) :
    ∃ t1, s1.tasks = s.tasks.set i t1 ∧
      TaskMove st opts s t t1 s1.tracker s1.closed s1.world := by
  unfold Go.done at h
  split at h
  · exact absurd h (by simp)
  · rename_i c hc
    dsimp only at h
    generalize hs2 : ({ s0 with calls := s0.calls.set t.group { c with
        live := c.live - 1,
        egErr := match c.egErr with
          | some e => some e
          | none => err } } : State) = s2 at h
    have hk2 : s2.tasks = s0.tasks ∧ s2.tracker = s0.tracker ∧ s2.closed = s0.closed ∧
        s2.world = s0.world := by
      subst hs2
      exact ⟨rfl, rfl, rfl, rfl⟩
    obtain ⟨ended, hend⟩ := regionEnd_snd s2 t
    have hr := regionEnd_fst s2 t
    cases h
    refine ⟨{ t with pc := .finished err, ended := ended }, ?_, ?_⟩
    · simp only [hr.1, hk.1, hk2.1, hend]
    · simp only [hr.2.1, hr.2.2.1, hr.2.2.2.1, hk.2.1, hk.2.2.1, hk.2.2.2, hk2.2.1, hk2.2.2.1,
        hk2.2.2.2]
      exact .localMove (.finished err) ended (.ended err hpc)

theorem Go.leave_move (st : Stores) (opts : CopyGraphOptions) (s s1 : State) (i : Nat)
    (t : Task) (err : Option Error) (hpc : t.pc = .leave err)
    (h : Go.leave s i t err = some s1) :
    ∃ t1, s1.tasks = s.tasks.set i t1 ∧
      TaskMove st opts s t t1 s1.tracker s1.closed s1.world := by
  unfold Go.leave at h
  split at h
  · rename_i e
    have hk := State.cancel_tasks s t.group e
    exact Go.done_move st opts s _ s1 i t _ hpc ⟨hk.1, hk.2.1, hk.2.2.1, hk.2.2.2.1⟩ h
  · exact Go.done_move st opts s _ s1 i t _ hpc ⟨rfl, rfl, rfl, rfl⟩ h

theorem fn_move (st : Stores) (opts : CopyGraphOptions) (s s1 : State) (i : Nat) (t : Task)
    (alt : Bool) (h : fn st opts s i t alt = some s1) :
    ∃ t1, s1.tasks = s.tasks.set i t1 ∧
      TaskMove st opts s t t1 s1.tracker s1.closed s1.world := by
  unfold fn at h
  dsimp only at h
  split at h
  · -- start
    rename_i hpc
    split at h <;> cases h
    · rename_i hcause
      exact ⟨{ t with pc := .leave none, ended := t.ended }, rfl,
        (.localMove _ _ (.skip hpc hcause))⟩
    · exact ⟨{ t with pc := .tryCommit, ended := t.ended }, rfl, (.localMove _ _ (.enter hpc))⟩
  · -- tryCommit
    rename_i hpc
    split at h <;> cases h
    · rename_i hmem
      exact ⟨_, rfl, (.duplicate hpc hmem)⟩
    · rename_i hmem
      exact ⟨_, rfl, (.commit hpc hmem)⟩
  · -- exists
    rename_i hpc
    split at h
    · rename_i err herr
      cases h
      exact ⟨{ t with pc := .ret (some err), ended := t.ended }, rfl, (.localMove _ _ (.fail err (.inl hpc)))⟩
    · rename_i found hfound
      have hf : found = decide (t.desc.digest ∈ s.world.env.blobs) := by
        unfold dstExists at hfound
        split at hfound
        · cases hfound
        · cases hfound; rfl
      subst hf
      have hmove := @TaskMove.existsOk st opts s t hpc
      by_cases hb : t.desc.digest ∈ s.world.env.blobs
      · simp only [hb, decide_True, if_true] at h hmove
        cases h
        exact ⟨_, rfl, hmove⟩
      · simp only [hb, decide_False, if_false, Bool.false_eq_true] at h hmove
        cases h
        exact ⟨_, rfl, hmove⟩
  · -- onCopySkipped
    rename_i hpc
    split at h
    · rename_i hk hopt
      cases h
      exact ⟨_, rfl, (.skipped hk hpc hopt)⟩
    · rename_i hopt
      cases h
      exact ⟨_, rfl, (.skippedNone hpc hopt)⟩
  · -- findSuccessors
    rename_i hpc
    split at h
    · rename_i err herr
      cases h
      exact ⟨_, rfl, (.findErr err hpc herr)⟩
    · rename_i l hl
      split at h
      · rename_i hne
        cases h
        refine ⟨_, rfl, .findOk l .go hpc hl (.inl ⟨rfl, ?_⟩)⟩
        intro hnil
        simp [hnil] at hne
      · rename_i hne
        cases h
        refine ⟨_, rfl, .findOk l .cacheExists hpc hl (.inr ⟨rfl, ?_⟩)⟩
        simpa using hne
  · -- go
    rename_i hpc
    cases h
    obtain ⟨ended, hend⟩ := regionEnd_snd s t
    have hr := regionEnd_fst s t
    refine ⟨{ t with pc := .inGo (regionEnd s t).1.calls.length, ended := ended }, ?_, ?_⟩
    · simp only [hr.1, hend]
    · simp only [hr.2.1, hr.2.2.1, hr.2.2.2.1]
      exact .localMove _ ended (.call _ hpc)
  · -- inGo
    exact absurd h (by simp)
  · -- await []
    rename_i hpc
    cases h
    exact ⟨{ t with pc := .regionStart, ended := t.ended }, rfl, (.localMove _ _ (.awaited hpc))⟩
  · -- await (node :: rest)
    rename_i node rest hpc
    split at h <;> cases h
    · rename_i hmem
      exact ⟨_, rfl, (.awaitToken node rest hpc hmem)⟩
    · rename_i hmem
      exact ⟨_, rfl, (.awaitCommitted node rest hpc hmem)⟩
  · -- waitDone
    rename_i node rest hpc
    split at h
    · split at h
      · cases h
        exact ⟨{ t with pc := .ret (some .canceled), ended := t.ended }, rfl, (.localMove _ _ (.fail _ (.inr (.inr (.inl ⟨node, rest, hpc⟩)))))⟩
      · exact absurd h (by simp)
    · split at h
      · rename_i hcl
        cases h
        exact ⟨{ t with pc := .await rest, ended := t.ended }, rfl, (.localMove _ _ (.token node rest hpc hcl))⟩
      · exact absurd h (by simp)
  · -- regionStart
    rename_i hpc
    split at h
    · cases h
      exact ⟨{ t with pc := .cacheExists, ended := t.ended }, rfl, (.localMove _ _ (.acquired hpc))⟩
    · split at h
      · split at h
        · cases h
          exact ⟨{ t with pc := .ret (some .canceled), ended := t.ended }, rfl, (.localMove _ _ (.fail _ (.inr (.inr (.inr (.inl hpc))))))⟩
        · exact absurd h (by simp)
      · split at h
        · cases h
          exact ⟨{ t with pc := .cacheExists, ended := false }, rfl, (.localMove _ _ (.acquired hpc))⟩
        · exact absurd h (by simp)
  · -- cacheExists
    rename_i hpc
    split at h <;> cases h
    · rename_i err herr
      exact ⟨{ t with pc := .ret (some err), ended := t.ended }, rfl, (.localMove _ _ (.fail err (.inr (.inr (.inr (.inr hpc))))))⟩
    · rename_i found hfound
      exact ⟨{ t with pc := .copy (if found then .cache else .base),
                               ended := t.ended }, rfl, (.localMove _ _ (.cached _ hpc))⟩
  · -- copy
    rename_i src hpc
    cases h
    exact ⟨_, rfl, (.copy src hpc)⟩
  · -- ret
    rename_i err hpc
    split at h <;> cases h
    · exact ⟨_, rfl, (.close hpc)⟩
    · rename_i e
      exact ⟨{ t with pc := .leave (some e), ended := t.ended }, rfl, (.localMove _ _ (.failed e hpc))⟩
  · -- leave
    rename_i err hpc
    exact Go.leave_move st opts s s1 i t err hpc h
  · -- finished
    exact absurd h (by simp)

theorem fn_core (st : Stores) (opts : CopyGraphOptions) (s s1 : State) (i : Nat) (t : Task)
    (alt : Bool) (hget : s.tasks[i]? = some t) (h : fn st opts s i t alt = some s1) :
    CoreStep st opts s s1 := by
  obtain ⟨t1, h1, h2⟩ := fn_move st opts s s1 i t alt h
  exact .task i t t1 hget h1 h2

theorem step_core (st : Stores) (opts : CopyGraphOptions) (s s1 : State) (a : Action)
    (h : step st opts s a = some s1) : CoreStep st opts s s1 := by
  cases a with
  | cancel err =>
    simp only [step] at h
    split at h
    · cases h
      exact .idle rfl rfl rfl rfl
    · exact absurd h (by simp)
  | loop g acquired => exact Go.loop_core st opts s s1 g acquired h
  | wait g => exact Go.wait_core st opts s s1 g h
  | run i alt =>
    simp only [step] at h
    split at h
    · exact absurd h (by simp)
    · rename_i t ht
      exact fn_core st opts s s1 i t alt ht h

/-! ## The effect of a move -/

theorem doCopyNode_trace_split (st : Stores) (src : Source) (desc : Descriptor) (w : World) :
    (doCopyNode st src desc w).2.trace = w.trace ++ [.fetch src desc] ∨
    (doCopyNode st src desc w).2.trace = w.trace ++ [.fetch src desc] ++ [.push desc] := by
  unfold doCopyNode
  simp only [World.emit]
  split
  · exact .inl rfl
  · split
    · split
      · exact .inr rfl
      · exact .inr rfl
    · exact .inr rfl

theorem copyNode_trace_split (st : Stores) (src : Source) (desc : Descriptor)
    (opts : CopyGraphOptions) (w : World) :
    (∃ evs, (copyNode st src desc opts w).2.trace = w.trace ++ evs ∧
      ∀ e ∈ evs, e.neutral = true) ∨
    (∃ e1 e2, (copyNode st src desc opts w).2.trace = w.trace ++ e1 ++ [.push desc] ++ e2 ∧
      (∀ e ∈ e1, e.neutral = true) ∧ (∀ e ∈ e2, e.neutral = true)) := by
  have hd := doCopyNode_trace_split st src desc
    (match opts.PreCopy with
      | some h => (w.emit (.preCopy desc)).call h desc
      | none => (none, w)).2
  unfold copyNode
  cases hpre : opts.PreCopy with
  | none =>
    simp only [hpre] at hd ⊢
    split
    · rcases hd with hd | hd
      · exact .inl ⟨[.fetch src desc], hd, by simp [Event.neutral]⟩
      · exact .inr ⟨[.fetch src desc], [], by simp [hd], by simp [Event.neutral], by simp⟩
    · cases hpost : opts.PostCopy with
      | none =>
        rcases hd with hd | hd
        · exact .inl ⟨[.fetch src desc], hd, by simp [Event.neutral]⟩
        · exact .inr ⟨[.fetch src desc], [], by simp [hd], by simp [Event.neutral], by simp⟩
      | some hk =>
        rcases hd with hd | hd
        · exact .inl ⟨[.fetch src desc, .postCopy desc],
            by simp [World.call, World.emit, hd], by simp [Event.neutral]⟩
        · exact .inr ⟨[.fetch src desc], [.postCopy desc],
            by simp [World.call, World.emit, hd], by simp [Event.neutral],
            by simp [Event.neutral]⟩
  | some hk =>
    simp only [hpre, World.call, World.emit] at hd ⊢
    split
    · split
      · exact .inl ⟨[.preCopy desc], rfl, by simp [Event.neutral]⟩
      · exact .inl ⟨[.preCopy desc], rfl, by simp [Event.neutral]⟩
    · split
      · rcases hd with hd | hd
        · exact .inl ⟨[.preCopy desc, .fetch src desc], by simp [hd], by simp [Event.neutral]⟩
        · exact .inr ⟨[.preCopy desc, .fetch src desc], [], by simp [hd],
            by simp [Event.neutral], by simp⟩
      · cases hpost : opts.PostCopy with
        | none =>
          rcases hd with hd | hd
          · exact .inl ⟨[.preCopy desc, .fetch src desc], by simp [hd],
              by simp [Event.neutral]⟩
          · exact .inr ⟨[.preCopy desc, .fetch src desc], [], by simp [hd],
              by simp [Event.neutral], by simp⟩
        | some hk2 =>
          rcases hd with hd | hd
          · exact .inl ⟨[.preCopy desc, .fetch src desc, .postCopy desc], by simp [hd],
              by simp [Event.neutral]⟩
          · exact .inr ⟨[.preCopy desc, .fetch src desc], [.postCopy desc], by simp [hd],
              by simp [Event.neutral], by simp [Event.neutral]⟩

theorem TaskMove.toEffect {st : Stores} {opts : CopyGraphOptions} {s : State} {t t1 : Task}
    {tracker closed : List Digest} {w : World}
    (h : TaskMove st opts s t t1 tracker closed w) : Effect s t tracker closed w.trace := by
  cases h with
  | localMove pc ended hm =>
    simpa using Effect.quiet (s := s) (t := t) [] (by simp)
  | commit hpc hmem => exact .commit t.desc hmem
  | duplicate hpc hmem => exact .quiet [_] (by simp [Event.neutral])
  | existsOk hpc => exact .quiet [_] (by simp [Event.neutral])
  | skipped hk hpc hopt => exact .quiet [_] (by simp [Event.neutral])
  | skippedNone hpc hopt => simpa using Effect.quiet (s := s) (t := t) [] (by simp)
  | findErr err hpc herr => simpa using Effect.quiet (s := s) (t := t) [] (by simp)
  | findOk l pc hpc hl hpc1 => exact .list _ hpc
  | awaitToken node rest hpc hmem => exact .quiet [_] (by simp [Event.neutral])
  | awaitCommitted node rest hpc hmem => exact .commit node hmem
  | copy src hpc =>
    rcases copyNode_trace_split st src t.desc opts s.world with ⟨evs, h1, h2⟩ | ⟨e1, e2, h1, h2, h3⟩
    · rw [h1]; exact .quiet evs h2
    · rw [h1]; exact .push src e1 e2 hpc h2 h3
  | close hpc => exact .close hpc

/-! ## The invariant is kept: tracker, closed tokens and trace -/

theorem mem_append_neutral {trace evs : List Event} (ev : Event)
    (hn : ∀ e ∈ evs, e.neutral = true) (hev : ev.neutral = false) :
    ev ∈ trace ++ evs ↔ ev ∈ trace := by
  constructor
  · intro h
    rcases List.mem_append.1 h with h | h
    · exact h
    · have := hn ev h
      rw [hev] at this
      cases this
  · intro h
    exact List.mem_append_left _ h

theorem count_append_neutral {trace evs : List Event} (ev : Event)
    (hn : ∀ e ∈ evs, e.neutral = true) (hev : ev.neutral = false) :
    (trace ++ evs).count ev = trace.count ev := by
  have h0 : evs.count ev = 0 := by
    apply List.count_eq_zero_of_not_mem
    intro h
    have := hn ev h
    rw [hev] at this
    cases this
  rw [List.count_append, h0, Nat.add_zero]

theorem prefix_snoc_append {α : Type} {p l : List α} {x : α} :
    ∀ evs : List α, p ++ [x] <+: l ++ evs →
      p ++ [x] <+: l ∨ ∃ e1 e2, evs = e1 ++ x :: e2 ∧ p = l ++ e1 := by
  intro evs
  induction evs using List.reverseRecOn with
  | nil =>
    intro h
    left
    simpa using h
  | append_singleton es a ih =>
    intro h
    rw [← List.append_assoc, List.prefix_concat_iff] at h
    rcases h with h | h
    · right
      have := List.append_inj' h rfl
      refine ⟨es, [], ?_, this.1⟩
      have h2 : x = a := by simpa using this.2
      rw [h2]
    · rcases ih h with h1 | ⟨e1, e2, h1, h2⟩
      · exact .inl h1
      · right
        exact ⟨e1, e2 ++ [a], by rw [h1]; simp, h2⟩

theorem prefix_push_neutral {trace evs pre : List Event} {d : Descriptor}
    (hn : ∀ e ∈ evs, e.neutral = true) (h : pre ++ [Event.push d] <+: trace ++ evs) :
    pre ++ [Event.push d] <+: trace := by
  rcases prefix_snoc_append evs h with h1 | ⟨e1, e2, h1, _⟩
  · exact h1
  · have := hn (.push d) (by rw [h1]; simp)
    cases this

theorem GInv.quiet {tracker closed : List Digest} {trace evs : List Event}
    (hg : GInv tracker closed trace) (hn : ∀ e ∈ evs, e.neutral = true) :
    GInv tracker closed (trace ++ evs) where
  push_once d := by
    rw [count_append_neutral (.push d) hn rfl]; exact hg.push_once d
  pushed_committed d h :=
    List.mem_append_left _
      (hg.pushed_committed d ((mem_append_neutral (.push d) hn rfl).1 h))
  commit_once d := by
    rw [count_append_neutral (.tryCommit d true) hn rfl]; exact hg.commit_once d
  commit_tracked d h :=
    hg.commit_tracked d ((mem_append_neutral (.tryCommit d true) hn rfl).1 h)
  succ_tracked d l h :=
    hg.succ_tracked d l ((mem_append_neutral (.successors d l) hn rfl).1 h)
  succ_unique d l d1 l1 h h1 :=
    hg.succ_unique d l d1 l1 ((mem_append_neutral (.successors d l) hn rfl).1 h)
      ((mem_append_neutral (.successors d1 l1) hn rfl).1 h1)
  closed_tracked := hg.closed_tracked
  closed_iff k := by
    rw [mem_append_neutral (.close k) hn rfl]; exact hg.closed_iff k
  push_order pre d h := hg.push_order pre d (prefix_push_neutral hn h)
  push_open pre d h := hg.push_open pre d (prefix_push_neutral hn h)

theorem prefix_push_single {trace pre : List Event} {d : Descriptor} {ev : Event}
    (hev : ∀ d, ev ≠ Event.push d) (h : pre ++ [Event.push d] <+: trace ++ [ev]) :
    pre ++ [Event.push d] <+: trace := by
  rcases List.prefix_concat_iff.1 h with h1 | h1
  · have := (List.append_inj' h1 rfl).2
    simp only [List.cons.injEq, and_true] at this
    exact absurd this.symm (hev d)
  · exact h1

theorem GInv.commit {tracker closed : List Digest} {trace : List Event} {d : Descriptor}
    (hg : GInv tracker closed trace) (hd : d.digest ∉ tracker) :
    GInv (d.digest :: tracker) closed (trace ++ [.tryCommit d true]) where
  push_once d1 := by
    rw [List.count_append]
    have : [Event.tryCommit d true].count (.push d1) = 0 := by simp
    rw [this]; exact hg.push_once d1
  pushed_committed d1 h := by
    have h1 : Event.push d1 ∈ trace := by simpa using h
    exact List.mem_append_left _ (hg.pushed_committed d1 h1)
  commit_once d1 := by
    rw [List.count_append]
    by_cases hdd : d1 = d
    · subst hdd
      have h0 : trace.count (.tryCommit d1 true) = 0 :=
        List.count_eq_zero_of_not_mem (fun h => hd (hg.commit_tracked d1 h))
      rw [h0]; simp
    · have : [Event.tryCommit d true].count (.tryCommit d1 true) = 0 := by
        simp [List.count_singleton]
        intro h; exact hdd h.symm
      rw [this]; exact hg.commit_once d1
  commit_tracked d1 h := by
    rcases List.mem_append.1 h with h | h
    · exact List.mem_cons_of_mem _ (hg.commit_tracked d1 h)
    · have : d1 = d := by simpa using h
      rw [this]; exact List.mem_cons_self _ _
  succ_tracked d1 l h := by
    have h1 : Event.successors d1 l ∈ trace := by simpa using h
    exact List.mem_cons_of_mem _ (hg.succ_tracked d1 l h1)
  succ_unique d1 l d2 l2 h h2 := by
    have h1 : Event.successors d1 l ∈ trace := by simpa using h
    have h3 : Event.successors d2 l2 ∈ trace := by simpa using h2
    exact hg.succ_unique d1 l d2 l2 h1 h3
  closed_tracked k h := List.mem_cons_of_mem _ (hg.closed_tracked k h)
  closed_iff k := by
    rw [hg.closed_iff k]; simp
  push_order pre d1 h := hg.push_order pre d1 (prefix_push_single (by simp) h)
  push_open pre d1 h := hg.push_open pre d1 (prefix_push_single (by simp) h)

theorem GInv.list {tracker closed : List Digest} {trace : List Event} {t : Task}
    {l : List Descriptor} (hg : GInv tracker closed trace) (ht : TInv tracker closed trace t)
    (hpc : t.pc = .findSuccessors) :
    GInv tracker closed (trace ++ [.successors t.desc l]) where
  push_once d1 := by
    rw [List.count_append]
    have : [Event.successors t.desc l].count (.push d1) = 0 := by simp
    rw [this]; exact hg.push_once d1
  pushed_committed d1 h := by
    have h1 : Event.push d1 ∈ trace := by simpa using h
    exact List.mem_append_left _ (hg.pushed_committed d1 h1)
  commit_once d1 := by
    rw [List.count_append]
    have : [Event.successors t.desc l].count (.tryCommit d1 true) = 0 := by simp
    rw [this]; exact hg.commit_once d1
  commit_tracked d1 h := by
    have h1 : Event.tryCommit d1 true ∈ trace := by simpa using h
    exact hg.commit_tracked d1 h1
  succ_tracked d1 l1 h := by
    rcases List.mem_append.1 h with h | h
    · exact hg.succ_tracked d1 l1 h
    · have : d1 = t.desc := by
        simp only [List.mem_singleton, Event.successors.injEq] at h
        exact h.1
      rw [this]; exact ht.tracked (by rw [hpc]; rfl)
  succ_unique d1 l1 d2 l2 h h2 hd := by
    have hearly := ht.early (by rw [hpc]; rfl) (by rw [hpc]; rfl)
    rcases List.mem_append.1 h with h | h <;> rcases List.mem_append.1 h2 with h2 | h2
    · exact hg.succ_unique d1 l1 d2 l2 h h2 hd
    · simp only [List.mem_singleton, Event.successors.injEq] at h2
      exact absurd (hd.trans (congrArg Descriptor.digest h2.1)) (hearly d1 l1 h)
    · simp only [List.mem_singleton, Event.successors.injEq] at h
      exact absurd (hd.symm.trans (congrArg Descriptor.digest h.1)) (hearly d2 l2 h2)
    · simp only [List.mem_singleton, Event.successors.injEq] at h h2
      exact ⟨h.1.trans h2.1.symm, h.2.trans h2.2.symm⟩
  closed_tracked := hg.closed_tracked
  closed_iff k := by
    rw [hg.closed_iff k]; simp
  push_order pre d1 h := hg.push_order pre d1 (prefix_push_single (by simp) h)
  push_open pre d1 h := hg.push_open pre d1 (prefix_push_single (by simp) h)

theorem GInv.close {tracker closed : List Digest} {trace : List Event} {t : Task}
    (hg : GInv tracker closed trace) (ht : TInv tracker closed trace t)
    (hpc : t.pc = .ret none) :
    GInv tracker (t.desc.digest :: closed) (trace ++ [.close t.desc.digest]) where
  push_once d1 := by
    rw [List.count_append]
    have : [Event.close t.desc.digest].count (.push d1) = 0 := by simp
    rw [this]; exact hg.push_once d1
  pushed_committed d1 h := by
    have h1 : Event.push d1 ∈ trace := by simpa using h
    exact List.mem_append_left _ (hg.pushed_committed d1 h1)
  commit_once d1 := by
    rw [List.count_append]
    have : [Event.close t.desc.digest].count (.tryCommit d1 true) = 0 := by simp
    rw [this]; exact hg.commit_once d1
  commit_tracked d1 h := by
    have h1 : Event.tryCommit d1 true ∈ trace := by simpa using h
    exact hg.commit_tracked d1 h1
  succ_tracked d1 l h := by
    have h1 : Event.successors d1 l ∈ trace := by simpa using h
    exact hg.succ_tracked d1 l h1
  succ_unique d1 l d2 l2 h h2 := by
    have h1 : Event.successors d1 l ∈ trace := by simpa using h
    have h3 : Event.successors d2 l2 ∈ trace := by simpa using h2
    exact hg.succ_unique d1 l d2 l2 h1 h3
  closed_tracked k h := by
    rcases List.mem_cons.1 h with h | h
    · rw [h]; exact ht.tracked (by rw [hpc]; rfl)
    · exact hg.closed_tracked k h
  closed_iff k := by
    simp only [List.mem_cons, List.mem_append, List.mem_singleton, Event.close.injEq,
      hg.closed_iff k, List.not_mem_nil, or_false]
    exact or_comm
  push_order pre d1 h := hg.push_order pre d1 (prefix_push_single (by simp) h)
  push_open pre d1 h := hg.push_open pre d1 (prefix_push_single (by simp) h)

theorem GInv.pushOne {tracker closed : List Digest} {trace : List Event} {d : Descriptor}
    (hg : GInv tracker closed trace) (hnew : Event.push d ∉ trace)
    (hcommit : Event.tryCommit d true ∈ trace)
    (hsucc : ∃ l, Event.successors d l ∈ trace ∧ ∀ n ∈ l, Event.close n.digest ∈ trace)
    (hopen : Event.close d.digest ∉ trace) :
    GInv tracker closed (trace ++ [.push d]) where
  push_once d1 := by
    rw [List.count_append]
    by_cases hdd : d1 = d
    · subst hdd
      rw [List.count_eq_zero_of_not_mem hnew]; simp
    · have : [Event.push d].count (.push d1) = 0 := by
        simp [List.count_singleton]
        intro h; exact hdd h.symm
      rw [this]; exact hg.push_once d1
  pushed_committed d1 h := by
    rcases List.mem_append.1 h with h | h
    · exact List.mem_append_left _ (hg.pushed_committed d1 h)
    · have : d1 = d := by simpa using h
      rw [this]; exact List.mem_append_left _ hcommit
  commit_once d1 := by
    rw [List.count_append]
    have : [Event.push d].count (.tryCommit d1 true) = 0 := by simp
    rw [this]; exact hg.commit_once d1
  commit_tracked d1 h := by
    have h1 : Event.tryCommit d1 true ∈ trace := by simpa using h
    exact hg.commit_tracked d1 h1
  succ_tracked d1 l h := by
    have h1 : Event.successors d1 l ∈ trace := by simpa using h
    exact hg.succ_tracked d1 l h1
  succ_unique d1 l d2 l2 h h2 := by
    have h1 : Event.successors d1 l ∈ trace := by simpa using h
    have h3 : Event.successors d2 l2 ∈ trace := by simpa using h2
    exact hg.succ_unique d1 l d2 l2 h1 h3
  closed_tracked := hg.closed_tracked
  closed_iff k := by
    rw [hg.closed_iff k]; simp
  push_order pre d1 h := by
    rcases List.prefix_concat_iff.1 h with h1 | h1
    · have h2 := List.append_inj' h1 rfl
      have h3 : d1 = d := by simpa using h2.2
      rw [h2.1, h3]; exact hsucc
    · exact hg.push_order pre d1 h1
  push_open pre d1 h := by
    rcases List.prefix_concat_iff.1 h with h1 | h1
    · have h2 := List.append_inj' h1 rfl
      have h3 : d1 = d := by simpa using h2.2
      rw [h2.1, h3]; exact hopen
    · exact hg.push_open pre d1 h1

theorem GInv.push {tracker closed : List Digest} {trace e1 e2 : List Event} {t : Task}
    {src : Source} (hg : GInv tracker closed trace) (ht : TInv tracker closed trace t)
    (hpc : t.pc = .copy src) (h1 : ∀ e ∈ e1, e.neutral = true)
    (h2 : ∀ e ∈ e2, e.neutral = true) :
    GInv tracker closed (trace ++ e1 ++ [.push t.desc] ++ e2) := by
  have hholds : t.pc.holds = true := by rw [hpc]; rfl
  have howner : t.pc.owner = true := by rw [hpc]; rfl
  have hfound : t.pc.found = true := by rw [hpc]; rfl
  refine GInv.quiet (GInv.pushOne (hg.quiet h1) ?_ ?_ ?_ ?_) h2
  · rw [mem_append_neutral (.push t.desc) h1 rfl]
    intro h
    exact ht.unpushed howner t.desc h rfl
  · exact List.mem_append_left _ (ht.committed hholds)
  · refine ⟨t.succs, List.mem_append_left _ (ht.listed hfound), ?_⟩
    intro n hn
    rcases ht.awaiting hfound n hn with h | h
    · rw [hpc] at h
      simp [Pc.awaiting] at h
    · exact List.mem_append_left _ ((hg.closed_iff _).1 h)
  · rw [mem_append_neutral (.close t.desc.digest) h1 rfl, ← hg.closed_iff]
    exact ht.isOpen hholds

theorem GInv.ofEffect {s : State} {t : Task} {tracker closed : List Digest} {trace : List Event}
    (hg : GInv s.tracker s.closed s.world.trace) (ht : TInv s.tracker s.closed s.world.trace t)
    (he : Effect s t tracker closed trace) : GInv tracker closed trace := by
  cases he with
  | quiet evs hn => exact hg.quiet hn
  | commit d hd => exact hg.commit hd
  | list l hpc => exact hg.list ht hpc
  | push src e1 e2 hpc h1 h2 => exact hg.push ht hpc h1 h2
  | close hpc => exact hg.close ht hpc

/-! ## The invariant is kept: the goroutines -/

theorem TInv.stable {s : State} {t u : Task} {tracker closed : List Digest}
    {trace : List Event} (hu : TInv s.tracker s.closed s.world.trace u)
    (hlist : t.pc = .findSuccessors → u.pc.owner = true → u.pc.found = false →
      u.desc.digest ≠ t.desc.digest)
    (hpush : (∃ src, t.pc = .copy src) → u.pc.owner = true → u.desc.digest ≠ t.desc.digest)
    (hclose : t.pc = .ret none → u.pc.holds = true → u.desc.digest ≠ t.desc.digest)
    (he : Effect s t tracker closed trace) : TInv tracker closed trace u := by
  cases he with
  | quiet evs hn =>
    exact {
      tracked := hu.tracked
      isOpen := hu.isOpen
      committed := fun h => List.mem_append_left _ (hu.committed h)
      unpushed := fun h d hd =>
        hu.unpushed h d ((mem_append_neutral (.push d) hn rfl).1 hd)
      early := fun h h1 d l hd =>
        hu.early h h1 d l ((mem_append_neutral (.successors d l) hn rfl).1 hd)
      listed := fun h => List.mem_append_left _ (hu.listed h)
      awaiting := hu.awaiting }
  | commit d hd =>
    exact {
      tracked := fun h => List.mem_cons_of_mem _ (hu.tracked h)
      isOpen := hu.isOpen
      committed := fun h => List.mem_append_left _ (hu.committed h)
      unpushed := fun h d1 hd1 => hu.unpushed h d1 (by simpa using hd1)
      early := fun h h1 d1 l hd1 => hu.early h h1 d1 l (by simpa using hd1)
      listed := fun h => List.mem_append_left _ (hu.listed h)
      awaiting := hu.awaiting }
  | list l hpc =>
    exact {
      tracked := hu.tracked
      isOpen := hu.isOpen
      committed := fun h => List.mem_append_left _ (hu.committed h)
      unpushed := fun h d1 hd1 => hu.unpushed h d1 (by simpa using hd1)
      early := fun h h1 d1 l1 hd1 => by
        rcases List.mem_append.1 hd1 with hd1 | hd1
        · exact hu.early h h1 d1 l1 hd1
        · simp only [List.mem_singleton, Event.successors.injEq] at hd1
          rw [hd1.1]
          exact fun heq => hlist hpc h h1 heq.symm
      listed := fun h => List.mem_append_left _ (hu.listed h)
      awaiting := hu.awaiting }
  | push src e1 e2 hpc h1 h2 =>
    exact {
      tracked := hu.tracked
      isOpen := hu.isOpen
      committed := fun h => by
        simp only [List.append_assoc]
        exact List.mem_append_left _ (hu.committed h)
      unpushed := fun h d1 hd1 => by
        rw [mem_append_neutral (.push d1) h2 rfl] at hd1
        rcases List.mem_append.1 hd1 with hd1 | hd1
        · rw [mem_append_neutral (.push d1) h1 rfl] at hd1
          exact hu.unpushed h d1 hd1
        · have : d1 = t.desc := by simpa using hd1
          rw [this]
          exact fun heq => hpush ⟨src, hpc⟩ h heq.symm
      early := fun h h0 d1 l hd1 => by
        rw [mem_append_neutral (.successors d1 l) h2 rfl] at hd1
        have hd2 : Event.successors d1 l ∈ s.world.trace ++ e1 := by simpa using hd1
        rw [mem_append_neutral (.successors d1 l) h1 rfl] at hd2
        exact hu.early h h0 d1 l hd2
      listed := fun h => by
        simp only [List.append_assoc]
        exact List.mem_append_left _ (hu.listed h)
      awaiting := hu.awaiting }
  | close hpc =>
    exact {
      tracked := hu.tracked
      isOpen := fun h hmem => by
        rcases List.mem_cons.1 hmem with hmem | hmem
        · exact hclose hpc h hmem
        · exact hu.isOpen h hmem
      committed := fun h => List.mem_append_left _ (hu.committed h)
      unpushed := fun h d1 hd1 => hu.unpushed h d1 (by simpa using hd1)
      early := fun h h1 d1 l hd1 => hu.early h h1 d1 l (by simpa using hd1)
      listed := fun h => List.mem_append_left _ (hu.listed h)
      awaiting := fun h n hn => by
        rcases hu.awaiting h n hn with h1 | h1
        · exact .inl h1
        · exact .inr (List.mem_cons_of_mem _ h1) }

theorem TInv.local {tracker closed : List Digest} {trace : List Event} {t : Task} (t1 : Task)
    (ht : TInv tracker closed trace t) (hdesc : t1.desc = t.desc) (hsuccs : t1.succs = t.succs)
    (hh : t1.pc.holds = true → t.pc.holds = true)
    (ho : t1.pc.owner = true → t.pc.owner = true)
    (hf : t1.pc.found = true → t.pc.found = true)
    (hnf : t1.pc.owner = true → t1.pc.found = false → t.pc.found = false)
    (ha : t1.pc.found = true → ∀ n, n ∈ t.pc.awaiting t.succs ∨ n.digest ∈ closed →
      n ∈ t1.pc.awaiting t.succs ∨ n.digest ∈ closed) :
    TInv tracker closed trace t1 where
  tracked h := hdesc ▸ ht.tracked (hh h)
  isOpen h := hdesc ▸ ht.isOpen (hh h)
  committed h := hdesc ▸ ht.committed (hh h)
  unpushed h := hdesc ▸ ht.unpushed (ho h)
  early h h1 := hdesc ▸ ht.early (ho h) (hnf h h1)
  listed h := by rw [hdesc, hsuccs]; exact ht.listed (hf h)
  awaiting h n hn := by
    rw [hsuccs] at hn ⊢
    exact ha h n (ht.awaiting (hf h) n hn)

theorem TInv.localMove {s : State} {t : Task} {pc : Pc} {ended : Bool}
    (ht : TInv s.tracker s.closed s.world.trace t) (hm : LocalMove s t pc) :
    TInv s.tracker s.closed s.world.trace { t with pc := pc, ended := ended } := by
  refine TInv.local { t with pc := pc, ended := ended } ht rfl rfl ?_ ?_ ?_ ?_ ?_ <;>
    cases hm <;> try (simp_all [Pc.holds, Pc.owner, Pc.found, Pc.awaiting]; done)
  · rename_i err hpcs
    rcases hpcs with h | ⟨g, h⟩ | ⟨node, rest, h⟩ | h | h <;> simp [h, Pc.holds]
  · rename_i node rest hpc hcl
    intro _ n hn
    simp only [hpc, Pc.awaiting, List.mem_cons] at hn ⊢
    rcases hn with (rfl | hn) | hn
    · exact .inr hcl
    · exact .inl hn
    · exact .inr hn

theorem TInv.move {st : Stores} {opts : CopyGraphOptions} {s : State} {t t1 : Task}
    {tracker closed : List Digest} {w : World}
    (hg : GInv s.tracker s.closed s.world.trace) (ht : TInv s.tracker s.closed s.world.trace t)
    (hm : TaskMove st opts s t t1 tracker closed w) : TInv tracker closed w.trace t1 := by
  have he := hm.toEffect
  cases hm with
  | localMove pc ended hm => exact ht.localMove hm
  | commit hpc hmem =>
    exact {
      tracked := fun _ => List.mem_cons_self _ _
      isOpen := fun _ h => hmem (hg.closed_tracked _ h)
      committed := fun _ => by simp [World.emit]
      unpushed := fun _ d hd heq => by
        have hd1 : Event.push d ∈ s.world.trace := by simpa [World.emit] using hd
        exact hmem (heq ▸ hg.commit_tracked d (hg.pushed_committed d hd1))
      early := fun _ _ d l hd heq => by
        have hd1 : Event.successors d l ∈ s.world.trace := by simpa [World.emit] using hd
        exact hmem (heq ▸ hg.succ_tracked d l hd1)
      listed := fun h => by simp [Pc.found] at h
      awaiting := fun h => by simp [Pc.found] at h }
  | duplicate hpc hmem =>
    constructor <;> intro h <;> simp [Pc.holds, Pc.owner, Pc.found] at h
  | existsOk hpc =>
    by_cases hb : t.desc.digest ∈ s.world.env.blobs
    · rw [if_pos hb]
      refine TInv.stable (t := t) (TInv.local _ ht rfl rfl ?_ ?_ ?_ ?_ ?_) ?_ ?_ ?_ he <;>
        simp_all [Pc.holds, Pc.owner, Pc.found, Pc.awaiting]
    · rw [if_neg hb]
      refine TInv.stable (t := t) (TInv.local _ ht rfl rfl ?_ ?_ ?_ ?_ ?_) ?_ ?_ ?_ he <;>
        simp_all [Pc.holds, Pc.owner, Pc.found, Pc.awaiting]
  | skipped hk hpc hopt =>
    refine TInv.stable (t := t) (TInv.local _ ht rfl rfl ?_ ?_ ?_ ?_ ?_) ?_ ?_ ?_ he <;>
      simp_all [Pc.holds, Pc.owner, Pc.found, Pc.awaiting]
  | skippedNone hpc hopt =>
    refine TInv.stable (t := t) (TInv.local _ ht rfl rfl ?_ ?_ ?_ ?_ ?_) ?_ ?_ ?_ he <;>
      simp_all [Pc.holds, Pc.owner, Pc.found, Pc.awaiting]
  | findErr err hpc herr =>
    refine TInv.stable (t := t) (TInv.local _ ht rfl rfl ?_ ?_ ?_ ?_ ?_) ?_ ?_ ?_ he <;>
      simp_all [Pc.holds, Pc.owner, Pc.found, Pc.awaiting]
  | findOk l pc hpc hl hpc1 =>
    have hholds : t.pc.holds = true := by rw [hpc]; rfl
    have howner : t.pc.owner = true := by rw [hpc]; rfl
    exact {
      tracked := fun _ => ht.tracked hholds
      isOpen := fun _ => ht.isOpen hholds
      committed := fun _ => List.mem_append_left _ (ht.committed hholds)
      unpushed := fun _ d hd => ht.unpushed howner d (by simpa using hd)
      early := fun _ h => by
        rcases hpc1 with ⟨h1, _⟩ | ⟨h1, _⟩ <;> simp [h1, Pc.found] at h
      listed := fun _ => by simp
      awaiting := fun _ n hn => by
        rcases hpc1 with ⟨h1, _⟩ | ⟨h1, h2⟩
        · left
          simpa [h1, Pc.awaiting] using hn
        · simp [h2] at hn }
  | awaitToken node rest hpc hmem =>
    refine TInv.stable (t := t) (TInv.local _ ht rfl rfl ?_ ?_ ?_ ?_ ?_) ?_ ?_ ?_ he <;>
      simp_all [Pc.holds, Pc.owner, Pc.found, Pc.awaiting]
  | awaitCommitted node rest hpc hmem =>
    refine TInv.stable (t := t) (TInv.local _ ht rfl rfl ?_ ?_ ?_ ?_ ?_) ?_ ?_ ?_ he <;>
      simp_all [Pc.holds, Pc.owner, Pc.found, Pc.awaiting]
  | copy src hpc =>
    refine TInv.stable (t := t) (TInv.local _ ht rfl rfl ?_ ?_ ?_ ?_ ?_) ?_ ?_ ?_ he <;>
      simp_all [Pc.holds, Pc.owner, Pc.found, Pc.awaiting]
  | close hpc =>
    refine TInv.stable (t := t) (TInv.local _ ht rfl rfl ?_ ?_ ?_ ?_ ?_) ?_ ?_ ?_ he <;>
      simp_all [Pc.holds, Pc.owner, Pc.found, Pc.awaiting]

theorem TaskMove.desc_eq {st : Stores} {opts : CopyGraphOptions} {s : State} {t t1 : Task}
    {tracker closed : List Digest} {w : World}
    (hm : TaskMove st opts s t t1 tracker closed w) : t1.desc = t.desc := by
  cases hm <;> rfl

theorem TaskMove.holds_back {st : Stores} {opts : CopyGraphOptions} {s : State} {t t1 : Task}
    {tracker closed : List Digest} {w : World}
    (hm : TaskMove st opts s t t1 tracker closed w) (h : t1.pc.holds = true) :
    t.pc.holds = true ∨ t.desc.digest ∉ s.tracker := by
  cases hm with
  | localMove pc ended hm =>
    left
    cases hm <;> simp_all [Pc.holds]
    rename_i err hpcs
    rcases hpcs with h | ⟨g, h⟩ | ⟨node, rest, h⟩ | h | h <;> simp [h]
  | commit hpc hmem => exact .inr hmem
  | duplicate hpc hmem => simp [Pc.holds] at h
  | close hpc => simp [Pc.holds] at h
  | _ => left; simp_all [Pc.holds]

/-! ## The invariant holds in every state of a run -/

theorem getElem?_set_cases {α : Type} {l : List α} {i j : Nat} {a b : α}
    (h : (l.set i a)[j]? = some b) : (j = i ∧ b = a) ∨ (j ≠ i ∧ l[j]? = some b) := by
  rw [List.getElem?_set] at h
  split at h
  · rename_i hij
    split at h
    · cases h; exact .inl ⟨hij.symm, rfl⟩
    · cases h
  · rename_i hij
    exact .inr ⟨fun h1 => hij h1.symm, h⟩

theorem getElem?_concat_cases {α : Type} {l : List α} {j : Nat} {a b : α}
    (h : (l ++ [a])[j]? = some b) : l[j]? = some b ∨ (j = l.length ∧ b = a) := by
  rw [List.getElem?_append] at h
  split at h
  · exact .inl h
  · rename_i hj
    right
    have hj0 : j - l.length = 0 := by
      by_contra hne
      have : [a][j - l.length]? = none := by
        apply List.getElem?_eq_none
        simp; omega
      rw [this] at h; cases h
    rw [hj0] at h
    simp at h
    exact ⟨by omega, h.symm⟩

theorem Pc.holds_of_owner {pc : Pc} (h : pc.owner = true) : pc.holds = true := by
  cases pc <;> simp_all [Pc.owner, Pc.holds]

theorem Pc.owner_of_found {pc : Pc} (h : pc.found = true) : pc.owner = true := by
  cases pc <;> simp_all [Pc.owner, Pc.found]

theorem TInv.idle {tracker closed : List Digest} {trace : List Event} {t : Task}
    (h : t.pc.holds = false) : TInv tracker closed trace t where
  tracked h1 := by rw [h] at h1; cases h1
  isOpen h1 := by rw [h] at h1; cases h1
  committed h1 := by rw [h] at h1; cases h1
  unpushed h1 := by rw [Pc.holds_of_owner h1] at h; cases h
  early h1 := by rw [Pc.holds_of_owner h1] at h; cases h
  listed h1 := by rw [Pc.holds_of_owner (Pc.owner_of_found h1)] at h; cases h
  awaiting h1 := by rw [Pc.holds_of_owner (Pc.owner_of_found h1)] at h; cases h

theorem Inv.coreStep {st : Stores} {opts : CopyGraphOptions} {s s1 : State} (hinv : Inv s)
    (hc : CoreStep st opts s s1) : Inv s1 := by
  cases hc with
  | idle htasks htr hcl hw =>
    exact {
      shared := by rw [htr, hcl, hw]; exact hinv.shared
      task := fun i t h => by rw [htr, hcl, hw]; exact hinv.task i t (htasks ▸ h)
      unique := fun i j ti tj hi hj => hinv.unique i j ti tj (htasks ▸ hi) (htasks ▸ hj) }
  | spawn item g _ htasks htr hcl hw =>
    refine {
      shared := by rw [htr, hcl, hw]; exact hinv.shared
      task := fun i t h => ?_
      unique := fun i j ti tj hi hj hhi hhj => ?_ }
    · rw [htr, hcl, hw]
      rw [htasks] at h
      rcases getElem?_concat_cases h with h | ⟨_, rfl⟩
      · exact hinv.task i t h
      · exact TInv.idle rfl
    · rw [htasks] at hi hj
      rcases getElem?_concat_cases hi with hi | ⟨_, rfl⟩
      · rcases getElem?_concat_cases hj with hj | ⟨_, rfl⟩
        · exact hinv.unique i j ti tj hi hj hhi hhj
        · simp [Pc.holds] at hhj
      · simp [Pc.holds] at hhi
  | task i t t1 hget htasks hm =>
    have he := hm.toEffect
    have ht := hinv.task i t hget
    have hother : ∀ j u, j ≠ i → s.tasks[j]? = some u → t.pc.holds = true →
        u.pc.holds = true → u.desc.digest ≠ t.desc.digest := by
      intro j u hji hu hth huh heq
      exact hji (hinv.unique j i u t hu hget huh hth heq)
    refine {
      shared := GInv.ofEffect hinv.shared ht he
      task := fun j u h => ?_
      unique := fun a b ta tb ha hb hha hhb heq => ?_ }
    · rw [htasks] at h
      rcases getElem?_set_cases h with ⟨_, rfl⟩ | ⟨hji, hu⟩
      · exact TInv.move hinv.shared ht hm
      · refine TInv.stable (hinv.task j u hu) ?_ ?_ ?_ he
        · intro hpc ho _
          exact hother j u hji hu (by rw [hpc]; rfl) (Pc.holds_of_owner ho)
        · rintro ⟨src, hpc⟩ ho
          exact hother j u hji hu (by rw [hpc]; rfl) (Pc.holds_of_owner ho)
        · intro hpc hh
          exact hother j u hji hu (by rw [hpc]; rfl) hh
    · rw [htasks] at ha hb
      rcases getElem?_set_cases ha with ⟨rfl, rfl⟩ | ⟨hai, hta⟩ <;>
        rcases getElem?_set_cases hb with ⟨rfl, rfl⟩ | ⟨hbi, htb⟩
      · rfl
      · rw [hm.desc_eq] at heq
        rcases hm.holds_back hha with h | h
        · exact hinv.unique _ _ _ _ hget htb h hhb heq
        · exact absurd (heq ▸ (hinv.task b tb htb).tracked hhb) h
      · rw [hm.desc_eq] at heq
        rcases hm.holds_back hhb with h | h
        · exact hinv.unique _ _ _ _ hta hget hha h heq
        · exact absurd (heq ▸ (hinv.task a ta hta).tracked hha) h
      · exact hinv.unique a b ta tb hta htb hha hhb heq

theorem Inv.atInit (opts : CopyGraphOptions) (root : Descriptor) (env : Env) :
    Inv (copyGraph.init opts root env) where
  shared := {
    push_once := by simp [copyGraph.init]
    pushed_committed := by simp [copyGraph.init]
    commit_once := by simp [copyGraph.init]
    commit_tracked := by simp [copyGraph.init]
    succ_tracked := by simp [copyGraph.init]
    succ_unique := by simp [copyGraph.init]
    closed_tracked := by simp [copyGraph.init]
    closed_iff := by simp [copyGraph.init]
    push_order := by simp [copyGraph.init]
    push_open := by simp [copyGraph.init] }
  task := by simp [copyGraph.init]
  unique := by simp [copyGraph.init]

theorem Inv.alongRun {st : Stores} {opts : CopyGraphOptions} :
    ∀ (acts : List Action) (s s1 : State), Inv s → Oras.run st opts s acts = some s1 → Inv s1 := by
  intro acts
  induction acts with
  | nil =>
    intro s s1 hinv h
    simp only [Oras.run, Option.some.injEq] at h
    exact h ▸ hinv
  | cons a as ih =>
    intro s s1 hinv h
    simp only [Oras.run] at h
    split at h
    · cases h
    · rename_i s2 hstep
      exact ih s2 s1 (hinv.coreStep (step_core st opts s s2 a hstep)) h

/-! ## No foreign layer but the root is walked -/

theorem CallsStep.of_eq {s s1 : State} (h : s1.calls = s.calls) : CallsStep s s1 := by
  intro c1 hc1 n hn
  exact .inl ⟨c1, h ▸ hc1, hn⟩

theorem CallsStep.set {s s1 : State} {g : Nat} {c c1 : Call} (hc : s.calls[g]? = some c)
    (h : s1.calls = s.calls.set g c1) (hp : ∀ n ∈ c1.pending, n ∈ c.pending) :
    CallsStep s s1 := by
  intro c2 hc2 n hn
  rw [h] at hc2
  rcases List.mem_or_eq_of_mem_set hc2 with h2 | rfl
  · exact .inl ⟨c2, h2, hn⟩
  · exact .inl ⟨c, List.getElem?_mem hc, hp n hn⟩

theorem CallsStep.trans {s s1 s2 : State} (h1 : CallsStep s s1) (h2 : s2.calls = s1.calls)
    : CallsStep s s2 := by
  intro c2 hc2 n hn
  exact h1 c2 (h2 ▸ hc2) n hn

theorem State.cancel_calls (s : State) (g : Nat) (err : Error) :
    ∀ (c1 : Call) (k : Nat), (s.cancel g err).calls[k]? = some c1 →
      ∃ c, s.calls[k]? = some c ∧ c1.pending = c.pending ∧ c1.live = c.live ∧
        c1.result = c.result ∧ c1.caller = c.caller ∧ c1.parent = c.parent ∧
        c1.egErr = c.egErr := by
  intro c1 k h
  unfold State.cancel at h
  split at h
  · rename_i c hcause hc
    simp only at h
    rcases getElem?_set_cases h with ⟨rfl, rfl⟩ | ⟨_, h1⟩
    · exact ⟨c, hc, rfl, rfl, rfl, rfl, rfl, rfl⟩
    · exact ⟨c1, h1, rfl, rfl, rfl, rfl, rfl, rfl⟩
  · exact ⟨c1, h, rfl, rfl, rfl, rfl, rfl, rfl⟩

theorem State.cancel_callsStep (s : State) (g : Nat) (err : Error) :
    CallsStep s (s.cancel g err) := by
  intro c1 hc1 n hn
  obtain ⟨k, hk⟩ := List.mem_iff_getElem?.1 hc1
  obtain ⟨c, hc, hp, _⟩ := s.cancel_calls g err c1 k hk
  exact .inl ⟨c, List.getElem?_mem hc, hp ▸ hn⟩

theorem CallsStep.after_cancel {s s1 : State} {g k : Nat} {err : Error} {c c1 : Call}
    (hc : (s.cancel g err).calls[k]? = some c)
    (h : s1.calls = (s.cancel g err).calls.set k c1)
    (hp : ∀ n ∈ c1.pending, n ∈ c.pending) : CallsStep s s1 := by
  intro c2 hc2 n hn
  rw [h] at hc2
  rcases List.mem_or_eq_of_mem_set hc2 with h2 | rfl
  · exact s.cancel_callsStep g err c2 h2 n hn
  · exact s.cancel_callsStep g err c (List.getElem?_mem hc) n (hp n hn)

theorem Go.loop_calls (s s1 : State) (g : Nat) (acquired : Bool)
    (h : Go.loop s g acquired = some s1) : CallsStep s s1 := by
  unfold Go.loop at h
  split at h
  · cases h
  · rename_i c hc
    split at h
    · rename_i item rest hres hpend
      split at h
      · split at h
        · cases h
          exact CallsStep.set hc rfl (fun n hn => by rw [hpend]; exact List.mem_cons_of_mem _ hn)
        · cases h
      · split at h
        · dsimp only at h
          split at h
          · rename_i c1 hc1
            cases h
            exact CallsStep.after_cancel hc1 rfl (by simp)
          · cases h
        · cases h
    · cases h

theorem Go.wait_calls (s s1 : State) (g : Nat) (h : Go.wait s g = some s1) :
    CallsStep s s1 := by
  unfold Go.wait at h
  split at h
  · cases h
  · rename_i c hc
    split at h
    · rename_i hres hpend hlive
      have key : ∀ s0 : State, CallsStep s s0 →
          (match s0.calls[g]? with
            | none => none
            | some c1 =>
              let s2 : State := { s0 with calls := s0.calls.set g { c1 with result := some (s0.cause g) } }
              match c.caller with
              | none => some s2
              | some i =>
                match s2.tasks[i]? with
                | none => none
                | some t =>
                  match t.pc, s0.cause g with
                  | .inGo _, some err =>
                    some { s2 with tasks := s2.tasks.set i { t with pc := .ret (some err) } }
                  | .inGo _, none =>
                    some { s2 with tasks := s2.tasks.set i { t with pc := .await t.succs } }
                  | _, _ => none) = some s1 → CallsStep s s1 := by
        intro s0 h0 h1
        split at h1
        · cases h1
        · rename_i c1 hc1
          have hset : CallsStep s
              { s0 with calls := s0.calls.set g { c1 with result := some (s0.cause g) } } := by
            intro c2 hc2 n hn
            rcases List.mem_or_eq_of_mem_set hc2 with h2 | rfl
            · exact h0 c2 h2 n hn
            · exact h0 c1 (List.getElem?_mem hc1) n hn
          dsimp only at h1
          split at h1
          · cases h1; exact hset
          · split at h1
            · cases h1
            · split at h1
              · cases h1; exact hset.trans rfl
              · cases h1; exact hset.trans rfl
              · cases h1
      cases hegErr : c.egErr with
      | none =>
        rw [hegErr] at h
        exact key s (CallsStep.of_eq rfl) h
      | some err =>
        rw [hegErr] at h
        exact key (s.cancel g err) (s.cancel_callsStep g err) h
    · cases h

theorem Go.done_calls (s s0 s1 : State) (i : Nat) (t : Task) (err : Option Error)
    (h0 : CallsStep s s0) (h : Go.done s0 i t err = some s1) : CallsStep s s1 := by
  unfold Go.done at h
  split at h
  · cases h
  · rename_i c hc
    dsimp only at h
    generalize hs2 : ({ s0 with calls := s0.calls.set t.group { c with
        live := c.live - 1,
        egErr := match c.egErr with
          | some e => some e
          | none => err } } : State) = s2 at h
    have hset : CallsStep s s2 := by
      subst hs2
      intro c2 hc2 n hn
      rcases List.mem_or_eq_of_mem_set hc2 with h2 | rfl
      · exact h0 c2 h2 n hn
      · exact h0 c (List.getElem?_mem hc) n hn
    have hr := regionEnd_fst s2 t
    cases h
    exact hset.trans hr.2.2.2.2.1

theorem fn_calls (st : Stores) (opts : CopyGraphOptions) (s s1 : State) (i : Nat) (t : Task)
    (alt : Bool) (hget : s.tasks[i]? = some t) (h : fn st opts s i t alt = some s1) :
    CallsStep s s1 := by
  unfold fn at h
  dsimp only at h
  split at h
  · split at h <;> cases h <;> exact CallsStep.of_eq rfl
  · split at h <;> cases h <;> exact CallsStep.of_eq rfl
  · split at h
    · cases h; exact CallsStep.of_eq rfl
    · split at h <;> cases h <;> exact CallsStep.of_eq rfl
  · split at h <;> cases h <;> exact CallsStep.of_eq rfl
  · split at h
    · cases h; exact CallsStep.of_eq rfl
    · split at h <;> cases h <;> exact CallsStep.of_eq rfl
  · cases h
    have hr := regionEnd_fst s t
    intro c1 hc1 n hn
    simp only [List.mem_append, List.mem_singleton] at hc1
    rcases hc1 with h1 | rfl
    · exact .inl ⟨c1, hr.2.2.2.2.1 ▸ h1, hn⟩
    · exact .inr ⟨t, List.getElem?_mem hget, hn⟩
  · cases h
  · cases h; exact CallsStep.of_eq rfl
  · split at h <;> cases h <;> exact CallsStep.of_eq rfl
  · split at h
    · split at h
      · cases h; exact CallsStep.of_eq rfl
      · cases h
    · split at h
      · cases h; exact CallsStep.of_eq rfl
      · cases h
  · split at h
    · cases h; exact CallsStep.of_eq rfl
    · split at h
      · split at h
        · cases h; exact CallsStep.of_eq rfl
        · cases h
      · split at h
        · cases h; exact CallsStep.of_eq rfl
        · cases h
  · split at h <;> cases h <;> exact CallsStep.of_eq rfl
  · cases h; exact CallsStep.of_eq rfl
  · split at h <;> cases h <;> exact CallsStep.of_eq rfl
  · rename_i err hpc
    unfold Go.leave at h
    split at h
    · exact Go.done_calls s _ s1 i t _ (s.cancel_callsStep _ _) h
    · exact Go.done_calls s _ s1 i t _ (CallsStep.of_eq rfl) h
  · cases h

theorem step_calls (st : Stores) (opts : CopyGraphOptions) (s s1 : State) (a : Action)
    (h : step st opts s a = some s1) : CallsStep s s1 := by
  cases a with
  | cancel err =>
    simp only [step] at h
    split at h
    · cases h; exact CallsStep.of_eq rfl
    · cases h
  | loop g acquired => exact Go.loop_calls s s1 g acquired h
  | wait g => exact Go.wait_calls s s1 g h
  | run i alt =>
    simp only [step] at h
    split at h
    · cases h
    · rename_i t ht
      exact fn_calls st opts s s1 i t alt ht h

theorem copyNode_descs (st : Stores) (src : Source) (desc : Descriptor)
    (opts : CopyGraphOptions) (w : World) :
    ∀ e ∈ (copyNode st src desc opts w).2.trace, e ∈ w.trace ∨ e.descs = [desc] := by
  obtain ⟨evs, h1, h2⟩ := copyNode_trace st src desc opts w
  intro e he
  rw [h1] at he
  rcases List.mem_append.1 he with he | he
  · exact .inl he
  · right
    have := h2.subset he
    simp only [List.mem_cons, List.mem_singleton, List.not_mem_nil, or_false] at this
    rcases this with rfl | rfl | rfl | rfl <;> rfl

theorem TaskMove.foreign {st : Stores} {opts : CopyGraphOptions} {s : State} {t t1 : Task}
    {tracker closed : List Digest} {w : World}
    (hm : TaskMove st opts s t t1 tracker closed w) (root : Descriptor)
    (ht : (t.desc = root ∨ st.IsForeignLayer t.desc = false) ∧
      (∀ n ∈ t.succs, st.IsForeignLayer n = false) ∧
      (∀ n ∈ t.pc.awaiting t.succs, st.IsForeignLayer n = false)) :
    ((t1.desc = root ∨ st.IsForeignLayer t1.desc = false) ∧
      (∀ n ∈ t1.succs, st.IsForeignLayer n = false) ∧
      (∀ n ∈ t1.pc.awaiting t1.succs, st.IsForeignLayer n = false)) ∧
    ∀ e ∈ w.trace, e ∈ s.world.trace ∨
      ∀ d ∈ e.descs, d = root ∨ st.IsForeignLayer d = false := by
  obtain ⟨hd, hs, ha⟩ := ht
  cases hm with
  | localMove pc ended hm =>
    refine ⟨⟨hd, hs, ?_⟩, fun e he => .inl he⟩
    cases hm <;> simp_all [Pc.awaiting]
  | commit hpc hmem =>
    refine ⟨⟨hd, hs, by simp [Pc.awaiting]⟩, fun e he => ?_⟩
    simp only [World.emit, List.mem_append, List.mem_singleton] at he
    rcases he with he | rfl
    · exact .inl he
    · right; simpa [Event.descs] using hd
  | duplicate hpc hmem =>
    refine ⟨⟨hd, hs, by simp [Pc.awaiting]⟩, fun e he => ?_⟩
    simp only [World.emit, List.mem_append, List.mem_singleton] at he
    rcases he with he | rfl
    · exact .inl he
    · right; simpa [Event.descs] using hd
  | existsOk hpc =>
    refine ⟨⟨hd, hs, by split <;> simp [Pc.awaiting]⟩, fun e he => ?_⟩
    simp only [World.emit, List.mem_append, List.mem_singleton] at he
    rcases he with he | rfl
    · exact .inl he
    · right; simpa [Event.descs] using hd
  | skipped hk hpc hopt =>
    refine ⟨⟨hd, hs, by simp [Pc.awaiting]⟩, fun e he => ?_⟩
    simp only [List.mem_append, List.mem_singleton] at he
    rcases he with he | rfl
    · exact .inl he
    · right; simpa [Event.descs] using hd
  | skippedNone hpc hopt =>
    exact ⟨⟨hd, hs, by simp [Pc.awaiting]⟩, fun e he => .inl he⟩
  | findErr err hpc herr =>
    exact ⟨⟨hd, hs, by simp [Pc.awaiting]⟩, fun e he => .inl he⟩
  | findOk l pc hpc hl hpc1 =>
    have hfilter : ∀ n ∈ removeForeignLayers st l, st.IsForeignLayer n = false := by
      intro n hn
      rw [removeForeignLayers_eq_filter] at hn
      simpa using (List.mem_filter.1 hn).2
    refine ⟨⟨hd, hfilter, ?_⟩, fun e he => ?_⟩
    · rcases hpc1 with ⟨h1, _⟩ | ⟨h1, _⟩
      · simpa [h1, Pc.awaiting] using hfilter
      · simp [h1, Pc.awaiting]
    · simp only [List.mem_append, List.mem_singleton] at he
      rcases he with he | rfl
      · exact .inl he
      · right
        intro d hd1
        simp only [Event.descs, List.mem_cons] at hd1
        rcases hd1 with rfl | hd1
        · exact hd
        · exact .inr (hfilter d hd1)
  | awaitToken node rest hpc hmem =>
    have hnode : ∀ n ∈ node :: rest, st.IsForeignLayer n = false := by
      simpa [hpc, Pc.awaiting] using ha
    refine ⟨⟨hd, hs, by simpa [Pc.awaiting] using hnode⟩, fun e he => ?_⟩
    simp only [World.emit, List.mem_append, List.mem_singleton] at he
    rcases he with he | rfl
    · exact .inl he
    · right
      simpa [Event.descs] using Or.inr (hnode node (List.mem_cons_self _ _))
  | awaitCommitted node rest hpc hmem =>
    have hnode : ∀ n ∈ node :: rest, st.IsForeignLayer n = false := by
      simpa [hpc, Pc.awaiting] using ha
    refine ⟨⟨hd, hs, by simp [Pc.awaiting]⟩, fun e he => ?_⟩
    simp only [World.emit, List.mem_append, List.mem_singleton] at he
    rcases he with he | rfl
    · exact .inl he
    · right
      simpa [Event.descs] using Or.inr (hnode node (List.mem_cons_self _ _))
  | copy src hpc =>
    refine ⟨⟨hd, hs, by simp [Pc.awaiting]⟩, fun e he => ?_⟩
    rcases copyNode_descs st src t.desc opts s.world e he with h1 | h1
    · exact .inl h1
    · right
      rw [h1]
      simpa using hd
  | close hpc =>
    refine ⟨⟨hd, hs, by simp [Pc.awaiting]⟩, fun e he => ?_⟩
    simp only [World.emit, List.mem_append, List.mem_singleton] at he
    rcases he with he | rfl
    · exact .inl he
    · right; simp [Event.descs]

theorem FInv.foreignStep {st : Stores} {opts : CopyGraphOptions} {root : Descriptor} {s s1 : State}
    (hf : FInv st root s) (hc : CoreStep st opts s s1) (hcalls : CallsStep s s1) :
    FInv st root s1 := by
  have hcs : ∀ c ∈ s1.calls, ∀ n ∈ c.pending, n = root ∨ st.IsForeignLayer n = false := by
    intro c1 hc1 n hn
    rcases hcalls c1 hc1 n hn with ⟨c, hc0, hn0⟩ | ⟨t, ht, hn0⟩
    · exact hf.calls c hc0 n hn0
    · exact .inr ((hf.tasks t ht).2.1 n hn0)
  cases hc with
  | idle htasks htr hcl hw =>
    exact ⟨fun t ht => hf.tasks t (htasks ▸ ht), hcs, fun e he => hf.trace e (hw ▸ he)⟩
  | spawn item g hitem htasks htr hcl hw =>
    refine ⟨fun t ht => ?_, hcs, fun e he => hf.trace e (hw ▸ he)⟩
    rw [htasks] at ht
    simp only [List.mem_append, List.mem_singleton] at ht
    rcases ht with ht | rfl
    · exact hf.tasks t ht
    · obtain ⟨c, hc0, hn0⟩ := hitem
      exact ⟨hf.calls c hc0 item hn0, by simp, by simp [Pc.awaiting]⟩
  | task i t t1 hget htasks hm =>
    have h := hm.foreign root (hf.tasks t (List.getElem?_mem hget))
    refine ⟨fun u hu => ?_, hcs, fun e he => ?_⟩
    · rw [htasks] at hu
      rcases List.mem_or_eq_of_mem_set hu with hu | rfl
      · exact hf.tasks u hu
      · exact h.1
    · rcases h.2 e he with h1 | h1
      · exact hf.trace e h1
      · exact h1

theorem FInv.foreignRun {st : Stores} {opts : CopyGraphOptions} {root : Descriptor} :
    ∀ (acts : List Action) (s s1 : State), FInv st root s →
      Oras.run st opts s acts = some s1 → FInv st root s1 := by
  intro acts
  induction acts with
  | nil =>
    intro s s1 hinv h
    simp only [Oras.run, Option.some.injEq] at h
    exact h ▸ hinv
  | cons a as ih =>
    intro s s1 hinv h
    simp only [Oras.run] at h
    split at h
    · cases h
    · rename_i s2 hstep
      exact ih s2 s1
        (hinv.foreignStep (step_core st opts s s2 a hstep) (step_calls st opts s s2 a hstep)) h

theorem FInv.foreignInit (st : Stores) (opts : CopyGraphOptions) (root : Descriptor) (env : Env) :
    FInv st root (copyGraph.init opts root env) where
  tasks := by simp [copyGraph.init]
  calls := by simp [copyGraph.init]
  trace := by simp [copyGraph.init]

/-- C4, as the code has it: the root is not filtered; a root that is a foreign layer is
scheduled, fetched from the source and pushed to the destination. -/
theorem copyGraph_foreign_root_pushed :
    Example.stores.IsForeignLayer Example.foreign = true ∧
    (copyGraph Example.stores Example.noHooks Example.foreign Example.emptyEnv
        Example.leafSchedule).map (fun r => (r.1, r.2.world.trace)) =
      some (none,
        [.tryCommit Example.foreign true, .exists Example.foreign false,
         .successors Example.foreign [], .fetch .base Example.foreign,
         .push Example.foreign, .close Example.foreign.digest]) := by
  decide

/-- C4, amended: `removeForeignLayers` is the filter on "not a foreign layer", so it keeps
the order and fails on no list; and in every state of every run of `copyGraph` a
descriptor that a goroutine was scheduled for, or that an operation of the walk (a
`TryCommit`, an `Exists`, a hook, a fetch, a push) is about, is the root or no foreign
layer. -/
theorem removeForeignLayers_filter_walk (st : Stores) (opts : CopyGraphOptions)
    (root : Descriptor) (env : Env) (acts : List Action) (s : State)
    (h : run st opts (copyGraph.init opts root env) acts = some s) :
    (∀ descs, removeForeignLayers st descs = descs.filter (fun d => !st.IsForeignLayer d)) ∧
    (∀ t ∈ s.tasks, t.desc = root ∨ st.IsForeignLayer t.desc = false) ∧
    (∀ e ∈ s.world.trace, ∀ d ∈ e.descs, d = root ∨ st.IsForeignLayer d = false) := by
  have hf := FInv.foreignRun acts _ s (FInv.foreignInit st opts root env) h
  exact ⟨removeForeignLayers_eq_filter st, fun t ht => (hf.tasks t ht).1, hf.trace⟩

theorem removeForeignLayers_filter_walk_witness :
    Example.blob = Example.manifest ∨ Example.stores.IsForeignLayer Example.blob = false :=
  (removeForeignLayers_filter_walk Example.stores Example.noHooks Example.manifest
    Example.emptyEnv Example.schedule
    (Example.final Example.stores Example.noHooks Example.manifest Example.emptyEnv
      Example.schedule) (by decide)).2.2 (.push Example.blob) (by decide)
    Example.blob (by decide)

/-! ## The `Go` call of `copyGraph` returns `nil` only when the root is done -/

theorem State.cause_zero (s : State) (c0 : Call) (h0 : s.calls[0]? = some c0)
    (hp : c0.parent = none) :
    s.cause 0 = match c0.cause with
      | some e => some e
      | none => s.ctxCause := by
  have hlen : s.calls.length = (s.calls.length - 1) + 1 := by
    have := (List.getElem?_eq_some.1 h0).1
    omega
  unfold State.cause
  rw [hlen]
  simp only [State.causeOf, h0, hp]

theorem State.cause_zero_bad (s : State) (c0 : Call) (h0 : s.calls[0]? = some c0)
    (hp : c0.parent = none) (h : (s.cause 0).isSome = true) :
    c0.cause ≠ none ∨ s.ctxCause ≠ none := by
  rw [s.cause_zero c0 h0 hp] at h
  cases hc : c0.cause with
  | some e => exact .inl (by simp)
  | none =>
    rw [hc] at h
    right
    intro hn
    simp [hn] at h

theorem State.cancel_root (s : State) (g : Nat) (err : Error) (c0 : Call)
    (h0 : s.calls[0]? = some c0) (hp : c0.parent = none) :
    (s.cancel g err).calls.length = s.calls.length ∧
    ∃ c1, (s.cancel g err).calls[0]? = some c1 ∧ c1.parent = none ∧
      c1.caller = c0.caller ∧ c1.pending = c0.pending ∧ c1.live = c0.live ∧
      c1.result = c0.result ∧ c1.egErr = c0.egErr ∧ (c0.cause ≠ none → c1.cause ≠ none) ∧
      (g ≠ 0 → c1 = c0) ∧ (g = 0 → c1.cause ≠ none ∨ s.ctxCause ≠ none) := by
  unfold State.cancel
  split
  · rename_i c hcause hc
    refine ⟨by simp, ?_⟩
    by_cases hg : g = 0
    · subst hg
      rw [h0] at hc
      cases hc
      refine ⟨{ c0 with cause := some err }, ?_, hp, rfl, rfl, rfl, rfl, rfl, by simp, ?_, ?_⟩
      · simp only
        exact List.getElem?_set_self (List.getElem?_eq_some.1 h0).1
      · intro h; exact absurd rfl h
      · intro _; exact .inl (by simp)
    · refine ⟨c0, ?_, hp, rfl, rfl, rfl, rfl, rfl, id, fun _ => rfl, fun h => absurd h hg⟩
      simp only
      rw [List.getElem?_set_ne hg]
      exact h0
  · rename_i hne
    refine ⟨rfl, c0, h0, hp, rfl, rfl, rfl, rfl, rfl, id, fun _ => rfl, ?_⟩
    intro hg
    subst hg
    have hc : (s.cause 0).isSome = true := by
      cases hcs : s.cause 0 with
      | some e => rfl
      | none => exact absurd h0 (by intro h0; exact hne c0 hcs h0)
    exact s.cause_zero_bad c0 h0 hp hc

theorem Go.done_root (s0 s1 : State) (i : Nat) (t : Task) (err : Option Error) (c0 : Call)
    (h0 : s0.calls[0]? = some c0) (h : Go.done s0 i t err = some s1) :
    s1.ctxCause = s0.ctxCause ∧ s1.calls.length = s0.calls.length ∧
    ∃ c1, s1.calls[0]? = some c1 ∧ c1.parent = c0.parent ∧ c1.caller = c0.caller ∧
      c1.pending = c0.pending ∧ c1.result = c0.result ∧ c1.cause = c0.cause ∧
      (c0.egErr ≠ none → c1.egErr ≠ none) ∧ (t.group ≠ 0 → c1 = c0) ∧
      (t.group = 0 → c1.live = c0.live - 1 ∧ (err ≠ none → c1.egErr ≠ none)) := by
  unfold Go.done at h
  split at h
  · cases h
  · rename_i c hc
    dsimp only at h
    generalize hs2 : ({ s0 with calls := s0.calls.set t.group { c with
        live := c.live - 1,
        egErr := match c.egErr with
          | some e => some e
          | none => err } } : State) = s2 at h
    have hr := regionEnd_fst s2 t
    cases h
    simp only [hr.2.2.2.2.1, hr.2.2.2.2.2]
    subst hs2
    refine ⟨rfl, by simp, ?_⟩
    by_cases hg : t.group = 0
    · rw [hg] at hc
      rw [h0] at hc
      cases hc
      refine ⟨{ c0 with
          live := c0.live - 1,
          egErr := match c0.egErr with
            | some e => some e
            | none => err },
        by simp only [hg]; exact List.getElem?_set_self (List.getElem?_eq_some.1 h0).1,
        rfl, rfl, rfl, rfl, rfl, ?_, fun h => absurd hg h, fun _ => ⟨rfl, ?_⟩⟩
      · intro h
        cases hc : c0.egErr with
        | none => exact absurd hc h
        | some e => simp
      · intro h
        cases hc : c0.egErr with
        | none => simpa using h
        | some e => simp
    · refine ⟨c0, ?_, rfl, rfl, rfl, rfl, rfl, id, fun _ => rfl, fun h => absurd h hg⟩
      simp only
      rw [List.getElem?_set_ne hg]
      exact h0

theorem fn_root_same {s s1 : State} {t : Task} {c0 : Call} (h0 : s.calls[0]? = some c0)
    (hp : c0.parent = none) (hcalls : s1.calls = s.calls) (hctx : s1.ctxCause = s.ctxCause)
    (hpc : ∀ e, t.pc ≠ .leave e) :
    s1.ctxCause = s.ctxCause ∧ s.calls.length ≤ s1.calls.length ∧
    (t.pc ≠ .go → s1.calls.length = s.calls.length) ∧
    ∃ c1, s1.calls[0]? = some c1 ∧ c1.parent = none ∧ c1.caller = c0.caller ∧
      c1.pending = c0.pending ∧ c1.result = c0.result ∧ (Bad s c0 → Bad s1 c1) ∧
      ((∀ e, t.pc ≠ .leave e) ∨ t.group ≠ 0 → c1 = c0) ∧
      (∀ e, t.pc = .leave e → t.group = 0 →
        c1.live = c0.live - 1 ∧ (e ≠ none → c1.egErr ≠ none)) := by
  refine ⟨hctx, by rw [hcalls], fun _ => by rw [hcalls], c0, by rw [hcalls]; exact h0, hp,
    rfl, rfl, rfl, ?_, fun _ => rfl, fun e he => absurd he (hpc e)⟩
  intro hb
  simpa [Bad, hctx] using hb

theorem fn_root (st : Stores) (opts : CopyGraphOptions) (s s1 : State) (i : Nat) (t : Task)
    (alt : Bool) (c0 : Call) (h0 : s.calls[0]? = some c0) (hp : c0.parent = none)
    (h : fn st opts s i t alt = some s1) :
    s1.ctxCause = s.ctxCause ∧ s.calls.length ≤ s1.calls.length ∧
    (t.pc ≠ .go → s1.calls.length = s.calls.length) ∧
    ∃ c1, s1.calls[0]? = some c1 ∧ c1.parent = none ∧ c1.caller = c0.caller ∧
      c1.pending = c0.pending ∧ c1.result = c0.result ∧ (Bad s c0 → Bad s1 c1) ∧
      ((∀ e, t.pc ≠ .leave e) ∨ t.group ≠ 0 → c1 = c0) ∧
      (∀ e, t.pc = .leave e → t.group = 0 →
        c1.live = c0.live - 1 ∧ (e ≠ none → c1.egErr ≠ none)) := by
  unfold fn at h
  dsimp only at h
  split at h
  · rename_i hpc
    split at h <;> cases h <;> exact fn_root_same h0 hp rfl rfl (by simp [hpc])
  · rename_i hpc
    split at h <;> cases h <;> exact fn_root_same h0 hp rfl rfl (by simp [hpc])
  · rename_i hpc
    split at h
    · cases h; exact fn_root_same h0 hp rfl rfl (by simp [hpc])
    · split at h <;> cases h <;> exact fn_root_same h0 hp rfl rfl (by simp [hpc])
  · rename_i hpc
    split at h <;> cases h <;> exact fn_root_same h0 hp rfl rfl (by simp [hpc])
  · rename_i hpc
    split at h
    · cases h; exact fn_root_same h0 hp rfl rfl (by simp [hpc])
    · split at h <;> cases h <;> exact fn_root_same h0 hp rfl rfl (by simp [hpc])
  · rename_i hpc
    cases h
    have hr := regionEnd_fst s t
    refine ⟨hr.2.2.2.2.2, by simp [hr.2.2.2.2.1], fun h => absurd hpc h, c0, ?_, hp, rfl, rfl,
      rfl, ?_, fun _ => rfl, fun e he => absurd he (by simp [hpc])⟩
    · simp only [hr.2.2.2.2.1]
      rw [List.getElem?_append_left (List.getElem?_eq_some.1 h0).1]
      exact h0
    · intro hb
      simpa [Bad, hr.2.2.2.2.2] using hb
  · cases h
  · rename_i hpc
    cases h; exact fn_root_same h0 hp rfl rfl (by simp [hpc])
  · rename_i hpc
    split at h <;> cases h <;> exact fn_root_same h0 hp rfl rfl (by simp [hpc])
  · rename_i hpc
    split at h
    · split at h
      · cases h; exact fn_root_same h0 hp rfl rfl (by simp [hpc])
      · cases h
    · split at h
      · cases h; exact fn_root_same h0 hp rfl rfl (by simp [hpc])
      · cases h
  · rename_i hpc
    split at h
    · cases h; exact fn_root_same h0 hp rfl rfl (by simp [hpc])
    · split at h
      · split at h
        · cases h; exact fn_root_same h0 hp rfl rfl (by simp [hpc])
        · cases h
      · split at h
        · cases h; exact fn_root_same h0 hp rfl rfl (by simp [hpc])
        · cases h
  · rename_i hpc
    split at h <;> cases h <;> exact fn_root_same h0 hp rfl rfl (by simp [hpc])
  · rename_i hpc
    cases h; exact fn_root_same h0 hp rfl rfl (by simp [hpc])
  · rename_i hpc
    split at h <;> cases h <;> exact fn_root_same h0 hp rfl rfl (by simp [hpc])
  · rename_i err hpc
    unfold Go.leave at h
    split at h
    · rename_i e
      obtain ⟨hlen, c1, hc1, hp1, hcaller1, hpend1, hlive1, hres1, heg1, hcause1, hne1, hz1⟩ :=
        s.cancel_root t.group e c0 h0 hp
      have hk := State.cancel_tasks s t.group e
      obtain ⟨hctx, hlen2, c2, hc2, hp2, hcaller2, hpend2, hres2, hcause2, heg2, hne2, hz2⟩ :=
        Go.done_root _ s1 i t (some e) c1 hc1 h
      refine ⟨by rw [hctx, hk.2.2.2.2.2], by rw [hlen2, hlen], fun _ => by rw [hlen2, hlen],
        c2, hc2, by rw [hp2, hp1], by rw [hcaller2, hcaller1], by rw [hpend2, hpend1],
        by rw [hres2, hres1], ?_, ?_, ?_⟩
      · intro hb
        rcases hb with hb | hb | hb
        · exact .inl (heg2 (by rw [heg1]; exact hb))
        · exact .inr (.inl (by rw [hcause2]; exact hcause1 hb))
        · exact .inr (.inr (by rw [hctx, hk.2.2.2.2.2]; exact hb))
      · intro hor
        rcases hor with hor | hor
        · exact absurd hpc (hor _)
        · rw [hne2 hor, hne1 hor]
      · intro e1 he1 hg
        have := hz2 hg
        exact ⟨by rw [this.1, hlive1], fun _ => this.2 (by simp)⟩
    · obtain ⟨hctx, hlen2, c2, hc2, hp2, hcaller2, hpend2, hres2, hcause2, heg2, hne2, hz2⟩ :=
        Go.done_root _ s1 i t none c0 h0 h
      refine ⟨hctx, by rw [hlen2], fun _ => hlen2, c2, hc2, by rw [hp2, hp], hcaller2, hpend2,
        hres2, ?_, ?_, ?_⟩
      · intro hb
        rcases hb with hb | hb | hb
        · exact .inl (heg2 hb)
        · exact .inr (.inl (by rw [hcause2]; exact hb))
        · exact .inr (.inr (by rw [hctx]; exact hb))
      · intro hor
        rcases hor with hor | hor
        · exact absurd hpc (hor _)
        · exact hne2 hor
      · intro e1 he1 hg
        have := hz2 hg
        rw [hpc] at he1
        cases he1
        exact ⟨this.1, fun h => absurd rfl h⟩
  · cases h

theorem Late.mono {Q : State → Prop} {s s1 : State} {c0 c1 : Call} {pc : Pc}
    (hQ : Q s → Q s1) (hB : Bad s c0 → Bad s1 c1) (hlive : c1.live = c0.live)
    (hearly : pc = .start ∨ pc = .tryCommit →
      s1.tasks.length = s.tasks.length ∧ s1.calls.length = s.calls.length ∧
      s1.tracker = s.tracker)
    (h : Late Q s c0 pc) : Late Q s1 c1 pc := by
  cases pc with
  | start =>
    obtain ⟨h1, h2, h3⟩ := hearly (.inl rfl)
    simpa [Late, hlive, h1, h2, h3] using h
  | tryCommit =>
    obtain ⟨h1, h2, h3⟩ := hearly (.inr rfl)
    simpa [Late, hlive, h1, h2, h3] using h
  | leave err =>
    cases err with
    | none =>
      simp only [Late] at h ⊢
      exact ⟨hlive ▸ h.1, h.2.imp hQ hB⟩
    | some e => simpa [Late, hlive] using h
  | finished err =>
    simp only [Late] at h ⊢
    exact ⟨hlive ▸ h.1, h.2.imp hQ hB⟩
  | _ => simpa [Late, hlive] using h

theorem Late.live {Q : State → Prop} {s : State} {c0 : Call} {pc : Pc}
    (h : Late Q s c0 pc) (hlive : c0.live = 0) :
    (∃ err, pc = .finished err) ∧ (Q s ∨ Bad s c0) := by
  cases pc with
  | finished err => exact ⟨⟨err, rfl⟩, h.2⟩
  | leave err =>
    cases err <;> simp [Late, hlive] at h
  | _ => simp [Late, hlive] at h

theorem Late.early {Q : State → Prop} {s : State} {c0 : Call} {pc : Pc}
    (h : Late Q s c0 pc) (hn : 1 < s.tasks.length ∨ 1 < s.calls.length) :
    pc ≠ .start ∧ pc ≠ .tryCommit := by
  cases pc <;> simp [Late] at h ⊢ <;> omega

theorem RInv.cancelStep {root : Descriptor} {Q : State → Prop} {s : State} {err : Error}
    (hQ : Q s → Q { s with ctxCause := some err }) (hr : RInv root Q s) :
    RInv root Q { s with ctxCause := some err } := by
  obtain ⟨c0, h0, hp, hcaller, hres, hph⟩ := hr
  have hB : Bad s c0 → Bad { s with ctxCause := some err } c0 := by
    intro _; exact .inr (.inr (by simp))
  refine ⟨c0, h0, hp, hcaller, fun h => hQ (hres h), ?_⟩
  cases hph with
  | fresh h1 h2 h3 h4 h5 h6 => exact .fresh h1 h2 h3 h4 h5 h6
  | broken h1 h2 h3 h4 h5 => exact .broken h1 h2 h3 h4 (.inr (.inr (by simp)))
  | running t0 h1 h2 h3 h4 h5 h6 =>
    exact .running t0 h1 h2 h3 h4 h5 (h6.mono hQ hB rfl (fun _ => ⟨rfl, rfl, rfl⟩))

theorem RInv.loopStep {root : Descriptor} {Q : State → Prop} {s s1 : State} {g : Nat}
    {acquired : Bool} (hQ : Q s → Q s1) (hr : RInv root Q s)
    (h : Go.loop s g acquired = some s1) : RInv root Q s1 := by
  obtain ⟨c0, h0, hp, hcaller, hres, hph⟩ := hr
  have hlen0 : 0 < s.calls.length := (List.getElem?_eq_some.1 h0).1
  unfold Go.loop at h
  split at h
  · cases h
  · rename_i c hc
    have hglen : g < s.calls.length := (List.getElem?_eq_some.1 hc).1
    split at h
    · rename_i item rest hcres hpend
      by_cases hg : g = 0
      · subst hg
        rw [h0] at hc
        cases hc
        cases hph with
        | fresh h1 h2 h3 h4 h5 h6 =>
          rw [h1] at hpend
          cases hpend
          split at h
          · split at h
            · cases h
              refine ⟨{ c0 with pending := [], live := c0.live + 1 },
                List.getElem?_set_self hlen0, hp, hcaller, ?_, ?_⟩
              · intro hr1
                simp only [hcres] at hr1
                cases hr1
              · refine .running { desc := root, group := 0, ended := false, succs := [],
                                  pc := .start } rfl (by simp [h4]) rfl rfl ?_ ?_
                · intro i t hi _
                  simp only [h4, List.nil_append] at hi
                  by_contra hne
                  have : ([{ desc := root, group := 0, ended := false, succs := [],
                             pc := Pc.start }] : List Task)[i]? = none := by
                    apply List.getElem?_eq_none
                    simp; omega
                  rw [this] at hi
                  cases hi
                · simp [Late, h2, h4, h5, h6]
            · cases h
          · split at h
            · rename_i hcause
              dsimp only at h
              obtain ⟨hlen, c1, hc1, hp1, hcaller1, hpend1, hlive1, hres1, heg1, hcause1, _, hz1⟩ :=
                s.cancel_root 0 .canceled c0 h0 hp
              have hk := State.cancel_tasks s 0 .canceled
              rw [hc1] at h
              cases h
              refine ⟨{ c1 with pending := [] },
                List.getElem?_set_self (by rw [hlen]; exact hlen0), hp1,
                hcaller1.trans hcaller, ?_, ?_⟩
              · intro hr1
                simp only [hres1, hcres] at hr1
                cases hr1
              · refine .broken rfl (by simp only [hlive1, h2]) (by simp only [hk.1, h4])
                  (by simp [hlen, h5]) ?_
                rcases hz1 rfl with hz | hz
                · exact .inr (.inl hz)
                · exact .inr (.inr (by simp only [hk.2.2.2.2.2]; exact hz))
            · cases h
        | broken h1 h2 h3 h4 h5 =>
          rw [h1] at hpend
          cases hpend
        | running t0 h1 h2 h3 h4 h5 h6 =>
          rw [h1] at hpend
          cases hpend
      · have hlen2 : 1 < s.calls.length := by omega
        cases hph with
        | fresh h1 h2 h3 h4 h5 h6 => omega
        | broken h1 h2 h3 h4 h5 => omega
        | running t0 h1 h2 h3 h4 h5 h6 =>
          have hearly := h6.early (.inr hlen2)
          have htlen : 0 < s.tasks.length := (List.getElem?_eq_some.1 h2).1
          split at h
          · split at h
            · cases h
              refine ⟨c0, by simp only; rw [List.getElem?_set_ne hg]; exact h0, hp, hcaller,
                fun hr1 => hQ (hres hr1), ?_⟩
              refine .running t0 h1 ?_ h3 h4 ?_ ?_
              · simp only
                rw [List.getElem?_append_left htlen]
                exact h2
              · intro i t hi hgrp
                rcases getElem?_concat_cases hi with hi | ⟨_, rfl⟩
                · exact h5 i t hi hgrp
                · exact absurd hgrp hg
              · exact h6.mono hQ (fun hb => hb) rfl
                  (fun he => by rcases he with he | he
                                · exact absurd he hearly.1
                                · exact absurd he hearly.2)
            · cases h
          · split at h
            · dsimp only at h
              obtain ⟨hlen, c1, hc1, hp1, hcaller1, hpend1, hlive1, hres1, heg1, hcause1, hne1, _⟩ :=
                s.cancel_root g .canceled c0 h0 hp
              have hk := State.cancel_tasks s g .canceled
              split at h
              · cases h
                have hc10 := hne1 hg
                subst hc10
                refine ⟨c1, by simp only; rw [List.getElem?_set_ne hg]; exact hc1, hp, hcaller,
                  fun hr1 => hQ (hres hr1), ?_⟩
                refine .running t0 h1 (by simp only [hk.1]; exact h2) h3 h4
                  (by simp only [hk.1]; exact h5) ?_
                exact h6.mono hQ (fun hb => by simpa [Bad, hk.2.2.2.2.2] using hb) rfl
                  (fun he => by rcases he with he | he
                                · exact absurd he hearly.1
                                · exact absurd he hearly.2)
              · cases h
            · cases h
    · cases h

theorem Go.wait_pre (s : State) (g : Nat) (egErr : Option Error) (c0 : Call)
    (h0 : s.calls[0]? = some c0) (hp : c0.parent = none) :
    ∀ s0 : State, s0 = (match egErr with
        | some err => s.cancel g err
        | none => s) →
      s0.tasks = s.tasks ∧ s0.tracker = s.tracker ∧ s0.closed = s.closed ∧
      s0.world = s.world ∧ s0.ctxCause = s.ctxCause ∧ s0.calls.length = s.calls.length ∧
      ∃ c1, s0.calls[0]? = some c1 ∧ c1.parent = none ∧ c1.caller = c0.caller ∧
        c1.pending = c0.pending ∧ c1.live = c0.live ∧ c1.result = c0.result ∧
        c1.egErr = c0.egErr ∧ (c0.cause ≠ none → c1.cause ≠ none) ∧ (g ≠ 0 → c1 = c0) ∧
        (g = 0 → egErr ≠ none → c1.cause ≠ none ∨ s.ctxCause ≠ none) := by
  intro s0 hs0
  cases egErr with
  | none =>
    subst hs0
    exact ⟨rfl, rfl, rfl, rfl, rfl, rfl, c0, h0, hp, rfl, rfl, rfl, rfl, rfl, id, fun _ => rfl,
      fun _ h => absurd rfl h⟩
  | some err =>
    subst hs0
    have hk := State.cancel_tasks s g err
    obtain ⟨hlen, c1, hc1, hp1, hcaller1, hpend1, hlive1, hres1, heg1, hcause1, hne1, hz1⟩ :=
      s.cancel_root g err c0 h0 hp
    exact ⟨hk.1, hk.2.1, hk.2.2.1, hk.2.2.2.1, hk.2.2.2.2.2, hlen, c1, hc1, hp1, hcaller1,
      hpend1, hlive1, hres1, heg1, hcause1, hne1, fun hg _ => hz1 hg⟩

theorem RInv.waitStep {root : Descriptor} {Q : State → Prop} {s s1 : State} {g : Nat}
    (hQ : Q s → Q s1) (hr : RInv root Q s) (h : Go.wait s g = some s1) : RInv root Q s1 := by
  obtain ⟨c0, h0, hp, hcaller, hres, hph⟩ := hr
  have hlen0 : 0 < s.calls.length := (List.getElem?_eq_some.1 h0).1
  unfold Go.wait at h
  split at h
  · cases h
  · rename_i c hc
    have hglen : g < s.calls.length := (List.getElem?_eq_some.1 hc).1
    split at h
    · rename_i hcres hpend hlive
      obtain ⟨ht0, htr0, hcl0, hw0, hctx0, hlen, c1, hc1, hp1, hcaller1, hpend1, hlive1, hres1,
        heg1, hcause1, hne1, hz1⟩ := Go.wait_pre s g c.egErr c0 h0 hp _ rfl
      generalize (match c.egErr with
            | some err => s.cancel g err
            | none => s) = s0 at h ht0 htr0 hcl0 hw0 hctx0 hlen hc1
      dsimp only at h
      have hB : ∀ (s2 : State) (c2 : Call), s2.ctxCause = s0.ctxCause → c2.egErr = c1.egErr →
          c2.cause = c1.cause → Bad s c0 → Bad s2 c2 := by
        intro s2 c2 h1 h2 h3 hb
        rcases hb with hb | hb | hb
        · exact .inl (by rw [h2, heg1]; exact hb)
        · exact .inr (.inl (by rw [h3]; exact hcause1 hb))
        · exact .inr (.inr (by rw [h1, hctx0]; exact hb))
      by_cases hg : g = 0
      · subst hg
        rw [h0] at hc
        cases hc
        rw [hc1] at h
        dsimp only at h
        rw [hcaller] at h
        dsimp only at h
        cases h
        have hbad : Bad s c0 → s0.cause 0 ≠ none := by
          intro hb
          rw [s0.cause_zero c1 hc1 hp1]
          rcases hb with hb | hb | hb
          · rcases hz1 rfl hb with hz | hz
            · cases hcc : c1.cause with
              | none => exact absurd hcc hz
              | some e => simp
            · cases hcc : c1.cause with
              | none => simpa [hctx0] using hz
              | some e => simp
          · cases hcc : c1.cause with
            | none => exact absurd hcc (hcause1 hb)
            | some e => simp
          · cases hcc : c1.cause with
            | none => simpa [hctx0] using hb
            | some e => simp
        refine ⟨{ c1 with result := some (s0.cause 0) },
          List.getElem?_set_self (by rw [hlen]; exact hlen0), hp1, hcaller1.trans hcaller, ?_, ?_⟩
        · intro hr1
          have hnone : s0.cause 0 = none := by simpa using hr1
          cases hph with
          | fresh h1 h2 h3 h4 h5 h6 =>
            rw [h1] at hpend
            cases hpend
          | broken h1 h2 h3 h4 h5 => exact absurd hnone (hbad h5)
          | running t0 h1 h2 h3 h4 h5 h6 =>
            rcases (h6.live hlive).2 with hq | hb
            · exact hQ hq
            · exact absurd hnone (hbad hb)
        · cases hph with
          | fresh h1 h2 h3 h4 h5 h6 =>
            rw [h1] at hpend
            cases hpend
          | broken h1 h2 h3 h4 h5 =>
            exact .broken (hpend1.trans h1) (hlive1.trans h2) (ht0.trans h3)
              (by simp [hlen, h4]) (hB _ _ rfl rfl rfl h5)
          | running t0 h1 h2 h3 h4 h5 h6 =>
            refine .running t0 (hpend1.trans h1) (by simp only [ht0]; exact h2) h3 h4
              (by simp only [ht0]; exact h5) ?_
            exact h6.mono hQ (hB _ _ rfl rfl rfl) hlive1
              (fun _ => ⟨by simp [ht0], by simp [hlen], htr0⟩)
      · have hlen2 : 1 < s.calls.length := by omega
        have hc10 := hne1 hg
        subst hc10
        cases hph with
        | fresh h1 h2 h3 h4 h5 h6 => omega
        | broken h1 h2 h3 h4 h5 => omega
        | running t0 h1 h2 h3 h4 h5 h6 =>
          have hearly := h6.early (.inr hlen2)
          have hearly2 : ∀ pc, pc = t0.pc → (pc = Pc.start ∨ pc = Pc.tryCommit) → False := by
            intro pc hpc he
            subst hpc
            rcases he with he | he
            · exact hearly.1 he
            · exact hearly.2 he
          split at h
          · cases h
          · rename_i cg hcg
            split at h
            · cases h
              refine ⟨c1, by simp only; rw [List.getElem?_set_ne hg]; exact hc1, hp, hcaller,
                fun hr1 => hQ (hres hr1), ?_⟩
              refine .running t0 h1 (by simp only [ht0]; exact h2) h3 h4
                (by simp only [ht0]; exact h5) ?_
              exact h6.mono hQ (hB _ _ rfl rfl rfl) rfl (fun he => (hearly2 _ rfl he).elim)
            · rename_i i hci
              simp only [ht0] at h
              split at h
              · cases h
              · rename_i t ht
                have key : ∀ pc1 : Pc, (∃ g1, t.pc = .inGo g1) →
                    (∀ err, pc1 ≠ .leave err) → (∀ err, pc1 ≠ .finished err) →
                    pc1 ≠ .start → pc1 ≠ .tryCommit →
                    ∀ s2 : State, s2.ctxCause = s0.ctxCause →
                      s2.tasks = s.tasks.set i { t with pc := pc1 } →
                      s2.calls = s0.calls.set g { cg with result := some (s0.cause g) } →
                      (Q s → Q s2) → RInv root Q s2 := by
                  intro pc1 hin hnl hnf hns hnt s2 hctx2 htasks2 hcalls2 hQ2
                  refine ⟨c1, by rw [hcalls2, List.getElem?_set_ne hg]; exact hc1, hp, hcaller,
                    fun hr1 => hQ2 (hres hr1), ?_⟩
                  by_cases hi : i = 0
                  · subst hi
                    rw [h2] at ht
                    cases ht
                    refine .running { t0 with pc := pc1 } h1
                      (by rw [htasks2]; exact List.getElem?_set_self
                            (List.getElem?_eq_some.1 h2).1) h3 h4 ?_ ?_
                    · intro j u hj hgrp
                      rw [htasks2] at hj
                      rcases getElem?_set_cases hj with ⟨hj0, _⟩ | ⟨_, hj1⟩
                      · exact hj0
                      · exact h5 j u hj1 hgrp
                    · obtain ⟨g1, hg1⟩ := hin
                      have hl : c1.live = 1 := by simpa [Late, hg1] using h6
                      cases pc1 with
                      | start => exact absurd rfl hns
                      | tryCommit => exact absurd rfl hnt
                      | leave err => exact absurd rfl (hnl err)
                      | finished err => exact absurd rfl (hnf err)
                      | _ => simpa [Late] using hl
                  · refine .running t0 h1
                      (by rw [htasks2, List.getElem?_set_ne hi]; exact h2) h3 h4 ?_ ?_
                    · intro j u hj hgrp
                      rw [htasks2] at hj
                      rcases getElem?_set_cases hj with ⟨hj0, hu⟩ | ⟨_, hj1⟩
                      · subst hu
                        exact absurd (h5 i t ht hgrp) hi
                      · exact h5 j u hj1 hgrp
                    · exact h6.mono hQ2 (hB _ _ hctx2 rfl rfl) rfl
                        (fun he => (hearly2 _ rfl he).elim)
                split at h
                · rename_i g1 err hpc hcz
                  cases h
                  exact key (.ret (some err)) ⟨g1, hpc⟩ (by simp) (by simp) (by simp) (by simp)
                    _ rfl rfl rfl hQ
                · rename_i g1 hpc hcz
                  cases h
                  exact key (.await t.succs) ⟨g1, hpc⟩ (by simp) (by simp) (by simp) (by simp)
                    _ rfl rfl rfl hQ
                · cases h
    · cases h

theorem TaskMove.late {st : Stores} {opts : CopyGraphOptions} {s : State} {t t1 : Task}
    {tracker closed : List Digest} {w : World}
    (hm : TaskMove st opts s t t1 tracker closed w) :
    t1.group = t.group ∧
    match t.pc with
    | .start => (t1.pc = .tryCommit ∧ tracker = s.tracker) ∨
        (t1.pc = .leave none ∧ (s.cause t.group).isSome = true)
    | .tryCommit => t1.pc.holds = true ∨ (t1.pc = .leave none ∧ t.desc.digest ∈ s.tracker)
    | .leave e => t1.pc = .finished e
    | .finished _ => False
    | .ret none => t1.pc = .leave none
    | .ret (some e) => t1.pc = .leave (some e)
    | _ => t1.pc.holds = true := by
  cases hm with
  | localMove pc ended hm =>
    refine ⟨rfl, ?_⟩
    cases hm with
    | fail err hpcs =>
      rcases hpcs with h | ⟨g, h⟩ | ⟨node, rest, h⟩ | h | h <;> simp [h, Pc.holds]
    | _ => simp_all [Pc.holds]
  | existsOk hpc =>
    refine ⟨rfl, ?_⟩
    simp only [hpc]
    split <;> rfl
  | findOk l pc hpc hl hpc1 =>
    refine ⟨rfl, ?_⟩
    rcases hpc1 with ⟨h, _⟩ | ⟨h, _⟩ <;> simp [hpc, h, Pc.holds]
  | _ => simp_all [Pc.holds]

theorem Late.of_holds {Q : State → Prop} {s : State} {c : Call} {pc : Pc}
    (hh : pc.holds = true) (hc : c.live = 1) : Late Q s c pc := by
  cases pc <;> simp_all [Late, Pc.holds]

theorem RInv.runStep {st : Stores} {opts : CopyGraphOptions} {root : Descriptor}
    {Q : State → Prop} {s s1 : State} {i : Nat} {t : Task} {alt : Bool}
    (hQ : Q s → Q s1) (hclose : i = 0 → t.pc = .ret none → Q s1) (hr : RInv root Q s)
    (hget : s.tasks[i]? = some t) (h : fn st opts s i t alt = some s1) : RInv root Q s1 := by
  obtain ⟨c0, h0, hp, hcaller, hres, hph⟩ := hr
  obtain ⟨t1, htasks, hm⟩ := fn_move st opts s s1 i t alt h
  obtain ⟨hctx, hlenle, hleneq, c1, hc1, hp1, hcaller1, hpend1, hres1, hB, hsame, hleave⟩ :=
    fn_root st opts s s1 i t alt c0 h0 hp h
  have hlate := hm.late
  have hdesc := hm.desc_eq
  refine ⟨c1, hc1, hp1, hcaller1.trans hcaller, fun hr1 => hQ (hres (hres1 ▸ hr1)), ?_⟩
  cases hph with
  | fresh h1 h2 h3 h4 h5 h6 =>
    rw [h4] at hget
    cases hget
  | broken h1 h2 h3 h4 h5 =>
    rw [h3] at hget
    cases hget
  | running t0 h1 h2 h3 h4 h5 h6 =>
    have hilen : i < s.tasks.length := (List.getElem?_eq_some.1 hget).1
    have hgroups : ∀ (j : Nat) (u : Task), s1.tasks[j]? = some u → u.group = 0 → j = 0 := by
      intro j u hj hgrp
      rw [htasks] at hj
      rcases getElem?_set_cases hj with ⟨hji, hu⟩ | ⟨_, hj1⟩
      · subst hu
        rw [hlate.1] at hgrp
        rw [hji]
        exact h5 i t hget hgrp
      · exact h5 j u hj1 hgrp
    by_cases hi : i = 0
    · subst hi
      rw [h2] at hget
      cases hget
      refine .running t1 (hpend1.trans h1) (by rw [htasks]; exact List.getElem?_set_self hilen)
        (hdesc.trans h3) (hlate.1.trans h4) hgroups ?_
      have hl := hlate.2
      have hlive_holds : ∀ pc : Pc, pc.holds = true → ∀ c : Call, c.live = 1 →
          Late Q s1 c pc := fun pc hh c hc => Late.of_holds hh hc
      have hnl : (∀ e, t.pc ≠ .leave e) → c1 = c0 := fun hne => hsame (.inl hne)
      cases hpc : t.pc with
      | start =>
        rw [hpc] at hl h6
        have hc10 := hnl (by simp [hpc])
        subst hc10
        obtain ⟨hl1, hl2, hl3, hl4⟩ := h6
        rcases hl with ⟨hl5, hl6⟩ | ⟨hl5, hl6⟩
        · rw [hl5]
          exact ⟨hl1, by rw [htasks]; simpa using hl2,
            by rw [hleneq (by simp [hpc])]; exact hl3, by rw [hl6]; exact hl4⟩
        · rw [hl5]
          rw [h4] at hl6
          refine ⟨hl1, .inr (hB ?_)⟩
          rcases s.cause_zero_bad c1 h0 hp hl6 with hb | hb
          · exact .inr (.inl hb)
          · exact .inr (.inr hb)
      | tryCommit =>
        rw [hpc] at hl h6
        have hc10 := hnl (by simp [hpc])
        subst hc10
        obtain ⟨hl1, hl2, hl3, hl4⟩ := h6
        rcases hl with hl5 | ⟨_, hl6⟩
        · exact hlive_holds _ hl5 _ hl1
        · rw [hl4] at hl6
          cases hl6
      | leave e =>
        rw [hpc] at hl h6
        rw [hl]
        obtain ⟨hlv, heg⟩ := hleave e hpc h4
        cases e with
        | none =>
          obtain ⟨hl1, hl2⟩ := h6
          exact ⟨by rw [hlv, hl1], hl2.imp hQ hB⟩
        | some err =>
          have hl1 : c0.live = 1 := h6
          exact ⟨by rw [hlv, hl1], .inr (.inl (heg (by simp)))⟩
      | finished e =>
        rw [hpc] at hl
        exact hl.elim
      | ret e =>
        rw [hpc] at hl h6
        have hc10 := hnl (by simp [hpc])
        subst hc10
        have hl1 : c1.live = 1 := h6
        cases e with
        | none =>
          rw [hl]
          exact ⟨hl1, .inl (hclose rfl hpc)⟩
        | some err =>
          rw [hl]
          exact hl1
      | _ =>
        rw [hpc] at hl h6
        have hc10 := hnl (by simp [hpc])
        subst hc10
        exact hlive_holds _ hl _ h6
    · have h1len : 1 < s.tasks.length := by omega
      have hearly := h6.early (.inl h1len)
      have hgrp : t.group ≠ 0 := fun hg => hi (h5 i t hget hg)
      have hc10 := hsame (.inr hgrp)
      subst hc10
      refine .running t0 h1 (by rw [htasks, List.getElem?_set_ne hi]; exact h2) h3 h4 hgroups ?_
      exact h6.mono hQ hB rfl
        (fun he => by rcases he with he | he
                      · exact absurd he hearly.1
                      · exact absurd he hearly.2)

theorem RInv.rootDesc {root : Descriptor} {Q : State → Prop} {s : State} {t : Task}
    (hr : RInv root Q s) (ht : s.tasks[0]? = some t) : t.desc = root ∧ t.group = 0 := by
  obtain ⟨c0, h0, hp, hcaller, hres, hph⟩ := hr
  cases hph with
  | fresh h1 h2 h3 h4 h5 h6 => rw [h4] at ht; cases ht
  | broken h1 h2 h3 h4 h5 => rw [h3] at ht; cases ht
  | running t0 h1 h2 h3 h4 h5 h6 =>
    rw [h2] at ht
    cases ht
    exact ⟨h3, h4⟩

theorem RInv.stepAll {st : Stores} {opts : CopyGraphOptions} {root : Descriptor}
    {Q : State → Prop} {s s1 : State} {a : Action} (hQ : Q s → Q s1)
    (hclose : ∀ t alt, a = .run 0 alt → s.tasks[0]? = some t → t.desc = root →
      t.pc = .ret none → Q s1)
    (hr : RInv root Q s) (h : step st opts s a = some s1) : RInv root Q s1 := by
  cases a with
  | cancel err =>
    simp only [step] at h
    split at h
    · cases h
      exact hr.cancelStep hQ
    · cases h
  | loop g acquired => exact hr.loopStep hQ h
  | wait g => exact hr.waitStep hQ h
  | run i alt =>
    simp only [step] at h
    split at h
    · cases h
    · rename_i t ht
      refine hr.runStep hQ ?_ ht h
      intro hi hpc
      subst hi
      exact hclose t alt rfl ht (hr.rootDesc ht).1 hpc

theorem RInv.rootInit (opts : CopyGraphOptions) (root : Descriptor) (env : Env)
    (Q : State → Prop) : RInv root Q (copyGraph.init opts root env) := by
  refine ⟨{ parent := none, caller := none, pending := [root], live := 0, cause := none,
            egErr := none, result := none }, rfl, rfl, rfl, ?_, ?_⟩
  · intro h
    cases h
  · exact .fresh rfl rfl rfl rfl rfl rfl

theorem RInv.result {root : Descriptor} {Q : State → Prop} {s : State}
    (hr : RInv root Q s) (h : s.result = some none) : Q s := by
  obtain ⟨c0, h0, hp, hcaller, hres, hph⟩ := hr
  unfold State.result at h
  rw [h0] at h
  exact hres h

/-- The `Go` call of `copyGraph` returns `nil` only when the goroutine of the root has
done its work: for an invariant `K` of the steps and a property `Q` that the steps keep
and that holds once the goroutine of the root has run the deferred `close(done)`, every
run that ends with the result `nil` ends in a state with `Q`. -/
theorem root_done {st : Stores} {opts : CopyGraphOptions} {root : Descriptor}
    (K Q : State → Prop)
    (hK : ∀ s s1 a, K s → step st opts s a = some s1 → K s1)
    (hstable : ∀ s s1 a, K s → step st opts s a = some s1 → Q s → Q s1)
    (hclose : ∀ s s1 t alt, K s → s.tasks[0]? = some t → t.desc = root → t.pc = .ret none →
      step st opts s (.run 0 alt) = some s1 → Q s1) :
    ∀ (acts : List Action) (s s1 : State), K s → RInv root Q s →
      run st opts s acts = some s1 → K s1 ∧ RInv root Q s1 := by
  intro acts
  induction acts with
  | nil =>
    intro s s1 hk hr h
    simp only [run, Option.some.injEq] at h
    exact h ▸ ⟨hk, hr⟩
  | cons a as ih =>
    intro s s1 hk hr h
    simp only [run] at h
    split at h
    · cases h
    · rename_i s2 hstep
      refine ih s2 s1 (hK s s2 a hk hstep) ?_ h
      refine hr.stepAll (hstable s s2 a hk hstep) ?_ hstep
      intro t alt ha ht hd hpc
      subst ha
      exact hclose s s2 t alt hk ht hd hpc hstep

/-! ## A successful walk copies the graph -/

theorem dstPush_blobs (st : Stores) (desc : Descriptor) (env : Env) :
    ((dstPush st desc env).2.blobs = env.blobs ∨
      (dstPush st desc env).2.blobs = desc.digest :: env.blobs) ∧
    (∀ err, (dstPush st desc env).1 = some err → Error.Is err .alreadyExists = true →
      desc.digest ∈ (dstPush st desc env).2.blobs) ∧
    ((dstPush st desc env).1 = none → desc.digest ∈ (dstPush st desc env).2.blobs) := by
  unfold dstPush
  split
  · refine ⟨.inl rfl, ?_, ?_⟩
    · intro err h1 h2
      simp only [Option.some.injEq] at h1
      subst h1
      simp [Error.Is] at h2
    · intro h; cases h
  · split
    · rename_i hmem
      exact ⟨.inl rfl, fun _ _ _ => hmem, fun _ => hmem⟩
    · exact ⟨.inr rfl, fun _ h _ => (by cases h), fun _ => (by simp)⟩

theorem doCopyNode_blobs (st : Stores) (src : Source) (desc : Descriptor) (w : World) :
    ((doCopyNode st src desc w).2.env.blobs = w.env.blobs ∨
      (doCopyNode st src desc w).2.env.blobs = desc.digest :: w.env.blobs) ∧
    ((doCopyNode st src desc w).1 = none →
      desc.digest ∈ (doCopyNode st src desc w).2.env.blobs) := by
  have hp := dstPush_blobs st desc w.env
  unfold doCopyNode
  simp only [World.emit]
  split
  · exact ⟨.inl rfl, fun h => by cases h⟩
  · split
    · rename_i err herr
      split
      · exact ⟨hp.1, fun h => by cases h⟩
      · rename_i his
        exact ⟨hp.1, fun _ => hp.2.1 err herr (by simpa using his)⟩
    · rename_i hnone
      exact ⟨hp.1, fun _ => hp.2.2 hnone⟩

theorem copyNode_blobs (st : Stores) (src : Source) (desc : Descriptor)
    (opts : CopyGraphOptions) (g : Descriptor → List Descriptor) (hopts : GraphOptions st opts g)
    (w : World) :
    ((copyNode st src desc opts w).2.env.blobs = w.env.blobs ∨
      (copyNode st src desc opts w).2.env.blobs = desc.digest :: w.env.blobs) ∧
    ((copyNode st src desc opts w).1 = none →
      desc.digest ∈ (copyNode st src desc opts w).2.env.blobs) := by
  have hd := doCopyNode_blobs st src desc
    (match opts.PreCopy with
      | some h => (w.emit (.preCopy desc)).call h desc
      | none => (none, w)).2
  unfold copyNode
  cases hpre : opts.PreCopy with
  | none =>
    simp only [hpre] at hd ⊢
    split
    · exact ⟨hd.1, fun h => by cases h⟩
    · rename_i hnone
      cases hpost : opts.PostCopy with
      | none => exact ⟨hd.1, fun _ => hd.2 hnone⟩
      | some hk =>
        have hkeep := hopts.postCopy hk hpost
        simp only [World.call, World.emit, hkeep _ _]
        exact ⟨hd.1, fun _ => hd.2 hnone⟩
  | some hk =>
    obtain ⟨hkeep, hnoskip⟩ := hopts.preCopy hk hpre
    simp only [hpre, World.call, World.emit] at hd ⊢
    rw [hkeep] at hd
    split
    · rename_i err herr
      split
      · rename_i hskip
        subst hskip
        exact absurd herr (hnoskip _ _)
      · exact ⟨.inl (hkeep _ _), fun h => by cases h⟩
    · split
      · exact ⟨hd.1, fun h => by cases h⟩
      · rename_i hnone
        cases hpost : opts.PostCopy with
        | none => exact ⟨hd.1, fun _ => hd.2 hnone⟩
        | some hk2 =>
          have hkeep2 := hopts.postCopy hk2 hpost
          simp only [hkeep2 _ _]
          exact ⟨hd.1, fun _ => hd.2 hnone⟩

theorem Env.Closed.of_blobs {st : Stores} {g : Descriptor → List Descriptor} {env env1 : Env}
    (h : env1.blobs = env.blobs) (hc : env.Closed st g) : env1.Closed st g := by
  intro d hd n hn
  rw [h] at hd ⊢
  exact hc d hd n hn

theorem TaskMove.blobs {st : Stores} {opts : CopyGraphOptions}
    {g : Descriptor → List Descriptor} (hopts : GraphOptions st opts g) {s : State} {t t1 : Task}
    {tr1 cl1 : List Digest} {w1 : World} (hb : BInv st g s)
    (ht : TInv s.tracker s.closed s.world.trace t)
    (hpres : (t.pc = .onCopySkipped ∨ t.pc = .ret none) → t.desc.digest ∈ s.world.env.blobs)
    (hsuccs : t.pc.found = true → t.succs = removeForeignLayers st (g t.desc))
    (hm : TaskMove st opts s t t1 tr1 cl1 w1) : BlobsMove st g s t1 cl1 w1 := by
  cases hm with
  | localMove pc ended hl =>
    refine ⟨hb.closure, fun _ h => h, hb.closed, ?_, ?_⟩
    · intro h
      cases hl <;> simp at h
    · intro h
      apply hsuccs
      cases hl <;> simp_all [Pc.found]
  | commit hpc _ =>
    exact ⟨hb.closure, fun _ h => h, hb.closed, by simp, by simp [Pc.found]⟩
  | duplicate hpc _ =>
    exact ⟨hb.closure, fun _ h => h, hb.closed, by simp, by simp [Pc.found]⟩
  | existsOk hpc =>
    refine ⟨hb.closure, fun _ h => h, hb.closed, ?_, ?_⟩
    · intro h
      by_cases hmem : t.desc.digest ∈ s.world.env.blobs
      · exact hmem
      · simp [hmem] at h
    · intro h
      by_cases hmem : t.desc.digest ∈ s.world.env.blobs <;> simp [hmem, Pc.found] at h
  | skipped h hpc hh =>
    have hk := hopts.onCopySkipped h hh t.desc s.world.env
    refine ⟨hb.closure.of_blobs hk, fun _ h1 => by simpa [hk] using h1,
      fun k h1 => by simpa [hk] using hb.closed k h1, ?_, by simp [Pc.found]⟩
    intro _
    simpa [hk] using hpres (.inl hpc)
  | skippedNone hpc hh =>
    exact ⟨hb.closure, fun _ h => h, hb.closed, fun _ => hpres (.inl hpc), by simp [Pc.found]⟩
  | findErr err hpc herr =>
    have hk := hopts.findKeeps t.desc s.world.env
    exact ⟨hb.closure.of_blobs hk, fun _ h1 => by simpa [hk] using h1,
      fun k h1 => by simpa [hk] using hb.closed k h1, by simp, by simp [Pc.found]⟩
  | findOk l pc hpc hok hcase =>
    have hk := hopts.findKeeps t.desc s.world.env
    have hl := hopts.find t.desc s.world.env l hok
    refine ⟨hb.closure.of_blobs hk, fun _ h1 => by simpa [hk] using h1,
      fun k h1 => by simpa [hk] using hb.closed k h1, ?_, ?_⟩
    · intro h
      rcases hcase with ⟨rfl, _⟩ | ⟨rfl, _⟩ <;> simp at h
    · intro _
      simp [hl]
  | awaitToken node rest hpc _ =>
    refine ⟨hb.closure, fun _ h => h, hb.closed, by simp, ?_⟩
    intro _
    exact hsuccs (by rw [hpc]; rfl)
  | awaitCommitted node rest hpc _ =>
    exact ⟨hb.closure, fun _ h => h, hb.closed, by simp, by simp [Pc.found]⟩
  | copy src hpc =>
    have hc := copyNode_blobs st src t.desc opts g hopts s.world
    have hfound : t.pc.found = true := by rw [hpc]; rfl
    have hmono : ∀ k ∈ s.world.env.blobs, k ∈ (copyNode st src t.desc opts s.world).2.env.blobs := by
      intro k hk
      rcases hc.1 with h | h <;> rw [h]
      · exact hk
      · exact List.mem_cons_of_mem _ hk
    refine ⟨?_, hmono, fun k hk => hmono k (hb.closed k hk), ?_, by simp [Pc.found]⟩
    · rcases hc.1 with h | h
      · exact hb.closure.of_blobs h
      · intro d hd n hn
        rw [h] at hd
        rcases List.mem_cons.1 hd with hd | hd
        · apply hmono
          apply hb.closed
          rw [hopts.digest d t.desc hd, ← hsuccs hfound] at hn
          rcases ht.awaiting hfound n hn with h1 | h1
          · rw [hpc] at h1
            simp [Pc.awaiting] at h1
          · exact h1
        · exact hmono _ (hb.closure d hd n hn)
    · intro h1
      rcases h1 with h1 | h1
      · simp at h1
      · simp only [Pc.ret.injEq] at h1
        exact hc.2 h1
  | close hpc =>
    refine ⟨hb.closure, fun _ h => h, ?_, by simp, by simp [Pc.found]⟩
    intro k hk
    rcases List.mem_cons.1 hk with rfl | hk
    · exact hpres (.inr hpc)
    · exact hb.closed k hk

theorem BInv.blobsStep {st : Stores} {opts : CopyGraphOptions}
    {g : Descriptor → List Descriptor} (hopts : GraphOptions st opts g) {s s1 : State}
    (hinv : Inv s) (hb : BInv st g s) (hc : CoreStep st opts s s1) : BInv st g s1 := by
  cases hc with
  | idle htasks htr hcl hw =>
    exact {
      closure := by rw [hw]; exact hb.closure
      closed := by rw [hcl, hw]; exact hb.closed
      present := by rw [htasks, hw]; exact hb.present
      succs := by rw [htasks]; exact hb.succs }
  | spawn item gr _ htasks htr hcl hw =>
    refine {
      closure := by rw [hw]; exact hb.closure
      closed := by rw [hcl, hw]; exact hb.closed
      present := ?_
      succs := ?_ }
    · intro t ht hpc
      rw [htasks] at ht
      rw [hw]
      rcases List.mem_append.1 ht with ht | ht
      · exact hb.present t ht hpc
      · simp only [List.mem_singleton] at ht
        subst ht
        simp at hpc
    · intro t ht hpc
      rw [htasks] at ht
      rcases List.mem_append.1 ht with ht | ht
      · exact hb.succs t ht hpc
      · simp only [List.mem_singleton] at ht
        subst ht
        simp [Pc.found] at hpc
  | task i t t1 hget htasks hm =>
    have hmem : t ∈ s.tasks := List.getElem?_mem hget
    have hmv := TaskMove.blobs hopts hb (hinv.task i t hget) (hb.present t hmem)
      (hb.succs t hmem) hm
    refine {
      closure := hmv.closure
      closed := hmv.closed
      present := ?_
      succs := ?_ }
    · intro u hu hpc
      rw [htasks] at hu
      rcases List.mem_or_eq_of_mem_set hu with hu | rfl
      · exact hmv.mono _ (hb.present u hu hpc)
      · exact hmv.present hpc
    · intro u hu hpc
      rw [htasks] at hu
      rcases List.mem_or_eq_of_mem_set hu with hu | rfl
      · exact hb.succs u hu hpc
      · exact hmv.succs hpc

theorem BInv.blobsInit {st : Stores} {g : Descriptor → List Descriptor}
    (opts : CopyGraphOptions) (root : Descriptor) {env : Env} (hcl : env.Closed st g) :
    BInv st g (copyGraph.init opts root env) where
  closure := hcl
  closed := by simp [copyGraph.init]
  present := by simp [copyGraph.init]
  succs := by simp [copyGraph.init]

theorem BInv.blobsRun {st : Stores} {opts : CopyGraphOptions}
    {g : Descriptor → List Descriptor} (hopts : GraphOptions st opts g) :
    ∀ (acts : List Action) (s s1 : State), Inv s → BInv st g s →
      Oras.run st opts s acts = some s1 → BInv st g s1 := by
  intro acts
  induction acts with
  | nil =>
    intro s s1 _ hb h
    simp only [Oras.run, Option.some.injEq] at h
    exact h ▸ hb
  | cons a as ih =>
    intro s s1 hinv hb h
    simp only [Oras.run] at h
    split at h
    · cases h
    · rename_i s2 hstep
      have hcs := step_core st opts s s2 a hstep
      exact ih s2 s1 (hinv.coreStep hcs) (hb.blobsStep hopts hinv hcs) h

theorem BInv.reach {st : Stores} {g : Descriptor → List Descriptor} {s : State}
    {root d : Descriptor} (hb : BInv st g s) (hroot : root.digest ∈ s.closed)
    (hr : Reach st g root d) : d.digest ∈ s.world.env.blobs := by
  induction hr with
  | root => exact hb.closed _ hroot
  | step d n _ hn ih => exact hb.closure d ih n hn

/-! ## What a successful walk has done on the root -/

/-- C3: in every state of every run of `copyGraph`, `dst.Push` has been invoked at most
once for each descriptor, a pushed descriptor was committed by a call of `TryCommit` that
returned `committed = true`, there is at most one such call for each descriptor, and a
goroutine whose `TryCommit` finds the descriptor claimed goes straight to its end with the
result `nil`, adding nothing but that call to the trace. -/
theorem copyGraph_push_once (st : Stores) (opts : CopyGraphOptions) (root : Descriptor)
    (env : Env) (acts : List Action) (s : State)
    (h : run st opts (copyGraph.init opts root env) acts = some s) :
    (∀ d, s.world.trace.count (.push d) ≤ 1) ∧
    (∀ d, Event.push d ∈ s.world.trace → Event.tryCommit d true ∈ s.world.trace) ∧
    (∀ d, s.world.trace.count (.tryCommit d true) ≤ 1) ∧
    (∀ i t alt, s.tasks[i]? = some t → t.pc = .tryCommit → t.desc.digest ∈ s.tracker →
      step st opts s (.run i alt) =
        some { s with world := s.world.emit (.tryCommit t.desc false),
                      tasks := s.tasks.set i { t with pc := .leave none } }) := by
  have hinv := Inv.alongRun acts _ s (Inv.atInit opts root env) h
  refine ⟨hinv.shared.push_once, hinv.shared.pushed_committed, hinv.shared.commit_once, ?_⟩
  intro i t alt hget hpc hmem
  simp only [step, hget, fn, hpc, hmem, if_true]

theorem copyGraph_push_once_witness :
    (Example.final Example.stores Example.noHooks Example.manifest Example.emptyEnv
      Example.schedule).world.trace.count (.push Example.blob) ≤ 1 :=
  (copyGraph_push_once Example.stores Example.noHooks Example.manifest Example.emptyEnv
    Example.schedule _ (by decide)).1 Example.blob

/-- C2: in every state of every run of `copyGraph`, a push of `d` comes after the list of
successors of `d` was found (there is one such list), after the token of every successor
in that list was closed, that is after the call that committed the successor returned
`nil`, and strictly after every push of such a successor. -/
theorem copyGraph_push_after_successors (st : Stores) (opts : CopyGraphOptions)
    (root : Descriptor) (env : Env) (acts : List Action) (s : State)
    (h : run st opts (copyGraph.init opts root env) acts = some s) :
    ∀ pre d, pre ++ [Event.push d] <+: s.world.trace →
      ∃ l, Event.successors d l ∈ pre ∧
        (∀ l1, Event.successors d l1 ∈ s.world.trace → l1 = l) ∧
        ∀ n ∈ l, Event.close n.digest ∈ pre ∧
          ∀ pre1 n1, n1.digest = n.digest → pre1 ++ [Event.push n1] <+: s.world.trace →
            pre1.length < pre.length := by
  have hinv := Inv.alongRun acts _ s (Inv.atInit opts root env) h
  intro pre d hpre
  obtain ⟨l, hl, hcl⟩ := hinv.shared.push_order pre d hpre
  have hpt : pre <+: s.world.trace := (List.prefix_append pre _).trans hpre
  refine ⟨l, hl, ?_, ?_⟩
  · intro l1 hl1
    exact ((hinv.shared.succ_unique d l d l1 (hpt.subset hl) hl1 rfl).2).symm
  · intro n hn
    refine ⟨hcl n hn, ?_⟩
    intro pre1 n1 hdig hpre1
    by_contra hlen
    have hp1t : pre1 <+: s.world.trace := (List.prefix_append pre1 _).trans hpre1
    have hpp : pre <+: pre1 := List.prefix_of_prefix_length_le hpt hp1t (by omega)
    have hopen := hinv.shared.push_open pre1 n1 hpre1
    rw [hdig] at hopen
    exact hopen (hpp.subset (hcl n hn))

theorem copyGraph_push_after_successors_witness :
    ∃ l, Event.successors Example.manifest l ∈ (Example.final Example.stores Example.noHooks
        Example.manifest Example.emptyEnv Example.schedule).world.trace.take 18 ∧
      (∀ l1, Event.successors Example.manifest l1 ∈ (Example.final Example.stores
        Example.noHooks Example.manifest Example.emptyEnv Example.schedule).world.trace →
        l1 = l) ∧
      ∀ n ∈ l, Event.close n.digest ∈ (Example.final Example.stores Example.noHooks
          Example.manifest Example.emptyEnv Example.schedule).world.trace.take 18 ∧
        ∀ pre1 n1, n1.digest = n.digest →
          pre1 ++ [Event.push n1] <+: (Example.final Example.stores Example.noHooks
            Example.manifest Example.emptyEnv Example.schedule).world.trace →
          pre1.length < ((Example.final Example.stores Example.noHooks
            Example.manifest Example.emptyEnv Example.schedule).world.trace.take 18).length :=
  copyGraph_push_after_successors Example.stores Example.noHooks Example.manifest
    Example.emptyEnv Example.schedule _ (by decide) _ Example.manifest (by decide)

/-! ## The walk: what a successful run has copied -/

theorem Effect.closedMono {s : State} {t : Task} {tr cl : List Digest} {trace : List Event}
    (he : Effect s t tr cl trace) : ∀ k ∈ s.closed, k ∈ cl := by
  intro k hk
  cases he <;> simp [hk]

theorem CoreStep.closed_mono {st : Stores} {opts : CopyGraphOptions} {s s1 : State}
    (hc : CoreStep st opts s s1) : ∀ k ∈ s.closed, k ∈ s1.closed := by
  intro k hk
  cases hc with
  | idle _ _ hcl _ => rw [hcl]; exact hk
  | spawn _ _ _ _ _ hcl _ => rw [hcl]; exact hk
  | task i t t1 _ _ hm =>
    exact hm.toEffect.closedMono k hk

theorem step_close {st : Stores} {opts : CopyGraphOptions} {s s1 : State} {t : Task}
    {alt : Bool} (ht : s.tasks[0]? = some t) (hpc : t.pc = .ret none)
    (h : step st opts s (.run 0 alt) = some s1) :
    s1.closed = t.desc.digest :: s.closed ∧ s1.world = s.world.emit (.close t.desc.digest) ∧
      s1.tasks = s.tasks.set 0 { t with pc := .leave none } := by
  simp only [step, ht, fn, hpc, Option.some.injEq] at h
  subst h
  exact ⟨rfl, rfl, rfl⟩

/-- When `copyGraph` returns `nil`, the token of the root is closed. -/
theorem copyGraph.root_closed {st : Stores} {opts : CopyGraphOptions} {root : Descriptor}
    {env : Env} {acts : List Action} {s : State}
    (h : run st opts (copyGraph.init opts root env) acts = some s)
    (hres : s.result = some none) : root.digest ∈ s.closed := by
  have hr := root_done (fun _ => True) (fun s => root.digest ∈ s.closed)
    (fun _ _ _ _ _ => trivial)
    (fun s s1 a _ hstep hq => (step_core st opts s s1 a hstep).closed_mono _ hq)
    (fun s s1 t alt _ ht hd hpc hstep => by
      show root.digest ∈ s1.closed
      rw [(step_close ht hpc hstep).1, ← hd]
      exact List.mem_cons_self _ _)
    acts _ s trivial (RInv.rootInit opts root env _) h
  exact hr.2.result hres

theorem copyGraph_eq_some {st : Stores} {opts : CopyGraphOptions} {root : Descriptor}
    {env : Env} {acts : List Action} {r : Option Error} {s : State}
    (h : copyGraph st opts root env acts = some (r, s)) :
    run st opts (copyGraph.init opts root env) acts = some s ∧ s.result = some r := by
  unfold copyGraph at h
  split at h
  · cases h
  · rename_i s2 hrun
    split at h
    · cases h
    · rename_i r2 hres
      simp only [Option.some.injEq, Prod.mk.injEq] at h
      obtain ⟨rfl, rfl⟩ := h
      exact ⟨hrun, hres⟩

theorem Example.noHooks_graphOptions :
    GraphOptions Example.stores Example.noHooks Example.successors where
  find := by
    intro d env l h
    simp only [CopyGraphOptions.findSuccessors, Example.noHooks, Example.stores,
      Except.ok.injEq] at h
    exact h.symm
  findKeeps := by
    intro d env
    simp only [CopyGraphOptions.findSuccessors, Example.noHooks, Example.stores]
    split <;> rfl
  digest := by
    intro d d1 h
    simp only [Example.successors, h]
  preCopy := by intro h hh; cases hh
  postCopy := by intro h hh; cases hh
  onCopySkipped := by intro h hh; cases hh

/-- C1, as stated, fails: the destination holds the manifest `M` and not its blob `B`;
`copyGraph` returns `nil` after it has skipped the root and leaves the destination as it
was, and the blob, a successor of the root that is no foreign layer, is not at the
destination. -/
theorem copyGraph_skips_graph_of_present_root :
    (copyGraph Example.stores Example.noHooks Example.manifest Example.rootOnlyEnv
        Example.skipSchedule).map (fun r => (r.1, r.2.world.env, r.2.world.trace)) =
      some (none, Example.rootOnlyEnv, [.tryCommit Example.manifest true,
        .exists Example.manifest true, .close "M"]) ∧
    (Example.noHooks.findSuccessors Example.stores Example.manifest Example.rootOnlyEnv).1 =
      .ok [Example.blob, Example.foreign, Example.blob2] ∧
    Example.stores.IsForeignLayer Example.blob = false ∧
    dstExists Example.stores Example.blob Example.rootOnlyEnv = .ok false := by
  refine ⟨by decide, rfl, rfl, rfl⟩

/-- C1, amended: let the hooks leave the blobs of the destination alone, `PreCopy` never
return the skip sentinel, `FindSuccessors` return the successors `g d`, which depend on the
digest only, and the destination hold at the start, with every descriptor, its successors
that are no foreign layers.  If `copyGraph` returns `nil`, the destination holds every
descriptor reachable from the root through the successors that are no foreign layers, and
`dst.Exists` reports it unless the store fails. -/
theorem copyGraph_copies_reachable (st : Stores) (opts : CopyGraphOptions)
    (g : Descriptor → List Descriptor) (root : Descriptor) (env : Env) (acts : List Action)
    (s : State) (hopts : GraphOptions st opts g) (henv : env.Closed st g)
    (h : copyGraph st opts root env acts = some (none, s)) :
    ∀ d, Reach st g root d →
      d.digest ∈ s.world.env.blobs ∧
      (st.fault Op.dstExists d = none → dstExists st d s.world.env = .ok true) := by
  obtain ⟨hrun, hres⟩ := copyGraph_eq_some h
  have hinv := Inv.alongRun acts _ s (Inv.atInit opts root env) hrun
  have hb := BInv.blobsRun hopts acts _ s (Inv.atInit opts root env)
    (BInv.blobsInit opts root henv) hrun
  intro d hd
  have hmem := hb.reach (copyGraph.root_closed hrun hres) hd
  refine ⟨hmem, ?_⟩
  intro hf
  simp only [dstExists, hf, hmem, decide_True]

theorem copyGraph_copies_reachable_witness :
    Example.blob2.digest ∈ (Example.final Example.stores Example.noHooks Example.manifest
        Example.emptyEnv Example.schedule).world.env.blobs ∧
      (Example.stores.fault Op.dstExists Example.blob2 = none →
        dstExists Example.stores Example.blob2 (Example.final Example.stores Example.noHooks
          Example.manifest Example.emptyEnv Example.schedule).world.env = .ok true) :=
  copyGraph_copies_reachable Example.stores Example.noHooks Example.successors
    Example.manifest Example.emptyEnv Example.schedule
    (Example.final Example.stores Example.noHooks Example.manifest Example.emptyEnv
      Example.schedule)
    Example.noHooks_graphOptions (fun _ hd => absurd hd (List.not_mem_nil _)) (by decide)
    Example.blob2 (.step Example.manifest Example.blob2 .root (by decide))

/-! ## `Copy`: the root is tagged -/

theorem run_induction {st : Stores} {opts : CopyGraphOptions} (K : State → Prop)
    (hK : ∀ s s1 a, K s → step st opts s a = some s1 → K s1) :
    ∀ (acts : List Action) (s s1 : State), K s → run st opts s acts = some s1 → K s1 := by
  intro acts
  induction acts with
  | nil =>
    intro s s1 hk h
    simp only [run, Option.some.injEq] at h
    exact h ▸ hk
  | cons a as ih =>
    intro s s1 hk h
    simp only [run] at h
    split at h
    · cases h
    · rename_i s2 hstep
      exact ih s2 s1 (hK s s2 a hk hstep) h

theorem TaskMove.tracker_mono {st : Stores} {opts : CopyGraphOptions} {s : State}
    {t t1 : Task} {tr cl : List Digest} {w : World} (hm : TaskMove st opts s t t1 tr cl w) :
    ∀ k ∈ s.tracker, k ∈ tr := by
  intro k hk
  cases hm <;> simp [hk]

/-- No move of a goroutine adds a call of `AttemptMount` or `OnMounted` to the trace. -/
theorem TaskMove.noMount {st : Stores} {opts : CopyGraphOptions} {s : State} {t t1 : Task}
    {tr cl : List Digest} {w : World} (hm : TaskMove st opts s t t1 tr cl w) :
    ∃ evs, w.trace = s.world.trace ++ evs ∧ ∀ e ∈ evs, e.isMount = false := by
  cases hm with
  | localMove pc ended hl => exact ⟨[], by simp, by simp⟩
  | commit _ _ => exact ⟨[.tryCommit t.desc true], rfl, by simp [Event.isMount]⟩
  | duplicate _ _ => exact ⟨[.tryCommit t.desc false], rfl, by simp [Event.isMount]⟩
  | existsOk _ => exact ⟨[.exists t.desc _], rfl, by simp [Event.isMount]⟩
  | skipped h hpc _ => exact ⟨[.onCopySkipped t.desc], rfl, by simp [Event.isMount]⟩
  | skippedNone _ _ => exact ⟨[], by simp, by simp⟩
  | findErr err _ _ => exact ⟨[], by simp, by simp⟩
  | findOk l pc _ _ _ => exact ⟨[.successors t.desc _], rfl, by simp [Event.isMount]⟩
  | awaitToken node rest _ _ => exact ⟨[.tryCommit node false], rfl, by simp [Event.isMount]⟩
  | awaitCommitted node rest _ _ =>
    exact ⟨[.tryCommit node true], rfl, by simp [Event.isMount]⟩
  | copy src _ =>
    obtain ⟨evs, h1, h2⟩ := copyNode_trace st src t.desc opts s.world
    refine ⟨evs, h1, ?_⟩
    intro e he
    have := h2.subset he
    simp only [List.mem_cons, List.mem_singleton, List.not_mem_nil, or_false] at this
    rcases this with rfl | rfl | rfl | rfl <;> rfl
  | close _ => exact ⟨[.close t.desc.digest], rfl, by simp [Event.isMount]⟩

theorem CoreStep.noMountStep {st : Stores} {opts : CopyGraphOptions} {s s1 : State}
    (hc : CoreStep st opts s s1) (h : ∀ e ∈ s.world.trace, e.isMount = false) :
    ∀ e ∈ s1.world.trace, e.isMount = false := by
  cases hc with
  | idle _ _ _ hw => rw [hw]; exact h
  | spawn _ _ _ _ _ _ hw => rw [hw]; exact h
  | task i t t1 _ _ hm =>
    obtain ⟨evs, h1, h2⟩ := hm.noMount
    rw [h1]
    intro e he
    rcases List.mem_append.1 he with he | he
    · exact h e he
    · exact h2 e he

/-- C9, as the code has it: the walk hands every node to `copyNode`, never to
`mountOrCopyNode`, so no run of `copyGraph` calls `AttemptMount` or `OnMounted`, whatever
the options.  With an `AttemptMount` that would report the blob as mounted, the run from
the blob fetches the blob from the source and pushes it. -/
theorem copyGraph_ignores_attemptMount :
    (∀ (st : Stores) (opts : CopyGraphOptions) (root : Descriptor) (env : Env)
        (acts : List Action) (s : State),
      run st opts (copyGraph.init opts root env) acts = some s →
        ∀ d, Event.attemptMount d ∉ s.world.trace ∧ Event.onMounted d ∉ s.world.trace) ∧
    (copyGraph Example.stores
        { Example.noHooks with AttemptMount := some Example.alwaysMounted,
                               OnMounted := some Example.okHook }
        Example.blob Example.emptyEnv Example.leafSchedule).map
        (fun r => (r.1, r.2.world.trace)) =
      some (none,
        [.tryCommit Example.blob true, .exists Example.blob false,
         .successors Example.blob [], .fetch .base Example.blob,
         .push Example.blob, .close Example.blob.digest]) := by
  refine ⟨?_, by decide⟩
  intro st opts root env acts s h d
  have hk := run_induction (fun s => ∀ e ∈ s.world.trace, e.isMount = false)
    (fun s s1 a hk hstep => (step_core st opts s s1 a hstep).noMountStep hk) acts _ s
    (by simp [copyGraph.init]) h
  constructor
  · intro hmem
    have := hk _ hmem
    simp [Event.isMount] at this
  · intro hmem
    have := hk _ hmem
    simp [Event.isMount] at this

/-! ## `LimitedRegion` is a two-state machine -/

theorem LimitedRegion.call_balance (s : Option LimitedRegion × Limiter) (c : RegionCall) :
    (LimitedRegion.call s c).2.acquired + s.2.released + LimitedRegion.holding s.1 =
      (LimitedRegion.call s c).2.released + s.2.acquired +
        LimitedRegion.holding (LimitedRegion.call s c).1 ∧
    (s.1 = none ↔ (LimitedRegion.call s c).1 = none) := by
  obtain ⟨lr, lim⟩ := s
  cases c with
  | Start acquire =>
    cases lr with
    | none => simp [LimitedRegion.call, LimitedRegion.Start]; omega
    | some r =>
      cases hr : r.ended <;> cases acquire <;>
        simp [LimitedRegion.call, LimitedRegion.Start, LimitedRegion.holding, hr] <;> omega
  | End =>
    cases lr with
    | none => simp [LimitedRegion.call, LimitedRegion.End]; omega
    | some r =>
      cases hr : r.ended <;>
        simp [LimitedRegion.call, LimitedRegion.End, LimitedRegion.holding, hr] <;> omega

theorem LimitedRegion.calls_balance (cs : List RegionCall) :
    ∀ s : Option LimitedRegion × Limiter,
      (LimitedRegion.calls s cs).2.acquired + s.2.released + LimitedRegion.holding s.1 =
        (LimitedRegion.calls s cs).2.released + s.2.acquired +
          LimitedRegion.holding (LimitedRegion.calls s cs).1 := by
  induction cs with
  | nil => intro s; simp [LimitedRegion.calls]; omega
  | cons c cs ih =>
    intro s
    have h1 := (LimitedRegion.call_balance s c).1
    have h2 := ih (LimitedRegion.call s c)
    simp only [LimitedRegion.calls, List.foldl_cons] at h2 ⊢
    omega

theorem LimitedRegion.holding_le (lr : Option LimitedRegion) : LimitedRegion.holding lr ≤ 1 := by
  cases lr with
  | none => simp [LimitedRegion.holding]
  | some r => simp only [LimitedRegion.holding]; split <;> omega

/-- C12: a region is created holding no permit; `Start` on a region that holds a permit
acquires nothing and returns `nil`; `End` on a region that holds no permit releases
nothing; `Start` on a region that holds no permit calls `Acquire` once: when that fails it
returns the error and the region still holds no permit, when it succeeds the region holds
one.  So after every sequence of calls of `Start` and `End` on a new region, whatever the
calls of `Acquire` return, the region holds 0 or 1 permit and the number of permits
acquired is the number released plus the number held: the limiter was released no more
often than it was acquired. -/
theorem LimitedRegion_two_states :
    (∀ limited, LimitedRegion.holding (LimitRegion limited) = 0) ∧
    (∀ lim acquire, LimitedRegion.Start (some { ended := false }) lim acquire =
      (none, some { ended := false }, lim)) ∧
    (∀ lim, LimitedRegion.End (some { ended := true }) lim = (some { ended := true }, lim)) ∧
    (∀ lim err, LimitedRegion.Start (some { ended := true }) lim (some err) =
      (some err, some { ended := true }, lim)) ∧
    (∀ lim, LimitedRegion.Start (some { ended := true }) lim none =
      (none, some { ended := false }, { lim with acquired := lim.acquired + 1 })) ∧
    (∀ lim, LimitedRegion.End (some { ended := false }) lim =
      (some { ended := true }, { lim with released := lim.released + 1 })) ∧
    (∀ lim acquire, LimitedRegion.Start none lim acquire = (none, none, lim) ∧
      LimitedRegion.End none lim = (none, lim)) ∧
    (∀ (limited : Bool) (lim : Limiter) (cs : List RegionCall),
      LimitedRegion.holding (LimitedRegion.calls (LimitRegion limited, lim) cs).1 ≤ 1 ∧
      (LimitedRegion.calls (LimitRegion limited, lim) cs).2.acquired - lim.acquired =
        (LimitedRegion.calls (LimitRegion limited, lim) cs).2.released - lim.released +
          LimitedRegion.holding (LimitedRegion.calls (LimitRegion limited, lim) cs).1 ∧
      lim.acquired ≤ (LimitedRegion.calls (LimitRegion limited, lim) cs).2.acquired ∧
      lim.released ≤ (LimitedRegion.calls (LimitRegion limited, lim) cs).2.released) := by
  refine ⟨?_, ?_, ?_, ?_, ?_, ?_, ?_, ?_⟩
  · intro limited
    cases limited <;> rfl
  · intro lim acquire; rfl
  · intro lim; rfl
  · intro lim err; rfl
  · intro lim; rfl
  · intro lim; rfl
  · intro lim acquire; exact ⟨rfl, rfl⟩
  · intro limited lim cs
    have hb := LimitedRegion.calls_balance cs (LimitRegion limited, lim)
    have h0 : LimitedRegion.holding (LimitRegion limited) = 0 := by cases limited <;> rfl
    have hle := LimitedRegion.holding_le (LimitedRegion.calls (LimitRegion limited, lim) cs).1
    have hmono : ∀ (cs : List RegionCall) (s : Option LimitedRegion × Limiter),
        s.2.acquired ≤ (LimitedRegion.calls s cs).2.acquired ∧
        s.2.released ≤ (LimitedRegion.calls s cs).2.released := by
      intro cs
      induction cs with
      | nil => intro s; simp [LimitedRegion.calls]
      | cons c cs ih =>
        intro s
        have h2 := ih (LimitedRegion.call s c)
        have h1 : s.2.acquired ≤ (LimitedRegion.call s c).2.acquired ∧
            s.2.released ≤ (LimitedRegion.call s c).2.released := by
          obtain ⟨lr, lim⟩ := s
          cases c with
          | Start acquire =>
            cases lr with
            | none => simp [LimitedRegion.call, LimitedRegion.Start]
            | some r =>
              cases hr : r.ended <;> cases acquire <;>
                simp [LimitedRegion.call, LimitedRegion.Start, hr]
          | End =>
            cases lr with
            | none => simp [LimitedRegion.call, LimitedRegion.End]
            | some r => cases hr : r.ended <;> simp [LimitedRegion.call, LimitedRegion.End, hr]
        simp only [LimitedRegion.calls, List.foldl_cons] at h2 ⊢
        omega
    have hm := hmono cs (LimitRegion limited, lim)
    simp only at hb hm
    rw [h0] at hb
    refine ⟨hle, ?_, hm.1, hm.2⟩
    omega

/-! ## `Copy`: the targets that are `nil`, and the defaults -/

/-- C13: `Copy` with a `nil` source fails with the error "nil source target", and with a
source and a `nil` destination with the error "nil destination target"; it returns the
empty descriptor with the error, whatever the run of the walk would be, the stores stay as
they are, nothing is in the trace, and the result is the same for all stores: the
reference is not resolved and no operation of a store is called. -/
theorem Copy_nil_target (st : Stores) (srcNil dstNil : Bool) (srcRef dstRef : String)
    (opts : CopyOptions) (env : Env) (acts : List Action)
    (h : srcNil = true ∨ dstNil = true) :
    Copy st srcNil dstNil srcRef dstRef opts env acts =
      some (.error (if srcNil then .nilSource else .nilDestination),
        { env := env, trace := [] }) ∧
    Copy.returned (.error (if srcNil then .nilSource else .nilDestination)) =
      (Descriptor.empty, some (if srcNil then .nilSource else .nilDestination)) ∧
    ∀ (st1 : Stores) (acts1 : List Action),
      Copy st1 srcNil dstNil srcRef dstRef opts env acts1 =
        Copy st srcNil dstNil srcRef dstRef opts env acts := by
  have hsetup : ∀ st1 : Stores, Copy.setup st1 srcNil dstNil srcRef dstRef opts env =
      (.error (if srcNil then .nilSource else .nilDestination), env) := by
    intro st1
    unfold Copy.setup
    cases srcNil with
    | true => simp
    | false =>
      rcases h with h | h
      · cases h
      · simp [h]
  have hcopy : ∀ (st1 : Stores) (acts1 : List Action),
      Copy st1 srcNil dstNil srcRef dstRef opts env acts1 =
        some (.error (if srcNil then .nilSource else .nilDestination),
          { env := env, trace := [] }) := by
    intro st1 acts1
    unfold Copy
    rw [hsetup st1]
  exact ⟨hcopy st acts, rfl, fun st1 acts1 => (hcopy st1 acts1).trans (hcopy st acts).symm⟩

theorem Copy_nil_target_witness :
    Copy Example.stores true false "v1" "" Example.copyOptions Example.emptyEnv
        Example.schedule =
      some (.error (if true then .nilSource else .nilDestination),
        { env := Example.emptyEnv, trace := [] }) ∧
    Copy.returned (.error (if true then .nilSource else .nilDestination)) =
      (Descriptor.empty, some (if true then .nilSource else .nilDestination)) ∧
    ∀ (st1 : Stores) (acts1 : List Action),
      Copy st1 true false "v1" "" Example.copyOptions Example.emptyEnv acts1 =
        Copy Example.stores true false "v1" "" Example.copyOptions Example.emptyEnv
          Example.schedule :=
  Copy_nil_target Example.stores true false "v1" "" Example.copyOptions Example.emptyEnv
    Example.schedule (.inl rfl)

/-- C14: the limiter `copyGraph` creates has capacity 3 when `opts.Concurrency` is at most
0 and capacity `opts.Concurrency` when it is positive, and the walk starts with that many
free permits; the budget of the proxy it creates is 4 MiB = 4194304 bytes when
`opts.MaxMetadataBytes` is at most 0 and `opts.MaxMetadataBytes` when it is positive, and
`Copy` gives its proxy the same budget. -/
theorem copyGraph_defaults (opts : CopyOptions) (root : Descriptor) (env : Env) :
    (opts.Concurrency ≤ 0 → limiterCapacity opts.toCopyGraphOptions = 3) ∧
    (0 < opts.Concurrency →
      (limiterCapacity opts.toCopyGraphOptions : Int) = opts.Concurrency) ∧
    (copyGraph.init opts.toCopyGraphOptions root env).free =
      limiterCapacity opts.toCopyGraphOptions ∧
    (opts.MaxMetadataBytes ≤ 0 → proxyBudget opts.toCopyGraphOptions = 4194304) ∧
    (0 < opts.MaxMetadataBytes →
      proxyBudget opts.toCopyGraphOptions = opts.MaxMetadataBytes) ∧
    Copy.proxyBudget opts = proxyBudget opts.toCopyGraphOptions ∧
    defaultConcurrency = 3 ∧ defaultCopyMaxMetadataBytes = 4194304 := by
  refine ⟨?_, ?_, rfl, ?_, ?_, rfl, rfl, by decide⟩
  · intro h
    simp [limiterCapacity, h, defaultConcurrency]
  · intro h
    have hn : ¬ opts.Concurrency ≤ 0 := by omega
    simp only [limiterCapacity, hn, if_false]
    omega
  · intro h
    simp only [proxyBudget, h, if_true]
    decide
  · intro h
    have hn : ¬ opts.MaxMetadataBytes ≤ 0 := by omega
    simp only [proxyBudget, hn, if_false]

/-! ## A token is closed at most once, by the committed call that returns `nil` -/

/-- What a move does to the closed tokens: the goroutine is at the return of a committed
call with `nil` and closes its token, or nothing is closed. -/
theorem TaskMove.closeTrace {st : Stores} {opts : CopyGraphOptions} {s : State} {t t1 : Task}
    {tr cl : List Digest} {w : World} (hm : TaskMove st opts s t t1 tr cl w) :
    (t.pc = .ret none ∧ t1.pc = .leave none ∧ cl = t.desc.digest :: s.closed ∧
      w.trace = s.world.trace ++ [.close t.desc.digest]) ∨
    (cl = s.closed ∧ ∃ evs, w.trace = s.world.trace ++ evs ∧ ∀ e ∈ evs, e.isClose = false) := by
  cases hm with
  | localMove pc ended hl => exact .inr ⟨rfl, [], by simp, by simp⟩
  | commit _ _ => exact .inr ⟨rfl, [.tryCommit t.desc true], rfl, by simp [Event.isClose]⟩
  | duplicate _ _ => exact .inr ⟨rfl, [.tryCommit t.desc false], rfl, by simp [Event.isClose]⟩
  | existsOk _ => exact .inr ⟨rfl, [.exists t.desc _], rfl, by simp [Event.isClose]⟩
  | skipped h hpc _ => exact .inr ⟨rfl, [.onCopySkipped t.desc], rfl, by simp [Event.isClose]⟩
  | skippedNone _ _ => exact .inr ⟨rfl, [], by simp, by simp⟩
  | findErr err _ _ => exact .inr ⟨rfl, [], by simp, by simp⟩
  | findOk l pc _ _ _ =>
    exact .inr ⟨rfl, [.successors t.desc _], rfl, by simp [Event.isClose]⟩
  | awaitToken node rest _ _ =>
    exact .inr ⟨rfl, [.tryCommit node false], rfl, by simp [Event.isClose]⟩
  | awaitCommitted node rest _ _ =>
    exact .inr ⟨rfl, [.tryCommit node true], rfl, by simp [Event.isClose]⟩
  | copy src _ =>
    obtain ⟨evs, h1, h2⟩ := copyNode_trace st src t.desc opts s.world
    refine .inr ⟨rfl, evs, h1, ?_⟩
    intro e he
    have := h2.subset he
    simp only [List.mem_cons, List.mem_singleton, List.not_mem_nil, or_false] at this
    rcases this with rfl | rfl | rfl | rfl <;> rfl
  | close hpc => exact .inl ⟨hpc, rfl, rfl, rfl⟩

/-- A goroutine whose committed call has returned an error after a move had returned the
error before the move, or was about to return it. -/
theorem TaskMove.failed_back {st : Stores} {opts : CopyGraphOptions} {s : State} {t t1 : Task}
    {tr cl : List Digest} {w : World} (hm : TaskMove st opts s t t1 tr cl w)
    (h : t1.pc.failed = true) : t.pc.failed = true ∨ ∃ err, t.pc = .ret (some err) := by
  cases hm with
  | localMove pc ended hl =>
    cases hl with
    | failed err hpc => exact .inr ⟨err, hpc⟩
    | ended err hpc =>
      left
      rw [hpc]
      cases err <;> simp_all [Pc.failed]
    | _ => simp [Pc.failed] at h
  | existsOk _ =>
    simp only at h
    split at h <;> simp [Pc.failed] at h
  | skipped _ _ _ => simp [Pc.failed] at h
  | findOk l pc _ _ hcase =>
    rcases hcase with ⟨rfl, _⟩ | ⟨rfl, _⟩ <;> simp [Pc.failed] at h
  | copy _ _ => simp [Pc.failed] at h
  | _ => simp [Pc.failed] at h

theorem Pc.not_holds_of_failed {pc : Pc} (h : pc.failed = true) : pc.holds = false := by
  cases pc <;> simp_all [Pc.failed, Pc.holds]

theorem count_append_noClose {trace evs : List Event} (hevs : ∀ e ∈ evs, e.isClose = false)
    (k : Digest) : (trace ++ evs).count (.close k) = trace.count (.close k) := by
  rw [List.count_append]
  have : evs.count (.close k) = 0 := by
    rw [List.count_eq_zero]
    intro h
    have := hevs _ h
    simp [Event.isClose] at this
  omega

theorem CloseInv.closeStep {st : Stores} {opts : CopyGraphOptions} {s s1 : State} (hinv : Inv s)
    (hx : CloseInv s) (hc : CoreStep st opts s s1) : CloseInv s1 := by
  cases hc with
  | idle htasks htr hcl hw =>
    exact {
      once := by rw [hw]; exact hx.once
      ordered := by rw [hw]; exact hx.ordered
      failed := by rw [htasks, htr, hcl]; exact hx.failed }
  | spawn item g _ htasks htr hcl hw =>
    refine {
      once := by rw [hw]; exact hx.once
      ordered := by rw [hw]; exact hx.ordered
      failed := ?_ }
    intro i t hi hf
    rw [htr, hcl]
    rw [htasks] at hi
    rcases getElem?_concat_cases hi with hi | ⟨_, rfl⟩
    · obtain ⟨h1, h2, h3⟩ := hx.failed i t hi hf
      refine ⟨h1, h2, ?_⟩
      intro j u hj hu
      rw [htasks] at hj
      rcases getElem?_concat_cases hj with hj | ⟨_, rfl⟩
      · exact h3 j u hj hu
      · simp [Pc.holds] at hu
    · simp [Pc.failed] at hf
  | task i t t1 hget htasks hm =>
    have hmono := hm.tracker_mono
    have ht := hinv.task i t hget
    have hfailed1 : t1.pc.failed = true →
        t.desc.digest ∈ s.tracker ∧ t.desc.digest ∉ s.closed ∧
          ∀ (j : Nat) (u : Task), j ≠ i → s.tasks[j]? = some u → u.pc.holds = true →
            u.desc.digest ≠ t.desc.digest := by
      intro hf
      rcases hm.failed_back hf with hf0 | ⟨err, hpc⟩
      · obtain ⟨h1, h2, h3⟩ := hx.failed i t hget hf0
        exact ⟨h1, h2, fun j u _ hj hu => h3 j u hj hu⟩
      · have hh : t.pc.holds = true := by rw [hpc]; rfl
        refine ⟨ht.tracked hh, ht.isOpen hh, ?_⟩
        intro j u hji hj hu heq
        exact hji (hinv.unique j i u t hj hget hu hh heq)
    have hrest : ∀ cl1 : List Digest,
        (cl1 = s.closed ∨ (cl1 = t.desc.digest :: s.closed ∧ t.pc = .ret none)) →
        ∀ (a : Nat) (u : Task), (s.tasks.set i t1)[a]? = some u → u.pc.failed = true →
          u.desc.digest ∈ s1.tracker ∧ u.desc.digest ∉ cl1 ∧
            ∀ (j : Nat) (v : Task), (s.tasks.set i t1)[j]? = some v → v.pc.holds = true →
              v.desc.digest ≠ u.desc.digest := by
      intro cl1 hcl a u ha hf
      rcases getElem?_set_cases ha with ⟨rfl, rfl⟩ | ⟨hai, hu⟩
      · obtain ⟨h1, h2, h3⟩ := hfailed1 hf
        rw [hm.desc_eq]
        refine ⟨hmono _ h1, ?_, ?_⟩
        · rcases hcl with rfl | ⟨rfl, hpc0⟩
          · exact h2
          · rcases hm.failed_back hf with hf0 | ⟨err, hpc⟩
            · rw [hpc0] at hf0
              simp [Pc.failed] at hf0
            · rw [hpc0] at hpc
              cases hpc
        · intro j v hj hv
          rcases getElem?_set_cases hj with ⟨_, rfl⟩ | ⟨hji, hv0⟩
          · rw [Pc.not_holds_of_failed hf] at hv
            cases hv
          · exact h3 j v hji hv0 hv
      · obtain ⟨h1, h2, h3⟩ := hx.failed a u hu hf
        refine ⟨hmono _ h1, ?_, ?_⟩
        · rcases hcl with rfl | ⟨rfl, hpc0⟩
          · exact h2
          · intro hmem
            rcases List.mem_cons.1 hmem with heq | hmem
            · exact h3 i t hget (by rw [hpc0]; rfl) heq.symm
            · exact h2 hmem
        · intro j v hj hv
          rcases getElem?_set_cases hj with ⟨_, rfl⟩ | ⟨hji, hv0⟩
          · rw [hm.desc_eq]
            rcases hm.holds_back hv with hh | hn
            · exact h3 i t hget hh
            · intro heq
              exact hn (heq ▸ h1)
          · exact h3 j v hv0 hv
    rcases hm.closeTrace with ⟨hpc, hpc1, hcl, htrace⟩ | ⟨hcl, evs, htrace, hevs⟩
    · have hh : t.pc.holds = true := by rw [hpc]; rfl
      have hnew : Event.close t.desc.digest ∉ s.world.trace :=
        fun hmem => ht.isOpen hh ((hinv.shared.closed_iff _).2 hmem)
      refine { once := ?_, ordered := ?_, failed := ?_ }
      · intro k
        rw [htrace, List.count_append]
        by_cases hk : k = t.desc.digest
        · subst hk
          have : s.world.trace.count (.close t.desc.digest) = 0 := List.count_eq_zero.2 hnew
          simp [this]
        · have h0 : [Event.close t.desc.digest].count (.close k) = 0 := by
            rw [List.count_eq_zero]
            simp only [List.mem_singleton, Event.close.injEq]
            exact hk
          have := hx.once k
          omega
      · intro pre k hpre
        rw [htrace] at hpre
        rcases prefix_snoc_append _ hpre with h | ⟨e1, e2, he, hp⟩
        · exact hx.ordered pre k h
        · have he1 : e1 = [] := by
            cases e1 with
            | nil => rfl
            | cons a as =>
              have := congrArg List.length he
              simp at this
          subst he1
          simp only [List.nil_append, List.cons.injEq, Event.close.injEq] at he
          rw [hp, List.append_nil]
          exact ⟨t.desc, he.1, ht.committed hh⟩
      · rw [htasks, hcl]
        exact hrest _ (.inr ⟨rfl, hpc⟩)
    · refine { once := ?_, ordered := ?_, failed := ?_ }
      · intro k
        rw [htrace, count_append_noClose hevs]
        exact hx.once k
      · intro pre k hpre
        rw [htrace] at hpre
        rcases prefix_snoc_append _ hpre with h | ⟨e1, e2, he, hp⟩
        · exact hx.ordered pre k h
        · have := hevs (.close k) (by rw [he]; simp)
          simp [Event.isClose] at this
      · rw [htasks, hcl]
        exact hrest _ (.inl rfl)

theorem CloseInv.closeInit (opts : CopyGraphOptions) (root : Descriptor) (env : Env) :
    CloseInv (copyGraph.init opts root env) where
  once := by simp [copyGraph.init]
  ordered := by
    intro pre k h
    simp only [copyGraph.init] at h
    have := h.length_le
    simp at this
  failed := by simp [copyGraph.init]

/-! ## `syncutil.Go`: the cause it returns -/

theorem Syncutil.firstCancel_append (l evs : List Syncutil.Event) :
    Syncutil.firstCancel (l ++ evs) =
      match Syncutil.firstCancel l with
      | some err => some err
      | none => Syncutil.firstCancel evs := by
  induction l with
  | nil =>
    simp only [List.nil_append, Syncutil.firstCancel]
  | cons e l ih =>
    cases e <;> simp [Syncutil.firstCancel, ih]

theorem Syncutil.State.cancel_of_some {α : Type} {s : Syncutil.State α} {c : Error}
    (h : s.Cause = some c) (err : Error) : s.cancel err = s := by
  simp [Syncutil.State.cancel, h]

theorem Syncutil.State.cancel_of_none {α : Type} {s : Syncutil.State α} (h : s.Cause = none)
    (err : Error) : s.cancel err = { s with cause := some err } := by
  simp [Syncutil.State.cancel, h]

theorem Syncutil.State.cancel_of_done {α : Type} {s : Syncutil.State α}
    (h : s.Cause.isSome = true) (err : Error) : s.cancel err = s := by
  obtain ⟨c, hc⟩ := Option.isSome_iff_exists.1 h
  exact Syncutil.State.cancel_of_some hc err

theorem Syncutil.Start_new (lim : Limiter) (outcome : Option Error) :
    LimitedRegion.Start (LimitRegion true) lim outcome =
      match outcome with
      | some err => (some err, some { ended := true }, lim)
      | none => (none, some { ended := false }, { lim with acquired := lim.acquired + 1 }) := by
  cases outcome <;> rfl

/-- The outcome of an acquisition that fails: the context is done. -/
theorem Syncutil.State.acquire_failed {α : Type} {s : Syncutil.State α} {acquired : Bool}
    {err : Error} (h : s.acquire acquired = some (some err)) : s.egDone = true := by
  unfold Syncutil.State.acquire at h
  split at h
  · split at h <;> cases h
  · split at h
    · assumption
    · cases h

theorem Syncutil.State.acquire_ok {α : Type} {s : Syncutil.State α} {acquired : Bool}
    (h : s.acquire acquired = some none) : s.limiter.acquired < s.size + s.limiter.released := by
  unfold Syncutil.State.acquire at h
  split at h
  · split at h
    · assumption
    · cases h
  · split at h <;> cases h

theorem Syncutil.CauseInv.done_of_egDone {α : Type} {s : Syncutil.State α}
    (hinv : Syncutil.CauseInv s) (h : s.egDone = true) : s.Cause.isSome = true := by
  simp only [Syncutil.State.egDone, Bool.or_eq_true] at h
  rcases h with h | h
  · exact h
  · exact hinv.egErr h

/-- What a step of `syncutil.Go` does to the loop and to the trace of the cancellations:
the cases a proof about the cancellation has to go through. -/
theorem Syncutil.CauseInv.causeStep {α : Type} {s s1 : Syncutil.State α} {a : Syncutil.Action}
    (hinv : Syncutil.CauseInv s) (h : Syncutil.step s a = some s1) : Syncutil.CauseInv s1 := by
  have hres : s.result = none := by
    cases hr : s.result with
    | none => rfl
    | some r =>
      obtain ⟨_, hp, hf⟩ := hinv.returned r hr
      exfalso
      cases a with
      | cancel err => simp [Syncutil.step, hr] at h
      | loop acquired => simp [Syncutil.step, Syncutil.loop, hr] at h
      | wait => simp [Syncutil.step, Syncutil.wait, hr] at h
      | begin i =>
        simp only [Syncutil.step, Syncutil.begin] at h
        split at h
        · cases h
        · rename_i t ht
          have := hf t (List.getElem?_mem ht)
          split at h
          · rename_i hpc; rw [hpc] at this; cases this
          · cases h
      | regionEnd i =>
        simp only [Syncutil.step, Syncutil.regionEnd] at h
        split at h
        · cases h
        · rename_i t ht
          have := hf t (List.getElem?_mem ht)
          split at h
          · rename_i hpc; rw [hpc] at this; cases this
          · cases h
      | regionStart i acquired =>
        simp only [Syncutil.step, Syncutil.regionStart] at h
        split at h
        · cases h
        · rename_i t ht
          have := hf t (List.getElem?_mem ht)
          split at h
          · rename_i hpc; rw [hpc] at this; cases this
          · cases h
      | fnReturn i err =>
        simp only [Syncutil.step, Syncutil.fnReturn] at h
        split at h
        · cases h
        · rename_i t ht
          have := hf t (List.getElem?_mem ht)
          split at h
          · rename_i hpc; rw [hpc] at this; cases this
          · cases h
      | leave i =>
        simp only [Syncutil.step, Syncutil.leave] at h
        split at h
        · cases h
        · rename_i t ht
          have := hf t (List.getElem?_mem ht)
          split at h
          · rename_i hpc; rw [hpc] at this; cases this
          · rename_i hpc; rw [hpc] at this; cases this
          · cases h
  have hc := hinv.cause
  cases a with
  | cancel err =>
    simp only [Syncutil.step, hres] at h
    split at h
    · rename_i hr hctx
      cases h
      refine ⟨?_, ?_, ?_, ?_⟩
      · simp only [Syncutil.State.Cause, hctx] at hc ⊢
        rw [Syncutil.firstCancel_append, ← hc]
        cases s.cause <;> rfl
      · intro he
        have := hinv.egErr he
        simp only [Syncutil.State.Cause] at this ⊢
        cases s.cause <;> simp
      · intro hm
        simp only [Syncutil.State.Cause]
        cases s.cause <;> simp
      · intro r hr1
        simp [hres] at hr1
    · cases h
  | loop acquired =>
    simp only [Syncutil.step, Syncutil.loop, hres] at h
    split at h
    · rename_i item rest hr hp
      split at h
      · cases h
      · rename_i outcome hacq
        rw [Syncutil.Start_new] at h
        cases outcome with
        | some err =>
          simp only at h
          have hdone := hinv.done_of_egDone (Syncutil.State.acquire_failed hacq)
          rw [Syncutil.State.cancel_of_done hdone] at h
          cases h
          refine ⟨?_, hinv.egErr, fun _ => hdone, ?_⟩
          · show s.Cause = _
            rw [Syncutil.firstCancel_append, ← hc]
            cases s.Cause <;> rfl
          · intro r hr1
            simp [hres] at hr1
        | none =>
          simp only at h
          cases h
          refine ⟨?_, hinv.egErr, ?_, ?_⟩
          · show s.Cause = _
            rw [Syncutil.firstCancel_append, ← hc]
            cases s.Cause <;> rfl
          · intro hm
            simp only [List.mem_append, List.mem_singleton, Syncutil.Event.acquire.injEq,
              Bool.false_eq_true, or_false] at hm
            exact hinv.acquireFailed hm
          · intro r hr1
            simp [hres] at hr1
    · cases h
  | begin i =>
    simp only [Syncutil.step, Syncutil.begin] at h
    split at h
    · cases h
    · rename_i t ht
      split at h
      · split at h <;>
        · cases h
          refine ⟨?_, hinv.egErr, ?_, ?_⟩
          · show s.Cause = _
            rw [Syncutil.firstCancel_append, ← hc]
            cases s.Cause <;> rfl
          · intro hm
            simp only [List.mem_append, List.mem_singleton, or_false] at hm
            exact hinv.acquireFailed (by simpa using hm)
          · intro r hr1
            simp [hres] at hr1
      · cases h
  | regionEnd i =>
    simp only [Syncutil.step, Syncutil.regionEnd] at h
    split at h
    · cases h
    · split at h
      · cases h
        exact ⟨hc, hinv.egErr, hinv.acquireFailed, fun r hr1 => by
          simp [hres] at hr1⟩
      · cases h
  | regionStart i acquired =>
    simp only [Syncutil.step, Syncutil.regionStart] at h
    split at h
    · cases h
    · split at h
      · split at h
        · cases h
        · cases h
          exact ⟨hc, hinv.egErr, hinv.acquireFailed, fun r hr1 => by
            simp [hres] at hr1⟩
      · cases h
  | fnReturn i err =>
    simp only [Syncutil.step, Syncutil.fnReturn] at h
    split at h
    · cases h
    · split at h
      · cases h
        refine ⟨?_, hinv.egErr, ?_, ?_⟩
        · show s.Cause = _
          rw [Syncutil.firstCancel_append, ← hc]
          cases s.Cause <;> rfl
        · intro hm
          simp only [List.mem_append, List.mem_singleton, or_false] at hm
          exact hinv.acquireFailed (by simpa using hm)
        · intro r hr1
          simp [hres] at hr1
      · cases h
  | leave i =>
    simp only [Syncutil.step, Syncutil.leave] at h
    split at h
    · cases h
    · split at h
      · cases h
        exact ⟨hc, hinv.egErr, hinv.acquireFailed, fun r hr1 => by
          simp [hres] at hr1⟩
      · rename_i err hpc
        cases hC : s.Cause with
        | none =>
          rw [Syncutil.State.cancel_of_none hC] at h
          cases h
          have hC1 : ∀ x : Syncutil.State α, x.cause = some err → x.Cause = some err := by
            intro x hx
            simp [Syncutil.State.Cause, hx]
          refine ⟨?_, ?_, ?_, ?_⟩
          · rw [hC1 _ rfl]
            show _ = Syncutil.firstCancel (s.trace ++ _)
            rw [Syncutil.firstCancel_append, ← hc, hC]
            rfl
          · intro _
            rw [hC1 _ rfl]; rfl
          · intro _
            rw [hC1 _ rfl]; rfl
          · intro r hr1
            simp [hres] at hr1
        | some c =>
          rw [Syncutil.State.cancel_of_some hC] at h
          cases h
          refine ⟨?_, ?_, ?_, ?_⟩
          · show s.Cause = Syncutil.firstCancel (s.trace ++ _)
            rw [Syncutil.firstCancel_append, ← hc, hC]
          · intro _
            show s.Cause.isSome = true
            rw [hC]; rfl
          · intro _
            show s.Cause.isSome = true
            rw [hC]; rfl
          · intro r hr1
            simp [hres] at hr1
      · cases h
  | wait =>
    simp only [Syncutil.step, Syncutil.wait, hres] at h
    split at h
    · rename_i hr hp
      split at h
      · rename_i hall
        have hfin : ∀ t ∈ s.tasks, t.pc.isFinished = true := by
          simpa [List.all_eq_true] using hall
        split at h
        · rename_i err he
          have hdone := hinv.egErr (by rw [he]; rfl)
          rw [Syncutil.State.cancel_of_done hdone] at h
          cases h
          exact ⟨hc, hinv.egErr, hinv.acquireFailed, fun r hr1 => by
            simp only [Option.some.injEq] at hr1
            exact ⟨hr1.symm, hp, hfin⟩⟩
        · cases h
          exact ⟨hc, hinv.egErr, hinv.acquireFailed, fun r hr1 => by
            simp only [Option.some.injEq] at hr1
            exact ⟨hr1.symm, hp, hfin⟩⟩
      · cases h
    · cases h

/-! ## `syncutil.Go`: every step is a move -/

theorem Syncutil.step_move {α : Type} {s s1 : Syncutil.State α} {a : Syncutil.Action}
    (h : Syncutil.step s a = some s1) : Syncutil.Move s s1 := by
  cases a with
  | cancel err =>
    simp only [Syncutil.step] at h
    split at h
    · rename_i hr hctx
      cases h
      exact .cancel err hr hctx
    · cases h
  | loop acquired =>
    simp only [Syncutil.step, Syncutil.loop] at h
    split at h
    · rename_i item rest hr hp
      split at h
      · cases h
      · rename_i outcome hacq
        rw [Syncutil.Start_new] at h
        cases outcome with
        | some err =>
          simp only at h
          cases h
          exact .broke item rest err hr hp (Syncutil.State.acquire_failed hacq)
        | none =>
          simp only at h
          cases h
          exact .spawn item rest hr hp (Syncutil.State.acquire_ok hacq)
    · cases h
  | begin i =>
    simp only [Syncutil.step, Syncutil.begin] at h
    split at h
    · cases h
    · rename_i t ht
      split at h
      · rename_i hpc
        split at h
        · rename_i hd
          cases h
          exact .skip i t ht hpc hd
        · rename_i hd
          cases h
          exact .invoke i t ht hpc (by simpa using hd)
      · cases h
  | regionEnd i =>
    simp only [Syncutil.step, Syncutil.regionEnd] at h
    split at h
    · cases h
    · rename_i t ht
      split at h
      · rename_i hpc
        cases h
        refine Syncutil.Move.region i t .End ht hpc ?_
        intro hlt
        exfalso
        revert hlt
        cases hlr : t.lr with
        | none => simp [LimitedRegion.call, LimitedRegion.End, LimitedRegion.holding]
        | some r =>
          cases hr : r.ended <;>
            simp [LimitedRegion.call, LimitedRegion.End, LimitedRegion.holding, hr]
      · cases h
  | regionStart i acquired =>
    simp only [Syncutil.step, Syncutil.regionStart] at h
    split at h
    · cases h
    · rename_i t ht
      split at h
      · rename_i hpc
        split at h
        · cases h
        · rename_i outcome hout
          cases h
          refine Syncutil.Move.region i t (.Start outcome) ht hpc ?_
          intro hlt
          split at hout
          · rename_i hhold
            have := LimitedRegion.holding_le (LimitedRegion.call (t.lr, s.limiter)
              (.Start outcome)).1
            omega
          · cases outcome with
            | none => exact Syncutil.State.acquire_ok hout
            | some err =>
              exfalso
              revert hlt
              cases hlr : t.lr with
              | none => simp [LimitedRegion.call, LimitedRegion.Start, LimitedRegion.holding]
              | some r =>
                cases hr : r.ended <;>
                  simp [LimitedRegion.call, LimitedRegion.Start, LimitedRegion.holding, hr]
      · cases h
  | fnReturn i err =>
    simp only [Syncutil.step, Syncutil.fnReturn] at h
    split at h
    · cases h
    · rename_i t ht
      split at h
      · rename_i hpc
        cases h
        exact .fnReturn i t err ht hpc
      · cases h
  | leave i =>
    simp only [Syncutil.step, Syncutil.leave] at h
    split at h
    · cases h
    · rename_i t ht
      split at h
      · rename_i hpc
        cases h
        exact .leaveOk i t ht hpc
      · rename_i err hpc
        cases h
        exact .leaveErr i t err ht hpc
      · cases h
  | wait =>
    simp only [Syncutil.step, Syncutil.wait] at h
    split at h
    · rename_i hr hp
      split at h
      · rename_i hall
        have hfin : ∀ t ∈ s.tasks, t.pc.isFinished = true := by
          simpa [List.all_eq_true] using hall
        split at h
        · rename_i err he
          cases h
          exact .wait (s.cancel err) hr hp hfin (.inr ⟨err, he, rfl⟩)
        · cases h
          exact .wait s hr hp hfin (.inl rfl)
      · cases h
    · cases h

/-! ## `syncutil.Go`: the permits -/

theorem Syncutil.State.cancel_fields {α : Type} (s : Syncutil.State α) (err : Error) :
    (s.cancel err).size = s.size ∧ (s.cancel err).limiter = s.limiter ∧
    (s.cancel err).ctxCause = s.ctxCause ∧ (s.cancel err).egErr = s.egErr ∧
    (s.cancel err).pending = s.pending ∧ (s.cancel err).tasks = s.tasks ∧
    (s.cancel err).result = s.result ∧ (s.cancel err).trace = s.trace := by
  unfold Syncutil.State.cancel
  split <;> simp

theorem Syncutil.held_append {α : Type} (l : List (Syncutil.Task α)) (t : Syncutil.Task α) :
    Syncutil.held (l ++ [t]) = Syncutil.held l + LimitedRegion.holding t.lr := by
  simp [Syncutil.held]

theorem Syncutil.held_set {α : Type} (t1 : Syncutil.Task α) :
    ∀ (l : List (Syncutil.Task α)) (i : Nat) (t : Syncutil.Task α), l[i]? = some t →
      Syncutil.held (l.set i t1) + LimitedRegion.holding t.lr =
        Syncutil.held l + LimitedRegion.holding t1.lr := by
  intro l
  induction l with
  | nil => intro i t h; simp at h
  | cons a l ih =>
    intro i t h
    cases i with
    | zero =>
      simp only [List.getElem?_cons_zero, Option.some.injEq] at h
      subst h
      simp only [List.set_cons_zero, Syncutil.held, List.map_cons, List.sum_cons]
      omega
    | succ i =>
      simp only [List.getElem?_cons_succ] at h
      have := ih i t h
      simp only [List.set_cons_succ, Syncutil.held, List.map_cons, List.sum_cons] at this ⊢
      omega

theorem Syncutil.held_zero {α : Type} (l : List (Syncutil.Task α))
    (h : ∀ t ∈ l, LimitedRegion.holding t.lr = 0) : Syncutil.held l = 0 := by
  induction l with
  | nil => rfl
  | cons a l ih =>
    simp only [Syncutil.held, List.map_cons, List.sum_cons]
    have h1 := h a (List.mem_cons_self _ _)
    have h2 := ih (fun t ht => h t (List.mem_cons_of_mem _ ht))
    simp only [Syncutil.held] at h2
    omega

theorem LimitedRegion.holding_End (lr : Option LimitedRegion) (lim : Limiter) :
    LimitedRegion.holding (LimitedRegion.End lr lim).1 = 0 := by
  cases lr with
  | none => rfl
  | some r => cases hr : r.ended <;> simp [LimitedRegion.End, LimitedRegion.holding, hr]

theorem Syncutil.PermitInv.permitStep {α : Type} {acq0 rel0 : Nat} {s s1 : Syncutil.State α}
    (hinv : Syncutil.PermitInv acq0 rel0 s) (hm : Syncutil.Move s s1) :
    Syncutil.PermitInv acq0 rel0 s1 := by
  obtain ⟨hp, he, hcap⟩ := hinv
  have hset : ∀ (i : Nat) (t t1 : Syncutil.Task α), s.tasks[i]? = some t →
      (t1.pc.isFinished = true → LimitedRegion.holding t1.lr = 0) →
      ∀ u ∈ s.tasks.set i t1, u.pc.isFinished = true → LimitedRegion.holding u.lr = 0 := by
    intro i t t1 _ h1 u hu hf
    rcases List.mem_or_eq_of_mem_set hu with hu | rfl
    · exact he u hu hf
    · exact h1 hf
  cases hm with
  | cancel err _ _ => exact ⟨hp, he, hcap⟩
  | spawn item rest _ _ hfree =>
    refine ⟨?_, ?_, ?_⟩
    · simp only [Syncutil.held_append, LimitedRegion.holding]
      simp only [Bool.false_eq_true, if_false]
      omega
    · intro u hu hf
      rcases List.mem_append.1 hu with hu | hu
      · exact he u hu hf
      · simp only [List.mem_singleton] at hu
        subst hu
        simp [Syncutil.Pc.isFinished] at hf
    · show s.limiter.acquired + 1 ≤ s.size + s.limiter.released
      omega
  | broke item rest err _ _ _ =>
    obtain ⟨h1, h2, _, _, _, h6, _, _⟩ := s.cancel_fields err
    refine ⟨?_, ?_, ?_⟩
    · show (s.cancel err).limiter.acquired + rel0 =
        (s.cancel err).limiter.released + acq0 + Syncutil.held (s.cancel err).tasks
      rw [h2, h6]; exact hp
    · show ∀ t ∈ (s.cancel err).tasks, _
      rw [h6]; exact he
    · show (s.cancel err).limiter.acquired ≤ (s.cancel err).size + (s.cancel err).limiter.released
      rw [h1, h2]; exact hcap
  | skip i t ht hpc _ =>
    refine ⟨?_, hset i t _ ht (by simp [Syncutil.Pc.isFinished]), hcap⟩
    have := Syncutil.held_set { t with pc := .leave none } s.tasks i t ht
    simp only at this ⊢
    omega
  | invoke i t ht hpc _ =>
    refine ⟨?_, hset i t _ ht (by simp [Syncutil.Pc.isFinished]), hcap⟩
    have := Syncutil.held_set { t with pc := .inFn } s.tasks i t ht
    simp only at this ⊢
    omega
  | region i t c ht hpc hfree =>
    have hb := (LimitedRegion.call_balance (t.lr, s.limiter) c).1
    have hs := Syncutil.held_set { t with lr := (LimitedRegion.call (t.lr, s.limiter) c).1 }
      s.tasks i t ht
    have hle := LimitedRegion.holding_le (LimitedRegion.call (t.lr, s.limiter) c).1
    have hle0 := LimitedRegion.holding_le t.lr
    simp only at hb hs
    refine ⟨?_, hset i t _ ht (by simp [hpc, Syncutil.Pc.isFinished]), ?_⟩
    · simp only
      omega
    · simp only
      by_cases hlt : LimitedRegion.holding t.lr <
          LimitedRegion.holding (LimitedRegion.call (t.lr, s.limiter) c).1
      · have := hfree hlt
        omega
      · omega
  | fnReturn i t err ht hpc =>
    refine ⟨?_, hset i t _ ht (by simp [Syncutil.Pc.isFinished]), hcap⟩
    have := Syncutil.held_set { t with pc := .leave err } s.tasks i t ht
    simp only at this ⊢
    omega
  | leaveOk i t ht hpc =>
    have hb := (LimitedRegion.call_balance (t.lr, s.limiter) .End).1
    have h0 := LimitedRegion.holding_End t.lr s.limiter
    have hs := Syncutil.held_set
      { t with lr := (LimitedRegion.End t.lr s.limiter).1, pc := .finished none } s.tasks i t ht
    simp only [LimitedRegion.call] at hb hs
    refine ⟨?_, hset i t _ ht (fun _ => h0), ?_⟩
    · simp only
      omega
    · simp only
      omega
  | leaveErr i t err ht hpc =>
    obtain ⟨h1, h2, _, _, _, h6, _, _⟩ := s.cancel_fields err
    have hb := (LimitedRegion.call_balance (t.lr, s.limiter) .End).1
    have h0 := LimitedRegion.holding_End t.lr s.limiter
    have hs := Syncutil.held_set
      { t with lr := (LimitedRegion.End t.lr s.limiter).1, pc := .finished (some err) }
      s.tasks i t ht
    simp only [LimitedRegion.call] at hb hs
    refine ⟨?_, hset i t _ ht (fun _ => h0), ?_⟩
    · simp only
      omega
    · show _ ≤ (s.cancel err).size + _
      rw [h1]
      simp only
      omega
  | wait s0 _ _ _ hs0 =>
    rcases hs0 with rfl | ⟨err, _, rfl⟩
    · exact ⟨hp, he, hcap⟩
    · obtain ⟨h1, h2, _, _, _, h6, _, _⟩ := s.cancel_fields err
      refine ⟨?_, ?_, ?_⟩
      · show (s.cancel err).limiter.acquired + rel0 =
          (s.cancel err).limiter.released + acq0 + Syncutil.held (s.cancel err).tasks
        rw [h2, h6]; exact hp
      · show ∀ t ∈ (s.cancel err).tasks, _
        rw [h6]; exact he
      · show (s.cancel err).limiter.acquired ≤
          (s.cancel err).size + (s.cancel err).limiter.released
        rw [h1, h2]; exact hcap

/-! ## `syncutil.Go`: the invocations of `fn` -/

theorem Syncutil.Move.trace_append {α : Type} {s s1 : Syncutil.State α}
    (hm : Syncutil.Move s s1) : ∃ evs, s1.trace = s.trace ++ evs := by
  cases hm with
  | cancel err _ _ => exact ⟨_, rfl⟩
  | spawn _ _ _ _ _ => exact ⟨_, rfl⟩
  | broke _ _ err _ _ _ => exact ⟨_, rfl⟩
  | skip _ _ _ _ _ => exact ⟨_, rfl⟩
  | invoke _ _ _ _ _ => exact ⟨_, rfl⟩
  | region _ _ _ _ _ _ => exact ⟨[], by simp⟩
  | fnReturn _ _ _ _ _ => exact ⟨_, rfl⟩
  | leaveOk _ _ _ _ => exact ⟨[], by simp⟩
  | leaveErr _ _ err _ _ => exact ⟨_, rfl⟩
  | wait s0 _ _ _ hs0 =>
    rcases hs0 with rfl | ⟨err, _, rfl⟩
    · exact ⟨[], by simp⟩
    · exact ⟨[], by simp [(s.cancel_fields err).2.2.2.2.2.2.2]⟩

/-- A context that is cancelled stays cancelled. -/
theorem Syncutil.CauseInv.persists {α : Type} {s s1 : Syncutil.State α}
    (hc : Syncutil.CauseInv s) (hc1 : Syncutil.CauseInv s1) (hm : Syncutil.Move s s1)
    (h : s.Cause.isSome = true) : s1.Cause = s.Cause := by
  obtain ⟨evs, htr⟩ := hm.trace_append
  rw [hc1.cause, htr, Syncutil.firstCancel_append, ← hc.cause]
  obtain ⟨c, hcc⟩ := Option.isSome_iff_exists.1 h
  rw [hcc]

theorem Syncutil.map_item_set {α : Type} (l : List (Syncutil.Task α)) (i : Nat)
    (t t1 : Syncutil.Task α) (h : l[i]? = some t) (hitem : t1.item = t.item) :
    (l.set i t1).map (fun t => t.item) = l.map (fun t => t.item) := by
  rw [List.map_set, hitem]
  apply List.ext_getElem?
  intro j
  rw [List.getElem?_set]
  split
  · rename_i hij
    subst hij
    split
    · simp [h]
    · rename_i hlen
      simp only [List.length_map] at hlen
      have := (List.getElem?_eq_some_iff.1 h).1
      omega
  · rfl

/-- The invariant of the invocations is kept by a step that replaces the goroutine `i` by
`t1` and adds the events `evs` to the trace. -/
theorem Syncutil.FnInv.update {α : Type} {items : List α} {s s1 : Syncutil.State α}
    (hinv : Syncutil.FnInv items s) {i : Nat} {t t1 : Syncutil.Task α}
    (evs : List Syncutil.Event) (ht : s.tasks[i]? = some t)
    (htasks : s1.tasks = s.tasks.set i t1) (htrace : s1.trace = s.trace ++ evs)
    (hpend : s1.pending = s.pending) (hitem : t1.item = t.item)
    (hcause : s.Cause.isSome = true → s1.Cause.isSome = true)
    (hfail : ∀ j e, Syncutil.Event.fnReturn j (some e) ∈ evs → j = i ∧ t1.pc = .leave (some e))
    (hleft : ∀ e, t.pc = .leave (some e) → t1.pc = .leave (some e) ∨ s1.Cause.isSome = true)
    (hcan : ∀ j e, Syncutil.Event.cancel j e ∈ evs → Syncutil.Event.fnReturn j (some e) ∈ s.trace)
    (hleave : ∀ e, t1.pc = .leave (some e) →
      t.pc = .leave (some e) ∨ Syncutil.Event.fnReturn i (some e) ∈ evs)
    (hinv0 : ∀ j, evs.count (.invoke j) = if j = i ∧ t.pc = .start ∧ t1.pc = .inFn then 1 else 0)
    (hstart : t1.pc = .start → t.pc = .start)
    (hrun : t1.pc ≠ .start → t.pc ≠ .start ∨ t1.pc = .inFn ∨ s1.Cause.isSome = true)
    (hearly : ∀ j, Syncutil.Event.invoke j ∈ evs →
      evs = [.invoke j] ∧ Syncutil.firstCancel s.trace = none) :
    Syncutil.FnInv items s1 := by
  have hilt : i < s.tasks.length := (List.getElem?_eq_some_iff.1 ht).1
  refine ⟨?_, ?_, ?_, ?_, ?_, ?_⟩
  · rw [htasks, htrace, hpend, Syncutil.map_item_set _ _ _ _ ht hitem]
    rcases hinv.items with h | h
    · exact .inl h
    · exact .inr (List.mem_append_left _ h)
  · intro j e hmem
    rw [htrace] at hmem
    rw [htasks]
    rcases List.mem_append.1 hmem with hmem | hmem
    · rcases hinv.failing j e hmem with ⟨u, hu, hpc⟩ | hC
      · by_cases hji : j = i
        · subst hji
          rw [ht] at hu
          cases hu
          rcases hleft e hpc with h | h
          · exact .inl ⟨t1, by simp [hilt], h⟩
          · exact .inr h
        · exact .inl ⟨u, by rw [List.getElem?_set_ne (fun h => hji h.symm)]; exact hu, hpc⟩
      · exact .inr (hcause hC)
    · obtain ⟨rfl, hpc⟩ := hfail j e hmem
      exact .inl ⟨t1, by simp [hilt], hpc⟩
  · intro j e hmem
    rw [htrace] at hmem ⊢
    rcases List.mem_append.1 hmem with hmem | hmem
    · exact List.mem_append_left _ (hinv.cancelled j e hmem)
    · exact List.mem_append_left _ (hcan j e hmem)
  · intro j u e hu hpc
    rw [htasks] at hu
    rw [htrace]
    rcases getElem?_set_cases hu with ⟨rfl, rfl⟩ | ⟨hji, hu⟩
    · rcases hleave e hpc with h | h
      · exact List.mem_append_left _ (hinv.leaving j t e ht h)
      · exact List.mem_append_right _ h
    · exact List.mem_append_left _ (hinv.leaving j u e hu hpc)
  · intro j
    obtain ⟨h1, h2, h3⟩ := hinv.invoked j
    rw [htrace, htasks, List.count_append, hinv0 j]
    refine ⟨?_, ?_, ?_⟩
    · split
      · rename_i hc
        obtain ⟨rfl, hpc, _⟩ := hc
        have := (h3 t ht).1 hpc
        omega
      · omega
    · intro hlen
      rw [List.length_set] at hlen
      have hji : ¬ (j = i ∧ t.pc = .start ∧ t1.pc = .inFn) := by
        intro hc
        omega
      rw [if_neg hji]
      have := h2 hlen
      omega
    · intro u hu
      rcases getElem?_set_cases hu with ⟨rfl, rfl⟩ | ⟨hji, hu⟩
      · constructor
        · intro hpc
          have hn : ¬ (j = j ∧ t.pc = .start ∧ u.pc = .inFn) := by
            intro hc
            rw [hpc] at hc
            exact absurd hc.2.2 (by simp)
          rw [if_neg hn]
          have := (h3 t ht).1 (hstart hpc)
          omega
        · intro hpc
          by_cases hts : t.pc = .start
          · have h0 := (h3 t ht).1 hts
            rcases hrun hpc with h | h | h
            · exact absurd hts h
            · left
              rw [if_pos ⟨rfl, hts, h⟩]
              omega
            · exact .inr h
          · have hn : ¬ (j = j ∧ t.pc = .start ∧ u.pc = .inFn) := fun hc => hts hc.2.1
            rw [if_neg hn]
            rcases (h3 t ht).2 hts with h | h
            · left; omega
            · exact .inr (hcause h)
      · have hn : ¬ (j = i ∧ t.pc = .start ∧ t1.pc = .inFn) := fun hc => hji hc.1
        rw [if_neg hn]
        obtain ⟨h4, h5⟩ := h3 u hu
        constructor
        · intro hpc
          have := h4 hpc
          omega
        · intro hpc
          rcases h5 hpc with h | h
          · left; omega
          · exact .inr (hcause h)
  · intro pre j hpre
    rw [htrace] at hpre
    rcases prefix_snoc_append _ hpre with h | ⟨e1, e2, he, hp⟩
    · exact hinv.early pre j h
    · obtain ⟨hev, hnone⟩ := hearly j (by rw [he]; simp)
      rw [hev] at he
      have he1 : e1 = [] := by
        cases e1 with
        | nil => rfl
        | cons a as =>
          have := congrArg List.length he
          simp at this
      rw [hp, he1, List.append_nil]
      exact hnone

/-- The invariant of the invocations is kept by a step that changes no goroutine, may add
goroutines at their `select`, and adds to the trace no event of an invocation. -/
theorem Syncutil.FnInv.silent {α : Type} {items : List α} {s s1 : Syncutil.State α}
    (hinv : Syncutil.FnInv items s) (new : List (Syncutil.Task α)) (evs : List Syncutil.Event)
    (htasks : s1.tasks = s.tasks ++ new) (hnew : ∀ t ∈ new, t.pc = .start)
    (htrace : s1.trace = s.trace ++ evs) (hquiet : ∀ e ∈ evs, e.isFn = false)
    (hitems : s1.tasks.map (fun t => t.item) ++ s1.pending =
        s.tasks.map (fun t => t.item) ++ s.pending ∨
      Syncutil.Event.acquire false ∈ s1.trace)
    (hcause : s.Cause.isSome = true → s1.Cause.isSome = true) :
    Syncutil.FnInv items s1 := by
  have hmem : ∀ ev : Syncutil.Event, ev.isFn = true → (ev ∈ s1.trace ↔ ev ∈ s.trace) := by
    intro ev hev
    rw [htrace, List.mem_append]
    constructor
    · rintro (h | h)
      · exact h
      · rw [hquiet ev h] at hev
        cases hev
    · exact .inl
  have hcount : ∀ j, s1.trace.count (.invoke j) = s.trace.count (.invoke j) := by
    intro j
    rw [htrace, List.count_append]
    have : evs.count (.invoke j) = 0 := by
      rw [List.count_eq_zero]
      intro h
      have := hquiet _ h
      simp [Syncutil.Event.isFn] at this
    omega
  have hold : ∀ (j : Nat) (u : Syncutil.Task α), s.tasks[j]? = some u → s1.tasks[j]? = some u := by
    intro j u hu
    rw [htasks, List.getElem?_append_left (List.getElem?_eq_some_iff.1 hu).1]
    exact hu
  have hback : ∀ (j : Nat) (u : Syncutil.Task α), s1.tasks[j]? = some u →
      s.tasks[j]? = some u ∨ (s.tasks.length ≤ j ∧ u.pc = .start) := by
    intro j u hu
    rw [htasks] at hu
    by_cases hj : j < s.tasks.length
    · rw [List.getElem?_append_left hj] at hu
      exact .inl hu
    · rw [List.getElem?_append_right (by omega)] at hu
      exact .inr ⟨by omega, hnew u (List.getElem?_mem hu)⟩
  refine ⟨?_, ?_, ?_, ?_, ?_, ?_⟩
  · rcases hitems with h | h
    · rcases hinv.items with h1 | h1
      · exact .inl (h.trans h1)
      · exact .inr (by rw [htrace]; exact List.mem_append_left _ h1)
    · exact .inr h
  · intro j e hm
    rcases hinv.failing j e ((hmem (.fnReturn j (some e)) rfl).1 hm) with ⟨u, hu, hpc⟩ | hC
    · exact .inl ⟨u, hold j u hu, hpc⟩
    · exact .inr (hcause hC)
  · intro j e hm
    exact (hmem (.fnReturn j (some e)) rfl).2
      (hinv.cancelled j e ((hmem (.cancel j e) rfl).1 hm))
  · intro j u e hu hpc
    rcases hback j u hu with h | ⟨_, h⟩
    · exact (hmem (.fnReturn j (some e)) rfl).2 (hinv.leaving j u e h hpc)
    · rw [h] at hpc
      cases hpc
  · intro j
    obtain ⟨h1, h2, h3⟩ := hinv.invoked j
    rw [hcount j]
    refine ⟨h1, ?_, ?_⟩
    · intro hlen
      rw [htasks, List.length_append] at hlen
      exact h2 (by omega)
    · intro u hu
      rcases hback j u hu with h | ⟨hlen, h⟩
      · obtain ⟨h4, h5⟩ := h3 u h
        refine ⟨h4, fun hpc => ?_⟩
        rcases h5 hpc with h6 | h6
        · exact .inl h6
        · exact .inr (hcause h6)
      · exact ⟨fun _ => h2 hlen, fun hpc => absurd h hpc⟩
  · intro pre j hpre
    rw [htrace] at hpre
    rcases prefix_snoc_append _ hpre with h | ⟨e1, e2, he, hp⟩
    · exact hinv.early pre j h
    · have := hquiet (.invoke j) (by rw [he]; simp)
      simp [Syncutil.Event.isFn] at this

theorem Syncutil.State.Cause_congr {α : Type} {s s1 : Syncutil.State α}
    (h1 : s1.cause = s.cause) (h2 : s1.ctxCause = s.ctxCause) : s1.Cause = s.Cause := by
  simp [Syncutil.State.Cause, h1, h2]

theorem Syncutil.State.cancel_done {α : Type} (s : Syncutil.State α) (err : Error) :
    (s.cancel err).Cause.isSome = true := by
  cases hC : s.Cause with
  | none =>
    rw [Syncutil.State.cancel_of_none hC]
    simp [Syncutil.State.Cause]
  | some c =>
    rw [Syncutil.State.cancel_of_some hC, hC]
    rfl

theorem Syncutil.FnInv.fnStep {α : Type} {items : List α} {s s1 : Syncutil.State α}
    (hc : Syncutil.CauseInv s) (hc1 : Syncutil.CauseInv s1) (hinv : Syncutil.FnInv items s)
    (hm : Syncutil.Move s s1) : Syncutil.FnInv items s1 := by
  have hpers : s.Cause.isSome = true → s1.Cause.isSome = true := by
    intro h
    rw [hc.persists hc1 hm h]
    exact h
  cases hm with
  | cancel err hr hctx =>
    exact hinv.silent [] [.ctxCancel err] (by simp) (by simp) rfl
      (by simp [Syncutil.Event.isFn]) (.inl rfl) hpers
  | spawn item rest hr hp hfree =>
    exact hinv.silent [{ item := item, lr := some { ended := false }, pc := .start }]
      [.acquire true] rfl (by simp) rfl (by simp [Syncutil.Event.isFn])
      (.inl (by simp [hp])) hpers
  | broke item rest err hr hp hd =>
    refine hinv.silent [] [.acquire false] ?_ (by simp) rfl (by simp [Syncutil.Event.isFn])
      (.inr (by simp)) hpers
    show (s.cancel err).tasks = _
    rw [(s.cancel_fields err).2.2.2.2.2.1]
    simp
  | skip i t ht hpc hd =>
    have hdone : s.Cause.isSome = true := hc.done_of_egDone hd
    refine hinv.update [.skip i] ht rfl rfl rfl rfl hpers (by simp) ?_ (by simp) (by simp)
      ?_ (by simp) (fun _ => .inr (.inr hdone)) (by simp)
    · intro e h
      rw [hpc] at h
      cases h
    · intro j
      simp
  | invoke i t ht hpc hd =>
    have hnone : Syncutil.firstCancel s.trace = none := by
      rw [← hc.cause]
      simp only [Syncutil.State.egDone, Bool.or_eq_false_iff] at hd
      cases hC : s.Cause with
      | none => rfl
      | some c => rw [hC] at hd; simp at hd
    refine hinv.update [.invoke i] ht rfl rfl rfl rfl hpers (by simp) ?_ (by simp) (by simp)
      ?_ (by simp) (fun _ => .inr (.inl rfl)) ?_
    · intro e h
      rw [hpc] at h
      cases h
    · intro j
      by_cases hji : j = i
      · subst hji
        simp [hpc]
      · have : ¬ i = j := fun h => hji h.symm
        simp [hji, this, List.count_singleton]
    · intro j hj
      simp only [List.mem_singleton, Syncutil.Event.invoke.injEq] at hj
      subst hj
      exact ⟨rfl, hnone⟩
  | region i t c ht hpc hfree =>
    refine hinv.update [] ht rfl (by simp) rfl rfl hpers (by simp) ?_ (by simp) ?_
      ?_ (fun h => h) (fun h => .inl h) (by simp)
    · intro e h
      rw [hpc] at h
      cases h
    · intro e h
      exact .inl h
    · intro j
      simp [hpc]
  | fnReturn i t err ht hpc =>
    refine hinv.update [.fnReturn i err] ht rfl rfl rfl rfl hpers ?_ ?_ (by simp) ?_
      ?_ (by simp) ?_ (by simp)
    · intro j e h
      simp only [List.mem_singleton, Syncutil.Event.fnReturn.injEq] at h
      obtain ⟨rfl, rfl⟩ := h
      exact ⟨rfl, rfl⟩
    · intro e h
      rw [hpc] at h
      cases h
    · intro e h
      simp only [Syncutil.Pc.leave.injEq] at h
      subst h
      exact .inr (by simp)
    · intro j
      simp [hpc]
    · intro _
      left
      rw [hpc]
      simp
  | leaveOk i t ht hpc =>
    refine hinv.update [] ht rfl (by simp) rfl rfl hpers (by simp) ?_ (by simp) (by simp)
      ?_ (by simp) ?_ (by simp)
    · intro e h
      rw [hpc] at h
      cases h
    · intro j
      simp [hpc]
    · intro _
      left
      rw [hpc]
      simp
  | leaveErr i t err ht hpc =>
    have hdone : ∀ x : Syncutil.State α, x.cause = (s.cancel err).cause →
        x.ctxCause = (s.cancel err).ctxCause → x.Cause.isSome = true := by
      intro x h1 h2
      rw [Syncutil.State.Cause_congr h1 h2]
      exact s.cancel_done err
    refine hinv.update [.cancel i err] ht rfl rfl ?_ rfl hpers (by simp) ?_ ?_ (by simp)
      ?_ (by simp) ?_ (by simp)
    · exact (s.cancel_fields err).2.2.2.2.1
    · intro e _
      exact .inr (hdone _ rfl rfl)
    · intro j e h
      simp only [List.mem_singleton, Syncutil.Event.cancel.injEq] at h
      obtain ⟨rfl, rfl⟩ := h
      exact hinv.leaving j t e ht hpc
    · intro j
      simp [hpc]
    · intro _
      exact .inr (.inr (hdone _ rfl rfl))
  | wait s0 hr hp hfin hs0 =>
    rcases hs0 with rfl | ⟨err, _, rfl⟩
    · exact hinv.silent [] [] (by simp) (by simp) (by simp) (by simp) (.inl rfl) hpers
    · refine hinv.silent [] [] ?_ (by simp) ?_ (by simp) (.inl ?_) hpers
      · show (s.cancel err).tasks = _
        rw [(s.cancel_fields err).2.2.2.2.2.1]
        simp
      · show (s.cancel err).trace = _
        rw [(s.cancel_fields err).2.2.2.2.2.2.2]
        simp
      · show (s.cancel err).tasks.map _ ++ (s.cancel err).pending = _
        rw [(s.cancel_fields err).2.2.2.2.2.1, (s.cancel_fields err).2.2.2.2.1]

/-! ## `syncutil.Go`: what it returns -/

theorem Syncutil.Move.size_eq {α : Type} {s s1 : Syncutil.State α} (hm : Syncutil.Move s s1) :
    s1.size = s.size := by
  cases hm with
  | broke _ _ err _ _ _ => exact (s.cancel_fields err).1
  | leaveErr _ _ err _ _ => exact (s.cancel_fields err).1
  | wait s0 _ _ _ hs0 =>
    rcases hs0 with rfl | ⟨err, _, rfl⟩
    · rfl
    · exact (s.cancel_fields err).1
  | _ => rfl

/-- The invariants of the cancellation and of the invocations hold in every state of every
run of a call of `syncutil.Go`. -/
theorem Syncutil.run_inv {α : Type} {items : List α} :
    ∀ (acts : List Syncutil.Action) (s s1 : Syncutil.State α),
      Syncutil.CauseInv s → Syncutil.FnInv items s → Syncutil.run s acts = some s1 →
      Syncutil.CauseInv s1 ∧ Syncutil.FnInv items s1 := by
  intro acts
  induction acts with
  | nil =>
    intro s s1 hc hf h
    simp only [Syncutil.run, Option.some.injEq] at h
    subst h
    exact ⟨hc, hf⟩
  | cons a as ih =>
    intro s s1 hc hf h
    simp only [Syncutil.run] at h
    split at h
    · cases h
    · rename_i s2 hstep
      have hm := Syncutil.step_move hstep
      have hc2 := hc.causeStep hstep
      exact ih s2 s1 hc2 (hf.fnStep hc hc2 hm) h

/-- The invariant of the permits holds in every state of every run of a call of
`syncutil.Go`. -/
theorem Syncutil.run_permits {α : Type} {acq0 rel0 size : Nat} :
    ∀ (acts : List Syncutil.Action) (s s1 : Syncutil.State α),
      Syncutil.PermitInv acq0 rel0 s → s.size = size → Syncutil.run s acts = some s1 →
      Syncutil.PermitInv acq0 rel0 s1 ∧ s1.size = size := by
  intro acts
  induction acts with
  | nil =>
    intro s s1 hp hs h
    simp only [Syncutil.run, Option.some.injEq] at h
    subst h
    exact ⟨hp, hs⟩
  | cons a as ih =>
    intro s s1 hp hs h
    simp only [Syncutil.run] at h
    split at h
    · cases h
    · rename_i s2 hstep
      have hm := Syncutil.step_move hstep
      exact ih s2 s1 (hp.permitStep hm) (hm.size_eq.trans hs) h

theorem Syncutil.init_inv {α : Type} (size : Nat) (lim : Limiter) (items : List α) :
    Syncutil.CauseInv (Syncutil.init size lim items) ∧
    Syncutil.FnInv items (Syncutil.init size lim items) := by
  refine ⟨⟨rfl, ?_, ?_, ?_⟩, ⟨.inl (by simp [Syncutil.init]), ?_, ?_, ?_, ?_, ?_⟩⟩
  · simp [Syncutil.init]
  · simp [Syncutil.init]
  · simp [Syncutil.init]
  · simp [Syncutil.init]
  · simp [Syncutil.init]
  · simp [Syncutil.init]
  · simp [Syncutil.init]
  · intro pre i h
    have := h.length_le
    simp [Syncutil.init] at this

theorem Syncutil.init_permits {α : Type} (size : Nat) (lim : Limiter) (items : List α)
    (hcap : lim.acquired ≤ size + lim.released) :
    Syncutil.PermitInv lim.acquired lim.released (Syncutil.init size lim items) :=
  ⟨by simp [Syncutil.init, Syncutil.held]; omega, by simp [Syncutil.init], hcap⟩

theorem Syncutil.firstCancel_eq_none {l : List Syncutil.Event} :
    Syncutil.firstCancel l = none ↔
      (∀ e, Syncutil.Event.ctxCancel e ∉ l) ∧ ∀ i e, Syncutil.Event.cancel i e ∉ l := by
  induction l with
  | nil => simp [Syncutil.firstCancel]
  | cons a l ih =>
    cases a with
    | ctxCancel err =>
      simp only [Syncutil.firstCancel]
      constructor
      · intro h; cases h
      · rintro ⟨h1, _⟩
        exact absurd (List.mem_cons_self _ _) (h1 err)
    | cancel i err =>
      simp only [Syncutil.firstCancel]
      constructor
      · intro h; cases h
      · rintro ⟨_, h2⟩
        exact absurd (List.mem_cons_self _ _) (h2 i err)
    | acquire ok => simp [Syncutil.firstCancel, ih]
    | skip i => simp [Syncutil.firstCancel, ih]
    | invoke i => simp [Syncutil.firstCancel, ih]
    | fnReturn i err => simp [Syncutil.firstCancel, ih]

theorem Syncutil.Go_eq_some {α : Type} {size : Nat} {lim : Limiter} {items : List α}
    {acts : List Syncutil.Action} {r : Option Error} {s : Syncutil.State α}
    (h : Syncutil.Go size lim items acts = some (r, s)) :
    Syncutil.run (Syncutil.init size lim items) acts = some s ∧ s.result = some r := by
  unfold Syncutil.Go at h
  split at h
  · cases h
  · rename_i s2 hrun
    split at h
    · cases h
    · rename_i r2 hres
      simp only [Option.some.injEq, Prod.mk.injEq] at h
      obtain ⟨rfl, rfl⟩ := h
      exact ⟨hrun, hres⟩

/-- C11, as stated, fails: the incoming context is cancelled while the only invocation of
`fn` runs, `fn` then fails with the error "boom", and `Go` returns the cause of the
incoming context, not the error of the `fn` that failed. -/
theorem Syncutil.Go_returns_context_cause :
    (Syncutil.Go 1 { acquired := 0, released := 0 } [(7 : Nat)]
        [.loop true, .begin 0, .cancel .canceled, .fnReturn 0 (some (.other "boom")),
         .leave 0, .wait]).map (fun r => (r.1, r.2.trace)) =
      some (some .canceled,
        [.acquire true, .invoke 0, .ctxCancel .canceled,
         .fnReturn 0 (some (.other "boom")), .cancel 0 (.other "boom")]) := by
  decide

/-- C11, amended: `Go` returns the cause of the first cancellation: `nil` exactly when the
incoming context was not cancelled, every acquisition of the loop succeeded and every
invocation of `fn` returned `nil`, in which case a goroutine was spawned for each item and
invoked `fn` exactly once; when the first cancellation is the `cancel(err)` of a goroutine
whose `fn` failed, `Go` returns that error, and when the incoming context was cancelled
before, its cause; `fn` is invoked only while nothing is cancelled, and a goroutine that
starts when the context is done ends with `nil` without invoking `fn`. -/
theorem Syncutil.Go_result {α : Type} (size : Nat) (lim : Limiter) (items : List α)
    (acts : List Syncutil.Action) (r : Option Error) (s : Syncutil.State α)
    (h : Syncutil.Go size lim items acts = some (r, s)) :
    r = Syncutil.firstCancel s.trace ∧
    (r = none ↔ (∀ e, Syncutil.Event.ctxCancel e ∉ s.trace) ∧
      Syncutil.Event.acquire false ∉ s.trace ∧
      ∀ i e, Syncutil.Event.fnReturn i (some e) ∉ s.trace) ∧
    (r = none → s.tasks.map (fun t => t.item) = items ∧
      ∀ i, i < items.length → s.trace.count (.invoke i) = 1) ∧
    (∀ pre i e rest, s.trace = pre ++ Syncutil.Event.cancel i e :: rest →
      Syncutil.firstCancel pre = none →
      r = some e ∧ Syncutil.Event.fnReturn i (some e) ∈ s.trace) ∧
    (∀ pre e rest, s.trace = pre ++ Syncutil.Event.ctxCancel e :: rest →
      Syncutil.firstCancel pre = none → r = some e) ∧
    (∀ pre i, pre ++ [Syncutil.Event.invoke i] <+: s.trace →
      Syncutil.firstCancel pre = none) ∧
    (∀ (x : Syncutil.State α) (i : Nat) (t : Syncutil.Task α), x.tasks[i]? = some t →
      t.pc = .start → x.egDone = true →
      Syncutil.step x (.begin i) =
        some { x with tasks := x.tasks.set i { t with pc := .leave none },
                      trace := x.trace ++ [.skip i] }) := by
  obtain ⟨hrun, hres⟩ := Syncutil.Go_eq_some h
  obtain ⟨hc0, hf0⟩ := Syncutil.init_inv size lim items
  obtain ⟨hc, hf⟩ := Syncutil.run_inv acts _ s hc0 hf0 hrun
  obtain ⟨hrc, hpend, hfin⟩ := hc.returned r hres
  have hr : r = Syncutil.firstCancel s.trace := hrc.trans hc.cause
  have hnone : r = none → s.Cause.isSome = false := by
    intro h0
    rw [← hrc, h0]
    rfl
  refine ⟨hr, ?_, ?_, ?_, ?_, hf.early, ?_⟩
  · constructor
    · intro h0
      have hfc := Syncutil.firstCancel_eq_none.1 (hr ▸ h0)
      refine ⟨hfc.1, ?_, ?_⟩
      · intro hm
        have := hc.acquireFailed hm
        rw [hnone h0] at this
        cases this
      · intro i e hm
        rcases hf.failing i e hm with ⟨t, ht, hpc⟩ | hC
        · have := hfin t (List.getElem?_mem ht)
          rw [hpc] at this
          cases this
        · rw [hnone h0] at hC
          cases hC
    · rintro ⟨h1, _, h3⟩
      rw [hr]
      exact Syncutil.firstCancel_eq_none.2 ⟨h1, fun i e hm => h3 i e (hf.cancelled i e hm)⟩
  · intro h0
    have hitems : s.tasks.map (fun t => t.item) = items := by
      rcases hf.items with h1 | h1
      · rw [hpend, List.append_nil] at h1
        exact h1
      · have := hc.acquireFailed h1
        rw [hnone h0] at this
        cases this
    refine ⟨hitems, ?_⟩
    intro i hi
    have hlen : i < s.tasks.length := by
      have := congrArg List.length hitems
      simp only [List.length_map] at this
      omega
    obtain ⟨_, _, h3⟩ := hf.invoked i
    have hget : s.tasks[i]? = some s.tasks[i] := List.getElem?_eq_getElem hlen
    have hfini := hfin _ (List.getElem?_mem hget)
    rcases (h3 _ hget).2 (by
      intro hpc
      rw [hpc] at hfini
      cases hfini) with h4 | h4
    · exact h4
    · rw [hnone h0] at h4
      cases h4
  · intro pre i e rest htr hpre
    refine ⟨?_, hf.cancelled i e (by rw [htr]; simp)⟩
    rw [hr, htr, Syncutil.firstCancel_append, hpre]
    rfl
  · intro pre e rest htr hpre
    rw [hr, htr, Syncutil.firstCancel_append, hpre]
    rfl
  · intro x i t ht hpc hd
    simp only [Syncutil.step, Syncutil.begin, ht, hpc, hd, if_true]

theorem Syncutil.Go_result_witness :
    (none : Option Error) = Syncutil.firstCancel
      ((Syncutil.run (Syncutil.init 1 { acquired := 0, released := 0 } [(7 : Nat), 8])
        [.loop true, .begin 0, .regionEnd 0, .loop true, .begin 1, .fnReturn 1 none,
         .leave 1, .regionStart 0 true, .fnReturn 0 none, .leave 0, .wait]).getD
        (Syncutil.init 1 { acquired := 0, released := 0 } [(7 : Nat), 8])).trace :=
  (Syncutil.Go_result 1 { acquired := 0, released := 0 } [(7 : Nat), 8]
    [.loop true, .begin 0, .regionEnd 0, .loop true, .begin 1, .fnReturn 1 none,
     .leave 1, .regionStart 0 true, .fnReturn 0 none, .leave 0, .wait] none
    ((Syncutil.run (Syncutil.init 1 { acquired := 0, released := 0 } [(7 : Nat), 8])
        [.loop true, .begin 0, .regionEnd 0, .loop true, .begin 1, .fnReturn 1 none,
         .leave 1, .regionStart 0 true, .fnReturn 0 none, .leave 0, .wait]).getD
        (Syncutil.init 1 { acquired := 0, released := 0 } [(7 : Nat), 8]))
    (by decide)).1

/-! ## Every step of the walk is a `WalkStep` -/

theorem set_same {α : Type} (l : List α) (g : Nat) (c : α) (h : l[g]? = some c) :
    l.set g c = l := by
  apply List.ext_getElem?
  intro j
  rw [List.getElem?_set]
  split
  · rename_i hj
    subst hj
    have := (List.getElem?_eq_some_iff.1 h).1
    simp [this, h]
  · rfl

theorem getElem?_lt {α : Type} {l : List α} {g : Nat} {c : α} (h : l[g]? = some c) :
    g < l.length :=
  (List.getElem?_eq_some_iff.1 h).1

theorem State.cancel_of_cause (s : State) (g : Nat) (err : Error)
    (h : (s.cause g).isSome = true) : s.cancel g err = s := by
  unfold State.cancel
  split
  · rename_i hn _
    rw [hn] at h
    cases h
  · rfl

/-- The call `cancel(err)` changes at most the cause of the call, from none to `err`. -/
theorem State.cancel_frame (s : State) (g : Nat) (err : Error) (c : Call)
    (hc : s.calls[g]? = some c) :
    ∃ c1, (s.cancel g err).calls = s.calls.set g c1 ∧ (s.cancel g err).calls[g]? = some c1 ∧
      c1.parent = c.parent ∧ c1.caller = c.caller ∧ c1.pending = c.pending ∧
      c1.live = c.live ∧ c1.egErr = c.egErr ∧ c1.result = c.result ∧
      (c.cause.isSome = true → c1.cause.isSome = true) := by
  have hlt := getElem?_lt hc
  unfold State.cancel
  split
  · rename_i c2 _ hc2
    rw [hc] at hc2
    cases hc2
    exact ⟨{ c with cause := some err }, rfl, by simp [hlt], rfl, rfl, rfl, rfl, rfl, rfl,
      fun _ => rfl⟩
  · exact ⟨c, (set_same _ _ _ hc).symm, hc, rfl, rfl, rfl, rfl, rfl, rfl, fun h => h⟩

/-- After `cancel(err)` in a call, the context of the call is cancelled. -/
theorem State.cancel_cause (s : State) (g : Nat) (err : Error) (c : Call)
    (hc : s.calls[g]? = some c) : ((s.cancel g err).cause g).isSome = true := by
  have hlt := getElem?_lt hc
  unfold State.cancel
  split
  · rename_i c2 _ hc2
    unfold State.cause
    dsimp only
    rw [List.length_set]
    obtain ⟨n, hn⟩ : ∃ n, s.calls.length = n + 1 := ⟨s.calls.length - 1, by omega⟩
    rw [hn]
    simp [State.causeOf, hlt]
  · rename_i hne
    cases hcause : s.cause g with
    | none => exact absurd hc (hne c hcause)
    | some e => rfl

theorem Go.loop_walk (st : Stores) (opts : CopyGraphOptions) (s s1 : State) (g : Nat)
    (acquired : Bool) (h : Go.loop s g acquired = some s1) : WalkStep st opts s s1 := by
  unfold Go.loop at h
  split at h
  · exact absurd h (by simp)
  · rename_i c hc
    split at h
    · rename_i item rest hres hpend
      split at h
      · split at h
        · rename_i hfree
          cases h
          exact .spawn g c item rest hc hres hpend hfree rfl
        · exact absurd h (by simp)
      · split at h
        · rename_i hcause
          rw [State.cancel_of_cause s g _ hcause] at h
          dsimp only at h
          rw [hc] at h
          cases h
          exact .broke g c item rest hc hres hpend hcause rfl
        · exact absurd h (by simp)
    · exact absurd h (by simp)

/-- What the return of the `Go` call `g` does: the call had no item left and no goroutine
running, its result is the cause of its context, and its caller goes on. -/
theorem Go.wait_spec (s s1 : State) (g : Nat) (h : Go.wait s g = some s1) :
    ∃ (c c1 : Call) (res : Option Error),
      s.calls[g]? = some c ∧ c.result = none ∧ c.pending = [] ∧ c.live = 0 ∧
      (res = none → s.cause g = none) ∧
      c1.parent = c.parent ∧ c1.caller = c.caller ∧ c1.pending = c.pending ∧
      c1.live = c.live ∧ (c.cause.isSome = true → c1.cause.isSome = true) ∧
      c1.result = some res ∧
      s1.calls = s.calls.set g c1 ∧
      (c.caller = none ∧ s1.tasks = s.tasks ∨
        ∃ i t g0, c.caller = some i ∧ s.tasks[i]? = some t ∧ t.pc = .inGo g0 ∧
          s1.tasks = s.tasks.set i { t with pc := match res with
            | none => .await t.succs
            | some err => .ret (some err) }) ∧
      s1.free = s.free ∧ s1.ctxCause = s.ctxCause ∧ s1.tracker = s.tracker ∧
      s1.closed = s.closed ∧ s1.world = s.world ∧
      c1.egErr = c.egErr ∧ (res = none → c.egErr = none) := by
  unfold Go.wait at h
  split at h
  · exact absurd h (by simp)
  · rename_i c hc
    split at h
    · rename_i hres hpend hlive
      have hs0 : ∃ c0, (match c.egErr with
            | some err => s.cancel g err
            | none => s).calls = s.calls.set g c0 ∧
          (match c.egErr with
            | some err => s.cancel g err
            | none => s).calls[g]? = some c0 ∧
          c0.parent = c.parent ∧ c0.caller = c.caller ∧ c0.pending = c.pending ∧
          c0.live = c.live ∧ (c.cause.isSome = true → c0.cause.isSome = true) ∧
          ((match c.egErr with
            | some err => s.cancel g err
            | none => s).cause g = none → s.cause g = none) ∧
          (match c.egErr with
            | some err => s.cancel g err
            | none => s).tasks = s.tasks ∧
          (match c.egErr with
            | some err => s.cancel g err
            | none => s).free = s.free ∧
          (match c.egErr with
            | some err => s.cancel g err
            | none => s).ctxCause = s.ctxCause ∧
          (match c.egErr with
            | some err => s.cancel g err
            | none => s).tracker = s.tracker ∧
          (match c.egErr with
            | some err => s.cancel g err
            | none => s).closed = s.closed ∧
          (match c.egErr with
            | some err => s.cancel g err
            | none => s).world = s.world ∧
          c0.egErr = c.egErr ∧
          ((match c.egErr with
            | some err => s.cancel g err
            | none => s).cause g = none → c.egErr = none) := by
        cases hegErr : c.egErr with
        | none =>
          exact ⟨c, (set_same _ _ _ hc).symm, hc, rfl, rfl, rfl, rfl, fun h => h, fun h => h,
            rfl, rfl, rfl, rfl, rfl, rfl, hegErr, fun _ => rfl⟩
        | some err =>
          obtain ⟨c0, h1, h2, h3, h4, h5, h6, h7, _, h9⟩ := State.cancel_frame s g err c hc
          have hk := State.cancel_tasks s g err
          have hcause := State.cancel_cause s g err c hc
          have hfalse : (s.cancel g err).cause g = none → False := by
            intro hnone
            rw [hnone] at hcause
            cases hcause
          exact ⟨c0, h1, h2, h3, h4, h5, h6, h9, fun h => absurd h hfalse, hk.1, hk.2.2.2.2.1,
            hk.2.2.2.2.2, hk.2.1, hk.2.2.1, hk.2.2.2.1, h7.trans hegErr,
            fun h => absurd h hfalse⟩
      obtain ⟨c0, hcalls, hget, hp, hca, hpe, hli, hcs, hnone, htasks, hfree, hctx, htr, hcl,
        hw, heg, hegnone⟩ := hs0
      generalize (match c.egErr with
            | some err => s.cancel g err
            | none => s) = s0 at h hcalls hget hnone htasks hfree hctx htr hcl hw hegnone
      dsimp only at h
      rw [hget] at h
      dsimp only at h
      have hset : s0.calls.set g { c0 with result := some (s0.cause g) } =
          s.calls.set g { c0 with result := some (s0.cause g) } := by
        rw [hcalls, List.set_set]
      split at h
      · rename_i hcaller
        cases h
        exact ⟨c, { c0 with result := some (s0.cause g) }, s0.cause g, hc, hres, hpend,
          hlive, hnone, hp, hca, hpe, hli, hcs, rfl, hset, .inl ⟨hcaller, htasks⟩, hfree, hctx,
          htr, hcl, hw, heg, hegnone⟩
      · rename_i i hcaller
        simp only [htasks] at h
        split at h
        · exact absurd h (by simp)
        · rename_i t ht
          split at h
          · rename_i g1 err hpc hres1
            cases h
            refine ⟨c, { c0 with result := some (s0.cause g) }, s0.cause g, hc, hres, hpend,
              hlive, hnone, hp, hca, hpe, hli, hcs, rfl, hset,
              .inr ⟨i, t, g1, hcaller, ht, hpc, ?_⟩, hfree, hctx, htr, hcl, hw, heg, hegnone⟩
            simp only [htasks, hres1]
          · rename_i g1 hpc hres1
            cases h
            refine ⟨c, { c0 with result := some (s0.cause g) }, s0.cause g, hc, hres, hpend,
              hlive, hnone, hp, hca, hpe, hli, hcs, rfl, hset,
              .inr ⟨i, t, g1, hcaller, ht, hpc, ?_⟩, hfree, hctx, htr, hcl, hw, heg, hegnone⟩
            simp only [htasks, hres1]
          · exact absurd h (by simp)
    · exact absurd h (by simp)

theorem Go.wait_walk (st : Stores) (opts : CopyGraphOptions) (s s1 : State) (g : Nat)
    (h : Go.wait s g = some s1) : WalkStep st opts s s1 := by
  obtain ⟨c, c1, res, h1, h2, h3, h4, h5, h6, h7, h8, h9, h10, h11, h12, h13, h14, h15, h16,
    h17, h18, h19, h20⟩ := Go.wait_spec s s1 g h
  exact .wait g c c1 res h1 h2 h3 h4 h5 h6 h7 h8 h9 h10 h11 h12 h13 h14 h15 h16 h17 h18 h19
    h20

theorem Go.done_walk (st : Stores) (opts : CopyGraphOptions) (s s0 s1 : State) (i : Nat)
    (t : Task) (err : Option Error) (c c0 : Call) (hget : s.tasks[i]? = some t)
    (hpc : t.pc = .leave err) (hc : s.calls[t.group]? = some c)
    (hcalls : s0.calls = s.calls.set t.group c0) (hc0 : s0.calls[t.group]? = some c0)
    (hf : c0.parent = c.parent ∧ c0.caller = c.caller ∧ c0.pending = c.pending ∧
      c0.live = c.live ∧ c0.result = c.result ∧ (c.cause.isSome = true → c0.cause.isSome = true))
    (hk : s0.tasks = s.tasks ∧ s0.tracker = s.tracker ∧ s0.closed = s.closed ∧
      s0.world = s.world ∧ s0.free = s.free ∧ s0.ctxCause = s.ctxCause)
    (heg : c0.egErr = c.egErr)
    (h : Go.done s0 i t err = some s1) : WalkStep st opts s s1 := by
  unfold Go.done at h
  rw [hc0] at h
  dsimp only at h
  cases h
  refine .leave i t err c
      ({ c0 with
          live := c0.live - 1
          egErr := (match c0.egErr with
            | some e => some e
            | none => err) } : Call) hget hpc hc hf.1 hf.2.1 hf.2.2.1 ?_ hf.2.2.2.2.2 hf.2.2.2.2.1 ?_ ?_ ?_ ?_
      ?_ ?_ ?_ (by rw [heg])
  · show c0.live - 1 = c.live - 1
    rw [hf.2.2.2.1]
  · unfold regionEnd
    split <;> simp [hcalls, List.set_set]
  · unfold regionEnd
    split
    · rename_i hended
      simp only [hk.1]
      congr 1
      cases t
      simp_all
    · simp only [hk.1]
  · unfold regionEnd
    split <;> simp_all
  · unfold regionEnd
    split <;> simp [hk.2.2.2.2.2]
  · unfold regionEnd
    split <;> simp [hk.2.1]
  · unfold regionEnd
    split <;> simp [hk.2.2.1]
  · unfold regionEnd
    split <;> simp [hk.2.2.2.1]

theorem Go.leave_walk (st : Stores) (opts : CopyGraphOptions) (s s1 : State) (i : Nat)
    (t : Task) (err : Option Error) (hget : s.tasks[i]? = some t) (hpc : t.pc = .leave err)
    (h : Go.leave s i t err = some s1) : WalkStep st opts s s1 := by
  obtain ⟨c, hc⟩ : ∃ c, s.calls[t.group]? = some c := by
    cases hc : s.calls[t.group]? with
    | some c => exact ⟨c, rfl⟩
    | none =>
      have hcancel : ∀ e, s.cancel t.group e = s := by
        intro e
        unfold State.cancel
        rw [hc]
        split
        · rename_i h2
          cases h2
        · rfl
      unfold Go.leave at h
      split at h
      · rw [hcancel] at h
        unfold Go.done at h
        rw [hc] at h
        cases h
      · unfold Go.done at h
        rw [hc] at h
        cases h
  unfold Go.leave at h
  split at h
  · rename_i e
    obtain ⟨c0, h1, h2, h3, h4, h5, h6, h7, h8, h9⟩ := State.cancel_frame s t.group e c hc
    have hk := State.cancel_tasks s t.group e
    exact Go.done_walk st opts s _ s1 i t _ c c0 hget hpc hc h1 h2 ⟨h3, h4, h5, h6, h8, h9⟩
      ⟨hk.1, hk.2.1, hk.2.2.1, hk.2.2.2.1, hk.2.2.2.2.1, hk.2.2.2.2.2⟩ h7 h
  · exact Go.done_walk st opts s _ s1 i t _ c c hget hpc hc (set_same _ _ _ hc).symm hc
      ⟨rfl, rfl, rfl, rfl, rfl, fun h => h⟩ ⟨rfl, rfl, rfl, rfl, rfl, rfl⟩ rfl h

theorem fn_inner (st : Stores) (opts : CopyGraphOptions) (s s1 : State) (i : Nat)
    (t t1 : Task) (pc : Pc) (succs : List Descriptor)
    (hget : s.tasks[i]? = some t) (hm : TaskMove st opts s t t1 s1.tracker s1.closed s1.world)
    (htasks : s1.tasks = s.tasks.set i t1)
    (h1 : s1.tasks = s.tasks.set i { t with pc := pc, succs := succs })
    (hcalls : s1.calls = s.calls) (hfree : s1.free = s.free) (hctx : s1.ctxCause = s.ctxCause)
    (hpc : t.pc ≠ .go ∧ (∀ e, t.pc ≠ .leave e) ∧ (∀ g, t.pc ≠ .inGo g) ∧
      (∀ e, t.pc ≠ .finished e))
    (hpc1 : (∀ g, pc ≠ .inGo g) ∧ (∀ e, pc ≠ .finished e)) : WalkStep st opts s s1 := by
  have hlt := getElem?_lt hget
  have heq : t1 = { t with pc := pc, succs := succs } := by
    have h2 : (s.tasks.set i t1)[i]? = (s.tasks.set i { t with pc := pc, succs := succs })[i]? := by
      rw [← htasks, ← h1]
    rw [List.getElem?_set_self hlt, List.getElem?_set_self hlt] at h2
    exact Option.some.inj h2
  refine .inner i t t1 hget hm htasks hcalls hfree hctx ?_ hpc.1 hpc.2.1 hpc.2.2.1 hpc.2.2.2
    ?_ ?_
  · rw [heq]
  · rw [heq]
    exact hpc1.1
  · rw [heq]
    exact hpc1.2

theorem fn_walk (st : Stores) (opts : CopyGraphOptions) (s s1 : State) (i : Nat) (t : Task)
    (alt : Bool) (hget : s.tasks[i]? = some t) (h : fn st opts s i t alt = some s1) :
    WalkStep st opts s s1 := by
  obtain ⟨t1, htasks, hm⟩ := fn_move st opts s s1 i t alt h
  unfold fn at h
  dsimp only at h
  split at h <;> (try split at h) <;> (try split at h) <;> (try split at h) <;>
    (try (first
      | (cases h; done)
      | (cases h
         exact fn_inner st opts s _ i t t1 _ _ hget hm htasks rfl rfl rfl rfl (by simp_all)
           (by simp))))
  · rename_i hpc
    cases h
    have hr := regionEnd_fst s t
    refine .call i t hget hpc ?_ ?_ ?_ hr.2.2.2.2.2 hr.2.1 hr.2.2.1 hr.2.2.2.1
    · simp only [hr.2.2.2.2.1]
    · simp only [hr.1, hr.2.2.2.2.1]
      unfold regionEnd
      split
      · rename_i hended
        congr 1
        cases t
        simp_all
      · rfl
    · unfold regionEnd
      split <;> simp_all
  · rename_i hpc hended _ hfree
    cases h
    exact .acquire i t hget hpc (by simpa using hended) hfree rfl
  · rename_i err hpc
    exact Go.leave_walk st opts s s1 i t err hget hpc h

theorem step_walk (st : Stores) (opts : CopyGraphOptions) (s s1 : State) (a : Action)
    (h : step st opts s a = some s1) : WalkStep st opts s s1 := by
  cases a with
  | cancel err =>
    simp only [step] at h
    split at h
    · rename_i hctx
      cases h
      exact .ctx err hctx rfl
    · cases h
  | loop g acquired => exact Go.loop_walk st opts s s1 g acquired h
  | wait g => exact Go.wait_walk st opts s s1 g h
  | run i alt =>
    simp only [step] at h
    split at h
    · cases h
    · rename_i t ht
      exact fn_walk st opts s s1 i t alt ht h

/-! ## The `Go` calls and their goroutines along a run -/

theorem countP_set_add {α : Type} (p : α → Bool) (l : List α) (i : Nat) (t t1 : α)
    (hget : l[i]? = some t) :
    (l.set i t1).countP p + (if p t = true then 1 else 0) =
      l.countP p + (if p t1 = true then 1 else 0) := by
  induction l generalizing i with
  | nil => simp at hget
  | cons a l ih =>
    cases i with
    | zero =>
      simp only [List.getElem?_cons_zero, Option.some.injEq] at hget
      subst hget
      simp only [List.set_cons_zero, List.countP_cons]
      omega
    | succ i =>
      simp only [List.getElem?_cons_succ] at hget
      have := ih i hget
      simp only [List.set_cons_succ, List.countP_cons]
      omega

theorem getElem?_set_inv {α : Type} {l : List α} {i j : Nat} {a b : α}
    (h : (l.set i a)[j]? = some b) : (j = i ∧ b = a) ∨ (j ≠ i ∧ l[j]? = some b) := by
  rw [List.getElem?_set] at h
  split at h
  · rename_i hij
    split at h
    · exact .inl ⟨hij.symm, (Option.some.inj h).symm⟩
    · cases h
  · rename_i hij
    exact .inr ⟨fun h1 => hij h1.symm, h⟩

theorem getElem?_append_inv {α : Type} {l : List α} {j : Nat} {a b : α}
    (h : (l ++ [a])[j]? = some b) : (j = l.length ∧ b = a) ∨ (j < l.length ∧ l[j]? = some b) := by
  by_cases hj : j < l.length
  · rw [List.getElem?_append_left hj] at h
    exact .inr ⟨hj, h⟩
  · rw [List.getElem?_append_right (by omega)] at h
    have hlt := getElem?_lt h
    simp only [List.length_singleton] at hlt
    have h0 : j - l.length = 0 := by omega
    rw [h0] at h
    simp only [List.getElem?_cons_zero, Option.some.injEq] at h
    exact .inl ⟨by omega, h.symm⟩

theorem Pc.hasEnded_false {pc : Pc} (h : ∀ e, pc ≠ .finished e) : pc.hasEnded = false := by
  cases pc <;> first | rfl | exact absurd rfl (h _)

theorem State.liveCount_set {s s1 : State} {i : Nat} {t t1 : Task}
    (hget : s.tasks[i]? = some t) (htasks : s1.tasks = s.tasks.set i t1)
    (hg : t1.group = t.group) (he : t1.pc.hasEnded = t.pc.hasEnded) (g : Nat) :
    s1.liveCount g = s.liveCount g := by
  have h := countP_set_add (Task.liveIn g) s.tasks i t t1 hget
  have heq : Task.liveIn g t1 = Task.liveIn g t := by
    simp only [Task.liveIn, hg, he]
  rw [heq] at h
  unfold State.liveCount
  rw [htasks]
  omega

theorem State.liveCount_end {s s1 : State} {i : Nat} {t t1 : Task}
    (hget : s.tasks[i]? = some t) (htasks : s1.tasks = s.tasks.set i t1)
    (he : t.pc.hasEnded = false) (he1 : t1.pc.hasEnded = true) (g : Nat) :
    s1.liveCount g + (if g = t.group then 1 else 0) = s.liveCount g := by
  have h := countP_set_add (Task.liveIn g) s.tasks i t t1 hget
  have h1 : Task.liveIn g t1 = false := by
    simp [Task.liveIn, he1]
  unfold State.liveCount
  rw [htasks]
  rw [h1] at h
  by_cases hgg : g = t.group
  · have h0 : Task.liveIn g t = true := by
      simp [Task.liveIn, he, hgg]
    rw [h0] at h
    simp only [hgg, if_true] at h ⊢
    simpa using h
  · have h0 : Task.liveIn g t = false := by
      simp only [Task.liveIn, Bool.and_eq_false_imp, beq_iff_eq]
      intro h2
      exact absurd h2.symm hgg
    rw [h0] at h
    simp only [hgg, if_false] at h ⊢
    simpa using h

theorem State.liveCount_zero {s : State} {g : Nat} (h : s.liveCount g = 0) :
    ∀ t ∈ s.tasks, t.group = g → t.pc.hasEnded = true := by
  intro t ht hg
  have := List.countP_eq_zero.1 h t ht
  simpa [Task.liveIn, hg] using this

/-- The callers of the `Go` calls after a step that keeps the caller of every call there
was, returns no call without its caller going on, and blocks the caller of a new call in
it. -/
theorem CallInv.caller_of {s s1 : State} (hinv : CallInv s)
    (hc : ∀ (g : Nat) (c1 : Call), s1.calls[g]? = some c1 →
      (∃ c, s.calls[g]? = some c ∧ c1.caller = c.caller ∧
        (c1.result = none → c.result = none)) ∨
      (∃ (i : Nat) (t : Task), c1.caller = some i ∧ s1.tasks[i]? = some t ∧ t.group < g ∧
        t.pc = .inGo g))
    (ht : ∀ (j : Nat) (u : Task), s.tasks[j]? = some u →
      ∃ u1, s1.tasks[j]? = some u1 ∧ u1.group = u.group ∧
        ∀ g, u.pc = .inGo g →
          u1.pc = .inGo g ∨ ∀ c1, s1.calls[g]? = some c1 → c1.result ≠ none) :
    ∀ (g : Nat) (c : Call), s1.calls[g]? = some c →
      (c.caller = none ∧ g = 0) ∨
        ∃ (i : Nat) (t : Task), c.caller = some i ∧ s1.tasks[i]? = some t ∧ t.group < g ∧
          (c.result = none → t.pc = .inGo g) := by
  intro g c1 hc1
  rcases hc g c1 hc1 with ⟨c, hget, hcaller, hres⟩ | ⟨i, t, h1, h2, h3, h4⟩
  · rcases hinv.caller g c hget with ⟨h1, h2⟩ | ⟨i, t, h1, h2, h3, h4⟩
    · exact .inl ⟨hcaller.trans h1, h2⟩
    · obtain ⟨u1, hu1, hg1, hpc1⟩ := ht i t h2
      refine .inr ⟨i, u1, hcaller.trans h1, hu1, hg1 ▸ h3, ?_⟩
      intro hnone
      rcases hpc1 g (h4 (hres hnone)) with h5 | h5
      · exact h5
      · exact absurd hnone (h5 c1 hc1)
  · exact .inr ⟨i, t, h1, h2, h3, fun _ => h4⟩

/-- The goroutines after a step that changes the record of one of them. -/
theorem tasks_set_keep {s s1 : State} {i : Nat} {t t1 : Task}
    (hget : s.tasks[i]? = some t) (htasks : s1.tasks = s.tasks.set i t1)
    (hg : t1.group = t.group)
    (hpc : ∀ g, t.pc = .inGo g →
      t1.pc = .inGo g ∨ ∀ c1, s1.calls[g]? = some c1 → c1.result ≠ none) :
    ∀ (j : Nat) (u : Task), s.tasks[j]? = some u →
      ∃ u1, s1.tasks[j]? = some u1 ∧ u1.group = u.group ∧
        ∀ g, u.pc = .inGo g →
          u1.pc = .inGo g ∨ ∀ c1, s1.calls[g]? = some c1 → c1.result ≠ none := by
  intro j u hu
  by_cases hj : j = i
  · subst hj
    rw [hget] at hu
    cases hu
    refine ⟨t1, ?_, hg, hpc⟩
    rw [htasks, List.getElem?_set_self (getElem?_lt hget)]
  · refine ⟨u, ?_, rfl, fun g h => .inl h⟩
    rw [htasks, List.getElem?_set_ne (fun h => hj h.symm)]
    exact hu

/-- The calls after a step that changes the record of one of them. -/
theorem calls_set_keep {s s1 : State} {g : Nat} {c c1 : Call}
    (hget : s.calls[g]? = some c) (hcalls : s1.calls = s.calls.set g c1)
    (hcaller : c1.caller = c.caller) (hres : c1.result = none → c.result = none) :
    ∀ (g1 : Nat) (c2 : Call), s1.calls[g1]? = some c2 →
      (∃ c, s.calls[g1]? = some c ∧ c2.caller = c.caller ∧
        (c2.result = none → c.result = none)) ∨
      (∃ (i : Nat) (t : Task), c2.caller = some i ∧ s1.tasks[i]? = some t ∧ t.group < g1 ∧
        t.pc = .inGo g1) := by
  intro g1 c2 h2
  rw [hcalls] at h2
  rcases getElem?_set_inv h2 with ⟨rfl, rfl⟩ | ⟨_, h3⟩
  · exact .inl ⟨c, hget, hcaller, hres⟩
  · exact .inl ⟨c2, h3, rfl, fun h => h⟩

theorem calls_same_keep {s s1 : State} (hcalls : s1.calls = s.calls) :
    ∀ (g1 : Nat) (c2 : Call), s1.calls[g1]? = some c2 →
      (∃ c, s.calls[g1]? = some c ∧ c2.caller = c.caller ∧
        (c2.result = none → c.result = none)) ∨
      (∃ (i : Nat) (t : Task), c2.caller = some i ∧ s1.tasks[i]? = some t ∧ t.group < g1 ∧
        t.pc = .inGo g1) := by
  intro g1 c2 h2
  rw [hcalls] at h2
  exact .inl ⟨c2, h2, rfl, fun h => h⟩

theorem tasks_same_keep {s s1 : State} (htasks : ∀ (j : Nat) (u : Task),
      s.tasks[j]? = some u → s1.tasks[j]? = some u) :
    ∀ (j : Nat) (u : Task), s.tasks[j]? = some u →
      ∃ u1, s1.tasks[j]? = some u1 ∧ u1.group = u.group ∧
        ∀ g, u.pc = .inGo g →
          u1.pc = .inGo g ∨ ∀ c1, s1.calls[g]? = some c1 → c1.result ≠ none :=
  fun j u hu => ⟨u, htasks j u hu, rfl, fun _ h => .inl h⟩

/-- A goroutine blocked in a `Go` call that has not returned is blocked in no other. -/
theorem CallInv.caller_inGo {s : State} (hinv : CallInv s) {g : Nat} {c : Call} {i : Nat}
    {t : Task} (hc : s.calls[g]? = some c) (hcaller : c.caller = some i)
    (ht : s.tasks[i]? = some t) (hres : c.result = none) : t.pc = .inGo g := by
  rcases hinv.caller g c hc with ⟨h1, _⟩ | ⟨i1, t1, h1, h2, _, h4⟩
  · rw [h1] at hcaller
    cases hcaller
  · rw [h1] at hcaller
    cases hcaller
    rw [h2] at ht
    cases ht
    exact h4 hres

/-! ## `CallInv` holds along a run -/

theorem CallInv.group_set {s s1 : State} (hinv : CallInv s) {i : Nat} {t t1 : Task}
    (hget : s.tasks[i]? = some t) (htasks : s1.tasks = s.tasks.set i t1)
    (hg : t1.group = t.group) (hlen : s.calls.length ≤ s1.calls.length) :
    ∀ u ∈ s1.tasks, u.group < s1.calls.length := by
  intro u hu
  rw [htasks] at hu
  rcases List.mem_or_eq_of_mem_set hu with h | rfl
  · exact Nat.lt_of_lt_of_le (hinv.group u h) hlen
  · rw [hg]
    exact Nat.lt_of_lt_of_le (hinv.group t (List.getElem?_mem hget)) hlen

theorem CallInv.live_keep {s s1 : State} (hinv : CallInv s)
    (hcount : ∀ g, s1.liveCount g = s.liveCount g)
    (hcalls : ∀ (g : Nat) (c1 : Call), s1.calls[g]? = some c1 →
      ∃ c, s.calls[g]? = some c ∧ c1.live = c.live) :
    ∀ (g : Nat) (c : Call), s1.calls[g]? = some c → c.live = s1.liveCount g := by
  intro g c1 hc1
  obtain ⟨c, hc, hl⟩ := hcalls g c1 hc1
  rw [hl, hcount, hinv.live g c hc]

theorem CallInv.returned_keep {s s1 : State} (hinv : CallInv s)
    (hcalls : ∀ (g : Nat) (c1 : Call), s1.calls[g]? = some c1 → c1.result ≠ none →
      (∃ c, s.calls[g]? = some c ∧ c.result ≠ none ∧ c1.live ≤ c.live) ∨ c1.live = 0) :
    ∀ (g : Nat) (c : Call), s1.calls[g]? = some c → c.result ≠ none → c.live = 0 := by
  intro g c1 hc1 hres
  rcases hcalls g c1 hc1 hres with ⟨c, hc, hr, hl⟩ | h
  · have := hinv.returned g c hc hr
    omega
  · exact h

theorem calls_set_lookup {s s1 : State} {g : Nat} {c1 : Call}
    (hcalls : s1.calls = s.calls.set g c1) (g1 : Nat)
    (c2 : Call) (h : s1.calls[g1]? = some c2) :
    (g1 = g ∧ c2 = c1) ∨ (g1 ≠ g ∧ s.calls[g1]? = some c2) := by
  rw [hcalls] at h
  exact getElem?_set_inv h

theorem TaskMove.group_eq {st : Stores} {opts : CopyGraphOptions} {s : State} {t t1 : Task}
    {tracker closed : List Digest} {w : World}
    (hm : TaskMove st opts s t t1 tracker closed w) : t1.group = t.group := by
  cases hm <;> rfl

theorem CallInv.callStep {st : Stores} {opts : CopyGraphOptions} {s s1 : State}
    (hinv : CallInv s) (hstep : WalkStep st opts s s1) : CallInv s1 := by
  cases hstep with
  | ctx err h hs =>
    have htasks : s1.tasks = s.tasks := by rw [hs]
    have hcalls : s1.calls = s.calls := by rw [hs]
    refine ⟨?_, ?_, ?_, ?_⟩
    · rw [htasks, hcalls]
      exact hinv.group
    · refine hinv.live_keep (fun g => ?_) (fun g c1 hc1 => ⟨c1, hcalls ▸ hc1, rfl⟩)
      unfold State.liveCount
      rw [htasks]
    · exact hinv.returned_keep
        (fun g c1 hc1 hr => .inl ⟨c1, hcalls ▸ hc1, hr, Nat.le_refl _⟩)
    · exact hinv.caller_of (calls_same_keep hcalls)
        (tasks_same_keep (fun j u hu => htasks ▸ hu))
  | spawn g c item rest hc hres hp hfree hs =>
    have htasks : s1.tasks = s.tasks ++
        [{ desc := item, group := g, ended := false, succs := [], pc := .start }] := by
      rw [hs]
    have hcalls : s1.calls = s.calls.set g { c with pending := rest, live := c.live + 1 } := by
      rw [hs]
    have hlen : s1.calls.length = s.calls.length := by rw [hcalls, List.length_set]
    have hcount : ∀ g1, s1.liveCount g1 = s.liveCount g1 + (if g1 = g then 1 else 0) := by
      intro g1
      unfold State.liveCount
      rw [htasks, List.countP_append]
      by_cases hg : g1 = g
      · simp [List.countP_cons, Task.liveIn, Pc.hasEnded, hg]
      · have : ¬ g = g1 := fun h => hg h.symm
        simp [List.countP_cons, Task.liveIn, Pc.hasEnded, hg, this]
    refine ⟨?_, ?_, ?_, ?_⟩
    · intro u hu
      rw [htasks] at hu
      rw [hlen]
      rcases List.mem_append.1 hu with h | h
      · exact hinv.group u h
      · rw [List.mem_singleton.1 h]
        exact getElem?_lt hc
    · intro g1 c2 hc2
      rcases calls_set_lookup hcalls g1 c2 hc2 with ⟨rfl, rfl⟩ | ⟨hne, h3⟩
      · rw [hcount, if_pos rfl, ← hinv.live _ c hc]
      · rw [hcount, if_neg hne, hinv.live g1 c2 h3]
        rfl
    · refine hinv.returned_keep (fun g1 c2 hc2 hr => ?_)
      rcases calls_set_lookup hcalls g1 c2 hc2 with ⟨rfl, rfl⟩ | ⟨hne, h3⟩
      · exact absurd hres hr
      · exact .inl ⟨c2, h3, hr, Nat.le_refl _⟩
    · refine hinv.caller_of (calls_set_keep hc hcalls rfl (fun h => h))
        (tasks_same_keep (fun j u hu => ?_))
      rw [htasks, List.getElem?_append_left (getElem?_lt hu)]
      exact hu
  | broke g c item rest hc hres hp hcause hs =>
    have htasks : s1.tasks = s.tasks := by rw [hs]
    have hcalls : s1.calls = s.calls.set g { c with pending := [] } := by rw [hs]
    have hlen : s1.calls.length = s.calls.length := by rw [hcalls, List.length_set]
    refine ⟨?_, ?_, ?_, ?_⟩
    · rw [htasks, hlen]
      exact hinv.group
    · refine hinv.live_keep (fun g1 => ?_) (fun g1 c2 hc2 => ?_)
      · unfold State.liveCount
        rw [htasks]
      · rcases calls_set_lookup hcalls g1 c2 hc2 with ⟨rfl, rfl⟩ | ⟨hne, h3⟩
        · exact ⟨c, hc, rfl⟩
        · exact ⟨c2, h3, rfl⟩
    · refine hinv.returned_keep (fun g1 c2 hc2 hr => ?_)
      rcases calls_set_lookup hcalls g1 c2 hc2 with ⟨rfl, rfl⟩ | ⟨hne, h3⟩
      · exact absurd hres hr
      · exact .inl ⟨c2, h3, hr, Nat.le_refl _⟩
    · exact hinv.caller_of (calls_set_keep hc hcalls rfl (fun h => h))
        (tasks_same_keep (fun j u hu => htasks ▸ hu))
  | wait g c c1 res hc hres hp hl hnone hpar hcaller hpend hlive hcs hres1 hcalls htasks hfree
      hctx htr hcl hw =>
    have hlen : s1.calls.length = s.calls.length := by rw [hcalls, List.length_set]
    have hret : ∀ c2, s1.calls[g]? = some c2 → c2.result ≠ none := by
      intro c2 hc2
      rcases calls_set_lookup hcalls g c2 hc2 with ⟨_, rfl⟩ | ⟨hne, _⟩
      · rw [hres1]
        exact fun h => Option.noConfusion h
      · exact absurd rfl hne
    have hlookup : ∀ (g1 : Nat) (c2 : Call), s1.calls[g1]? = some c2 →
        ∃ c3, s.calls[g1]? = some c3 ∧ c2.live = c3.live := by
      intro g1 c2 hc2
      rcases calls_set_lookup hcalls g1 c2 hc2 with ⟨rfl, rfl⟩ | ⟨hne, h3⟩
      · exact ⟨c, hc, hlive⟩
      · exact ⟨c2, h3, rfl⟩
    have hreturned : ∀ (g : Nat) (c : Call), s1.calls[g]? = some c → c.result ≠ none →
        c.live = 0 := by
      refine hinv.returned_keep (fun g1 c2 hc2 hr => ?_)
      rcases calls_set_lookup hcalls g1 c2 hc2 with ⟨rfl, rfl⟩ | ⟨hne, h3⟩
      · exact .inr (hlive.trans hl)
      · exact .inl ⟨c2, h3, hr, Nat.le_refl _⟩
    have hkeep := calls_set_keep hc hcalls hcaller
      (fun h => absurd (hres1 ▸ h) (fun h2 => Option.noConfusion h2))
    rcases htasks with ⟨_, htasks⟩ | ⟨i, t, g0, hci, hget, hpc, htasks⟩
    · refine ⟨?_, ?_, hreturned, ?_⟩
      · rw [htasks, hlen]
        exact hinv.group
      · refine hinv.live_keep (fun g1 => ?_) hlookup
        unfold State.liveCount
        rw [htasks]
      · exact hinv.caller_of hkeep (tasks_same_keep (fun j u hu => htasks ▸ hu))
    · have hg0 : g0 = g := by
        have := hinv.caller_inGo hc hci hget hres
        rw [hpc] at this
        cases this
        rfl
      subst hg0
      refine ⟨?_, ?_, hreturned, ?_⟩
      · exact hinv.group_set hget htasks rfl (Nat.le_of_eq hlen.symm)
      · refine hinv.live_keep (fun g1 => ?_) hlookup
        refine State.liveCount_set hget htasks rfl ?_ g1
        rw [hpc]
        cases res <;> rfl
      · refine hinv.caller_of hkeep (tasks_set_keep hget htasks rfl ?_)
        intro g1 hg1
        rw [hpc] at hg1
        cases hg1
        exact .inr hret
  | inner i t t1 hget hm htasks hcalls hfree hctx hended hgo hleave hin hfin hin1 hfin1 =>
    have hg : t1.group = t.group := hm.group_eq
    refine ⟨?_, ?_, ?_, ?_⟩
    · exact hinv.group_set hget htasks hg (Nat.le_of_eq (by rw [hcalls]))
    · refine hinv.live_keep (fun g1 => ?_) (fun g c1 hc1 => ⟨c1, hcalls ▸ hc1, rfl⟩)
      refine State.liveCount_set hget htasks hg ?_ g1
      rw [Pc.hasEnded_false hfin, Pc.hasEnded_false hfin1]
    · exact hinv.returned_keep
        (fun g c1 hc1 hr => .inl ⟨c1, hcalls ▸ hc1, hr, Nat.le_refl _⟩)
    · exact hinv.caller_of (calls_same_keep hcalls)
        (tasks_set_keep hget htasks hg (fun g h => absurd h (hin g)))
  | call i t hget hpc hcalls htasks hfree hctx htr hcl hw =>
    have hlen : s1.calls.length = s.calls.length + 1 := by
      rw [hcalls, List.length_append, List.length_singleton]
    have hcount : ∀ g1, s1.liveCount g1 = s.liveCount g1 := by
      intro g1
      refine State.liveCount_set hget htasks rfl ?_ g1
      rw [hpc]
      rfl
    refine ⟨?_, ?_, ?_, ?_⟩
    · exact hinv.group_set hget htasks rfl (by omega)
    · intro g1 c2 hc2
      rw [hcalls] at hc2
      rcases getElem?_append_inv hc2 with ⟨rfl, rfl⟩ | ⟨hlt, h3⟩
      · rw [hcount]
        symm
        apply List.countP_eq_zero.2
        intro u hu
        have := hinv.group u hu
        simp only [Task.liveIn, Bool.and_eq_true, beq_iff_eq, not_and]
        intro h2
        omega
      · rw [hcount]
        exact hinv.live g1 c2 h3
    · refine hinv.returned_keep (fun g1 c2 hc2 hr => ?_)
      rw [hcalls] at hc2
      rcases getElem?_append_inv hc2 with ⟨rfl, rfl⟩ | ⟨hlt, h3⟩
      · exact .inr rfl
      · exact .inl ⟨c2, h3, hr, Nat.le_refl _⟩
    · refine hinv.caller_of ?_ (tasks_set_keep hget htasks rfl ?_)
      · intro g1 c2 hc2
        have hc3 := hc2
        rw [hcalls] at hc3
        rcases getElem?_append_inv hc3 with ⟨rfl, rfl⟩ | ⟨hlt, h3⟩
        · refine .inr ⟨i, { t with ended := true, pc := .inGo s.calls.length }, rfl, ?_,
            hinv.group t (List.getElem?_mem hget), rfl⟩
          rw [htasks, List.getElem?_set_self (getElem?_lt hget)]
        · exact .inl ⟨c2, h3, rfl, fun h => h⟩
      · intro g1 hg1
        rw [hpc] at hg1
        cases hg1
  | acquire i t hget hpc hended hfree hs =>
    have htasks : s1.tasks = s.tasks.set i { t with ended := false, pc := .cacheExists } := by
      rw [hs]
    have hcalls : s1.calls = s.calls := by rw [hs]
    refine ⟨?_, ?_, ?_, ?_⟩
    · exact hinv.group_set hget htasks rfl (Nat.le_of_eq (by rw [hcalls]))
    · refine hinv.live_keep (fun g1 => ?_) (fun g c1 hc1 => ⟨c1, hcalls ▸ hc1, rfl⟩)
      refine State.liveCount_set hget htasks rfl ?_ g1
      rw [hpc]
      rfl
    · exact hinv.returned_keep
        (fun g c1 hc1 hr => .inl ⟨c1, hcalls ▸ hc1, hr, Nat.le_refl _⟩)
    · refine hinv.caller_of (calls_same_keep hcalls) (tasks_set_keep hget htasks rfl ?_)
      intro g1 hg1
      rw [hpc] at hg1
      cases hg1
  | leave i t err c c1 hget hpc hc hpar hcaller hpend hlive hcs hres hcalls htasks hfree hctx
      htr hcl hw =>
    have hlen : s1.calls.length = s.calls.length := by rw [hcalls, List.length_set]
    have hcount := State.liveCount_end hget htasks (by rw [hpc]; rfl) rfl
    refine ⟨?_, ?_, ?_, ?_⟩
    · exact hinv.group_set hget htasks rfl (Nat.le_of_eq hlen.symm)
    · intro g1 c2 hc2
      have h1 := hcount g1
      rcases calls_set_lookup hcalls g1 c2 hc2 with ⟨rfl, rfl⟩ | ⟨hne, h3⟩
      · rw [if_pos rfl] at h1
        rw [hlive, hinv.live _ c hc]
        omega
      · rw [if_neg hne] at h1
        rw [hinv.live g1 c2 h3]
        omega
    · refine hinv.returned_keep (fun g1 c2 hc2 hr => ?_)
      rcases calls_set_lookup hcalls g1 c2 hc2 with ⟨rfl, rfl⟩ | ⟨hne, h3⟩
      · exact .inl ⟨c, hc, hres ▸ hr, by omega⟩
      · exact .inl ⟨c2, h3, hr, Nat.le_refl _⟩
    · refine hinv.caller_of (calls_set_keep hc hcalls hcaller (fun h => hres ▸ h))
        (tasks_set_keep hget htasks rfl ?_)
      intro g1 hg1
      rw [hpc] at hg1
      cases hg1

/-! ## The permits along a run of `copyGraph` -/

theorem State.held_set_add {s s1 : State} {i : Nat} {t t1 : Task}
    (hget : s.tasks[i]? = some t) (htasks : s1.tasks = s.tasks.set i t1) :
    s1.held + (if t.ended = true then 0 else 1) = s.held + (if t1.ended = true then 0 else 1) := by
  have h := countP_set_add Task.holding s.tasks i t t1 hget
  unfold State.held
  rw [htasks]
  simp only [Task.holding, Bool.not_eq_true'] at h
  cases h1 : t.ended <;> cases h2 : t1.ended <;> simp_all

theorem RegionInv.ended_set {cap : Nat} {s s1 : State} (hinv : RegionInv cap s) {i : Nat}
    {t1 : Task} (htasks : s1.tasks = s.tasks.set i t1)
    (h1 : t1.pc.hasEnded = true → t1.ended = true) :
    ∀ u ∈ s1.tasks, u.pc.hasEnded = true → u.ended = true := by
  intro u hu
  rw [htasks] at hu
  rcases List.mem_or_eq_of_mem_set hu with h | rfl
  · exact hinv.ended u h
  · exact h1

/-- Every step of the walk keeps the sum of the free permits and of the permits held. -/
theorem RegionInv.regionStep {st : Stores} {opts : CopyGraphOptions} {cap : Nat}
    {s s1 : State} (hinv : RegionInv cap s) (hstep : WalkStep st opts s s1) :
    RegionInv cap s1 := by
  have hp := hinv.permits
  cases hstep with
  | ctx err h hs =>
    subst hs
    exact ⟨hinv.permits, hinv.ended⟩
  | spawn g c item rest hc hres hpend hfree hs =>
    subst hs
    refine ⟨?_, ?_⟩
    · show s.free - 1 + (s.tasks ++ _).countP Task.holding = cap
      rw [List.countP_append]
      unfold State.held at hp
      simp only [List.countP_cons, List.countP_nil, Task.holding, Bool.not_false, if_true]
      omega
    · intro u hu
      rcases List.mem_append.1 hu with h | h
      · exact hinv.ended u h
      · rw [List.mem_singleton.1 h]
        intro h2
        cases h2
  | broke g c item rest hc hres hpend hcause hs =>
    subst hs
    exact ⟨hinv.permits, hinv.ended⟩
  | wait g c c1 res hc hres hpend hl hnone hpar hcaller hpend1 hlive hcs hres1 hcalls htasks
      hfree hctx htr hcl hw =>
    rcases htasks with ⟨_, htasks⟩ | ⟨i, t, g0, hci, hget, hpc, htasks⟩
    · refine ⟨?_, ?_⟩
      · unfold State.held at hp ⊢
        rw [hfree, htasks]
        exact hp
      · rw [htasks]
        exact hinv.ended
    · refine ⟨?_, hinv.ended_set htasks ?_⟩
      · have h := State.held_set_add hget htasks
        rw [hfree]
        dsimp only at h
        omega
      · intro h
        cases res <;> cases h
  | inner i t t1 hget hm htasks hcalls hfree hctx hended hgo hleave hin hfin hin1 hfin1 =>
    refine ⟨?_, hinv.ended_set htasks ?_⟩
    · have h := State.held_set_add hget htasks
      rw [hfree]
      rw [hended] at h
      omega
    · intro h
      rw [Pc.hasEnded_false hfin1] at h
      cases h
  | call i t hget hpc hcalls htasks hfree hctx htr hcl hw =>
    refine ⟨?_, hinv.ended_set htasks (fun _ => rfl)⟩
    have h := State.held_set_add hget htasks
    rw [hfree]
    dsimp only at h
    split <;> simp_all
    all_goals omega
  | acquire i t hget hpc hended hfree hs =>
    have htasks : s1.tasks = s.tasks.set i { t with ended := false, pc := .cacheExists } := by
      rw [hs]
    have hfree1 : s1.free = s.free - 1 := by rw [hs]
    refine ⟨?_, hinv.ended_set htasks ?_⟩
    · have h := State.held_set_add hget htasks
      rw [hfree1]
      rw [hended] at h
      dsimp only at h
      simp only [if_true, Bool.false_eq_true, if_false] at h
      omega
    · intro h
      cases h
  | leave i t err c c1 hget hpc hc hpar hcaller hpend hlive hcs hres hcalls htasks hfree hctx
      htr hcl hw =>
    refine ⟨?_, hinv.ended_set htasks (fun _ => rfl)⟩
    have h := State.held_set_add hget htasks
    rw [hfree]
    dsimp only at h
    split <;> simp_all
    all_goals omega

theorem CallInv.callInit (opts : CopyGraphOptions) (root : Descriptor) (env : Env) :
    CallInv (copyGraph.init opts root env) := by
  refine ⟨?_, ?_, ?_, ?_⟩
  · intro t ht
    simp [copyGraph.init] at ht
  · intro g c hc
    have hlt := getElem?_lt hc
    simp only [copyGraph.init, List.length_singleton] at hlt
    have hg : g = 0 := by omega
    subst hg
    simp only [copyGraph.init, List.getElem?_cons_zero, Option.some.injEq] at hc
    subst hc
    rfl
  · intro g c hc hr
    have hlt := getElem?_lt hc
    simp only [copyGraph.init, List.length_singleton] at hlt
    have hg : g = 0 := by omega
    subst hg
    simp only [copyGraph.init, List.getElem?_cons_zero, Option.some.injEq] at hc
    subst hc
    rfl
  · intro g c hc
    have hlt := getElem?_lt hc
    simp only [copyGraph.init, List.length_singleton] at hlt
    have hg : g = 0 := by omega
    subst hg
    simp only [copyGraph.init, List.getElem?_cons_zero, Option.some.injEq] at hc
    subst hc
    exact .inl ⟨rfl, rfl⟩

theorem RegionInv.regionInit (opts : CopyGraphOptions) (root : Descriptor) (env : Env) :
    RegionInv (limiterCapacity opts) (copyGraph.init opts root env) := by
  refine ⟨rfl, ?_⟩
  intro t ht
  simp [copyGraph.init] at ht

/-- Once the first `Go` call has returned, every goroutine has ended. -/
theorem CallInv.all_ended {s : State} (hinv : CallInv s) {c0 : Call}
    (h0 : s.calls[0]? = some c0) (hres : c0.result ≠ none) :
    ∀ t ∈ s.tasks, t.pc.hasEnded = true := by
  have key : ∀ g, ∀ t ∈ s.tasks, t.group = g → t.pc.hasEnded = true := by
    intro g
    induction g using Nat.strong_induction_on with
    | _ g ih =>
      intro t ht hg
      have hlt := hinv.group t ht
      rw [hg] at hlt
      obtain ⟨c, hc⟩ : ∃ c, s.calls[g]? = some c := ⟨s.calls[g], List.getElem?_eq_getElem hlt⟩
      have hr : c.result ≠ none := by
        rcases hinv.caller g c hc with ⟨_, hg0⟩ | ⟨i, u, h1, h2, h3, h4⟩
        · subst hg0
          rw [h0] at hc
          cases hc
          exact hres
        · intro hnone
          have := ih u.group h3 u (List.getElem?_mem h2) rfl
          rw [h4 hnone] at this
          cases this
      have hl := hinv.returned g c hc hr
      rw [hinv.live g c hc] at hl
      exact State.liveCount_zero hl t ht hg
  exact fun t ht => key t.group t ht rfl

/-- The invariants of the calls and of the permits hold in every state of every run of
`copyGraph`. -/
theorem run_calls (st : Stores) (opts : CopyGraphOptions) (root : Descriptor) (env : Env)
    (acts : List Action) (s : State)
    (h : run st opts (copyGraph.init opts root env) acts = some s) :
    CallInv s ∧ RegionInv (limiterCapacity opts) s :=
  run_induction (fun s => CallInv s ∧ RegionInv (limiterCapacity opts) s)
    (fun s s1 a hk hstep =>
      ⟨hk.1.callStep (step_walk st opts s s1 a hstep),
        hk.2.regionStep (step_walk st opts s s1 a hstep)⟩)
    acts _ s ⟨CallInv.callInit opts root env, RegionInv.regionInit opts root env⟩ h

/-- When `copyGraph` has returned, no goroutine holds a permit. -/
theorem State.held_eq_zero {s : State} (hc : CallInv s) {cap : Nat} (hr : RegionInv cap s)
    {r : Option Error} (hres : s.result = some r) : s.held = 0 := by
  unfold State.result at hres
  split at hres
  · rename_i c0 h0
    have hall := hc.all_ended h0 (by rw [hres]; exact fun h => Option.noConfusion h)
    apply List.countP_eq_zero.2
    intro t ht
    simp [Task.holding, hr.ended t ht (hall t ht)]
  · cases hres

/-! ## A cancelled context stays cancelled -/

theorem State.causeOf_none (s : State) (n : Nat) : s.causeOf n none = s.ctxCause := by
  cases n <;> rfl

theorem State.causeOf_mono {s s1 : State}
    (hctx : s.ctxCause.isSome = true → s1.ctxCause.isSome = true)
    (hcalls : ∀ (g : Nat) (c : Call), s.calls[g]? = some c →
      ∃ c1, s1.calls[g]? = some c1 ∧ c1.parent = c.parent ∧
        (c.cause.isSome = true → c1.cause.isSome = true)) :
    ∀ (n m : Nat) (p : Option Nat), n ≤ m → (s.causeOf n p).isSome = true →
      (s1.causeOf m p).isSome = true := by
  intro n
  induction n with
  | zero =>
    intro m p _ h
    cases p with
    | none =>
      rw [State.causeOf_none] at h ⊢
      exact hctx h
    | some g => cases h
  | succ n ih =>
    intro m p hle h
    cases p with
    | none =>
      rw [State.causeOf_none] at h ⊢
      exact hctx h
    | some g =>
      obtain ⟨m1, rfl⟩ : ∃ m1, m = m1 + 1 := ⟨m - 1, by omega⟩
      simp only [State.causeOf] at h ⊢
      cases hc : s.calls[g]? with
      | none =>
        rw [hc] at h
        cases h
      | some c =>
        obtain ⟨c1, hc1, hpar, hcs⟩ := hcalls g c hc
        rw [hc] at h
        rw [hc1]
        dsimp only at h ⊢
        cases hcc1 : c1.cause with
        | some e => rfl
        | none =>
          dsimp only
          cases hcc : c.cause with
          | some e =>
            have := hcs (by rw [hcc]; rfl)
            rw [hcc1] at this
            cases this
          | none =>
            rw [hcc] at h
            dsimp only at h
            rw [hpar]
            exact ih m1 c.parent (by omega) h

theorem calls_set_mono {s s1 : State} {g : Nat} {c c1 : Call}
    (hget : s.calls[g]? = some c) (hcalls : s1.calls = s.calls.set g c1)
    (hpar : c1.parent = c.parent) (hcs : c.cause.isSome = true → c1.cause.isSome = true) :
    ∀ (g1 : Nat) (c2 : Call), s.calls[g1]? = some c2 →
      ∃ c3, s1.calls[g1]? = some c3 ∧ c3.parent = c2.parent ∧
        (c2.cause.isSome = true → c3.cause.isSome = true) := by
  intro g1 c2 hc2
  by_cases hg : g1 = g
  · subst hg
    rw [hget] at hc2
    cases hc2
    refine ⟨c1, ?_, hpar, hcs⟩
    rw [hcalls, List.getElem?_set_self (getElem?_lt hget)]
  · refine ⟨c2, ?_, rfl, fun h => h⟩
    rw [hcalls, List.getElem?_set_ne (fun h => hg h.symm)]
    exact hc2

/-- A context that is cancelled stays cancelled in every step of the walk. -/
theorem WalkStep.cause_mono {st : Stores} {opts : CopyGraphOptions} {s s1 : State}
    (hstep : WalkStep st opts s s1) (g : Nat) (h : (s.cause g).isSome = true) :
    (s1.cause g).isSome = true := by
  have key : (s.ctxCause.isSome = true → s1.ctxCause.isSome = true) →
      (∀ (g : Nat) (c : Call), s.calls[g]? = some c →
        ∃ c1, s1.calls[g]? = some c1 ∧ c1.parent = c.parent ∧
          (c.cause.isSome = true → c1.cause.isSome = true)) →
      s.calls.length ≤ s1.calls.length → (s1.cause g).isSome = true :=
    fun h1 h2 h3 => State.causeOf_mono h1 h2 _ _ _ h3 h
  have same : s1.calls = s.calls → ∀ (g : Nat) (c : Call), s.calls[g]? = some c →
        ∃ c1, s1.calls[g]? = some c1 ∧ c1.parent = c.parent ∧
          (c.cause.isSome = true → c1.cause.isSome = true) :=
    fun h1 g c hc => ⟨c, h1 ▸ hc, rfl, fun h => h⟩
  cases hstep with
  | ctx err h hs =>
    refine key (fun _ => ?_) (same (by rw [hs])) (Nat.le_of_eq (by rw [hs]))
    rw [hs]
    rfl
  | spawn g1 c item rest hc hres hpend hfree hs =>
    have hcalls : s1.calls = s.calls.set g1 { c with pending := rest, live := c.live + 1 } := by
      rw [hs]
    refine key (fun h => ?_) (calls_set_mono hc hcalls rfl (fun h => h))
      (Nat.le_of_eq (by rw [hs, List.length_set]))
    rw [hs]
    exact h
  | broke g1 c item rest hc hres hpend hcause hs =>
    have hcalls : s1.calls = s.calls.set g1 { c with pending := [] } := by
      rw [hs]
    refine key (fun h => ?_) (calls_set_mono hc hcalls rfl (fun h => h))
      (Nat.le_of_eq (by rw [hs, List.length_set]))
    rw [hs]
    exact h
  | wait g1 c c1 res hc hres hpend hl hnone hpar hcaller hpend1 hlive hcs hres1 hcalls htasks
      hfree hctx htr hcl hw =>
    exact key (fun h => hctx ▸ h) (calls_set_mono hc hcalls hpar hcs)
      (Nat.le_of_eq (by rw [hcalls, List.length_set]))
  | inner i t t1 hget hm htasks hcalls hfree hctx hended hgo hleave hin hfin hin1 hfin1 =>
    exact key (fun h => hctx ▸ h) (same hcalls) (Nat.le_of_eq (by rw [hcalls]))
  | call i t hget hpc hcalls htasks hfree hctx htr hcl hw =>
    refine key (fun h => hctx ▸ h) (fun g1 c1 hc1 => ⟨c1, ?_, rfl, fun h => h⟩)
      (by rw [hcalls, List.length_append]; omega)
    rw [hcalls, List.getElem?_append_left (getElem?_lt hc1)]
    exact hc1
  | acquire i t hget hpc hended hfree hs =>
    refine key (fun h => ?_) (same (by rw [hs])) (Nat.le_of_eq (by rw [hs]))
    rw [hs]
    exact h
  | leave i t err c c1 hget hpc hc hpar hcaller hpend hlive hcs hres hcalls htasks hfree hctx
      htr hcl hw =>
    exact key (fun h => hctx ▸ h) (calls_set_mono hc hcalls hpar hcs)
      (Nat.le_of_eq (by rw [hcalls, List.length_set]))

/-! ## The successors are committed when their `Go` call returns `nil` -/

theorem TaskMove.committed {st : Stores} {opts : CopyGraphOptions} {s : State} {t t1 : Task}
    {tr cl : List Digest} {w : World} (hm : TaskMove st opts s t t1 tr cl w)
    (h1 : t1.pc ≠ .start) (h2 : t1.pc ≠ .tryCommit) :
    (t.pc ≠ .start ∧ t.pc ≠ .tryCommit) ∨ t.desc.digest ∈ tr ∨
      (s.cause t.group).isSome = true := by
  cases hm with
  | localMove pc ended hl =>
    cases hl with
    | skip hpc hc => exact .inr (.inr hc)
    | enter hpc => exact absurd rfl h2
    | fail err hpcs =>
      rcases hpcs with h | ⟨g, h⟩ | ⟨node, rest, h⟩ | h | h <;> exact .inl (by simp [h])
    | call g hpc => exact .inl (by simp [hpc])
    | resume g hpc => exact .inl (by simp [hpc])
    | awaited hpc => exact .inl (by simp [hpc])
    | token node rest hpc _ => exact .inl (by simp [hpc])
    | acquired hpc => exact .inl (by simp [hpc])
    | cached src hpc => exact .inl (by simp [hpc])
    | failed err hpc => exact .inl (by simp [hpc])
    | ended err hpc => exact .inl (by simp [hpc])
  | commit hpc hn => exact .inr (.inl (List.mem_cons_self _ _))
  | duplicate hpc hin => exact .inr (.inl hin)
  | existsOk hpc => exact .inl (by simp [hpc])
  | skipped h hpc _ => exact .inl (by simp [hpc])
  | skippedNone hpc _ => exact .inl (by simp [hpc])
  | findErr err hpc _ => exact .inl (by simp [hpc])
  | findOk l pc hpc _ _ => exact .inl (by simp [hpc])
  | awaitToken node rest hpc _ => exact .inl (by simp [hpc])
  | awaitCommitted node rest hpc _ => exact .inl (by simp [hpc])
  | copy src hpc => exact .inl (by simp [hpc])
  | close hpc => exact .inl (by simp [hpc])

theorem TaskMove.waits_sub {st : Stores} {opts : CopyGraphOptions} {s : State} {t t1 : Task}
    {tr cl : List Digest} {w : World} (hm : TaskMove st opts s t t1 tr cl w)
    (hin : ∀ g, t.pc ≠ .inGo g) : ∀ n ∈ t1.pc.waits, n ∈ t.pc.waits := by
  intro n hn
  cases hm with
  | localMove pc ended hl =>
    cases hl with
    | resume g hpc => exact absurd hpc (hin g)
    | token node rest hpc _ =>
      rw [hpc]
      exact List.mem_cons_of_mem _ hn
    | _ => simp [Pc.waits] at hn
  | existsOk hpc =>
    dsimp only at hn
    split at hn <;> simp [Pc.waits] at hn
  | findOk l pc hpc _ hpcs =>
    rcases hpcs with ⟨h, _⟩ | ⟨h, _⟩ <;> simp [h, Pc.waits] at hn
  | awaitToken node rest hpc _ =>
    rw [hpc]
    exact hn
  | _ => simp [Pc.waits] at hn

theorem WalkStep.tracker_sub {st : Stores} {opts : CopyGraphOptions} {s s1 : State}
    (hstep : WalkStep st opts s s1) : ∀ k ∈ s.tracker, k ∈ s1.tracker := by
  intro k hk
  cases hstep with
  | ctx err h hs => rw [hs]; exact hk
  | spawn g1 c item rest hc hres hpend hfree hs => rw [hs]; exact hk
  | broke g1 c item rest hc hres hpend hcause hs => rw [hs]; exact hk
  | wait g1 c c1 res hc hres hpend hl hnone hpar hcaller hpend1 hlive hcs hres1 hcalls htasks
      hfree hctx htr hcl hw => rw [htr]; exact hk
  | inner i t t1 hget hm htasks hcalls hfree hctx hended hgo hleave hin hfin hin1 hfin1 =>
    exact hm.tracker_mono k hk
  | call i t hget hpc hcalls htasks hfree hctx htr hcl hw => rw [htr]; exact hk
  | acquire i t hget hpc hended hfree hs => rw [hs]; exact hk
  | leave i t err c c1 hget hpc hc hpar hcaller hpend hlive hcs hres hcalls htasks hfree hctx
      htr hcl hw => rw [htr]; exact hk

theorem AwaitInv.committed_of {s s1 : State} (hinv : AwaitInv s)
    (htr : ∀ k ∈ s.tracker, k ∈ s1.tracker)
    (hcause : ∀ g, (s.cause g).isSome = true → (s1.cause g).isSome = true)
    (htasks : ∀ u ∈ s1.tasks, u.pc ≠ .start → u.pc ≠ .tryCommit →
      (∃ u0 ∈ s.tasks, u0.desc = u.desc ∧ u0.group = u.group ∧ u0.pc ≠ .start ∧
        u0.pc ≠ .tryCommit) ∨
      u.desc.digest ∈ s1.tracker ∨ (s1.cause u.group).isSome = true) :
    ∀ t ∈ s1.tasks, t.pc ≠ .start → t.pc ≠ .tryCommit →
      t.desc.digest ∈ s1.tracker ∨ (s1.cause t.group).isSome = true := by
  intro u hu h1 h2
  rcases htasks u hu h1 h2 with ⟨u0, hu0, hd, hg, h3, h4⟩ | h
  · rcases hinv.committed u0 hu0 h3 h4 with h | h
    · exact .inl (hd ▸ htr _ h)
    · exact .inr (hg ▸ hcause _ h)
  · exact h

theorem tasks_set_committed {s s1 : State} {i : Nat} {t t1 : Task}
    (hget : s.tasks[i]? = some t) (htasks : s1.tasks = s.tasks.set i t1)
    (h1 : t1.pc ≠ .start → t1.pc ≠ .tryCommit →
      (t1.desc = t.desc ∧ t1.group = t.group ∧ t.pc ≠ .start ∧ t.pc ≠ .tryCommit) ∨
      t1.desc.digest ∈ s1.tracker ∨ (s1.cause t1.group).isSome = true) :
    ∀ u ∈ s1.tasks, u.pc ≠ .start → u.pc ≠ .tryCommit →
      (∃ u0 ∈ s.tasks, u0.desc = u.desc ∧ u0.group = u.group ∧ u0.pc ≠ .start ∧
        u0.pc ≠ .tryCommit) ∨
      u.desc.digest ∈ s1.tracker ∨ (s1.cause u.group).isSome = true := by
  intro u hu h2 h3
  rw [htasks] at hu
  rcases List.mem_or_eq_of_mem_set hu with h | rfl
  · exact .inl ⟨u, h, rfl, rfl, h2, h3⟩
  · rcases h1 h2 h3 with ⟨h4, h5, h6, h7⟩ | h
    · exact .inl ⟨t, List.getElem?_mem hget, h4.symm, h5.symm, h6, h7⟩
    · exact .inr h

theorem tasks_same_committed {s s1 : State} (htasks : ∀ u ∈ s1.tasks, u ∈ s.tasks ∨ u.pc = .start) :
    ∀ u ∈ s1.tasks, u.pc ≠ .start → u.pc ≠ .tryCommit →
      (∃ u0 ∈ s.tasks, u0.desc = u.desc ∧ u0.group = u.group ∧ u0.pc ≠ .start ∧
        u0.pc ≠ .tryCommit) ∨
      u.desc.digest ∈ s1.tracker ∨ (s1.cause u.group).isSome = true := by
  intro u hu h2 h3
  rcases htasks u hu with h | h
  · exact .inl ⟨u, h, rfl, rfl, h2, h3⟩
  · exact absurd h h2

theorem tasks_set_mem {s s1 : State} {i : Nat} {t t1 : Task}
    (hget : s.tasks[i]? = some t) (htasks : s1.tasks = s.tasks.set i t1)
    (hg : t1.group = t.group) (hd : t1.desc = t.desc) :
    ∀ u ∈ s.tasks, ∃ u1 ∈ s1.tasks, u1.group = u.group ∧ u1.desc = u.desc := by
  intro u hu
  obtain ⟨j, hj⟩ := List.mem_iff_getElem?.1 hu
  by_cases hji : j = i
  · subst hji
    rw [hget] at hj
    cases hj
    refine ⟨t1, ?_, hg, hd⟩
    rw [htasks]
    exact List.getElem?_mem (List.getElem?_set_self (getElem?_lt hget))
  · refine ⟨u, ?_, rfl, rfl⟩
    rw [htasks]
    apply List.getElem?_mem (n := j)
    rw [List.getElem?_set_ne (fun h => hji h.symm)]
    exact hj

theorem tasks_set_succs {s s1 : State} {i : Nat} {t t1 : Task}
    (hget : s.tasks[i]? = some t) (htasks : s1.tasks = s.tasks.set i t1)
    (h : (∃ g, t.pc = .inGo g) → t1.succs = t.succs) :
    ∀ (j : Nat) (u : Task), s.tasks[j]? = some u → (∃ g, u.pc = .inGo g) →
      ∀ u1, s1.tasks[j]? = some u1 → u1.succs = u.succs := by
  intro j u hu hpc u1 hu1
  rw [htasks] at hu1
  rcases getElem?_set_inv hu1 with ⟨rfl, rfl⟩ | ⟨_, h3⟩
  · rw [hget] at hu
    cases hu
    exact h hpc
  · rw [hu] at h3
    cases h3
    rfl

/-- The items of the `Go` calls after a step: what was still to come in the loop is still
to come or has a goroutine, unless the context is cancelled; a goroutine stays; and the
successors of a goroutine blocked in a call stay. -/
theorem AwaitInv.items_of {s s1 : State} (hc : CallInv s) (hinv : AwaitInv s)
    (hcause : ∀ g, (s.cause g).isSome = true → (s1.cause g).isSome = true)
    (hcalls : ∀ (g : Nat) (c1 : Call) (i : Nat), s1.calls[g]? = some c1 →
      c1.caller = some i → c1.result = none →
      (∃ c, s.calls[g]? = some c ∧ c.caller = some i ∧ c.result = none ∧
        ∀ n ∈ c.pending, n ∈ c1.pending ∨ (∃ u ∈ s1.tasks, u.group = g ∧ u.desc = n) ∨
          (s1.cause g).isSome = true) ∨
      (∀ t, s1.tasks[i]? = some t → ∀ n ∈ t.succs, n ∈ c1.pending))
    (htasks : ∀ u ∈ s.tasks, ∃ u1 ∈ s1.tasks, u1.group = u.group ∧ u1.desc = u.desc)
    (hsuccs : ∀ (j : Nat) (u : Task), s.tasks[j]? = some u → (∃ g, u.pc = .inGo g) →
      ∀ u1, s1.tasks[j]? = some u1 → u1.succs = u.succs) :
    ∀ (g : Nat) (c : Call) (i : Nat) (t : Task), s1.calls[g]? = some c →
      c.caller = some i → s1.tasks[i]? = some t → c.result = none →
      ∀ n ∈ t.succs, n ∈ c.pending ∨ (∃ u ∈ s1.tasks, u.group = g ∧ u.desc = n) ∨
        (s1.cause g).isSome = true := by
  intro g c1 i t1 hc1 hcaller ht1 hres n hn
  rcases hcalls g c1 i hc1 hcaller hres with ⟨c, hget, hca, hr, hpend⟩ | hnew
  · rcases hc.caller g c hget with ⟨h1, _⟩ | ⟨i1, t, h1, h2, _, h4⟩
    · rw [h1] at hca
      cases hca
    · rw [h1] at hca
      cases hca
      have hs := hsuccs i t h2 ⟨g, h4 hr⟩ t1 ht1
      rw [hs] at hn
      rcases hinv.items g c i t hget h1 h2 hr n hn with h | ⟨u, hu, hg, hd⟩ | h
      · exact hpend n h
      · obtain ⟨u1, hu1, hg1, hd1⟩ := htasks u hu
        exact .inr (.inl ⟨u1, hu1, hg1.trans hg, hd1.trans hd⟩)
      · exact .inr (.inr (hcause g h))
  · exact .inl (hnew t1 ht1 n hn)

theorem calls_same_items {s s1 : State} (hcalls : s1.calls = s.calls) :
    ∀ (g : Nat) (c1 : Call) (i : Nat), s1.calls[g]? = some c1 →
      c1.caller = some i → c1.result = none →
      (∃ c, s.calls[g]? = some c ∧ c.caller = some i ∧ c.result = none ∧
        ∀ n ∈ c.pending, n ∈ c1.pending ∨ (∃ u ∈ s1.tasks, u.group = g ∧ u.desc = n) ∨
          (s1.cause g).isSome = true) ∨
      (∀ t, s1.tasks[i]? = some t → ∀ n ∈ t.succs, n ∈ c1.pending) := by
  intro g c1 i hc1 hcaller hres
  exact .inl ⟨c1, hcalls ▸ hc1, hcaller, hres, fun n hn => .inl hn⟩

theorem calls_set_items {s s1 : State} {g : Nat} {c c1 : Call}
    (hget : s.calls[g]? = some c) (hcalls : s1.calls = s.calls.set g c1)
    (hcaller : c1.caller = c.caller) (hres : c1.result = none → c.result = none)
    (hpend : c1.result = none → ∀ n ∈ c.pending, n ∈ c1.pending ∨
      (∃ u ∈ s1.tasks, u.group = g ∧ u.desc = n) ∨ (s1.cause g).isSome = true) :
    ∀ (g1 : Nat) (c2 : Call) (i : Nat), s1.calls[g1]? = some c2 →
      c2.caller = some i → c2.result = none →
      (∃ c, s.calls[g1]? = some c ∧ c.caller = some i ∧ c.result = none ∧
        ∀ n ∈ c.pending, n ∈ c2.pending ∨ (∃ u ∈ s1.tasks, u.group = g1 ∧ u.desc = n) ∨
          (s1.cause g1).isSome = true) ∨
      (∀ t, s1.tasks[i]? = some t → ∀ n ∈ t.succs, n ∈ c2.pending) := by
  intro g1 c2 i hc2 hca hr
  rcases calls_set_lookup hcalls g1 c2 hc2 with ⟨rfl, rfl⟩ | ⟨_, h3⟩
  · exact .inl ⟨c, hget, hcaller ▸ hca, hres hr, hpend hr⟩
  · exact .inl ⟨c2, h3, hca, hr, fun n hn => .inl hn⟩

theorem AwaitInv.awaiting_set {s s1 : State} (hinv : AwaitInv s) {i : Nat} {t1 : Task}
    (htasks : s1.tasks = s.tasks.set i t1) (htr : ∀ k ∈ s.tracker, k ∈ s1.tracker)
    (h1 : ∀ n ∈ t1.pc.waits, n.digest ∈ s1.tracker) :
    ∀ t ∈ s1.tasks, ∀ n ∈ t.pc.waits, n.digest ∈ s1.tracker := by
  intro u hu n hn
  rw [htasks] at hu
  rcases List.mem_or_eq_of_mem_set hu with h | rfl
  · exact htr _ (hinv.awaiting u h n hn)
  · exact h1 n hn

/-! ## `AwaitInv` holds along a run -/

theorem AwaitInv.awaitStep {st : Stores} {opts : CopyGraphOptions} {s s1 : State}
    (hc : CallInv s) (hinv : AwaitInv s) (hstep : WalkStep st opts s s1) : AwaitInv s1 := by
  have htr := hstep.tracker_sub
  have hcause := hstep.cause_mono
  cases hstep with
  | ctx err h hs =>
    have htasks : s1.tasks = s.tasks := by rw [hs]
    have hcalls : s1.calls = s.calls := by rw [hs]
    refine ⟨?_, ?_, ?_⟩
    · exact hinv.committed_of htr hcause
        (tasks_same_committed (fun u hu => .inl (htasks ▸ hu)))
    · exact hinv.items_of hc hcause (calls_same_items hcalls)
        (fun u hu => ⟨u, htasks ▸ hu, rfl, rfl⟩)
        (fun j u hu _ u1 hu1 => by
          rw [htasks, hu] at hu1
          cases hu1
          rfl)
    · intro u hu n hn
      exact htr _ (hinv.awaiting u (htasks ▸ hu) n hn)
  | spawn g c item rest hget hres hpend hfree hs =>
    have htasks : s1.tasks = s.tasks ++
        [{ desc := item, group := g, ended := false, succs := [], pc := .start }] := by
      rw [hs]
    have hcalls : s1.calls = s.calls.set g { c with pending := rest, live := c.live + 1 } := by
      rw [hs]
    refine ⟨?_, ?_, ?_⟩
    · refine hinv.committed_of htr hcause (tasks_same_committed (fun u hu => ?_))
      rw [htasks] at hu
      rcases List.mem_append.1 hu with h | h
      · exact .inl h
      · rw [List.mem_singleton.1 h]
        exact .inr rfl
    · refine hinv.items_of hc hcause (calls_set_items hget hcalls rfl (fun h => h) ?_)
        (fun u hu => ⟨u, ?_, rfl, rfl⟩) (fun j u hu _ u1 hu1 => ?_)
      · intro _ n hn
        rw [hpend] at hn
        rcases List.mem_cons.1 hn with h | h
        · refine .inr (.inl ⟨{ desc := item, group := g, ended := false, succs := [],
                               pc := .start }, ?_, rfl, h.symm⟩)
          rw [htasks]
          exact List.mem_append_right _ (List.mem_singleton_self _)
        · exact .inl h
      · rw [htasks]
        exact List.mem_append_left _ hu
      · rw [htasks, List.getElem?_append_left (getElem?_lt hu), hu] at hu1
        cases hu1
        rfl
    · intro u hu n hn
      rw [htasks] at hu
      rcases List.mem_append.1 hu with h | h
      · exact htr _ (hinv.awaiting u h n hn)
      · rw [List.mem_singleton.1 h] at hn
        cases hn
  | broke g c item rest hget hres hpend hcg hs =>
    have htasks : s1.tasks = s.tasks := by rw [hs]
    have hcalls : s1.calls = s.calls.set g { c with pending := [] } := by rw [hs]
    refine ⟨?_, ?_, ?_⟩
    · exact hinv.committed_of htr hcause
        (tasks_same_committed (fun u hu => .inl (htasks ▸ hu)))
    · exact hinv.items_of hc hcause
        (calls_set_items hget hcalls rfl (fun h => h) (fun _ n _ => .inr (.inr (hcause g hcg))))
        (fun u hu => ⟨u, htasks ▸ hu, rfl, rfl⟩)
        (fun j u hu _ u1 hu1 => by
          rw [htasks, hu] at hu1
          cases hu1
          rfl)
    · intro u hu n hn
      exact htr _ (hinv.awaiting u (htasks ▸ hu) n hn)
  | wait g c c1 res hget hres hpend hl hnone hpar hcaller hpend1 hlive hcs hres1 hcalls htasks
      hfree hctx htrk hcl hw =>
    have hitems := calls_set_items hget hcalls hcaller
      (fun h => absurd (hres1 ▸ h) (fun h2 => Option.noConfusion h2))
      (fun h => absurd (hres1 ▸ h) (fun h2 => Option.noConfusion h2))
    rcases htasks with ⟨_, htasks⟩ | ⟨i, t, g0, hci, hti, hpc, htasks⟩
    · refine ⟨?_, ?_, ?_⟩
      · exact hinv.committed_of htr hcause
          (tasks_same_committed (fun u hu => .inl (htasks ▸ hu)))
      · exact hinv.items_of hc hcause hitems
          (fun u hu => ⟨u, htasks ▸ hu, rfl, rfl⟩)
          (fun j u hu _ u1 hu1 => by
            rw [htasks, hu] at hu1
            cases hu1
            rfl)
      · intro u hu n hn
        exact htr _ (hinv.awaiting u (htasks ▸ hu) n hn)
    · refine ⟨?_, ?_, ?_⟩
      · refine hinv.committed_of htr hcause (tasks_set_committed hti htasks (fun _ _ => ?_))
        exact .inl ⟨rfl, rfl, by simp [hpc], by simp [hpc]⟩
      · exact hinv.items_of hc hcause hitems (tasks_set_mem hti htasks rfl rfl)
          (tasks_set_succs hti htasks (fun _ => rfl))
      · refine hinv.awaiting_set htasks htr ?_
        intro n hn
        cases res with
        | some e => cases hn
        | none =>
          have hn1 : n ∈ t.succs := hn
          have hcn := hnone rfl
          rw [htrk]
          rcases hinv.items g c i t hget hci hti hres n hn1 with h | ⟨u, hu, hg, hd⟩ | h
          · rw [hpend] at h
            cases h
          · have hzero : s.liveCount g = 0 := by
              rw [← hc.live g c hget]
              exact hl
            have hend := State.liveCount_zero hzero u hu hg
            have h1 : u.pc ≠ .start := by
              intro h
              rw [h] at hend
              cases hend
            have h2 : u.pc ≠ .tryCommit := by
              intro h
              rw [h] at hend
              cases hend
            rcases hinv.committed u hu h1 h2 with h | h
            · rw [← hd]
              exact h
            · rw [hg, hcn] at h
              cases h
          · rw [hcn] at h
            cases h
  | inner i t t1 hget hm htasks hcalls hfree hctx hended hgo hleave hin hfin hin1 hfin1 =>
    refine ⟨?_, ?_, ?_⟩
    · refine hinv.committed_of htr hcause (tasks_set_committed hget htasks (fun h1 h2 => ?_))
      rcases hm.committed h1 h2 with h | h | h
      · exact .inl ⟨hm.desc_eq, hm.group_eq, h.1, h.2⟩
      · exact .inr (.inl (hm.desc_eq ▸ h))
      · exact .inr (.inr (hm.group_eq ▸ hcause _ h))
    · exact hinv.items_of hc hcause (calls_same_items hcalls)
        (tasks_set_mem hget htasks hm.group_eq hm.desc_eq)
        (tasks_set_succs hget htasks (fun ⟨g, h⟩ => absurd h (hin g)))
    · refine hinv.awaiting_set htasks htr (fun n hn => ?_)
      exact htr _ (hinv.awaiting t (List.getElem?_mem hget) n (hm.waits_sub hin n hn))
  | call i t hget hpc hcalls htasks hfree hctx htrk hcl hw =>
    refine ⟨?_, ?_, ?_⟩
    · refine hinv.committed_of htr hcause (tasks_set_committed hget htasks (fun _ _ => ?_))
      exact .inl ⟨rfl, rfl, by simp [hpc], by simp [hpc]⟩
    · refine hinv.items_of hc hcause ?_ (tasks_set_mem hget htasks rfl rfl)
        (tasks_set_succs hget htasks (fun _ => rfl))
      intro g1 c2 i1 hc2 hca hr
      have hc3 := hc2
      rw [hcalls] at hc3
      rcases getElem?_append_inv hc3 with ⟨rfl, rfl⟩ | ⟨_, h3⟩
      · right
        intro u hu n hn
        cases hca
        rw [htasks, List.getElem?_set_self (getElem?_lt hget)] at hu
        cases hu
        exact hn
      · exact .inl ⟨c2, h3, hca, hr, fun n hn => .inl hn⟩
    · exact hinv.awaiting_set htasks htr (fun n hn => by cases hn)
  | acquire i t hget hpc hended hfree hs =>
    have htasks : s1.tasks = s.tasks.set i { t with ended := false, pc := .cacheExists } := by
      rw [hs]
    have hcalls : s1.calls = s.calls := by rw [hs]
    refine ⟨?_, ?_, ?_⟩
    · refine hinv.committed_of htr hcause (tasks_set_committed hget htasks (fun _ _ => ?_))
      exact .inl ⟨rfl, rfl, by simp [hpc], by simp [hpc]⟩
    · exact hinv.items_of hc hcause (calls_same_items hcalls)
        (tasks_set_mem hget htasks rfl rfl) (tasks_set_succs hget htasks (fun _ => rfl))
    · exact hinv.awaiting_set htasks htr (fun n hn => by cases hn)
  | leave i t err c c1 hget hpc hcg hpar hcaller hpend hlive hcs hres hcalls htasks hfree hctx
      htrk hcl hw =>
    refine ⟨?_, ?_, ?_⟩
    · refine hinv.committed_of htr hcause (tasks_set_committed hget htasks (fun _ _ => ?_))
      exact .inl ⟨rfl, rfl, by simp [hpc], by simp [hpc]⟩
    · exact hinv.items_of hc hcause
        (calls_set_items hcg hcalls hcaller (fun h => hres ▸ h)
          (fun _ n hn => .inl (hpend ▸ hn)))
        (tasks_set_mem hget htasks rfl rfl) (tasks_set_succs hget htasks (fun _ => rfl))
    · exact hinv.awaiting_set htasks htr (fun n hn => by cases hn)

theorem AwaitInv.awaitInit (opts : CopyGraphOptions) (root : Descriptor) (env : Env) :
    AwaitInv (copyGraph.init opts root env) := by
  refine ⟨?_, ?_, ?_⟩
  · intro t ht
    simp [copyGraph.init] at ht
  · intro g c i t hc hcaller ht
    simp [copyGraph.init] at ht
  · intro t ht
    simp [copyGraph.init] at ht

/-- The invariants of the calls and of the successors hold in every state of every run of
`copyGraph`. -/
theorem run_await (st : Stores) (opts : CopyGraphOptions) (root : Descriptor) (env : Env)
    (acts : List Action) (s : State)
    (h : run st opts (copyGraph.init opts root env) acts = some s) :
    CallInv s ∧ AwaitInv s :=
  run_induction (fun s => CallInv s ∧ AwaitInv s)
    (fun s s1 a hk hstep =>
      ⟨hk.1.callStep (step_walk st opts s s1 a hstep),
        hk.2.awaitStep hk.1 (step_walk st opts s s1 a hstep)⟩)
    acts _ s ⟨CallInv.callInit opts root env, AwaitInv.awaitInit opts root env⟩ h

/-! ## C16: the successors are committed when `syncutil.Go` returns `nil` -/

/-- C16: in every state of every run of `copyGraph`, the call of `syncutil.Go` of a
goroutine is a call on its successors; when that call returns `nil`, the goroutine goes on
to the loop over its successors and every one of them is in the tracker; the successors a
goroutine has still to go through in that loop are in the tracker; so
`tracker.TryCommit(node)` returns `committed = false` in the loop, and the step the
goroutine takes there is the one to the `select`, never the return of the error
`successor not committed`. -/
theorem copyGraph_successors_committed (st : Stores) (opts : CopyGraphOptions)
    (root : Descriptor) (env : Env) (acts : List Action) (s : State)
    (h : run st opts (copyGraph.init opts root env) acts = some s) :
    (∀ (i : Nat) (t : Task) (alt : Bool) (s1 : State), s.tasks[i]? = some t → t.pc = .go →
      step st opts s (.run i alt) = some s1 →
      s1.calls = s.calls ++ [{ parent := some t.group, caller := some i, pending := t.succs,
                               live := 0, cause := none, egErr := none, result := none }] ∧
      s1.tasks = s.tasks.set i { t with ended := true, pc := .inGo s.calls.length }) ∧
    (∀ (g : Nat) (s1 : State) (c c1 : Call) (i : Nat) (t : Task),
      step st opts s (.wait g) = some s1 → s.calls[g]? = some c → c.caller = some i →
      s.tasks[i]? = some t → s1.calls[g]? = some c1 → c1.result = some none →
      t.pc = .inGo g ∧ s1.tasks[i]? = some { t with pc := .await t.succs } ∧
        ∀ n ∈ t.succs, n.digest ∈ s1.tracker) ∧
    (∀ t ∈ s.tasks, ∀ n ∈ t.pc.waits, n.digest ∈ s.tracker) ∧
    (∀ (i : Nat) (t : Task) (node : Descriptor) (rest : List Descriptor) (alt : Bool),
      s.tasks[i]? = some t → t.pc = .await (node :: rest) →
      node.digest ∈ s.tracker ∧
      step st opts s (.run i alt) = some { s with
        world := s.world.emit (.tryCommit node false)
        tasks := s.tasks.set i { t with pc := .waitDone node rest } }) := by
  obtain ⟨hc, hinv⟩ := run_await st opts root env acts s h
  refine ⟨?_, ?_, hinv.awaiting, ?_⟩
  · intro i t alt s1 hget hpc hstep
    simp only [step, hget, fn, hpc, Option.some.injEq] at hstep
    subst hstep
    have hr := regionEnd_fst s t
    refine ⟨?_, ?_⟩
    · simp only [hr.2.2.2.2.1]
    · simp only [hr.1, hr.2.2.2.2.1]
      unfold regionEnd
      split
      · rename_i hended
        congr 1
        cases t
        simp_all
      · rfl
  · intro g s1 c c1 i t hstep hget hcaller ht hget1 hres1
    have hw : Go.wait s g = some s1 := hstep
    obtain ⟨c2, c3, res, h1, h2, h3, h4, h5, h6, h7, h8, h9, h10, h11, h12, h13, h14, h15, h16,
      h17, h18⟩ := Go.wait_spec s s1 g hw
    rw [hget] at h1
    cases h1
    rw [h12, List.getElem?_set_self (getElem?_lt hget)] at hget1
    cases hget1
    rw [h11] at hres1
    cases hres1
    have hpc := hc.caller_inGo hget hcaller ht h2
    rcases h13 with ⟨h19, _⟩ | ⟨i1, t1, g0, h19, h20, h21, h22⟩
    · rw [h19] at hcaller
      cases hcaller
    · rw [h19] at hcaller
      cases hcaller
      rw [ht] at h20
      cases h20
      have hget2 : s1.tasks[i]? = some { t with pc := .await t.succs } := by
        rw [h22, List.getElem?_set_self (getElem?_lt ht)]
      refine ⟨hpc, hget2, ?_⟩
      have hinv1 := hinv.awaitStep hc (Go.wait_walk st opts s s1 g hw)
      exact hinv1.awaiting _ (List.getElem?_mem hget2)
  · intro i t node rest alt hget hpc
    have hmem : node.digest ∈ s.tracker :=
      hinv.awaiting t (List.getElem?_mem hget) node (by rw [hpc]; exact List.mem_cons_self _ _)
    refine ⟨hmem, ?_⟩
    simp only [step, hget, fn, hpc, hmem, if_true]

theorem copyGraph_successors_committed_witness :
    Example.blob.digest ∈ Example.awaitState.tracker ∧
    step Example.stores Example.noHooks Example.awaitState (.run 0 false) =
      some { Example.awaitState with
        world := Example.awaitState.world.emit (.tryCommit Example.blob false)
        tasks := Example.awaitState.tasks.set 0
          { Example.awaitTask with pc := .waitDone Example.blob [Example.blob2] } } :=
  (copyGraph_successors_committed Example.stores Example.noHooks Example.manifest
    Example.emptyEnv Example.awaitSchedule Example.awaitState (by decide)).2.2.2 0
    Example.awaitTask Example.blob [Example.blob2] false (by decide) (by decide)

/-! ## C17: the permits are released when `syncutil.Go` returns -/

theorem State.under_self (s : State) (n g : Nat) : s.under n g g = true := by
  cases n <;> simp [State.under]

/-- Once a `Go` call has returned, every goroutine spawned by it or by a call made under it
has ended. -/
theorem CallInv.under_ended {s : State} (hinv : CallInv s) {g : Nat} {c : Call}
    (hget : s.calls[g]? = some c) (hres : c.result ≠ none) :
    ∀ (n h : Nat), s.under n g h = true → ∀ t ∈ s.tasks, t.group = h →
      t.pc.hasEnded = true := by
  have hself : ∀ t ∈ s.tasks, t.group = g → t.pc.hasEnded = true := by
    intro t ht hg
    have hl := hinv.returned g c hget hres
    rw [hinv.live g c hget] at hl
    exact State.liveCount_zero hl t ht hg
  intro n
  induction n with
  | zero =>
    intro h hu t ht hg
    simp only [State.under, decide_eq_true_eq] at hu
    exact hself t ht (hg.trans hu)
  | succ n ih =>
    intro h hu t ht hg
    simp only [State.under, Bool.or_eq_true, decide_eq_true_eq] at hu
    rcases hu with hu | hu
    · exact hself t ht (hg.trans hu)
    · split at hu
      · cases hu
      · rename_i c1 hc1
        split at hu
        · cases hu
        · rename_i i hi
          split at hu
          · cases hu
          · rename_i u hget1
            have hend := ih u.group hu u (List.getElem?_mem hget1) rfl
            have hr1 : c1.result ≠ none := by
              intro hnone
              have hpc := hinv.caller_inGo hc1 hi hget1 hnone
              rw [hpc] at hend
              cases hend
            have hl := hinv.returned h c1 hc1 hr1
            rw [hinv.live h c1 hc1] at hl
            exact State.liveCount_zero hl t ht hg

/-- C17, as stated, fails for the calls of `syncutil.Go` that the walk function makes on
the successors (copy.go 261): in a run of `copyGraph` from an index with two manifests, the
goroutine of the first manifest calls `Go` while the goroutine of the second manifest
holds a permit, so that 2 of the 3 permits are free at the call; the second goroutine ends
its region before the call returns, and the call returns `nil` with 3 free permits. -/
theorem Go_nested_free_permits_differ :
    limiterCapacity Example.noHooks = 3 ∧
    run Example.deepStores Example.noHooks
        (copyGraph.init Example.noHooks Example.index Example.emptyEnv) Example.nestedReturn =
      some (Example.final Example.deepStores Example.noHooks Example.index Example.emptyEnv
        Example.nestedReturn) ∧
    (Example.final Example.deepStores Example.noHooks Example.index Example.emptyEnv
      Example.nestedCall).calls.length = 3 ∧
    (Example.final Example.deepStores Example.noHooks Example.index Example.emptyEnv
      Example.nestedCall).calls[2]?.map Call.pending = some [Example.blob] ∧
    (Example.final Example.deepStores Example.noHooks Example.index Example.emptyEnv
      Example.nestedCall).calls[2]?.map Call.result = some none ∧
    (Example.final Example.deepStores Example.noHooks Example.index Example.emptyEnv
      Example.nestedCall).free = 2 ∧
    (Example.final Example.deepStores Example.noHooks Example.index Example.emptyEnv
      Example.nestedReturn).calls[2]?.map Call.result = some (some none) ∧
    (Example.final Example.deepStores Example.noHooks Example.index Example.emptyEnv
      Example.nestedReturn).free = 3 := by
  refine ⟨by decide, by decide, by decide, by decide, by decide, by decide, by decide,
    by decide⟩

/-- C17, amended: along every run of a call of `syncutil.Go` with any `fn` that uses its
region through `Start` and `End`, on a limiter of capacity `size` that no other goroutine
uses and that has no more than `size` permits out at the call: the permits acquired since
the call are the permits released since and the permits the goroutines hold, no more than
`size` permits are out, and when `Go` has returned no goroutine holds a permit and the
limiter has as many free permits as at the call.  And along every run of `copyGraph`: the
free permits and the permits the goroutines hold add up to the capacity of the limiter;
when a `Go` call has returned, its goroutines and the goroutines of every call made under
it have ended and hold no permit; and when `copyGraph` has returned no goroutine holds a
permit and every permit is free, as at the call of its `Go`. -/
theorem Go_releases_permits {α : Type} (size : Nat) (lim : Limiter) (items : List α)
    (acts : List Syncutil.Action) (s : Syncutil.State α) (st : Stores)
    (opts : CopyGraphOptions) (root : Descriptor) (env : Env) (wacts : List Action)
    (ws : State) (hcap : lim.acquired ≤ size + lim.released)
    (hgo : Syncutil.run (Syncutil.init size lim items) acts = some s)
    (hwalk : run st opts (copyGraph.init opts root env) wacts = some ws) :
    (s.limiter.acquired + lim.released =
        s.limiter.released + lim.acquired + Syncutil.held s.tasks ∧
      s.limiter.out ≤ size ∧
      (∀ r, s.result = some r →
        Syncutil.held s.tasks = 0 ∧ Limiter.free size s.limiter = Limiter.free size lim)) ∧
    (ws.free + ws.held = limiterCapacity opts ∧
      ws.held ≤ limiterCapacity opts ∧
      (∀ (g : Nat) (c : Call), ws.calls[g]? = some c → c.result ≠ none →
        ∀ t ∈ ws.tasks, t.group = g → t.pc.hasEnded = true ∧ t.ended = true) ∧
      (∀ (g : Nat) (c : Call), ws.calls[g]? = some c → c.result ≠ none →
        ∀ t ∈ ws.tasks, ws.spawnedUnder g t = true →
          t.pc.hasEnded = true ∧ t.ended = true) ∧
      (∀ r, ws.result = some r → ws.held = 0 ∧ ws.free = limiterCapacity opts ∧
        ws.free = (copyGraph.init opts root env).free)) := by
  have hp := Syncutil.run_permits acts _ s (Syncutil.init_permits size lim items hcap) rfl hgo
  have hci := Syncutil.run_inv acts _ s (Syncutil.init_inv size lim items).1
    (Syncutil.init_inv size lim items).2 hgo
  obtain ⟨hc, hr⟩ := run_calls st opts root env wacts ws hwalk
  have hperm := hp.1.permits
  have hcapacity := hp.1.capacity
  have hsize : s.size = size := hp.2
  rw [hsize] at hcapacity
  have hwp := hr.permits
  refine ⟨⟨hperm, ?_, ?_⟩, hwp, ?_, ?_, ?_, ?_⟩
  · unfold Limiter.out
    omega
  · intro r hres
    have hfin := (hci.1.returned r hres).2.2
    have hz := Syncutil.held_zero s.tasks (fun t ht => hp.1.ended t ht (hfin t ht))
    refine ⟨hz, ?_⟩
    unfold Limiter.free Limiter.out
    omega
  · omega
  · intro g c hget hres t ht hg
    have hend := hc.under_ended hget hres 0 t.group
      (by simp [State.under, hg]) t ht rfl
    exact ⟨hend, hr.ended t ht hend⟩
  · intro g c hget hres t ht hu
    have hend := hc.under_ended hget hres _ t.group hu t ht rfl
    exact ⟨hend, hr.ended t ht hend⟩
  · intro r hres
    have hz := State.held_eq_zero hc hr hres
    have hfree : ws.free = limiterCapacity opts := by omega
    exact ⟨hz, hfree, hfree⟩

theorem Go_releases_permits_witness :
    Limiter.free 1 Example.goFinal.limiter = Limiter.free 1 { acquired := 0, released := 0 } ∧
    (Example.final Example.stores Example.noHooks Example.manifest Example.emptyEnv
      Example.schedule).free = limiterCapacity Example.noHooks :=
  have h := Go_releases_permits 1 { acquired := 0, released := 0 } [7, 8, 9]
    Example.goSchedule Example.goFinal Example.stores Example.noHooks Example.manifest
    Example.emptyEnv Example.schedule
    (Example.final Example.stores Example.noHooks Example.manifest Example.emptyEnv
      Example.schedule)
    (by decide) (by decide) (by decide)
  ⟨(h.1.2.2 (some (.other "boom")) (by decide)).2, (h.2.2.2.2.2 none (by decide)).2.1⟩

/-! ## A committed descriptor has its token held, closed, or left open by a failure -/

/-- What a move does to the token of the goroutine: a goroutine that holds it goes on
holding it, or returns `nil` and closes it, or returns an error. -/
theorem TaskMove.token {st : Stores} {opts : CopyGraphOptions} {s : State} {t t1 : Task}
    {tr cl : List Digest} {w : World} (hm : TaskMove st opts s t t1 tr cl w) :
    (t.pc.holds = true →
      t1.pc.holds = true ∨ (t1.pc.returned = true ∧ t.desc.digest ∈ cl) ∨
        t1.pc.failed = true) ∧
    (t.pc.returned = true → t1.pc.returned = true) ∧
    (t.pc.failed = true → t1.pc.failed = true) ∧
    (t.pc.failing = true → t1.pc.failing = true) := by
  cases hm with
  | localMove pc ended hl =>
    cases hl with
    | fail err hpcs =>
      rcases hpcs with h | ⟨g, h⟩ | ⟨node, rest, h⟩ | h | h <;>
        simp [h, Pc.holds, Pc.returned, Pc.failed, Pc.failing]
    | failed err hpc => simp [hpc, Pc.holds, Pc.returned, Pc.failed, Pc.failing]
    | ended err hpc =>
      cases err <;> simp [hpc, Pc.holds, Pc.returned, Pc.failed, Pc.failing]
    | _ => simp_all [Pc.holds, Pc.returned, Pc.failed, Pc.failing]
  | existsOk hpc =>
    simp only [hpc]
    split <;> simp [Pc.holds, Pc.returned, Pc.failed, Pc.failing]
  | findOk l pc hpc _ hcase =>
    rcases hcase with ⟨rfl, _⟩ | ⟨rfl, _⟩ <;>
      simp [hpc, Pc.holds, Pc.returned, Pc.failed, Pc.failing]
  | close hpc => simp [hpc, Pc.holds, Pc.returned, Pc.failed, Pc.failing]
  | _ => simp_all [Pc.holds, Pc.returned, Pc.failed, Pc.failing]

/-- What a move does to the committing calls of `TryCommit` in the trace, when the
successors a goroutine goes through are in the tracker: the goroutine commits its own
descriptor and holds the token, or no such call is added. -/
theorem TaskMove.commitTrace {st : Stores} {opts : CopyGraphOptions} {s : State} {t t1 : Task}
    {tr cl : List Digest} {w : World} (hm : TaskMove st opts s t t1 tr cl w)
    (hawait : ∀ node rest, t.pc = .await (node :: rest) → node.digest ∈ s.tracker) :
    ∀ d, Event.tryCommit d true ∈ w.trace →
      Event.tryCommit d true ∈ s.world.trace ∨ (d = t.desc ∧ t1.pc.holds = true) := by
  intro d hd
  cases hm with
  | localMove pc ended hl => exact .inl hd
  | commit _ _ =>
    simp only [World.emit, List.mem_append, List.mem_singleton, Event.tryCommit.injEq,
      and_true] at hd
    rcases hd with h | h
    · exact .inl h
    · exact .inr ⟨h, rfl⟩
  | duplicate _ _ =>
    simp only [World.emit, List.mem_append, List.mem_singleton, Event.tryCommit.injEq] at hd
    rcases hd with h | h
    · exact .inl h
    · simp at h
  | existsOk _ =>
    simp only [World.emit, List.mem_append, List.mem_singleton] at hd
    rcases hd with h | h
    · exact .inl h
    · cases h
  | skipped h hpc _ =>
    simp only [List.mem_append, List.mem_singleton] at hd
    rcases hd with h | h
    · exact .inl h
    · cases h
  | skippedNone _ _ => exact .inl hd
  | findErr err _ _ => exact .inl hd
  | findOk l pc _ _ _ =>
    simp only [List.mem_append, List.mem_singleton] at hd
    rcases hd with h | h
    · exact .inl h
    · cases h
  | awaitToken node rest _ _ =>
    simp only [World.emit, List.mem_append, List.mem_singleton, Event.tryCommit.injEq] at hd
    rcases hd with h | h
    · exact .inl h
    · simp at h
  | awaitCommitted node rest hpc hn => exact absurd (hawait node rest hpc) hn
  | copy src _ =>
    obtain ⟨evs, h1, h2⟩ := copyNode_trace st src t.desc opts s.world
    rw [h1] at hd
    rcases List.mem_append.1 hd with h | h
    · exact .inl h
    · have := h2.subset h
      simp only [List.mem_cons, List.mem_singleton, List.not_mem_nil, or_false] at this
      rcases this with h | h | h | h <;> cases h
  | close _ =>
    simp only [World.emit, List.mem_append, List.mem_singleton] at hd
    rcases hd with h | h
    · exact .inl h
    · cases h

/-- The tokens after a step that adds committing calls of `TryCommit` only with a goroutine
that holds the token, closes tokens but opens none, and lets every goroutine go on as a
move does. -/
theorem TokenInv.ofToken {s s1 : State} (hx : TokenInv s)
    (htrace : ∀ d, Event.tryCommit d true ∈ s1.world.trace →
      Event.tryCommit d true ∈ s.world.trace ∨
        ∃ (i : Nat) (t : Task), s1.tasks[i]? = some t ∧ t.desc = d ∧ t.pc.holds = true)
    (hcl : ∀ k ∈ s.closed, k ∈ s1.closed)
    (htasks : ∀ (i : Nat) (t : Task), s.tasks[i]? = some t →
      ∃ t1, s1.tasks[i]? = some t1 ∧ t1.desc = t.desc ∧
        (t.pc.holds = true →
          t1.pc.holds = true ∨ (t1.pc.returned = true ∧ t.desc.digest ∈ s1.closed) ∨
            t1.pc.failed = true) ∧
        (t.pc.returned = true → t1.pc.returned = true) ∧
        (t.pc.failed = true → t1.pc.failed = true)) : TokenInv s1 := by
  refine ⟨fun d hd => ?_⟩
  rcases htrace d hd with h | ⟨i, t, h1, h2, h3⟩
  · obtain ⟨i, t, hget, hdesc, hpc⟩ := hx.token d h
    obtain ⟨t1, hget1, hd1, hh, hr, hf⟩ := htasks i t hget
    refine ⟨i, t1, hget1, hd1.trans hdesc, ?_⟩
    rcases hpc with hpc | ⟨hpc, hmem⟩ | hpc
    · rw [hdesc] at hh
      exact hh hpc
    · exact .inr (.inl ⟨hr hpc, hcl _ hmem⟩)
    · exact .inr (.inr (hf hpc))
  · exact ⟨i, t, h1, h2, .inl h3⟩

theorem tasks_set_token {s s1 : State} {i : Nat} {t t1 : Task}
    (hget : s.tasks[i]? = some t) (htasks : s1.tasks = s.tasks.set i t1)
    (hd : t1.desc = t.desc)
    (h1 : (t.pc.holds = true →
        t1.pc.holds = true ∨ (t1.pc.returned = true ∧ t.desc.digest ∈ s1.closed) ∨
          t1.pc.failed = true) ∧
      (t.pc.returned = true → t1.pc.returned = true) ∧
      (t.pc.failed = true → t1.pc.failed = true)) :
    ∀ (j : Nat) (u : Task), s.tasks[j]? = some u →
      ∃ u1, s1.tasks[j]? = some u1 ∧ u1.desc = u.desc ∧
        (u.pc.holds = true →
          u1.pc.holds = true ∨ (u1.pc.returned = true ∧ u.desc.digest ∈ s1.closed) ∨
            u1.pc.failed = true) ∧
        (u.pc.returned = true → u1.pc.returned = true) ∧
        (u.pc.failed = true → u1.pc.failed = true) := by
  intro j u hu
  by_cases hj : j = i
  · subst hj
    rw [hget] at hu
    cases hu
    refine ⟨t1, ?_, hd, h1⟩
    rw [htasks, List.getElem?_set_self (getElem?_lt hget)]
  · refine ⟨u, ?_, rfl, fun h => .inl h, fun h => h, fun h => h⟩
    rw [htasks, List.getElem?_set_ne (fun h => hj h.symm)]
    exact hu

theorem tasks_same_token {s s1 : State} (htasks : ∀ (j : Nat) (u : Task),
      s.tasks[j]? = some u → s1.tasks[j]? = some u) :
    ∀ (j : Nat) (u : Task), s.tasks[j]? = some u →
      ∃ u1, s1.tasks[j]? = some u1 ∧ u1.desc = u.desc ∧
        (u.pc.holds = true →
          u1.pc.holds = true ∨ (u1.pc.returned = true ∧ u.desc.digest ∈ s1.closed) ∨
            u1.pc.failed = true) ∧
        (u.pc.returned = true → u1.pc.returned = true) ∧
        (u.pc.failed = true → u1.pc.failed = true) :=
  fun j u hu => ⟨u, htasks j u hu, rfl, fun h => .inl h, fun h => h, fun h => h⟩

theorem TokenInv.tokenStep {st : Stores} {opts : CopyGraphOptions} {s s1 : State}
    (ha : AwaitInv s) (hx : TokenInv s) (hstep : WalkStep st opts s s1) : TokenInv s1 := by
  cases hstep with
  | ctx err h hs =>
    subst hs
    exact ⟨hx.token⟩
  | spawn g c item rest hget hres hpend hfree hs =>
    subst hs
    refine hx.ofToken (fun d hd => .inl hd) (fun k hk => hk) (tasks_same_token ?_)
    intro j u hu
    show (s.tasks ++ _)[j]? = some u
    rw [List.getElem?_append_left (getElem?_lt hu)]
    exact hu
  | broke g c item rest hget hres hpend hcg hs =>
    subst hs
    exact ⟨hx.token⟩
  | wait g c c1 res hget hres hpend hl hnone hpar hcaller hpend1 hlive hcs hres1 hcalls htasks
      hfree hctx htrk hcl hw =>
    rcases htasks with ⟨_, htasks⟩ | ⟨i, t, g0, hci, hti, hpc, htasks⟩
    · exact hx.ofToken (fun d hd => .inl (hw ▸ hd)) (fun k hk => hcl ▸ hk)
        (tasks_same_token (fun j u hu => htasks ▸ hu))
    · refine hx.ofToken (fun d hd => .inl (hw ▸ hd)) (fun k hk => hcl ▸ hk)
        (tasks_set_token hti htasks rfl ⟨fun _ => .inl ?_, ?_, ?_⟩)
      · cases res <;> rfl
      · rw [hpc]
        intro h
        cases h
      · rw [hpc]
        intro h
        cases h
  | inner i t t1 hget hm htasks hcalls hfree hctx hended hgo hleave hin hfin hin1 hfin1 =>
    have hawait : ∀ node rest, t.pc = .await (node :: rest) → node.digest ∈ s.tracker := by
      intro node rest hpc
      exact ha.awaiting t (List.getElem?_mem hget) node (by rw [hpc]; exact List.mem_cons_self _ _)
    have htok := hm.token
    have hcl : ∀ k ∈ s.closed, k ∈ s1.closed := by
      intro k hk
      rcases hm.closeTrace with ⟨_, _, h, _⟩ | ⟨h, _⟩
      · rw [h]
        exact List.mem_cons_of_mem _ hk
      · rw [h]
        exact hk
    refine hx.ofToken ?_ hcl
      (tasks_set_token hget htasks hm.desc_eq ⟨htok.1, htok.2.1, htok.2.2.1⟩)
    intro d hd
    rcases hm.commitTrace hawait d hd with h | ⟨h1, h2⟩
    · exact .inl h
    · refine .inr ⟨i, t1, ?_, hm.desc_eq.trans h1.symm, h2⟩
      rw [htasks, List.getElem?_set_self (getElem?_lt hget)]
  | call i t hget hpc hcalls htasks hfree hctx htrk hcl hw =>
    refine hx.ofToken (fun d hd => .inl (hw ▸ hd)) (fun k hk => hcl ▸ hk)
      (tasks_set_token hget htasks rfl ⟨fun _ => .inl rfl, ?_, ?_⟩)
    · rw [hpc]
      intro h
      cases h
    · rw [hpc]
      intro h
      cases h
  | acquire i t hget hpc hended hfree hs =>
    have htasks : s1.tasks = s.tasks.set i { t with ended := false, pc := .cacheExists } := by
      rw [hs]
    have hw : s1.world = s.world := by rw [hs]
    have hcl : s1.closed = s.closed := by rw [hs]
    refine hx.ofToken (fun d hd => .inl (hw ▸ hd)) (fun k hk => hcl ▸ hk)
      (tasks_set_token hget htasks rfl ⟨fun _ => .inl rfl, ?_, ?_⟩)
    · rw [hpc]
      intro h
      cases h
    · rw [hpc]
      intro h
      cases h
  | leave i t err c c1 hget hpc hcg hpar hcaller hpend hlive hcs hres hcalls htasks hfree hctx
      htrk hcl hw =>
    refine hx.ofToken (fun d hd => .inl (hw ▸ hd)) (fun k hk => hcl ▸ hk)
      (tasks_set_token hget htasks rfl ⟨?_, ?_, ?_⟩)
    · rw [hpc]
      intro h
      cases h
    · rw [hpc]
      intro h
      cases err with
      | none => rfl
      | some e => cases h
    · rw [hpc]
      intro h
      cases err with
      | none => cases h
      | some e => rfl

theorem TokenInv.tokenInit (opts : CopyGraphOptions) (root : Descriptor) (env : Env) :
    TokenInv (copyGraph.init opts root env) := by
  refine ⟨fun d hd => ?_⟩
  simp [copyGraph.init] at hd

/-! ## A walk that returns `nil` had no goroutine fail -/

/-- The errors after a step, from what the step does to the calls and to the
goroutines. -/
theorem ErrInv.ofErr {s s1 : State} (hc : CallInv s) (hx : ErrInv s)
    (hF : ∀ (g : Nat) (c : Call), s.calls[g]? = some c →
      ∃ c1, s1.calls[g]? = some c1 ∧ (c.egErr.isSome = true → c1.egErr.isSome = true))
    (hT : ∀ u ∈ s1.tasks, ∀ e, u.pc = .finished (some e) →
      (∃ u0 ∈ s.tasks, u0.group = u.group ∧ u0.pc = .finished (some e)) ∨
        ∃ c1, s1.calls[u.group]? = some c1 ∧ c1.egErr.isSome = true)
    (hB : ∀ (g : Nat) (c1 : Call), s1.calls[g]? = some c1 → c1.result = some none →
      c1.egErr = none ∨ ∃ c, s.calls[g]? = some c ∧ c.result = some none ∧ c1.egErr = c.egErr)
    (hP : ∀ (g : Nat) (c1 : Call) (i : Nat) (e : Error), s1.calls[g]? = some c1 →
      c1.caller = some i → c1.result = some (some e) →
      (∃ c, s.calls[g]? = some c ∧ c.caller = some i ∧ c.result = some (some e)) ∨
        ∀ t1, s1.tasks[i]? = some t1 → t1.pc.failing = true)
    (hPt : ∀ (i : Nat) (t : Task), s.tasks[i]? = some t →
      ∃ t1, s1.tasks[i]? = some t1 ∧ (t.pc.failing = true → t1.pc.failing = true)) :
    ErrInv s1 := by
  refine ⟨?_, ?_, ?_⟩
  · intro u hu e hpc
    rcases hT u hu e hpc with ⟨u0, hu0, hg, hpc0⟩ | h
    · obtain ⟨c, hget, hsome⟩ := hx.recorded u0 hu0 e hpc0
      obtain ⟨c1, hget1, hsome1⟩ := hF _ c hget
      exact ⟨c1, hg ▸ hget1, hsome1 hsome⟩
    · exact h
  · intro g c1 hget1 hres
    rcases hB g c1 hget1 hres with h | ⟨c, hget, hres0, heg⟩
    · exact h
    · rw [heg]
      exact hx.clean g c hget hres0
  · intro g c1 i t1 e hget1 hcaller ht1 hres
    rcases hP g c1 i e hget1 hcaller hres with ⟨c, hget, hca, hres0⟩ | h
    · rcases hc.caller g c hget with ⟨h1, _⟩ | ⟨i1, t, h1, h2, _, _⟩
      · rw [h1] at hca
        cases hca
      · rw [h1] at hca
        cases hca
        obtain ⟨t2, ht2, hf⟩ := hPt i t h2
        rw [ht1] at ht2
        cases ht2
        exact hf (hx.passed g c i t e hget h1 h2 hres0)
    · exact h t1 ht1

theorem errF_same {s s1 : State} (hcalls : s1.calls = s.calls) :
    ∀ (g : Nat) (c : Call), s.calls[g]? = some c →
      ∃ c1, s1.calls[g]? = some c1 ∧ (c.egErr.isSome = true → c1.egErr.isSome = true) :=
  fun _ c hc => ⟨c, hcalls ▸ hc, fun h => h⟩

theorem errF_set {s s1 : State} {g : Nat} {c c1 : Call} (hget : s.calls[g]? = some c)
    (hcalls : s1.calls = s.calls.set g c1)
    (h : c.egErr.isSome = true → c1.egErr.isSome = true) :
    ∀ (g1 : Nat) (c2 : Call), s.calls[g1]? = some c2 →
      ∃ c3, s1.calls[g1]? = some c3 ∧ (c2.egErr.isSome = true → c3.egErr.isSome = true) := by
  intro g1 c2 hc2
  by_cases hg : g1 = g
  · subst hg
    rw [hget] at hc2
    cases hc2
    refine ⟨c1, ?_, h⟩
    rw [hcalls, List.getElem?_set_self (getElem?_lt hget)]
  · refine ⟨c2, ?_, fun h => h⟩
    rw [hcalls, List.getElem?_set_ne (fun h => hg h.symm)]
    exact hc2

theorem errB_same {s s1 : State} (hcalls : s1.calls = s.calls) :
    ∀ (g : Nat) (c1 : Call), s1.calls[g]? = some c1 → c1.result = some none →
      c1.egErr = none ∨
        ∃ c, s.calls[g]? = some c ∧ c.result = some none ∧ c1.egErr = c.egErr :=
  fun _ c1 hc1 hres => .inr ⟨c1, hcalls ▸ hc1, hres, rfl⟩

theorem errB_set {s s1 : State} {g : Nat} {c c1 : Call} (hget : s.calls[g]? = some c)
    (hcalls : s1.calls = s.calls.set g c1)
    (h : c1.result = some none →
      c1.egErr = none ∨ (c.result = some none ∧ c1.egErr = c.egErr)) :
    ∀ (g1 : Nat) (c2 : Call), s1.calls[g1]? = some c2 → c2.result = some none →
      c2.egErr = none ∨
        ∃ c3, s.calls[g1]? = some c3 ∧ c3.result = some none ∧ c2.egErr = c3.egErr := by
  intro g1 c2 hc2 hres
  rcases calls_set_lookup hcalls g1 c2 hc2 with ⟨rfl, rfl⟩ | ⟨_, h3⟩
  · rcases h hres with h1 | ⟨h1, h2⟩
    · exact .inl h1
    · exact .inr ⟨c, hget, h1, h2⟩
  · exact .inr ⟨c2, h3, hres, rfl⟩

theorem errP_same {s s1 : State} (hcalls : s1.calls = s.calls) :
    ∀ (g : Nat) (c1 : Call) (i : Nat) (e : Error), s1.calls[g]? = some c1 →
      c1.caller = some i → c1.result = some (some e) →
      (∃ c, s.calls[g]? = some c ∧ c.caller = some i ∧ c.result = some (some e)) ∨
        ∀ t1, s1.tasks[i]? = some t1 → t1.pc.failing = true :=
  fun _ c1 _ _ hc1 hcaller hres => .inl ⟨c1, hcalls ▸ hc1, hcaller, hres⟩

theorem errP_set {s s1 : State} {g : Nat} {c c1 : Call} (hget : s.calls[g]? = some c)
    (hcalls : s1.calls = s.calls.set g c1) (hcaller : c1.caller = c.caller)
    (h : ∀ (e : Error) (i : Nat), c1.result = some (some e) → c1.caller = some i →
      c.result = some (some e) ∨ ∀ t1, s1.tasks[i]? = some t1 → t1.pc.failing = true) :
    ∀ (g1 : Nat) (c2 : Call) (i : Nat) (e : Error), s1.calls[g1]? = some c2 →
      c2.caller = some i → c2.result = some (some e) →
      (∃ c3, s.calls[g1]? = some c3 ∧ c3.caller = some i ∧ c3.result = some (some e)) ∨
        ∀ t1, s1.tasks[i]? = some t1 → t1.pc.failing = true := by
  intro g1 c2 i e hc2 hca hres
  rcases calls_set_lookup hcalls g1 c2 hc2 with ⟨rfl, rfl⟩ | ⟨_, h3⟩
  · rcases h e i hres hca with h1 | h1
    · exact .inl ⟨c, hget, hcaller ▸ hca, h1⟩
    · exact .inr h1
  · exact .inl ⟨c2, h3, hca, hres⟩

theorem errT_same {s s1 : State} (htasks : ∀ u ∈ s1.tasks, u ∈ s.tasks ∨ u.pc = .start) :
    ∀ u ∈ s1.tasks, ∀ e, u.pc = .finished (some e) →
      (∃ u0 ∈ s.tasks, u0.group = u.group ∧ u0.pc = .finished (some e)) ∨
        ∃ c1, s1.calls[u.group]? = some c1 ∧ c1.egErr.isSome = true := by
  intro u hu e hpc
  rcases htasks u hu with h | h
  · exact .inl ⟨u, h, rfl, hpc⟩
  · rw [h] at hpc
    cases hpc

theorem errT_set {s s1 : State} {i : Nat} {t1 : Task}
    (htasks : s1.tasks = s.tasks.set i t1)
    (h : ∀ e, t1.pc = .finished (some e) →
      ∃ c1, s1.calls[t1.group]? = some c1 ∧ c1.egErr.isSome = true) :
    ∀ u ∈ s1.tasks, ∀ e, u.pc = .finished (some e) →
      (∃ u0 ∈ s.tasks, u0.group = u.group ∧ u0.pc = .finished (some e)) ∨
        ∃ c1, s1.calls[u.group]? = some c1 ∧ c1.egErr.isSome = true := by
  intro u hu e hpc
  rw [htasks] at hu
  rcases List.mem_or_eq_of_mem_set hu with h1 | rfl
  · exact .inl ⟨u, h1, rfl, hpc⟩
  · exact .inr (h e hpc)

theorem errPt_same {s s1 : State} (htasks : ∀ (j : Nat) (u : Task),
      s.tasks[j]? = some u → s1.tasks[j]? = some u) :
    ∀ (i : Nat) (t : Task), s.tasks[i]? = some t →
      ∃ t1, s1.tasks[i]? = some t1 ∧ (t.pc.failing = true → t1.pc.failing = true) :=
  fun i t ht => ⟨t, htasks i t ht, fun h => h⟩

theorem errPt_set {s s1 : State} {i : Nat} {t t1 : Task}
    (hget : s.tasks[i]? = some t) (htasks : s1.tasks = s.tasks.set i t1)
    (h : t.pc.failing = true → t1.pc.failing = true) :
    ∀ (j : Nat) (u : Task), s.tasks[j]? = some u →
      ∃ u1, s1.tasks[j]? = some u1 ∧ (u.pc.failing = true → u1.pc.failing = true) := by
  intro j u hu
  by_cases hj : j = i
  · subst hj
    rw [hget] at hu
    cases hu
    refine ⟨t1, ?_, h⟩
    rw [htasks, List.getElem?_set_self (getElem?_lt hget)]
  · refine ⟨u, ?_, fun h => h⟩
    rw [htasks, List.getElem?_set_ne (fun h => hj h.symm)]
    exact hu

theorem ErrInv.errStep {st : Stores} {opts : CopyGraphOptions} {s s1 : State}
    (hc : CallInv s) (hx : ErrInv s) (hstep : WalkStep st opts s s1) : ErrInv s1 := by
  cases hstep with
  | ctx err h hs =>
    have htasks : s1.tasks = s.tasks := by rw [hs]
    have hcalls : s1.calls = s.calls := by rw [hs]
    exact hx.ofErr hc (errF_same hcalls) (errT_same (fun u hu => .inl (htasks ▸ hu)))
      (errB_same hcalls) (errP_same hcalls) (errPt_same (fun j u hu => htasks ▸ hu))
  | spawn g c item rest hget hres hpend hfree hs =>
    have htasks : s1.tasks = s.tasks ++
        [{ desc := item, group := g, ended := false, succs := [], pc := .start }] := by
      rw [hs]
    have hcalls : s1.calls = s.calls.set g { c with pending := rest, live := c.live + 1 } := by
      rw [hs]
    refine hx.ofErr hc (errF_set hget hcalls (fun h => h)) (errT_same ?_)
      (errB_set hget hcalls (fun h => .inr ⟨h, rfl⟩))
      (errP_set hget hcalls rfl (fun e i h _ => .inl h)) (errPt_same ?_)
    · intro u hu
      rw [htasks] at hu
      rcases List.mem_append.1 hu with h | h
      · exact .inl h
      · rw [List.mem_singleton.1 h]
        exact .inr rfl
    · intro j u hu
      rw [htasks, List.getElem?_append_left (getElem?_lt hu)]
      exact hu
  | broke g c item rest hget hres hpend hcg hs =>
    have htasks : s1.tasks = s.tasks := by rw [hs]
    have hcalls : s1.calls = s.calls.set g { c with pending := [] } := by rw [hs]
    exact hx.ofErr hc (errF_set hget hcalls (fun h => h))
      (errT_same (fun u hu => .inl (htasks ▸ hu)))
      (errB_set hget hcalls (fun h => .inr ⟨h, rfl⟩))
      (errP_set hget hcalls rfl (fun e i h _ => .inl h))
      (errPt_same (fun j u hu => htasks ▸ hu))
  | wait g c c1 res hget hres hpend hl hnone hpar hcaller hpend1 hlive hcs hres1 hcalls htasks
      hfree hctx htrk hcl hw heg hegnone =>
    have hB : c1.result = some none →
        c1.egErr = none ∨ (c.result = some none ∧ c1.egErr = c.egErr) := by
      intro h
      rw [hres1] at h
      simp only [Option.some.injEq] at h
      exact .inl (heg.trans (hegnone h))
    rcases htasks with ⟨hcn, htasks⟩ | ⟨i, t, g0, hci, hti, hpc, htasks⟩
    · refine hx.ofErr hc (errF_set hget hcalls (fun h => heg ▸ h))
        (errT_same (fun u hu => .inl (htasks ▸ hu))) (errB_set hget hcalls hB)
        (errP_set hget hcalls hcaller ?_) (errPt_same (fun j u hu => htasks ▸ hu))
      intro e i _ hca
      rw [hcaller, hcn] at hca
      cases hca
    · refine hx.ofErr hc (errF_set hget hcalls (fun h => heg ▸ h))
        (errT_set htasks ?_) (errB_set hget hcalls hB)
        (errP_set hget hcalls hcaller ?_) (errPt_set hti htasks ?_)
      · intro e h
        cases res <;> cases h
      · intro e i1 hr hca
        rw [hcaller, hci] at hca
        cases hca
        rw [hres1] at hr
        simp only [Option.some.injEq] at hr
        right
        intro t1 ht1
        rw [htasks, List.getElem?_set_self (getElem?_lt hti)] at ht1
        cases ht1
        rw [hr]
        rfl
      · rw [hpc]
        intro h
        cases h
  | inner i t t1 hget hm htasks hcalls hfree hctx hended hgo hleave hin hfin hin1 hfin1 =>
    exact hx.ofErr hc (errF_same hcalls)
      (errT_set htasks (fun e h => absurd h (hfin1 _)))
      (errB_same hcalls) (errP_same hcalls) (errPt_set hget htasks hm.token.2.2.2)
  | call i t hget hpc hcalls htasks hfree hctx htrk hcl hw =>
    refine hx.ofErr hc ?_ (errT_set htasks (fun e h => by cases h)) ?_ ?_
      (errPt_set hget htasks ?_)
    · intro g c hgc
      refine ⟨c, ?_, fun h => h⟩
      rw [hcalls, List.getElem?_append_left (getElem?_lt hgc)]
      exact hgc
    · intro g c1 hc1 hr
      rw [hcalls] at hc1
      rcases getElem?_append_inv hc1 with ⟨_, rfl⟩ | ⟨_, h3⟩
      · cases hr
      · exact .inr ⟨c1, h3, hr, rfl⟩
    · intro g c1 i1 e hc1 hca hr
      rw [hcalls] at hc1
      rcases getElem?_append_inv hc1 with ⟨_, rfl⟩ | ⟨_, h3⟩
      · cases hr
      · exact .inl ⟨c1, h3, hca, hr⟩
    · rw [hpc]
      intro h
      cases h
  | acquire i t hget hpc hended hfree hs =>
    have htasks : s1.tasks = s.tasks.set i { t with ended := false, pc := .cacheExists } := by
      rw [hs]
    have hcalls : s1.calls = s.calls := by rw [hs]
    refine hx.ofErr hc (errF_same hcalls)
      (errT_set htasks (fun e h => by cases h))
      (errB_same hcalls) (errP_same hcalls) (errPt_set hget htasks ?_)
    rw [hpc]
    intro h
    cases h
  | leave i t err c c1 hget hpc hcg hpar hcaller hpend hlive hcs hres hcalls htasks hfree hctx
      htrk hcl hw heg =>
    have hopen : c.result = none := by
      cases hr : c.result with
      | none => rfl
      | some r =>
        have hl := hc.returned _ c hcg (by rw [hr]; exact fun h => Option.noConfusion h)
        rw [hc.live _ c hcg] at hl
        have := State.liveCount_zero hl t (List.getElem?_mem hget) rfl
        rw [hpc] at this
        cases this
    have hsome : c.egErr.isSome = true → c1.egErr.isSome = true := by
      intro h
      rw [heg]
      cases hce : c.egErr with
      | none =>
        rw [hce] at h
        cases h
      | some e => rfl
    refine hx.ofErr hc (errF_set hcg hcalls hsome) (errT_set htasks ?_)
      (errB_set hcg hcalls ?_) (errP_set hcg hcalls hcaller ?_) (errPt_set hget htasks ?_)
    · intro e h
      simp only [Pc.finished.injEq] at h
      refine ⟨c1, ?_, ?_⟩
      · rw [hcalls]
        exact List.getElem?_set_self (getElem?_lt hcg)
      · rw [heg, h]
        cases c.egErr <;> rfl
    · intro h
      rw [hres, hopen] at h
      cases h
    · intro e i1 h _
      rw [hres, hopen] at h
      cases h
    · rw [hpc]
      intro h
      cases err with
      | none => cases h
      | some e => rfl

theorem ErrInv.errInit (opts : CopyGraphOptions) (root : Descriptor) (env : Env) :
    ErrInv (copyGraph.init opts root env) := by
  refine ⟨?_, ?_, ?_⟩
  · intro t ht
    simp [copyGraph.init] at ht
  · intro g c hget hres
    have hlt := getElem?_lt hget
    simp only [copyGraph.init, List.length_singleton] at hlt
    have hg : g = 0 := by omega
    subst hg
    simp only [copyGraph.init, List.getElem?_cons_zero, Option.some.injEq] at hget
    subst hget
    rfl
  · intro g c i t e hget hcaller ht
    simp [copyGraph.init] at ht

/-- When `copyGraph` has returned `nil`, the call of `fn` of every goroutine has returned
`nil` and every goroutine has ended. -/
theorem ErrInv.all_nil {s : State} (hc : CallInv s) (hx : ErrInv s)
    (hres : s.result = some none) : ∀ t ∈ s.tasks, t.pc = .finished none := by
  unfold State.result at hres
  split at hres
  case h_2 => cases hres
  rename_i c0 h0
  have hall := hc.all_ended h0 (by rw [hres]; exact fun h => Option.noConfusion h)
  have key : ∀ g, ∀ t ∈ s.tasks, t.group = g → ∀ e, t.pc ≠ .finished (some e) := by
    intro g
    induction g using Nat.strong_induction_on with
    | _ g ih =>
      intro t ht hg e hpc
      obtain ⟨c, hget, hsome⟩ := hx.recorded t ht e hpc
      rw [hg] at hget
      have hclean : c.result ≠ some none := by
        intro h
        rw [hx.clean g c hget h] at hsome
        cases hsome
      rcases hc.caller g c hget with ⟨_, hg0⟩ | ⟨i, u, h1, h2, h3, h4⟩
      · subst hg0
        rw [h0] at hget
        cases hget
        exact hclean hres
      · have hu := hall u (List.getElem?_mem h2)
        cases hr : c.result with
        | none =>
          rw [h4 hr] at hu
          cases hu
        | some r =>
          cases r with
          | none => exact hclean hr
          | some e1 =>
            have hf := hx.passed g c i u e1 hget h1 h2 hr
            cases hpcu : u.pc with
            | finished eu =>
              cases eu with
              | none =>
                rw [hpcu] at hf
                cases hf
              | some e2 => exact ih u.group h3 u (List.getElem?_mem h2) rfl e2 hpcu
            | _ =>
              rw [hpcu] at hu
              cases hu
  intro t ht
  have hend := hall t ht
  cases hpc : t.pc with
  | finished e =>
    cases e with
    | none => rfl
    | some e1 => exact absurd hpc (key t.group t ht rfl e1)
  | _ =>
    rw [hpc] at hend
    cases hend

/-! ## The walk: closing the tokens -/

/-- C15: in every state of every run of `copyGraph`, no token was closed twice and a token
was closed after a call of `TryCommit` for its digest that returned `committed = true`; a
committed call that returns `nil`, also on the path where the descriptor exists at the
destination, has its token open and closes it by its return; a committed call that
returns an error closes nothing, and the token of a goroutine whose committed call has
returned an error is not closed; and a step that closes a token is the return of a
committed call with `nil`.  The committed call returns what `copyNode` returns and, on the
path where the descriptor exists at the destination, what `OnCopySkipped` returns.  A
descriptor that was committed has a goroutine that holds its token, open; or whose call
has returned `nil`, with the token closed exactly once; or whose call has returned an
error, with the token never closed.  And when `copyGraph` has returned `nil`, every call
of the walk function has returned `nil` and the token of every committed descriptor was
closed exactly once. -/
theorem copyGraph_token_closed_once (st : Stores) (opts : CopyGraphOptions) (root : Descriptor)
    (env : Env) (acts : List Action) (s : State)
    (h : run st opts (copyGraph.init opts root env) acts = some s) :
    (∀ k, s.world.trace.count (.close k) ≤ 1) ∧
    (∀ pre k, pre ++ [Event.close k] <+: s.world.trace →
      ∃ d : Descriptor, d.digest = k ∧ Event.tryCommit d true ∈ pre) ∧
    (∀ (i : Nat) (t : Task) (alt : Bool), s.tasks[i]? = some t → t.pc = .ret none →
      Event.tryCommit t.desc true ∈ s.world.trace ∧
      Event.close t.desc.digest ∉ s.world.trace ∧
      step st opts s (.run i alt) =
        some { s with closed := t.desc.digest :: s.closed,
                      world := s.world.emit (.close t.desc.digest),
                      tasks := s.tasks.set i { t with pc := .leave none } }) ∧
    (∀ (i : Nat) (t : Task) (alt : Bool), s.tasks[i]? = some t → t.pc = .onCopySkipped →
      opts.OnCopySkipped = none →
      step st opts s (.run i alt) =
        some { s with tasks := s.tasks.set i { t with pc := .ret none } }) ∧
    (∀ (i : Nat) (t : Task) (err : Error) (alt : Bool), s.tasks[i]? = some t →
      t.pc = .ret (some err) →
      step st opts s (.run i alt) =
        some { s with tasks := s.tasks.set i { t with pc := .leave (some err) } }) ∧
    (∀ (i : Nat) (t : Task) (err : Error), s.tasks[i]? = some t →
      (t.pc = .ret (some err) ∨ t.pc = .leave (some err) ∨ t.pc = .finished (some err)) →
      Event.close t.desc.digest ∉ s.world.trace) ∧
    (∀ a s1, step st opts s a = some s1 →
      s1.closed = s.closed ∨
        ∃ (i : Nat) (t : Task), s.tasks[i]? = some t ∧ t.pc = .ret none ∧
          s1.closed = t.desc.digest :: s.closed) ∧
    (∀ (i : Nat) (t : Task) (src : Source) (alt : Bool), s.tasks[i]? = some t →
      t.pc = .copy src →
      step st opts s (.run i alt) =
        some { s with world := (copyNode st src t.desc opts s.world).2,
                      tasks := s.tasks.set i
                        { t with pc := .ret (copyNode st src t.desc opts s.world).1 } }) ∧
    (∀ (i : Nat) (t : Task) (hook : Hook) (alt : Bool), s.tasks[i]? = some t →
      t.pc = .onCopySkipped → opts.OnCopySkipped = some hook →
      step st opts s (.run i alt) =
        some { s with
          world := ((s.world.emit (.onCopySkipped t.desc)).call hook t.desc).2,
          tasks := s.tasks.set i
            { t with pc := .ret ((s.world.emit (.onCopySkipped t.desc)).call hook t.desc).1 } }) ∧
    (∀ d, Event.tryCommit d true ∈ s.world.trace →
      ∃ (i : Nat) (t : Task), s.tasks[i]? = some t ∧ t.desc = d ∧
        ((t.pc.holds = true ∧ s.world.trace.count (.close d.digest) = 0) ∨
          (t.pc.returned = true ∧ s.world.trace.count (.close d.digest) = 1) ∨
          (t.pc.failed = true ∧ s.world.trace.count (.close d.digest) = 0))) ∧
    (s.result = some none →
      (∀ t ∈ s.tasks, t.pc = .finished none) ∧
      ∀ d, Event.tryCommit d true ∈ s.world.trace →
        s.world.trace.count (.close d.digest) = 1) := by
  have hk := run_induction (fun s => Inv s ∧ CloseInv s)
    (fun s s1 a hk hstep =>
      ⟨hk.1.coreStep (step_core st opts s s1 a hstep),
        hk.2.closeStep hk.1 (step_core st opts s s1 a hstep)⟩)
    acts _ s ⟨Inv.atInit opts root env, CloseInv.closeInit opts root env⟩ h
  obtain ⟨hinv, hx⟩ := hk
  have hk2 := run_induction (fun s => (CallInv s ∧ AwaitInv s) ∧ TokenInv s ∧ ErrInv s)
    (fun s s1 a hk hstep =>
      ⟨⟨hk.1.1.callStep (step_walk st opts s s1 a hstep),
          hk.1.2.awaitStep hk.1.1 (step_walk st opts s s1 a hstep)⟩,
        hk.2.1.tokenStep hk.1.2 (step_walk st opts s s1 a hstep),
        hk.2.2.errStep hk.1.1 (step_walk st opts s s1 a hstep)⟩)
    acts _ s ⟨⟨CallInv.callInit opts root env, AwaitInv.awaitInit opts root env⟩,
      TokenInv.tokenInit opts root env, ErrInv.errInit opts root env⟩ h
  obtain ⟨⟨hcall, _⟩, htok, herr⟩ := hk2
  have hzero : ∀ k, k ∉ s.closed → s.world.trace.count (.close k) = 0 := by
    intro k hk
    exact List.count_eq_zero.2 (fun hmem => hk ((hinv.shared.closed_iff k).2 hmem))
  have hone : ∀ k, k ∈ s.closed → s.world.trace.count (.close k) = 1 := by
    intro k hk
    have h1 := hx.once k
    have h2 : 0 < s.world.trace.count (.close k) :=
      List.count_pos_iff.2 ((hinv.shared.closed_iff k).1 hk)
    omega
  have htri : ∀ d, Event.tryCommit d true ∈ s.world.trace →
      ∃ (i : Nat) (t : Task), s.tasks[i]? = some t ∧ t.desc = d ∧
        ((t.pc.holds = true ∧ s.world.trace.count (.close d.digest) = 0) ∨
          (t.pc.returned = true ∧ s.world.trace.count (.close d.digest) = 1) ∨
          (t.pc.failed = true ∧ s.world.trace.count (.close d.digest) = 0)) := by
    intro d hd
    obtain ⟨i, t, hget, hdesc, hpc⟩ := htok.token d hd
    refine ⟨i, t, hget, hdesc, ?_⟩
    rcases hpc with hpc | ⟨hpc, hmem⟩ | hpc
    · exact .inl ⟨hpc, hzero _ (hdesc ▸ (hinv.task i t hget).isOpen hpc)⟩
    · exact .inr (.inl ⟨hpc, hone _ hmem⟩)
    · exact .inr (.inr ⟨hpc, hzero _ (hdesc ▸ (hx.failed i t hget hpc).2.1)⟩)
  refine ⟨hx.once, hx.ordered, ?_, ?_, ?_, ?_, ?_, ?_, ?_, htri, ?_⟩
  · intro i t alt hget hpc
    have ht := hinv.task i t hget
    have hh : t.pc.holds = true := by rw [hpc]; rfl
    refine ⟨ht.committed hh, ?_, ?_⟩
    · intro hmem
      exact ht.isOpen hh ((hinv.shared.closed_iff _).2 hmem)
    · simp only [step, hget, fn, hpc]
  · intro i t alt hget hpc hnone
    simp only [step, hget, fn, hpc, hnone]
  · intro i t err alt hget hpc
    simp only [step, hget, fn, hpc]
  · intro i t err hget hpc hmem
    have hcl := (hinv.shared.closed_iff _).2 hmem
    rcases hpc with hpc | hpc | hpc
    · exact (hinv.task i t hget).isOpen (by rw [hpc]; rfl) hcl
    · exact (hx.failed i t hget (by rw [hpc]; rfl)).2.1 hcl
    · exact (hx.failed i t hget (by rw [hpc]; rfl)).2.1 hcl
  · intro a s1 hstep
    cases step_core st opts s s1 a hstep with
    | idle _ _ hcl _ => exact .inl hcl
    | spawn _ _ _ _ _ hcl _ => exact .inl hcl
    | task i t t1 hget _ hm =>
      rcases hm.closeTrace with ⟨hpc, _, hcl, _⟩ | ⟨hcl, _⟩
      · exact .inr ⟨i, t, hget, hpc, hcl⟩
      · exact .inl hcl
  · intro i t src alt hget hpc
    simp only [step, hget, fn, hpc]
  · intro i t hook alt hget hpc hhook
    simp only [step, hget, fn, hpc, hhook]
  · intro hres
    have hall := herr.all_nil hcall hres
    refine ⟨hall, ?_⟩
    intro d hd
    obtain ⟨i, t, hget, _, hpc⟩ := htri d hd
    have hfin := hall t (List.getElem?_mem hget)
    rcases hpc with ⟨hpc, _⟩ | ⟨_, hcount⟩ | ⟨hpc, _⟩
    · rw [hfin] at hpc
      cases hpc
    · exact hcount
    · rw [hfin] at hpc
      cases hpc

theorem copyGraph_token_closed_once_witness :
    (Example.final Example.stores Example.noHooks Example.manifest Example.emptyEnv
      Example.schedule).world.trace.count (.close Example.blob.digest) = 1 :=
  ((copyGraph_token_closed_once Example.stores Example.noHooks Example.manifest
    Example.emptyEnv Example.schedule _ (by decide)).2.2.2.2.2.2.2.2.2.2 (by decide)).2
    Example.blob (by decide)

end Oras
